import Mathlib

/-!
# Matching engine: shallow embedding and verification

The development follows the Go sources:

* `guidstore/guidstore.go` : the seen-GUID set (a red-black tree of bitmap blocks);
* `trade/tree.go`          : the price tree whose nodes head FIFO rings;
* `matcher/refmatcher_test.go`, `matcher/tmatch_test.go` : the reference matcher
  and the matcher tests.

Pointers are natural numbers, `0` is `nil`; heaps are total maps from
addresses to records.  Every operation that can dereference `nil`, index out
of range or run out of loop fuel returns an `Option`.
-/

set_option autoImplicit false
set_option linter.unusedVariables false

/-! ## Part I. The reference matcher (`matcher/refmatcher_test.go`) -/

namespace Matcher

/-- The order kinds of package `trade` used by `refmatcher.submit`. -/
inductive OrderKind where
  | BUY
  | SELL
  | CANCEL
  deriving DecidableEq, Repr

/-- The response kinds of package `trade` used by `refmatcher`. -/
inductive ResponseKind where
  | FULL
  | PARTIAL
  | CANCELLED
  | NOT_CANCELLED
  deriving DecidableEq, Repr

/-- Modelled from the spec: the record type `trade.Order` / `trade.OrderData`
(its declaration is not part of the sources); the fields are those of the
submission record of the spec.  `amount` is a `uint32`, `price` an `int64`. -/
structure Order where
  guid : Int
  kind : OrderKind
  stockId : Nat
  traderId : Nat
  tradeId : Nat
  price : Int
  amount : Nat
  deriving DecidableEq, Repr

instance : Inhabited Order := ⟨⟨0, OrderKind.CANCEL, 0, 0, 0, 0, 0⟩⟩

/-- Modelled from the spec: the response record written to the output ring
(type `cbuf.Response` is not part of the sources). -/
structure Response where
  kind : ResponseKind
  price : Int
  amount : Nat
  tradeId : Nat
  counterParty : Nat
  deriving DecidableEq, Repr

/-- Modelled from the spec: `Order.ReduceAmount` (not part of the sources),
"reduce the remaining amount by `a`", in `uint32` arithmetic. -/
def Order.ReduceAmount (o : Order) (a : Nat) : Order :=
  { o with amount := (o.amount + 4294967296 - a % 4294967296) % 4294967296 }

/-- Modelled from the spec: function `price` of `matcher.go` is not part of
the sources; this is the midpoint rule in the words of the spec,
`price(bPrice, sPrice) = sPrice + ⌊(bPrice − sPrice + 1) / 2⌋`, over the
integers (the spec gives the rule without overflow). -/
def price (bPrice sPrice : Int) : Int :=
  sPrice + (bPrice - sPrice + 1) / 2

/-- The check `midpoint(t, bPrice, sPrice, expected)` of `tmatch_test.go`, for a
candidate price function: `true` when no error is reported. -/
def midpoint (price : Int → Int → Int) (bPrice sPrice expected : Int) : Bool :=
  decide (price bPrice sPrice = expected)

/-- `TestMidPoint` of `tmatch_test.go`, for a candidate price function. -/
def TestMidPoint (price : Int → Int → Int) : Bool :=
  midpoint price 1 1 1 && midpoint price 2 1 1 && midpoint price 3 1 2 &&
  midpoint price 4 1 2 && midpoint price 5 1 3 && midpoint price 6 1 3 &&
  midpoint price 20 10 15 && midpoint price 21 10 15 && midpoint price 22 10 16 &&
  midpoint price 23 10 16 && midpoint price 24 10 17 && midpoint price 25 10 17 &&
  midpoint price 26 10 18 && midpoint price 27 10 18 && midpoint price 28 10 19 &&
  midpoint price 29 10 19 && midpoint price 30 10 20

/-- The reference priority queue `prioq`: one FIFO slice of order pointers per
price in `[lowPrice, highPrice]`. -/
structure prioq where
  prios : List (List Nat)
  lowPrice : Int
  highPrice : Int
  deriving DecidableEq, Repr

/-- The value of an `int64` expression whose exact value is `x`: Go wraps
around on overflow. -/
def int64 (x : Int) : Int :=
  (x + 9223372036854775808) % 18446744073709551616 - 9223372036854775808

/-- The values of type `int64`. -/
def inInt64 (x : Int) : Prop := -9223372036854775808 ≤ x ∧ x ≤ 9223372036854775807

instance (x : Int) : Decidable (inInt64 x) := by unfold inInt64; infer_instance

/-- The largest length that `make([][]*trade.Order, n)` accepts on a 64-bit
platform: `makeslice` panics when `n` slice headers of 24 bytes exceed
`maxAlloc` = 2^48 bytes. -/
def maxSliceLen : Int := 281474976710656 / 24

/-- `newPrioq`: the length `highPrice-lowPrice+1` is computed in `int64`, and
`make` panics on a negative length and on a length above `maxSliceLen`. -/
def newPrioq (lowPrice highPrice : Int) : Option prioq :=
  let n := int64 (highPrice - lowPrice + 1)
  if n < 0 ∨ maxSliceLen < n then none
  else some ⟨List.replicate n.toNat [], lowPrice, highPrice⟩

/-- The level `q.prios[i]` (empty outside the slice, where Go would panic; the
callers below stay inside). -/
def prioq.level (q : prioq) (i : Nat) : List Nat :=
  q.prios.getD i []

/-- All order pointers queued in `q`, lowest price level first. -/
def prioq.all (q : prioq) : List Nat :=
  q.prios.flatten

/-- `prioq.push`: append the order to the slice of its price; indexing outside
`prios` panics. -/
def prioq.push (q : prioq) (orders : Nat → Order) (o : Nat) : Option prioq :=
  let idx := (orders o).price - q.lowPrice
  if 0 ≤ idx ∧ idx.toNat < q.prios.length then
    some { q with prios := q.prios.set idx.toNat (q.level idx.toNat ++ [o]) }
  else none

/-- The loop of `peekMax` / `popMax`: the highest index below `i` whose slice
is non-empty. -/
def maxIdxFrom (prios : List (List Nat)) : Nat → Option Nat
  | 0 => none
  | i + 1 => if prios.getD i [] ≠ [] then some i else maxIdxFrom prios i

/-- The loop of `peekMin` / `popMin`: the lowest index `≥ i` (among the next
`k` indices) whose slice is non-empty. -/
def minIdxFrom (prios : List (List Nat)) : Nat → Nat → Option Nat
  | 0, _ => none
  | k + 1, i => if prios.getD i [] ≠ [] then some i else minIdxFrom prios k (i + 1)

/-- Index found by the loop of `peekMax` / `popMax`. -/
def prioq.maxIdx (q : prioq) : Option Nat := maxIdxFrom q.prios q.prios.length

/-- Index found by the loop of `peekMin` / `popMin`. -/
def prioq.minIdx (q : prioq) : Option Nat := minIdxFrom q.prios q.prios.length 0

/-- `prioq.peekMax`. -/
def prioq.peekMax (q : prioq) : Option Nat :=
  match q.maxIdx with
  | none => none
  | some i => (q.level i).head?

/-- `prioq.peekMin`. -/
def prioq.peekMin (q : prioq) : Option Nat :=
  match q.minIdx with
  | none => none
  | some i => (q.level i).head?

/-- `prioq.pop(price)`: drop the first order of slice `i`. -/
def prioq.pop (q : prioq) (i : Nat) : prioq :=
  { q with prios := q.prios.set i (q.level i).tail }

/-- `prioq.popMax` (the queue afterwards; the popped order is `peekMax`). -/
def prioq.popMax (q : prioq) : prioq :=
  match q.maxIdx with
  | none => q
  | some i => q.pop i

/-- `prioq.popMin` (the queue afterwards; the popped order is `peekMin`). -/
def prioq.popMin (q : prioq) : prioq :=
  match q.minIdx with
  | none => q
  | some i => q.pop i

/-- Inner loop of `prioq.remove`: the first order of the slice with the given
guid and the slice without it. -/
def removeLevel (orders : Nat → Order) (guid : Int) : List Nat → Option (Nat × List Nat)
  | [] => none
  | o :: rest =>
    if (orders o).guid = guid then some (o, rest)
    else match removeLevel orders guid rest with
      | none => none
      | some (r, rest') => some (r, o :: rest')

/-- Outer loop of `prioq.remove`. -/
def removeFrom (orders : Nat → Order) (guid : Int) :
    List (List Nat) → Option (Nat × List (List Nat))
  | [] => none
  | lvl :: rest =>
    match removeLevel orders guid lvl with
    | some (r, lvl') => some (r, lvl' :: rest)
    | none => match removeFrom orders guid rest with
      | none => none
      | some (r, rest') => some (r, lvl :: rest')

/-- `prioq.remove`: the removed order (or `nil`) and the queue afterwards. -/
def prioq.remove (q : prioq) (orders : Nat → Order) (guid : Int) : Option Nat × prioq :=
  match removeFrom orders guid q.prios with
  | none => (none, q)
  | some (r, prios') => (some r, { q with prios := prios' })

/-- The state of a `refmatcher`: the heap of allocated `trade.Order` objects
(`orders`, with allocation counter `next`), the two queues and the responses
written so far to the output ring `rb`. -/
structure refmatcher where
  orders : Nat → Order
  next : Nat
  buys : prioq
  sells : prioq
  rb : List Response

/-- `newRefmatcher`. -/
def newRefmatcher (lowPrice highPrice : Int) : Option refmatcher :=
  match newPrioq lowPrice highPrice, newPrioq lowPrice highPrice with
  | some b, some s => some ⟨fun _ => default, 0, b, s, []⟩
  | _, _ => none

/-- Modelled from the spec: `completeTrade` (in `matcher.go`, not part of the
sources) writes the buyer record and then the seller record of a fill. -/
def completeTrade (m : refmatcher) (brk srk : ResponseKind) (b s : Nat) (price : Int)
    (amount : Nat) : refmatcher :=
  { m with rb := m.rb ++
      [⟨brk, -price, amount, (m.orders b).tradeId, (m.orders s).traderId⟩,
       ⟨srk, price, amount, (m.orders s).tradeId, (m.orders b).traderId⟩] }

/-- Modelled from the spec: `completeCancel` (in `matcher.go`, not part of the
sources) writes one record of the given kind identifying the order. -/
def completeCancel (m : refmatcher) (rk : ResponseKind) (o : Nat) : refmatcher :=
  { m with rb := m.rb ++ [⟨rk, 0, 0, (m.orders o).tradeId, 0⟩] }

/-- `refmatcher.peekBuy`. -/
def refmatcher.peekBuy (m : refmatcher) : Option Nat := m.buys.peekMax

/-- `refmatcher.peekSell`. -/
def refmatcher.peekSell (m : refmatcher) : Option Nat := m.sells.peekMin

/-- `refmatcher.popBuy`. -/
def refmatcher.popBuy (m : refmatcher) : refmatcher := { m with buys := m.buys.popMax }

/-- `refmatcher.popSell`. -/
def refmatcher.popSell (m : refmatcher) : refmatcher := { m with sells := m.sells.popMin }

/-- `s.ReduceAmount(a)` through the pointer `s`. -/
def refmatcher.reduce (m : refmatcher) (s : Nat) (a : Nat) : refmatcher :=
  { m with orders := Function.update m.orders s ((m.orders s).ReduceAmount a) }

/-- First `if` of the loop body of `refmatcher.match`. -/
def matchEq (m : refmatcher) (b s : Nat) : refmatcher :=
  if (m.orders s).amount = (m.orders b).amount then
    let m := m.popSell
    let m := m.popBuy
    let amount := (m.orders s).amount
    let p := price (m.orders b).price (m.orders s).price
    completeTrade m ResponseKind.FULL ResponseKind.FULL b s p amount
  else m

/-- Second `if` of the loop body of `refmatcher.match`. -/
def matchBigSell (m : refmatcher) (b s : Nat) : refmatcher :=
  if (m.orders s).amount > (m.orders b).amount then
    let m := m.popBuy
    let amount := (m.orders b).amount
    let p := price (m.orders b).price (m.orders s).price
    let m := m.reduce s (m.orders b).amount
    completeTrade m ResponseKind.FULL ResponseKind.PARTIAL b s p amount
  else m

/-- Third `if` of the loop body of `refmatcher.match`. -/
def matchBigBuy (m : refmatcher) (b s : Nat) : refmatcher :=
  if (m.orders b).amount > (m.orders s).amount then
    let m := m.popSell
    let amount := (m.orders s).amount
    let p := price (m.orders b).price (m.orders s).price
    let m := m.reduce b (m.orders s).amount
    completeTrade m ResponseKind.PARTIAL ResponseKind.FULL b s p amount
  else m

/-- One iteration of the loop of `refmatcher.match`; `none` when the loop
returns.  The three `if`s follow each other without `else`, as in the source. -/
def matchStep (m : refmatcher) : Option refmatcher :=
  match m.peekSell, m.peekBuy with
  | some s, some b =>
    if (m.orders s).price > (m.orders b).price then none
    else some (matchBigBuy (matchBigSell (matchEq m b s) b s) b s)
  | _, _ => none

/-- The loop of `refmatcher.match` with explicit fuel; `none` when the fuel is
exhausted. -/
def matchLoop : Nat → refmatcher → Option refmatcher
  | 0, _ => none
  | fuel + 1, m =>
    match matchStep m with
    | none => some m
    | some m' => matchLoop fuel m'

/-- Number of orders resting in the book. -/
def refmatcher.size (m : refmatcher) : Nat := m.buys.all.length + m.sells.all.length

/-- `refmatcher.match`: every iteration pops an order, so `size + 1` rounds are
enough (see `matchLoop_terminates`). -/
def refmatcher.match_ (m : refmatcher) : Option refmatcher := matchLoop (m.size + 1) m

/-- `refmatcher.push`. -/
def refmatcher.push (m : refmatcher) (o : Nat) : Option refmatcher :=
  match (m.orders o).kind with
  | OrderKind.BUY => (m.buys.push m.orders o).map fun q => { m with buys := q }
  | OrderKind.SELL => (m.sells.push m.orders o).map fun q => { m with sells := q }
  | OrderKind.CANCEL => none

/-- `refmatcher.pop`: remove by guid from the buys, else from the sells. -/
def refmatcher.pop (m : refmatcher) (o : Nat) : Option Nat × refmatcher :=
  let guid := (m.orders o).guid
  match m.buys.remove m.orders guid with
  | (some ro, q) => (some ro, { m with buys := q })
  | (none, _) =>
    let r := m.sells.remove m.orders guid
    (r.1, { m with sells := r.2 })

/-- The allocation `o := &trade.Order{}; o.CopyFrom(od)`. -/
def refmatcher.alloc (m : refmatcher) (od : Order) : Nat × refmatcher :=
  (m.next, { m with orders := Function.update m.orders m.next od, next := m.next + 1 })

/-- `refmatcher.submit`. -/
def refmatcher.submit (m : refmatcher) (od : Order) : Option refmatcher :=
  let (o, m) := m.alloc od
  if (m.orders o).kind = OrderKind.CANCEL then
    match m.pop o with
    | (some co, m') => some (completeCancel m' ResponseKind.CANCELLED co)
    | (none, m') => some (completeCancel m' ResponseKind.NOT_CANCELLED o)
  else
    match m.push o with
    | none => none
    | some m' => m'.match_

/-- A sequence of submissions. -/
def submitAll : refmatcher → List Order → Option refmatcher
  | m, [] => some m
  | m, od :: rest =>
    match m.submit od with
    | none => none
    | some m' => submitAll m' rest

/-- A new reference matcher fed with a sequence of submissions. -/
def run (lowPrice highPrice : Int) (ods : List Order) : Option refmatcher :=
  match newRefmatcher lowPrice highPrice with
  | none => none
  | some m => submitAll m ods

/-- Every resting order sits in the slice of its price and was allocated. -/
def refmatcher.Consistent (m : refmatcher) (low : Int) (n : Nat) : Prop :=
  m.buys.prios.length = n ∧ m.sells.prios.length = n ∧
  m.buys.lowPrice = low ∧ m.sells.lowPrice = low ∧
  (∀ i p, p ∈ m.buys.level i → (m.orders p).price = low + i ∧ p < m.next) ∧
  (∀ i p, p ∈ m.sells.level i → (m.orders p).price = low + i ∧ p < m.next)

/-- No resting buy reaches the price of a resting sell. -/
def refmatcher.Uncrossed (m : refmatcher) : Prop :=
  ∀ b ∈ m.buys.all, ∀ s ∈ m.sells.all, (m.orders b).price < (m.orders s).price

/-- What one `if` of the loop body may do to the book. -/
structure StepRel (m m' : refmatcher) : Prop where
  buys : m'.buys = m.buys ∨ m'.buys = m.buys.popMax
  sells : m'.sells = m.sells ∨ m'.sells = m.sells.popMin
  price : ∀ p, (m'.orders p).price = (m.orders p).price
  guid : ∀ p, (m'.orders p).guid = (m.orders p).guid
  next : m'.next = m.next

/-- A Buy used in the concrete scenarios. -/
def mkBuy (guid price : Int) (amount traderId tradeId : Nat) : Order :=
  ⟨guid, OrderKind.BUY, 1, traderId, tradeId, price, amount⟩

/-- A Sell used in the concrete scenarios. -/
def mkSell (guid price : Int) (amount traderId tradeId : Nat) : Order :=
  ⟨guid, OrderKind.SELL, 1, traderId, tradeId, price, amount⟩

/-- A Cancel used in the concrete scenarios. -/
def mkCancel (guid : Int) : Order :=
  ⟨guid, OrderKind.CANCEL, 1, 0, 0, 0, 0⟩

/-- What a scenario shows of a final state: resting buys, resting sells, their
amounts, and the responses. -/
def observe (m : Option refmatcher) :
    Option (List (Nat × Nat) × List (Nat × Nat) × List Response) :=
  m.map fun m =>
    (m.buys.all.map (fun p => (p, (m.orders p).amount)),
     m.sells.all.map (fun p => (p, (m.orders p).amount)), m.rb)

/-- A book with one buy of 5 units at price 7 (order 0) and one sell of 2 units
at price 6 (order 1). -/
def exCrossed : refmatcher :=
  ⟨fun p => if p = 0 then mkBuy 1 7 5 1 1 else mkSell 2 6 2 2 2, 2,
    ⟨[[], [0]], 6, 7⟩, ⟨[[1], []], 6, 7⟩, []⟩

/-- A book with one buy (guid 42, order 0) of 3 units at price 5. -/
def exResting : refmatcher :=
  ⟨fun _ => mkBuy 42 5 3 1 1, 1, ⟨[[0], []], 5, 6⟩, ⟨[[], []], 5, 6⟩, []⟩

/-- The submissions of the scenarios: a buy and a sell that cross, and a
cancel. -/
def exOrders : List Order :=
  [mkBuy 1 7 5 1 1, mkSell 2 6 2 2 2, mkCancel 1]

/-- The operations of a `prioq`: `push(o)`, `popMin()`, `popMax()` and
`remove(guid)`. -/
inductive QOp where
  | push (o : Nat)
  | popMin
  | popMax
  | remove (guid : Int)
  deriving DecidableEq, Repr

/-- The earliest order of `tr` (a list of orders in the order of their pushes)
among those of the lowest price in `tr`. -/
def firstAtMin (orders : Nat → Order) (tr : List Nat) : Option Nat :=
  tr.find? (fun o => tr.all (fun o' => decide ((orders o).price ≤ (orders o').price)))

/-- The earliest order of `tr` (a list of orders in the order of their pushes)
among those of the highest price in `tr`. -/
def firstAtMax (orders : Nat → Order) (tr : List Nat) : Option Nat :=
  tr.find? (fun o => tr.all (fun o' => decide ((orders o').price ≤ (orders o).price)))

/-- One operation on the queue `q`.  The list `tr` holds the orders still
queued, in the order of their pushes: an order is queued from its push until a
pop or a remove returns it.  The result is the order returned by the operation
(`nil` for a push), the queue afterwards, and the orders still queued. -/
def qstep (orders : Nat → Order) (q : prioq) (tr : List Nat) :
    QOp → Option (Option Nat × prioq × List Nat)
  | QOp.push o =>
    match q.push orders o with
    | none => none
    | some q' => some (none, q', tr ++ [o])
  | QOp.popMin =>
    some (q.peekMin, q.popMin, match q.peekMin with
      | none => tr
      | some o => tr.erase o)
  | QOp.popMax =>
    some (q.peekMax, q.popMax, match q.peekMax with
      | none => tr
      | some o => tr.erase o)
  | QOp.remove guid =>
    some ((q.remove orders guid).1, (q.remove orders guid).2,
      match (q.remove orders guid).1 with
      | none => tr
      | some o => tr.erase o)

/-- A sequence of operations on a queue: the final queue and the orders still
queued, in the order of their pushes. -/
def qrun (orders : Nat → Order) : prioq → List Nat → List QOp → Option (prioq × List Nat)
  | q, tr, [] => some (q, tr)
  | q, tr, op :: ops =>
    match qstep orders q tr op with
    | none => none
    | some (_, q', tr') => qrun orders q' tr' ops

/-- The slices of `q` hold the orders of `tr`: slice `i` holds those of price
`lowPrice + i`, in the order of `tr`, and every order of `tr` has a slice. -/
def prioq.Holds (q : prioq) (orders : Nat → Order) (tr : List Nat) : Prop :=
  (∀ i : Nat, q.level i = tr.filter (fun o => decide ((orders o).price = q.lowPrice + i))) ∧
  (∀ o ∈ tr, q.lowPrice ≤ (orders o).price ∧
    (orders o).price < q.lowPrice + q.prios.length) ∧
  q.all.Perm tr

/-- The orders of the queue scenario: order `p` has guid `p` and price
`5 + p % 3`. -/
def exQOrders (p : Nat) : Order := mkBuy p (5 + (p % 3 : Nat)) 1 1 1

/-- A scenario of queue operations. -/
def exQOps : List QOp :=
  [QOp.push 1, QOp.push 0, QOp.push 4, QOp.push 2, QOp.popMin, QOp.remove 4, QOp.popMax]

end Matcher

/-! ## Part II. Pointer machinery shared by `guidstore.go` and `tree.go`

Both files declare a `node` with the fields `black`, `left`, `right`, `parent`
and `pp` and the same functions `isRed`, `giveParent`, `toLeftOf`, `toRightOf`,
`rotateLeft`, `rotateRight` and `flip`; the remaining fields of the two node
types are the `data` of the node here. -/

namespace RB

/-- The target of a `**node`: the address of the `root` field of a tree (or
store) `t`, or of the `left` / `right` field of the node `p`. -/
inductive Slot where
  | root (t : Nat)
  | left (p : Nat)
  | right (p : Nat)
  deriving DecidableEq, Repr

/-- The tree fields of a `node`, and its other fields as `data`. -/
structure node (α : Type) where
  black : Bool
  left : Nat
  right : Nat
  parent : Nat
  pp : Option Slot
  data : α

/-- The memory: the nodes by address (`0` is `nil`), the `root` field of every
tree, and the next free address. -/
structure Mem (α : Type) where
  nodes : Nat → node α
  roots : Nat → Nat
  next : Nat

variable {α : Type}

/-- Dereference `n`; `nil` panics. -/
def Mem.rd (m : Mem α) (n : Nat) : Option (node α) :=
  if n = 0 then none else some (m.nodes n)

/-- The memory with node `n` replaced by `f n`. -/
def Mem.upd (m : Mem α) (n : Nat) (f : node α → node α) : Mem α :=
  { m with nodes := Function.update m.nodes n (f (m.nodes n)) }

/-- Assign to fields of `n`; `nil` panics. -/
def Mem.wr (m : Mem α) (n : Nat) (f : node α → node α) : Option (Mem α) :=
  if n = 0 then none else some (m.upd n f)

/-- The pointer stored in a slot. -/
def Mem.slotVal (m : Mem α) : Slot → Nat
  | Slot.root t => m.roots t
  | Slot.left p => (m.nodes p).left
  | Slot.right p => (m.nodes p).right

/-- `*pp = v`. -/
def Mem.store (m : Mem α) (s : Slot) (v : Nat) : Option (Mem α) :=
  match s with
  | Slot.root t => some { m with roots := Function.update m.roots t v }
  | Slot.left p => m.wr p (fun x => { x with left := v })
  | Slot.right p => m.wr p (fun x => { x with right := v })

/-- A slot that can be assigned to: a root field, or a field of a non-nil
node. -/
def Slot.valid : Slot → Prop
  | Slot.root _ => True
  | Slot.left p => p ≠ 0
  | Slot.right p => p ≠ 0

/-- The memory after `*pp = v` when the slot is valid. -/
def Mem.put (m : Mem α) (s : Slot) (v : Nat) : Mem α :=
  match s with
  | Slot.root t => { m with roots := Function.update m.roots t v }
  | Slot.left p => m.upd p (fun x => { x with left := v })
  | Slot.right p => m.upd p (fun x => { x with right := v })

/-- `n.isRed()`: `nil` is not red. -/
def isRed (m : Mem α) (n : Nat) : Bool :=
  if n = 0 then false else !(m.nodes n).black

/-- `n.giveParent(nn)`. -/
def giveParent (m : Mem α) (n nn : Nat) : Option (Mem α) := do
  let x ← m.rd n
  let m ← m.wr nn (fun y => { y with parent := x.parent })
  let x ← m.rd n
  let m ← m.wr nn (fun y => { y with pp := x.pp })
  let y ← m.rd nn
  let s ← y.pp
  let m ← m.store s nn
  let m ← m.wr n (fun x => { x with parent := 0 })
  m.wr n (fun x => { x with pp := none })

/-- `n.toRightOf(to)`. -/
def toRightOf (m : Mem α) (n to_ : Nat) : Option (Mem α) := do
  let m ← m.wr to_ (fun x => { x with right := n })
  if n ≠ 0 then
    let m ← m.wr n (fun x => { x with parent := to_ })
    m.wr n (fun x => { x with pp := some (Slot.right to_) })
  else
    pure m

/-- `n.toLeftOf(to)`. -/
def toLeftOf (m : Mem α) (n to_ : Nat) : Option (Mem α) := do
  let m ← m.wr to_ (fun x => { x with left := n })
  if n ≠ 0 then
    let m ← m.wr n (fun x => { x with parent := to_ })
    m.wr n (fun x => { x with pp := some (Slot.left to_) })
  else
    pure m

/-- `n.rotateLeft()`: the memory afterwards and the returned node `r`. -/
def rotateLeft (m : Mem α) (n : Nat) : Option (Mem α × Nat) := do
  let x ← m.rd n
  let r := x.right
  let m ← giveParent m n r
  let y ← m.rd r
  let m ← toRightOf m y.left n
  let m ← toLeftOf m n r
  let x ← m.rd n
  let m ← m.wr r (fun y => { y with black := x.black })
  let m ← m.wr n (fun x => { x with black := false })
  pure (m, r)

/-- `n.rotateRight()`: the memory afterwards and the returned node `l`. -/
def rotateRight (m : Mem α) (n : Nat) : Option (Mem α × Nat) := do
  let x ← m.rd n
  let l := x.left
  let m ← giveParent m n l
  let y ← m.rd l
  let m ← toLeftOf m y.right n
  let m ← toRightOf m n l
  let x ← m.rd n
  let m ← m.wr l (fun y => { y with black := x.black })
  let m ← m.wr n (fun x => { x with black := false })
  pure (m, l)

/-- `n.flip()`. -/
def flip (m : Mem α) (n : Nat) : Option (Mem α) := do
  let m ← m.wr n (fun x => { x with black := !x.black })
  let x ← m.rd n
  let m ← m.wr x.left (fun y => { y with black := !y.black })
  let x ← m.rd n
  m.wr x.right (fun y => { y with black := !y.black })

/-- `n.left`, for a non-nil `n`. -/
def leftOf (m : Mem α) (n : Nat) : Option Nat := (m.rd n).map fun x => x.left

/-- `n.right`, for a non-nil `n`. -/
def rightOf (m : Mem α) (n : Nat) : Option Nat := (m.rd n).map fun x => x.right

/-- `n.parent`, for a non-nil `n`. -/
def parentOf (m : Mem α) (n : Nat) : Option Nat := (m.rd n).map fun x => x.parent

/-! ### The memory after an operation in which no dereference fails -/

/-- The memory after `n.giveParent(nn)`. -/
def giveParentT (m : Mem α) (n nn : Nat) : Mem α :=
  let m1 := (m.upd nn (fun y => { y with parent := (m.nodes n).parent })).upd nn
    (fun y => { y with pp := (m.nodes n).pp })
  let m2 := match (m.nodes n).pp with
    | none => m1
    | some s => m1.put s nn
  (m2.upd n (fun x => { x with parent := 0 })).upd n (fun x => { x with pp := none })

/-- The memory after `n.toLeftOf(to)`. -/
def toLeftOfT (m : Mem α) (n to_ : Nat) : Mem α :=
  if n = 0 then m.upd to_ (fun x => { x with left := n })
  else ((m.upd to_ (fun x => { x with left := n })).upd n
    (fun x => { x with parent := to_ })).upd n (fun x => { x with pp := some (Slot.left to_) })

/-- The memory after `n.toRightOf(to)`. -/
def toRightOfT (m : Mem α) (n to_ : Nat) : Mem α :=
  if n = 0 then m.upd to_ (fun x => { x with right := n })
  else ((m.upd to_ (fun x => { x with right := n })).upd n
    (fun x => { x with parent := to_ })).upd n (fun x => { x with pp := some (Slot.right to_) })

/-- The memory after `n.rotateLeft()`. -/
def rotateLeftT (m : Mem α) (n : Nat) : Mem α :=
  let r := (m.nodes n).right
  let m1 := giveParentT m n r
  let m2 := toRightOfT m1 (m1.nodes r).left n
  let m3 := toLeftOfT m2 n r
  (m3.upd r (fun y => { y with black := (m3.nodes n).black })).upd n
    (fun x => { x with black := false })

/-- The memory after `n.rotateRight()`. -/
def rotateRightT (m : Mem α) (n : Nat) : Mem α :=
  let l := (m.nodes n).left
  let m1 := giveParentT m n l
  let m2 := toLeftOfT m1 (m1.nodes l).right n
  let m3 := toRightOfT m2 n l
  (m3.upd l (fun y => { y with black := (m3.nodes n).black })).upd n
    (fun x => { x with black := false })

/-- The memory after `n.flip()`. -/
def flipT (m : Mem α) (n : Nat) : Mem α :=
  let m1 := m.upd n (fun x => { x with black := !x.black })
  let m2 := m1.upd (m1.nodes n).left (fun y => { y with black := !y.black })
  m2.upd (m2.nodes n).right (fun y => { y with black := !y.black })

/-! ### Abstract trees, used to state what the memory represents -/

/-- A binary tree of node addresses with their colours (`c` is `black`) and a
label per node. -/
inductive Shape (β : Type) where
  | nil : Shape β
  | node (l : Shape β) (x : Nat) (c : Bool) (b : β) (r : Shape β) : Shape β

variable {β : Type}

/-- Address of the root of a shape (`nil` for the empty shape). -/
def Shape.rootId : Shape β → Nat
  | Shape.nil => 0
  | Shape.node _ x _ _ _ => x

/-- The node addresses, in order. -/
def Shape.ids : Shape β → List Nat
  | Shape.nil => []
  | Shape.node l x _ _ r => l.ids ++ x :: r.ids

/-- The nodes with their labels, in order. -/
def Shape.toList : Shape β → List (Nat × β)
  | Shape.nil => []
  | Shape.node l x _ b r => l.toList ++ (x, b) :: r.toList

/-- Number of nodes on the longest path. -/
def Shape.height : Shape β → Nat
  | Shape.nil => 0
  | Shape.node l _ _ _ r => max l.height r.height + 1

/-- The memory represents the shape `t` in the slot `s` under the parent `p`:
the slot holds the root of `t`, and every node has the colour, parent link and
parent slot the shape prescribes. -/
def Rep (m : Mem α) : Slot → Nat → Shape β → Prop
  | s, _, Shape.nil => m.slotVal s = 0
  | s, p, Shape.node l x c _ r =>
    m.slotVal s = x ∧ x ≠ 0 ∧ (m.nodes x).black = c ∧ (m.nodes x).parent = p ∧
    (m.nodes x).pp = some s ∧ Rep m (Slot.left x) x l ∧ Rep m (Slot.right x) x r

/-- One step of a path from a subtree up to the root: the subtree is the left
child of `x` (with right sibling `r`) or the right child of `x` (with left
sibling `l`). -/
inductive Frame (β : Type) where
  | L (x : Nat) (c : Bool) (b : β) (r : Shape β) : Frame β
  | R (l : Shape β) (x : Nat) (c : Bool) (b : β) : Frame β

/-- The tree obtained by putting `t` into the hole of a path (innermost frame
first). -/
def plug : List (Frame β) → Shape β → Shape β
  | [], t => t
  | Frame.L x c b r :: rest, t => plug rest (Shape.node t x c b r)
  | Frame.R l x c b :: rest, t => plug rest (Shape.node l x c b t)

/-- The slot of the hole of a path that starts at the root of tree `t0`. -/
def holeSlot (t0 : Nat) : List (Frame β) → Slot
  | [] => Slot.root t0
  | Frame.L x _ _ _ :: _ => Slot.left x
  | Frame.R _ x _ _ :: _ => Slot.right x

/-- The parent of the hole of a path. -/
def holeParent : List (Frame β) → Nat
  | [] => 0
  | Frame.L x _ _ _ :: _ => x
  | Frame.R _ x _ _ :: _ => x

/-- The node addresses of a frame: its node and the nodes of the sibling. -/
def Frame.ids : Frame β → List Nat
  | Frame.L x _ _ r => x :: r.ids
  | Frame.R l x _ _ => x :: l.ids

/-- The node addresses of a path. -/
def ctxIds : List (Frame β) → List Nat
  | [] => []
  | f :: rest => f.ids ++ ctxIds rest

/-- The memory represents the path `ctx` starting at the root of tree `t0`:
everything of `plug ctx t` except the subtree `t` and the content of the hole. -/
def CtxRep (m : Mem α) (s0 : Nat) : List (Frame β) → Prop
  | [] => True
  | Frame.L x c _ r :: rest =>
    m.slotVal (holeSlot s0 rest) = x ∧ x ≠ 0 ∧ (m.nodes x).black = c ∧
    (m.nodes x).parent = holeParent rest ∧ (m.nodes x).pp = some (holeSlot s0 rest) ∧
    Rep m (Slot.right x) x r ∧ CtxRep m s0 rest
  | Frame.R l x c _ :: rest =>
    m.slotVal (holeSlot s0 rest) = x ∧ x ≠ 0 ∧ (m.nodes x).black = c ∧
    (m.nodes x).parent = holeParent rest ∧ (m.nodes x).pp = some (holeSlot s0 rest) ∧
    Rep m (Slot.left x) x l ∧ CtxRep m s0 rest

/-- What an operation leaves alone: outside the nodes `S` and the slot `hole`
the tree fields are the same before (`m`) and after (`m'`). -/
structure Frames (m m' : Mem α) (S : List Nat) (hole : Slot) : Prop where
  black : ∀ y, y ∉ S → (m'.nodes y).black = (m.nodes y).black
  parent : ∀ y, y ∉ S → (m'.nodes y).parent = (m.nodes y).parent
  pp : ∀ y, y ∉ S → (m'.nodes y).pp = (m.nodes y).pp
  left : ∀ y, y ∉ S → hole ≠ Slot.left y → (m'.nodes y).left = (m.nodes y).left
  right : ∀ y, y ∉ S → hole ≠ Slot.right y → (m'.nodes y).right = (m.nodes y).right
  roots : ∀ t, hole ≠ Slot.root t → m'.roots t = m.roots t

/-- Abstract `rotateLeft` at the root of a shape. -/
def Shape.rotateLeft : Shape β → Shape β
  | Shape.node a n cn bn (Shape.node b r _ br c) =>
    Shape.node (Shape.node a n false bn b) r cn br c
  | t => t

/-- Abstract `rotateRight` at the root of a shape. -/
def Shape.rotateRight : Shape β → Shape β
  | Shape.node (Shape.node a l _ bl b) n cn bn c =>
    Shape.node a l cn bl (Shape.node b n false bn c)
  | t => t

/-- Abstract `flip` at the root of a shape. -/
def Shape.flip : Shape β → Shape β
  | Shape.node (Shape.node a l cl bl b) n cn bn (Shape.node c r cr br d) =>
    Shape.node (Shape.node a l (!cl) bl b) n (!cn) bn (Shape.node c r (!cr) br d)
  | t => t

/-- Abstract `isRed` of the root of a shape. -/
def Shape.isRed : Shape β → Bool
  | Shape.nil => false
  | Shape.node _ _ c _ _ => !c

/-- Left subtree. -/
def Shape.left : Shape β → Shape β
  | Shape.nil => Shape.nil
  | Shape.node l _ _ _ _ => l

/-- Right subtree. -/
def Shape.right : Shape β → Shape β
  | Shape.nil => Shape.nil
  | Shape.node _ _ _ _ r => r

/-- A frame filled with a subtree. -/
def Frame.fill : Frame β → Shape β → Shape β
  | Frame.L x c b r, t => Shape.node t x c b r
  | Frame.R l x c b, t => Shape.node l x c b t

/-- The labelled nodes of a path that come before the hole, in order. -/
def ctxBefore : List (Frame β) → List (Nat × β)
  | [] => []
  | Frame.L _ _ _ _ :: rest => ctxBefore rest
  | Frame.R l x _ b :: rest => ctxBefore rest ++ l.toList ++ [(x, b)]

/-- The labelled nodes of a path that come after the hole, in order. -/
def ctxAfter : List (Frame β) → List (Nat × β)
  | [] => []
  | Frame.L x _ b r :: rest => (x, b) :: r.toList ++ ctxAfter rest
  | Frame.R _ _ _ _ :: rest => ctxAfter rest

/-- The loop `for n != nil { n = step(n); n = n.parent }` of `rebalance`
(guidstore.go) and `llrbToRoot` (tree.go), with explicit fuel. -/
def walkUp (step : Mem α → Nat → Option (Mem α × Nat)) : Nat → Mem α → Nat → Option (Mem α)
  | 0, _, _ => none
  | fuel + 1, m, n =>
    if n = 0 then some m
    else
      match step m n with
      | none => none
      | some (m, n) =>
        match parentOf m n with
        | none => none
        | some p => walkUp step fuel m p

/-- The abstract counterpart of `walkUp`: apply `step` to the subtree in the
hole, then to each enclosing subtree up to the root. -/
def walkUpA (step : Shape β → Shape β) : List (Frame β) → Shape β → Shape β
  | [], t => step t
  | f :: rest, t => walkUpA step rest (f.fill (step t))

/-- What the operations need of a represented subtree: its nodes are distinct
and its slot is assignable and is not a field of one of its nodes. -/
structure Pre (m : Mem α) (t : Shape β) (s : Slot) (p : Nat) : Prop where
  rep : Rep m s p t
  nodup : t.ids.Nodup
  valid : s.valid
  slot : ∀ y ∈ t.ids, s ≠ Slot.left y ∧ s ≠ Slot.right y

/-- The memory `m'` represents `t'` where `m` represented `t`: same slot, same
nodes in the same order, same `data`, and nothing outside the subtree and its
slot is touched. -/
structure Refines (m : Mem α) (t : Shape β) (m' : Mem α) (t' : Shape β) (s : Slot) (p : Nat) :
    Prop where
  rep : Rep m' s p t'
  frames : Frames m m' t.ids s
  toList : t'.toList = t.toList
  data : ∀ y, (m'.nodes y).data = (m.nodes y).data
  next : m'.next = m.next

/-- The memory operation `step` at the root of a represented subtree does what
`stepA` does to the shape. -/
def StepOK (step : Mem α → Nat → Option (Mem α × Nat)) (stepA : Shape β → Shape β) : Prop :=
  ∀ (m : Mem α) (s : Slot) (p : Nat) (t : Shape β), t ≠ Shape.nil → Pre m t s p →
    ∃ m', step m t.rootId = some (m', (stepA t).rootId) ∧ Refines m t m' (stepA t) s p

/-- Replace the left subtree. -/
def Shape.setLeft : Shape β → Shape β → Shape β
  | Shape.nil, _ => Shape.nil
  | Shape.node _ x c b r, l => Shape.node l x c b r

/-- Replace the right subtree. -/
def Shape.setRight : Shape β → Shape β → Shape β
  | Shape.nil, _ => Shape.nil
  | Shape.node l x c b _, r => Shape.node l x c b r

end RB

/-! ## Part III. The GUID store (`guidstore/guidstore.go`) -/

namespace Guidstore

open RB

/-- `blockSize = 1024 * 1024`. -/
def blockSize : Int := 1024 * 1024

/-- `blockMask = blockSize - 1`. -/
def blockMask : Int := blockSize - 1

/-- The value of an `int64` expression: two's complement wrap-around. -/
def wrap64 (x : Int) : Int :=
  (x + 9223372036854775808) % 18446744073709551616 - 9223372036854775808

/-- `val &^ blockMask` on a two's complement `int64`: the low 20 bits are
cleared, which rounds down to a multiple of `blockSize`. -/
def andNotMask (val : Int) : Int := val - val % blockSize

/-- The fields `min`, `max` and `block` of a `node` (the bitmap is indexed by
`0 ≤ idx < blockSize`). -/
structure Block where
  min : Int
  max : Int
  block : Int → Bool

/-- The memory of a store: its nodes, and the field `root` of `S` as root `0`. -/
abbrev Store := Mem Block

/-- `NewStore`: address `0` is `nil`, nothing is allocated. -/
def NewStore : Store :=
  ⟨fun _ => ⟨false, 0, 0, 0, none, ⟨0, 0, fun _ => false⟩⟩, fun _ => 0, 1⟩

/-- `newNode`: a fresh red node without links covering the block of `val`. -/
def newNode (m : Store) (val : Int) : Store × Nat :=
  let min := andNotMask val
  let max := wrap64 (min + blockMask)
  ({ m with
      nodes := Function.update m.nodes m.next
        ⟨false, 0, 0, 0, none, ⟨min, max, fun _ => false⟩⟩,
      next := m.next + 1 }, m.next)

/-- `n.block[idx] = true`. -/
def setBit (m : Store) (n : Nat) (idx : Int) : Store :=
  m.upd n (fun y =>
    { y with data := { y.data with block := Function.update y.data.block idx true } })

/-- `n.record(val)`: indexing outside the bitmap panics. -/
def record (m : Store) (n : Nat) (val : Int) : Option (Store × Bool) :=
  match m.rd n with
  | none => none
  | some x =>
    let idx := wrap64 (val - x.data.min)
    if idx < 0 ∨ blockSize ≤ idx then none
    else if x.data.block idx then some (m, false)
    else some (setBit m n idx, true)

/-- First statement of the loop body of `rebalance`:
`if n.left.isRed() && n.right.isRed() { n.flip() }`. -/
def rebalFlip (m : Store) (n : Nat) : Option Store := do
  let l ← leftOf m n
  let r ← rightOf m n
  if isRed m l && isRed m r then flip m n else pure m

/-- Second statement of the loop body of `rebalance` (`if n.left.isRed() {...}`):
the memory afterwards and the node `n` has become. -/
def rebalLeft (m : Store) (n : Nat) : Option (Store × Nat) := do
  let l ← leftOf m n
  if isRed m l then do
    let ll ← leftOf m l
    let (m, n) ← (if isRed m ll then rotateRight m n else pure (m, n))
    let l ← leftOf m n
    let lr ← rightOf m l
    if isRed m lr then do
      let (m, _) ← rotateLeft m l
      rotateRight m n
    else pure (m, n)
  else pure (m, n)

/-- Third statement of the loop body of `rebalance` (`if n.right.isRed() {...}`). -/
def rebalRight (m : Store) (n : Nat) : Option (Store × Nat) := do
  let r ← rightOf m n
  if isRed m r then do
    let rr ← rightOf m r
    let (m, n) ← (if isRed m rr then rotateLeft m n else pure (m, n))
    let r ← rightOf m n
    let rl ← leftOf m r
    if isRed m rl then do
      let (m, _) ← rotateRight m r
      rotateLeft m n
    else pure (m, n)
  else pure (m, n)

/-- The body of the loop of `rebalance`, up to `n = n.parent`. -/
def rebalanceStep (m : Store) (n : Nat) : Option (Store × Nat) := do
  let m ← rebalFlip m n
  let (m, n) ← rebalLeft m n
  rebalRight m n

/-- The shape after the first statement of the loop body of `rebalance`. -/
def rebalFlipA (t : Shape Unit) : Shape Unit :=
  if t.left.isRed && t.right.isRed then t.flip else t

/-- The shape after the second statement of the loop body of `rebalance`. -/
def rebalLeftA (t : Shape Unit) : Shape Unit :=
  if t.left.isRed then
    let u := if t.left.left.isRed then t.rotateRight else t
    if u.left.right.isRed then (u.setLeft u.left.rotateLeft).rotateRight else u
  else t

/-- The shape after the third statement of the loop body of `rebalance`. -/
def rebalRightA (t : Shape Unit) : Shape Unit :=
  if t.right.isRed then
    let u := if t.right.right.isRed then t.rotateLeft else t
    if u.right.left.isRed then (u.setRight u.right.rotateRight).rotateLeft else u
  else t

/-- The shape after the loop body of `rebalance`. -/
def rebalStepA (t : Shape Unit) : Shape Unit :=
  rebalRightA (rebalLeftA (rebalFlipA t))

/-- `rebalance(n)`: the walk cannot be longer than the number of allocated
nodes. -/
def rebalance (m : Store) (n : Nat) : Option Store :=
  walkUp rebalanceStep (m.next + 1) m n

/-- The branch `if n.left == nil { ... }` of `node.push`: a new block is
recorded, hung to the left of `n`, and the tree is rebalanced from `n`. -/
def attachLeft (m : Store) (n : Nat) (val : Int) : Option (Store × Bool) :=
  let (m, nn) := newNode m val
  match record m nn val with
  | none => none
  | some (m, _) =>
    match toLeftOf m nn n with
    | none => none
    | some m =>
      match rebalance m n with
      | none => none
      | some m => some (m, true)

/-- The branch `if n.right == nil { ... }` of `node.push`. -/
def attachRight (m : Store) (n : Nat) (val : Int) : Option (Store × Bool) :=
  let (m, nn) := newNode m val
  match record m nn val with
  | none => none
  | some (m, _) =>
    match toRightOf m nn n with
    | none => none
    | some m =>
      match rebalance m n with
      | none => none
      | some m => some (m, true)

/-- The loop of `node.push`, with explicit fuel. -/
def pushLoop : Nat → Store → Nat → Int → Option (Store × Bool)
  | 0, _, _, _ => none
  | fuel + 1, m, n, val =>
    match m.rd n with
    | none => none
    | some x =>
      if val ≥ x.data.min ∧ val ≤ x.data.max then record m n val
      else if val < x.data.min then
        if x.left = 0 then attachLeft m n val
        else pushLoop fuel m x.left val
      else if val > x.data.max then
        if x.right = 0 then attachRight m n val
        else pushLoop fuel m x.right val
      else pushLoop fuel m n val

/-- `node.push`: the descent cannot be longer than the number of allocated
nodes. -/
def nodePush (m : Store) (n : Nat) (val : Int) : Option (Store × Bool) :=
  pushLoop (m.next + 1) m n val

/-- `S.Push`. -/
def Push (m : Store) (val : Int) : Option (Store × Bool) :=
  if m.roots 0 = 0 then
    let (m, r) := newNode m val
    let m : Store := { m with roots := Function.update m.roots 0 r }
    match m.wr (m.roots 0) (fun x => { x with pp := some (Slot.root 0) }) with
    | none => none
    | some m => nodePush m (m.roots 0) val
  else nodePush m (m.roots 0) val

/-- A sequence of `Push` calls on a store: the store afterwards and the
results, in order. -/
def pushAll : Store → List Int → Option (Store × List Bool)
  | m, [] => some (m, [])
  | m, k :: ks =>
    match Push m k with
    | none => none
    | some (m, b) =>
      match pushAll m ks with
      | none => none
      | some (m, bs) => some (m, b :: bs)

/-- The keys of `int64`. -/
def isInt64 (k : Int) : Prop := -9223372036854775808 ≤ k ∧ k ≤ 9223372036854775807

instance (k : Int) : Decidable (isInt64 k) := by unfold isInt64; infer_instance

/-- `n.min`. -/
def minOf (m : Store) (x : Nat) : Int := (m.nodes x).data.min

/-- `n.max`. -/
def maxOf (m : Store) (x : Nat) : Int := (m.nodes x).data.max

/-- The key `v` lies in the range of block `x` and its bit is set. -/
def recorded (m : Store) (x : Nat) (v : Int) : Prop :=
  minOf m x ≤ v ∧ v ≤ maxOf m x ∧ (m.nodes x).data.block (v - minOf m x) = true

/-- The invariant of a store after the pushes `ks`: the memory represents a
tree `T` of distinct allocated blocks, ordered by `min`, each aligned on
`blockSize` and `blockSize` wide, whose set bits are exactly the keys pushed. -/
structure GInv (m : Store) (T : Shape Unit) (ks : List Int) : Prop where
  rep : Rep m (Slot.root 0) 0 T
  nodup : T.ids.Nodup
  alloc : ∀ x ∈ T.ids, x < m.next
  next_pos : 0 < m.next
  sorted : (T.ids.map (minOf m)).Pairwise (fun a b => a < b)
  aligned : ∀ x ∈ T.ids, minOf m x % blockSize = 0 ∧ maxOf m x = minOf m x + blockMask ∧
    isInt64 (minOf m x) ∧ isInt64 (maxOf m x)
  mem : ∀ v, isInt64 v → (v ∈ ks ↔ ∃ x ∈ T.ids, recorded m x v)

/-- The memory after the first statements of `Push` on an empty tree: the new
node is allocated, made the root, and given the root slot as `pp`. -/
def firstRoot (m : Store) (k : Int) : Store :=
  ({ nodes := Function.update m.nodes m.next
      ⟨false, 0, 0, 0, none, ⟨andNotMask k, wrap64 (andNotMask k + blockMask), fun _ => false⟩⟩,
     roots := Function.update m.roots 0 m.next,
     next := m.next + 1 } : Store).upd m.next (fun x => { x with pp := some (Slot.root 0) })

/-- The results the contract of `Push` prescribes for a sequence of keys pushed
after the keys `seen`: `true` exactly for a key not pushed before. -/
def firstTimes : List Int → List Int → List Bool
  | _, [] => []
  | seen, k :: ks => decide (k ∉ seen) :: firstTimes (k :: seen) ks

/-- What one `Push` of `k` does to the tree `T` and to the blocks: either no
block is created and the tree is the same, or the block `m.next` of `k` is
created and becomes the root of the empty tree, or is hung below a node without
left child, or without right child, from which `rebalance` runs. -/
def Grown (m : Store) (T : Shape Unit) (k : Int) (m' : Store) (T' : Shape Unit) : Prop :=
  (T' = T ∧ m'.next = m.next ∧ ∀ y, minOf m' y = minOf m y) ∨
  (m'.next = m.next + 1 ∧ minOf m' m.next = andNotMask k ∧
    (∀ y, y ≠ m.next → minOf m' y = minOf m y) ∧
    ((T = Shape.nil ∧ T' = Shape.node Shape.nil m.next false () Shape.nil) ∨
     (∃ ctx x c r, T = plug ctx (Shape.node Shape.nil x c () r) ∧
        T' = walkUpA rebalStepA ctx
          (Shape.node (Shape.node Shape.nil m.next false () Shape.nil) x c () r)) ∨
     (∃ ctx l x c, T = plug ctx (Shape.node l x c () Shape.nil) ∧
        T' = walkUpA rebalStepA ctx
          (Shape.node l x c () (Shape.node Shape.nil m.next false () Shape.nil)))))

end Guidstore

/-! ## Part IV. The price tree (`trade/tree.go`) -/

namespace RB

/-- Abstract `n.black = c` at the root of a shape. -/
def Shape.paint {β : Type} : Shape β → Bool → Shape β
  | Shape.nil, _ => Shape.nil
  | Shape.node l x _ b r, c => Shape.node l x c b r

/-- The root of the sibling of the hole of a path. -/
def holeSibling {β : Type} : List (Frame β) → Nat
  | [] => 0
  | Frame.L _ _ _ r :: _ => r.rootId
  | Frame.R l _ _ _ :: _ => l.rootId

/-- The sibling of the hole of a path. -/
def holeSib {β : Type} : List (Frame β) → Shape β
  | [] => Shape.nil
  | Frame.L _ _ _ r :: _ => r
  | Frame.R l _ _ _ :: _ => l

/-- The empty shape. -/
def Shape.isNil {β : Type} : Shape β → Bool
  | Shape.nil => true
  | Shape.node _ _ _ _ _ => false

/-- The hole of the frame is the right child. -/
def Frame.isR {β : Type} : Frame β → Bool
  | Frame.L _ _ _ _ => false
  | Frame.R _ _ _ _ => true

/-- The node of the frame is red. -/
def Frame.red {β : Type} : Frame β → Bool
  | Frame.L _ c _ _ => !c
  | Frame.R _ _ c _ => !c

/-- The checks of `testReds` at a depth other than 0, on a shape: no node has a
red right child (neither a right-leaning red nor a pair of red children), and no
red node has a red left child. -/
def Shape.nr {β : Type} : Shape β → Bool
  | Shape.nil => true
  | Shape.node l _ c _ r => !r.isRed && (c || !l.isRed) && l.nr && r.nr

/-- The checks of `testReds` at depth 0, on a shape: as `nr`, but the root may
be red with a red left child. -/
def Shape.wk {β : Type} : Shape β → Bool
  | Shape.nil => true
  | Shape.node l _ _ _ r => !r.isRed && l.nr && r.nr

/-- The checks of `testReds` at the node of a frame (the root of the tree when
`isRoot`) whose hole holds a red or a non-red child. -/
def Frame.okWith {β : Type} (f : Frame β) (isRoot childRed : Bool) : Bool :=
  match f with
  | Frame.L _ c _ r => !r.isRed && r.nr && (c || isRoot || !childRed)
  | Frame.R l _ c _ => !childRed && l.nr && (c || isRoot || !l.isRed)

/-- The checks of `testReds` on a path whose hole holds a red or a non-red
child: everything of `(plug ctx t).wk` that does not depend on the inside of
`t`. -/
def ctxOK {β : Type} : List (Frame β) → Bool → Bool
  | [], _ => true
  | f :: rest, childRed => f.okWith rest.isEmpty childRed && ctxOK rest f.red

/-- The number of black nodes on the leftmost path of a shape: the result of
`blackBalance` when it does not panic. -/
def Shape.bh {β : Type} : Shape β → Nat
  | Shape.nil => 0
  | Shape.node l _ c _ _ => l.bh + (if c then 1 else 0)

/-- The check of `blackBalance`, on a shape: at every node the two subtrees
have the same number of black nodes on their paths. -/
def Shape.bal {β : Type} : Shape β → Bool
  | Shape.nil => true
  | Shape.node l _ _ _ r => decide (l.bh = r.bh) && l.bal && r.bal

/-- The check of `blackBalance` on a path whose hole holds a subtree with `h`
black nodes on its paths. -/
def ctxBal {β : Type} : List (Frame β) → Nat → Bool
  | [], _ => true
  | Frame.L _ c _ r :: rest, h =>
    decide (r.bh = h) && r.bal && ctxBal rest (h + (if c then 1 else 0))
  | Frame.R l _ c _ :: rest, h =>
    decide (l.bh = h) && l.bal && ctxBal rest (h + (if c then 1 else 0))

end RB

namespace Trade

open RB

/-- The fields `val`, `next`, `prev`, `order` and `other` of a `node`. -/
structure Links where
  val : Int
  next : Nat
  prev : Nat
  order : Nat
  other : Nat

/-- The memory of the trees: tree `t` is the root field `t`. -/
abbrev Heap := Mem Links

/-- No node is allocated and every tree is empty. -/
def emptyHeap : Heap :=
  ⟨fun _ => ⟨false, 0, 0, 0, none, ⟨0, 0, 0, 0, 0⟩⟩, fun _ => 0, 1⟩

/-- `initNode(o, val, n, other)`. -/
def initNode (m : Heap) (o : Nat) (val : Int) (n other : Nat) : Option Heap :=
  m.wr n (fun _ => ⟨false, 0, 0, 0, none, ⟨val, n, n, o, other⟩⟩)

/-- `n.isHead()`. -/
def isHead (m : Heap) (n : Nat) : Option Bool := (m.rd n).map fun x => x.pp.isSome

/-- `n.isFree()`. -/
def isFree (m : Heap) (n : Nat) : Option Bool :=
  (m.rd n).map fun x =>
    if x.left ≠ 0 then false
    else if x.right ≠ 0 then false
    else if x.pp.isSome then false
    else if x.data.next ≠ n then false
    else if x.data.prev ≠ n then false
    else true

/-- `n.getSibling()`. -/
def getSibling (m : Heap) (n : Nat) : Option Nat := do
  let x ← m.rd n
  let p := x.parent
  if p = 0 then pure 0
  else
    let y ← m.rd p
    if y.left = n then pure y.right else pure y.left

/-- `n.addLast(in)`. -/
def addLast (m : Heap) (n in_ : Nat) : Option Heap := do
  let x ← m.rd n
  let last := x.data.next
  let m ← m.wr last (fun y => { y with data := { y.data with prev := in_ } })
  let m ← m.wr in_ (fun y => { y with data := { y.data with next := last } })
  let m ← m.wr in_ (fun y => { y with data := { y.data with prev := n } })
  m.wr n (fun y => { y with data := { y.data with next := in_ } })

/-- `n.giveChildren(nn)`. -/
def giveChildren (m : Heap) (n nn : Nat) : Option Heap := do
  let x ← m.rd n
  let m ← m.wr nn (fun y => { y with left := x.left })
  let x ← m.rd n
  let m ← m.wr nn (fun y => { y with right := x.right })
  let y ← m.rd nn
  let m ← (if y.left ≠ 0 then do
      let m ← m.wr y.left (fun z => { z with parent := nn })
      let y ← m.rd nn
      m.wr y.left (fun z => { z with pp := some (Slot.left nn) })
    else pure m)
  let y ← m.rd nn
  let m ← (if y.right ≠ 0 then do
      let m ← m.wr y.right (fun z => { z with parent := nn })
      let y ← m.rd nn
      m.wr y.right (fun z => { z with pp := some (Slot.right nn) })
    else pure m)
  let m ← m.wr n (fun x => { x with left := 0 })
  m.wr n (fun x => { x with right := 0 })

/-- `n.givePosition(nn)`. -/
def givePosition (m : Heap) (n nn : Nat) : Option Heap := do
  let m ← giveParent m n nn
  let m ← giveChildren m n nn
  let x ← m.rd n
  m.wr nn (fun y => { y with black := x.black })

/-- First statement of `llrb`. -/
def llrbLeft (m : Heap) (n : Nat) : Option (Heap × Nat) := do
  let r ← rightOf m n
  let l ← leftOf m n
  if isRed m r && !isRed m l then rotateLeft m n else pure (m, n)

/-- Second statement of `llrb`. -/
def llrbRight (m : Heap) (n : Nat) : Option (Heap × Nat) := do
  let l ← leftOf m n
  if isRed m l then do
    let ll ← leftOf m l
    if isRed m ll then rotateRight m n else pure (m, n)
  else pure (m, n)

/-- Third statement of `llrb`. -/
def llrbFlip (m : Heap) (n : Nat) : Option Heap := do
  let l ← leftOf m n
  let r ← rightOf m n
  if isRed m l && isRed m r then flip m n else pure m

/-- `llrb(n)`: the memory afterwards and the returned node. -/
def llrb (m : Heap) (n : Nat) : Option (Heap × Nat) := do
  let (m, n) ← llrbLeft m n
  let (m, n) ← llrbRight m n
  let m ← llrbFlip m n
  pure (m, n)

/-- The shape after the first statement of `llrb`. -/
def llrbLeftA {β : Type} (t : Shape β) : Shape β :=
  if t.right.isRed && !t.left.isRed then t.rotateLeft else t

/-- The shape after the second statement of `llrb`. -/
def llrbRightA {β : Type} (t : Shape β) : Shape β :=
  if t.left.isRed then (if t.left.left.isRed then t.rotateRight else t) else t

/-- The shape after the third statement of `llrb`. -/
def llrbFlipA {β : Type} (t : Shape β) : Shape β :=
  if t.left.isRed && t.right.isRed then t.flip else t

/-- The shape after `llrb`. -/
def llrbA {β : Type} (t : Shape β) : Shape β :=
  llrbFlipA (llrbRightA (llrbLeftA t))

/-- The child `s` of the node `p` in `repairToRoot(p, n, s)`: the left child
when `sl`, else the right child. -/
def sib {β : Type} (u : Shape β) (sl : Bool) : Shape β :=
  if sl then u.left else u.right

/-- Abstract `s.black = c` for the child `s` of the root. -/
def paintSib {β : Type} (u : Shape β) (sl : Bool) (c : Bool) : Shape β :=
  if sl then u.setLeft (u.left.paint c) else u.setRight (u.right.paint c)

/-- The shape after one round of the loop of `repairToRoot` on the subtree `u`
of `p` in the hole of a path: the whole tree (`Sum.inl`) after a `return`, the
subtree (`Sum.inr`) when the loop goes on. -/
def repairRoundA {β : Type} (ctx : List (Frame β)) (u : Shape β) (sl : Bool) :
    Shape β ⊕ Shape β :=
  if !(sib u sl).isRed && !(sib u sl).left.isRed && u.isRed then
    Sum.inl (walkUpA llrbA ctx (paintSib (u.paint true) sl false))
  else if !(sib u sl).isRed && !(sib u sl).left.isRed && !u.isRed then
    Sum.inr (paintSib u sl false)
  else if !(sib u sl).isRed && (sib u sl).left.isRed then
    if sl then Sum.inl (walkUpA llrbA ctx u.rotateRight)
    else Sum.inl (walkUpA llrbA ctx (u.setRight u.right.rotateRight).rotateLeft)
  else Sum.inr u

/-- The tree after the loop of `repairToRoot` from the subtree `u` of `p` in
the hole of a path. -/
def repairLoopA {β : Type} : List (Frame β) → Shape β → Bool → Shape β
  | [], u, sl =>
    if (sib u sl).isNil then walkUpA llrbA [] u
    else
      match repairRoundA [] u sl with
      | Sum.inl T => T
      | Sum.inr u1 => llrbA u1
  | f :: rest, u, sl =>
    if (sib u sl).isNil then walkUpA llrbA (f :: rest) u
    else
      match repairRoundA (f :: rest) u sl with
      | Sum.inl T => T
      | Sum.inr u1 => repairLoopA rest (f.fill (llrbA u1)) f.isR

/-- The tree after `repairToRoot(p, n, s)` with `p` the parent of the hole of
a path that holds `t1`. -/
def repairToRootA {β : Type} : List (Frame β) → Shape β → Shape β
  | [], t1 => t1
  | f :: rest, t1 => repairLoopA rest (f.fill t1) f.isR

/-- The tree after `repairDetach(p, n, s, nn)`: the node `n`, red or not, has
been taken out of the hole of a path, which now holds the subtree `t1` of
`nn`. -/
def repairDetachA {β : Type} (ctx : List (Frame β)) (t1 : Shape β) (nRed : Bool) : Shape β :=
  if nRed then plug ctx t1
  else if t1.isRed then plug ctx (t1.paint true)
  else if (holeSib ctx).isRed then
    match ctx with
    | Frame.L x c b (Shape.node rl y _ bz rr) :: rest =>
      repairToRootA (Frame.L x false b rl :: Frame.L y c bz rr :: rest) t1
    | Frame.R (Shape.node ll y _ bz lr) x c b :: rest =>
      repairToRootA (Frame.R lr x false b :: Frame.R ll y c bz :: rest) t1
    | _ => plug ctx t1
  else repairToRootA ctx t1

/-- What `llrbToRoot` needs of the subtree `t` it has just left in the hole of
a path: the checks of `testReds` hold on the path and inside `t`, except that
`t` may be red where the path wants a non-red child, and may be red with a red
left child where the path takes a red child. -/
def Good {β : Type} (ctx : List (Frame β)) (t : Shape β) : Bool :=
  t.wk && ctxOK ctx false && (t.nr || ctxOK ctx true)

/-- What the loop of `repairToRoot` needs of the subtree `u` of `p` in the hole
of a path, with the sibling `s` on the left when `sl`: the checks of `testReds`
hold on the path and inside both children of `p`, the child opposite `s` is not
red, `s` is red only as a left child, and `p` and `s` are both red only at the
root. -/
def RGood {β : Type} (ctx : List (Frame β)) (u : Shape β) (sl : Bool) : Bool :=
  ctxOK ctx false && (sib u (!sl)).nr && !(sib u (!sl)).isRed && (sib u sl).nr &&
    (!(sib u sl).isRed || sl) && (!(u.isRed && (sib u sl).isRed) || ctx.isEmpty)

/-- `llrbToRoot(n)`: the walk cannot be longer than the number of allocated
nodes. -/
def llrbToRoot (m : Heap) (n : Nat) : Option Heap :=
  walkUp llrb (m.next + 1) m n

/-- The loop of `node.push`, with explicit fuel. -/
def pushLoop : Nat → Heap → Nat → Nat → Option Heap
  | 0, _, _, _ => none
  | fuel + 1, m, n, in_ =>
    match m.rd in_, m.rd n with
    | some i, some x =>
      if i.data.val = x.data.val then addLast m n in_
      else if i.data.val < x.data.val then
        if x.left = 0 then
          match toLeftOf m in_ n with
          | none => none
          | some m => llrbToRoot m n
        else pushLoop fuel m x.left in_
      else if i.data.val > x.data.val then
        if x.right = 0 then
          match toRightOf m in_ n with
          | none => none
          | some m => llrbToRoot m n
        else pushLoop fuel m x.right in_
      else pushLoop fuel m n in_
    | _, _ => none

/-- `n.push(in)`: the descent cannot be longer than the number of allocated
nodes. -/
def nodePush (m : Heap) (n in_ : Nat) : Option Heap :=
  pushLoop (m.next + 1) m n in_

/-- `b.push(in)` on the tree `t`. -/
def push (m : Heap) (t in_ : Nat) : Option Heap :=
  if m.roots t = 0 then
    let m : Heap := { m with roots := Function.update m.roots t in_ }
    m.wr in_ (fun x => { x with pp := some (Slot.root t) })
  else nodePush m (m.roots t) in_

/-- The loop of `peekMin`, with explicit fuel. -/
def minLoop : Nat → Heap → Nat → Option Nat
  | 0, _, _ => none
  | fuel + 1, m, n =>
    match m.rd n with
    | none => none
    | some x => if x.left ≠ 0 then minLoop fuel m x.left else some n

/-- `b.peekMin()` on the tree `t`. -/
def peekMin (m : Heap) (t : Nat) : Option Nat :=
  if m.roots t = 0 then some 0 else minLoop (m.next + 1) m (m.roots t)

/-- The loop of `peekMax` and of `detachMax`, with explicit fuel. -/
def maxLoop : Nat → Heap → Nat → Option Nat
  | 0, _, _ => none
  | fuel + 1, m, n =>
    match m.rd n with
    | none => none
    | some x => if x.right ≠ 0 then maxLoop fuel m x.right else some n

/-- `b.peekMax()` on the tree `t`. -/
def peekMax (m : Heap) (t : Nat) : Option Nat :=
  if m.roots t = 0 then some 0 else maxLoop (m.next + 1) m (m.roots t)

/-- One round of the loop of `repairToRoot` up to the statements
`p = llrb(p); s = p.getSibling(); p = p.parent`: the memory, and `p` when the
loop goes on (`none` after a `return`). -/
def repairRound (m : Heap) (p s : Nat) : Option (Heap × Option Nat) := do
  let pRed := isRed m p
  let sRed := isRed m s
  let sl ← leftOf m s
  let slRed := isRed m sl
  if !sRed && !slRed && pRed then
    let m ← m.wr p (fun x => { x with black := true })
    let m ← m.wr s (fun x => { x with black := false })
    let m ← llrbToRoot m p
    pure (m, none)
  else if !sRed && !slRed && !pRed then
    let m ← m.wr s (fun x => { x with black := false })
    pure (m, some p)
  else if !sRed && slRed then
    let x ← m.rd p
    if x.left = s then
      let (m, p) ← rotateRight m p
      let m ← llrbToRoot m p
      pure (m, none)
    else
      let (m, _) ← rotateRight m s
      let (m, p) ← rotateLeft m p
      let m ← llrbToRoot m p
      pure (m, none)
  else pure (m, some p)

/-- `repairToRoot(p, n, s)`, with explicit fuel. -/
def repairLoop : Nat → Heap → Nat → Nat → Nat → Option Heap
  | 0, _, _, _, _ => none
  | fuel + 1, m, p, n, s =>
    if p = 0 then some m
    else if s = 0 then llrbToRoot m p
    else
      match repairRound m p s with
      | none => none
      | some (m, none) => some m
      | some (m, some p) =>
        match llrb m p with
        | none => none
        | some (m, p) =>
          match getSibling m p, parentOf m p with
          | some s, some p => repairLoop fuel m p n s
          | _, _ => none

/-- `repairToRoot(p, n, s)`: the walk cannot be longer than the number of
allocated nodes. -/
def repairToRoot (m : Heap) (p n s : Nat) : Option Heap :=
  repairLoop (m.next + 1) m p n s

/-- `repairDetach(p, n, s, nn)`. -/
def repairDetach (m : Heap) (p n s nn : Nat) : Option Heap := do
  if isRed m n then pure m
  else if isRed m nn then m.wr nn (fun y => { y with black := true })
  else if isRed m s then
    let y ← m.rd p
    if y.left = s then
      let (m, _) ← rotateRight m p
      let s ← leftOf m p
      repairToRoot m p n s
    else
      let (m, _) ← rotateLeft m p
      let s ← rightOf m p
      repairToRoot m p n s
  else repairToRoot m p n s

/-- `n.detach()`; the fuel bounds the nesting of `detach` in `detachMax`, which
is one. -/
def detach : Nat → Heap → Nat → Option Heap
  | 0, _, _ => none
  | fuel + 1, m, n => do
    let x ← m.rd n
    let p := x.parent
    let s ← getSibling m n
    if x.right = 0 ∧ x.left = 0 then
      let slot ← x.pp
      let m ← m.store slot 0
      let m ← m.wr n (fun y => { y with pp := none })
      let m ← m.wr n (fun y => { y with parent := 0 })
      repairDetach m p n s 0
    else if x.right = 0 then
      let nn := x.left
      let m ← giveParent m n nn
      let m ← m.wr n (fun y => { y with left := 0 })
      repairDetach m p n s nn
    else if x.left = 0 then
      let nn := x.right
      let m ← giveParent m n nn
      let m ← m.wr n (fun y => { y with right := 0 })
      repairDetach m p n s nn
    else
      let nn ← maxLoop (m.next + 1) m x.left
      let m ← detach fuel m nn
      givePosition m n nn

/-- `n.pop()`. -/
def pop (m : Heap) (n : Nat) : Option Heap := do
  let h ← isHead m n
  let x ← m.rd n
  let m ← (if !h then do
      let m ← m.wr x.data.prev (fun y => { y with data := { y.data with next := x.data.next } })
      let x ← m.rd n
      let m ← m.wr x.data.next (fun y => { y with data := { y.data with prev := x.data.prev } })
      let m ← m.wr n (fun y => { y with parent := 0 })
      let m ← m.wr n (fun y => { y with pp := none })
      let m ← m.wr n (fun y => { y with left := 0 })
      m.wr n (fun y => { y with right := 0 })
    else if x.data.next ≠ n then do
      let m ← m.wr x.data.prev (fun y => { y with data := { y.data with next := x.data.next } })
      let x ← m.rd n
      let m ← m.wr x.data.next (fun y => { y with data := { y.data with prev := x.data.prev } })
      let x ← m.rd n
      givePosition m n x.data.prev
    else detach 2 m n)
  let m ← m.wr n (fun y => { y with data := { y.data with next := n } })
  m.wr n (fun y => { y with data := { y.data with prev := n } })

/-- The memory after `n.prev.next = n.next; n.next.prev = n.prev` in `pop`. -/
def unlinkT (m : Heap) (n : Nat) : Heap :=
  let m1 := m.upd (m.nodes n).data.prev
    (fun y => { y with data := { y.data with next := (m.nodes n).data.next } })
  m1.upd (m1.nodes n).data.next
    (fun y => { y with data := { y.data with prev := (m1.nodes n).data.prev } })

/-- The memory after `n.parent = nil; n.pp = nil; n.left = nil; n.right = nil`
in `pop`. -/
def clearT (m : Heap) (n : Nat) : Heap :=
  (((m.upd n (fun y => { y with parent := 0 })).upd n (fun y => { y with pp := none })).upd n
    (fun y => { y with left := 0 })).upd n (fun y => { y with right := 0 })

/-- The memory after `n.next = n; n.prev = n` in `pop`. -/
def selfLinkT (m : Heap) (n : Nat) : Heap :=
  (m.upd n (fun y => { y with data := { y.data with next := n } })).upd n
    (fun y => { y with data := { y.data with prev := n } })

/-- `b.popMin()` on the tree `t`: the memory afterwards and the node returned. -/
def popMin (m : Heap) (t : Nat) : Option (Heap × Nat) :=
  if m.roots t ≠ 0 then do
    let n ← peekMin m t
    let m ← pop m n
    let x ← m.rd n
    let m ← pop m x.data.other
    pure (m, n)
  else pure (m, 0)

/-- `b.popMax()` on the tree `t`. -/
def popMax (m : Heap) (t : Nat) : Option (Heap × Nat) :=
  if m.roots t ≠ 0 then do
    let n ← peekMax m t
    let m ← pop m n
    let x ← m.rd n
    let m ← pop m x.data.other
    pure (m, n)
  else pure (m, 0)

/-- The memory `m'` represents the tree `T'` where `m` represented `T`, and
`T'` is `T` without the node `n`: the other nodes are the same, in the same
order, only tree fields of nodes of `T` have changed, and `n` is in no slot. -/
structure Removed {β : Type} (m : Heap) (T : Shape β) (n : Nat) (m' : Heap) (T' : Shape β) :
    Prop where
  rep : Rep m' (Slot.root 0) 0 T'
  toList : T'.toList = T.toList.filter (fun q => decide (q.1 ≠ n))
  frames : Frames m m' T.ids (Slot.root 0)
  data : ∀ y, (m'.nodes y).data = (m.nodes y).data
  next : m'.next = m.next
  pp : (m'.nodes n).pp = none
  clean : (m'.nodes n).left = 0 ∧ (m'.nodes n).right = 0 ∧ (m'.nodes n).parent = 0

/-- `n.val`. -/
def valOf (m : Heap) (x : Nat) : Int := (m.nodes x).data.val

/-- `n.prev`. -/
def prevOf (m : Heap) (x : Nat) : Nat := (m.nodes x).data.prev

/-- `n.next`. -/
def nextOf (m : Heap) (x : Nat) : Nat := (m.nodes x).data.next

/-- `n.other`. -/
def otherOf (m : Heap) (x : Nat) : Nat := (m.nodes x).data.other

/-- `n.order`. -/
def orderOf (m : Heap) (x : Nat) : Nat := (m.nodes x).data.order

/-- The nodes `a`, `xs`, `b` are linked in this order by `prev`, and in the
reverse order by `next`. -/
def Chain (m : Heap) : Nat → List Nat → Nat → Prop
  | a, [], b => prevOf m a = b ∧ nextOf m b = a
  | a, x :: xs, b => prevOf m a = x ∧ nextOf m x = a ∧ Chain m x xs b

/-- The nodes of a list of price levels, each a tree node followed by the
other nodes of its ring. -/
def members : List (Nat × List Nat) → List Nat
  | [] => []
  | q :: rest => q.1 :: q.2 ++ members rest

/-- The node `y` has no tree links: `left`, `right`, `parent` and `pp` are
`nil`. -/
def Clean (m : Heap) (y : Nat) : Prop :=
  (m.nodes y).pp = none ∧ (m.nodes y).left = 0 ∧ (m.nodes y).right = 0 ∧
    (m.nodes y).parent = 0

/-- The memories `m` and `m'` have the same tree fields and the same `val`s. -/
def SameTree (m m' : Heap) : Prop :=
  m'.roots = m.roots ∧ m'.next = m.next ∧
    ∀ y, (m'.nodes y).black = (m.nodes y).black ∧ (m'.nodes y).left = (m.nodes y).left ∧
      (m'.nodes y).right = (m.nodes y).right ∧ (m'.nodes y).parent = (m.nodes y).parent ∧
      (m'.nodes y).pp = (m.nodes y).pp ∧ valOf m' y = valOf m y

/-- The invariant of the price levels `L` of a tree, each the tree node of a
price with the rest of its ring: tree nodes and ring members are distinct
allocated nodes; the levels are ordered by `val`; the ring of a tree node `h`
with the rest `tl` is `h`, `tl` in the order of `prev`; the other ring members
have the `val` of their tree node and no tree links; every other allocated node
is free. -/
structure LInv (m : Heap) (L : List (Nat × List Nat)) : Prop where
  nodup : (members L).Nodup
  alloc : ∀ x ∈ members L, x ≠ 0 ∧ x < m.next
  next_pos : 0 < m.next
  sorted : (L.map (fun q => valOf m q.1)).Pairwise (fun a b => a < b)
  ring : ∀ q ∈ L, Chain m q.1 q.2 q.1
  tail : ∀ q ∈ L, ∀ y ∈ q.2, valOf m y = valOf m q.1 ∧ Clean m y
  free : ∀ y, y ≠ 0 → y < m.next → y ∉ members L →
    Clean m y ∧ prevOf m y = y ∧ nextOf m y = y

/-- The invariant of the tree `0`: the memory represents a tree `T` whose
nodes are labelled with the rest of their rings, and the levels of `T`, in
order, satisfy `LInv`. -/
structure TInv (m : Heap) (T : Shape (List Nat)) : Prop where
  rep : Rep m (Slot.root 0) 0 T
  levels : LInv m T.toList

/-- The levels `L'` are the levels `L` with the node `n` pushed: appended to
the ring of the level with its `val`, or a new level of its own at its place
in the order when no level has its `val`. -/
def Pushed (m : Heap) (n : Nat) (L L' : List (Nat × List Nat)) : Prop :=
  (∃ A B x tl, L = A ++ (x, tl) :: B ∧ valOf m x = valOf m n ∧ L' = A ++ (x, tl ++ [n]) :: B) ∨
  (∃ A B, L = A ++ B ∧ (∀ q ∈ A, valOf m q.1 < valOf m n) ∧
    (∀ q ∈ B, valOf m n < valOf m q.1) ∧ L' = A ++ (n, []) :: B)

/-- The levels `L'` are the levels `L` with the node `n` popped: taken out of
the ring of its level when it is not the tree node, replaced as tree node by
the next node of its ring, or taken out with its level when it is alone. -/
def Popped (n : Nat) (L L' : List (Nat × List Nat)) : Prop :=
  (∃ A B h xs ys, L = A ++ (h, xs ++ n :: ys) :: B ∧ L' = A ++ (h, xs ++ ys) :: B) ∨
  (∃ A B a rest, L = A ++ (n, a :: rest) :: B ∧ L' = A ++ (a, rest) :: B) ∨
  (∃ A B, L = A ++ (n, []) :: B ∧ L' = A ++ B)

/-- The operations on one tree: `push` of the node of a new order with the
price `val`, and `n.pop()`. -/
inductive Op where
  | push (val : Int)
  | pop (n : Nat)
  deriving DecidableEq, Repr

/-- A new order with its two nodes, each the `other` of the other, is
initialised by `initNode`, and its first node is pushed into the tree `0`; the
second node stays free. -/
def pushNew (m : Heap) (val : Int) : Option Heap := do
  let n := m.next
  let o := m.next + 1
  let m : Heap := { m with next := m.next + 2 }
  let m ← initNode m 0 val n o
  let m ← initNode m 0 val o n
  push m 0 n

/-- As `pushNew`, for an order `o`: the two nodes of the order are initialised
by `initNode(o, val, n, other)` and the first is pushed into the tree `0`. -/
def pushOrder (m : Heap) (o : Nat) (val : Int) : Option Heap := do
  let n := m.next
  let t := m.next + 1
  let m : Heap := { m with next := m.next + 2 }
  let m ← initNode m o val n t
  let m ← initNode m o val t n
  push m 0 n

/-- `n.getOrder()`: `nil` for the `nil` node, else the order of the node.
Orders are named by their indices, as in the reference queue, and `none` is the
`nil` order. -/
def getOrder (m : Heap) (n : Nat) : Option Nat :=
  if n ≠ 0 then some (m.nodes n).data.order else none

/-- One operation. -/
def step (m : Heap) : Op → Option Heap
  | Op.push val => pushNew m val
  | Op.pop n => pop m n

/-- A sequence of operations. -/
def run : Heap → List Op → Option Heap
  | m, [] => some m
  | m, op :: ops =>
    match step m op with
    | none => none
    | some m => run m ops

/-- The levels `L` hold the resting nodes `tr` (each with the price of its push,
in the order of the pushes): the nodes of `tr` are distinct allocated nodes
with their pushed price as `val`, the ring of every level, tree node first, is
the sequence of the resting nodes of its price in the order of their pushes,
and every resting node has a level of its price. -/
def Agree (m : Heap) (L : List (Nat × List Nat)) (tr : List (Nat × Int)) : Prop :=
  (tr.map Prod.fst).Nodup ∧ (∀ x ∈ tr, valOf m x.1 = x.2 ∧ x.1 < m.next) ∧
  (∀ q ∈ L, (tr.filter (fun x => decide (x.2 = valOf m q.1))).map Prod.fst = q.1 :: q.2) ∧
  (∀ x ∈ tr, ∃ q ∈ L, valOf m q.1 = x.2)

/-- Every resting node has its twin as `other`: the node allocated right after
it, which rests in no level. -/
def Twin (m : Heap) (tr : List (Nat × Int)) : Prop :=
  ∀ x ∈ tr, otherOf m x.1 = x.1 + 1 ∧ x.1 + 1 < m.next ∧ x.1 + 1 ∉ tr.map Prod.fst

/-- The memory holds a tree with the resting nodes `tr`: it represents a tree
that satisfies the invariant, whose levels hold the nodes of `tr` in the order
of their pushes, with their twins outside. -/
def Reach (m : Heap) (tr : List (Nat × Int)) : Prop :=
  ∃ T : Shape (List Nat), TInv m T ∧ Agree m T.toList tr ∧ Twin m tr

/-- The nodes popped are allocated nodes. -/
def okOps : Nat → List Op → Bool
  | _, [] => true
  | next, Op.push _ :: ops => okOps (next + 2) ops
  | next, Op.pop n :: ops => decide (0 < n) && decide (n < next) && okOps next ops

/-- The operations of the concrete scenarios: three orders at the prices 5, 3
and 5 are pushed (their nodes are 1, 3 and 5), then the node of the first is
popped. -/
def exOps : List Op := [Op.push 5, Op.push 3, Op.push 5, Op.pop 1]

end Trade

/-! ## Part V. The validators `validateRBT` of `guidstore.go` and `tree.go` -/

namespace RB

/-- The outcome of a function that may panic: out of fuel, a panic, or a
result. -/
inductive Outcome (γ : Type) where
  | fuel : Outcome γ
  | panic : Outcome γ
  | ok (v : γ) : Outcome γ
  deriving DecidableEq, Repr

variable {α : Type}

/-- `blackBalance(n, depth)` of both files (the depth is only used in the
message of the panic). -/
def blackBalance : Nat → Mem α → Nat → Outcome Nat
  | 0, _, _ => Outcome.fuel
  | f + 1, m, n =>
    if n = 0 then Outcome.ok 0
    else
      match blackBalance f m (m.nodes n).left with
      | Outcome.ok lb =>
        match blackBalance f m (m.nodes n).right with
        | Outcome.ok rb =>
          if lb ≠ rb then Outcome.panic
          else Outcome.ok (if isRed m n then lb else lb + 1)
        | o => o
      | o => o

/-- Number of nodes on the longest path from `n` down to `nil`. -/
def depthOf : Nat → Mem α → Nat → Nat
  | 0, _, _ => 0
  | f + 1, m, n =>
    if n = 0 then 0 else max (depthOf f m (m.nodes n).left) (depthOf f m (m.nodes n).right) + 1

/-- Number of nodes below and including `n`. -/
def sizeOf : Nat → Mem α → Nat → Nat
  | 0, _, _ => 0
  | f + 1, m, n =>
    if n = 0 then 0 else sizeOf f m (m.nodes n).left + sizeOf f m (m.nodes n).right + 1

end RB

namespace Trade

open RB

/-- `testReds(n, depth)` of `tree.go`. -/
def testReds : Nat → Heap → Nat → Nat → Outcome Unit
  | 0, _, _, _ => Outcome.fuel
  | f + 1, m, n, depth =>
    if n = 0 then Outcome.ok ()
    else
      let x := m.nodes n
      if isRed m n && (isRed m x.left || isRed m x.right) && depth != 0 then Outcome.panic
      else if !isRed m x.left && isRed m x.right then Outcome.panic
      else if isRed m x.left && isRed m x.right then Outcome.panic
      else
        match testReds f m x.left (depth + 1) with
        | Outcome.ok _ => testReds f m x.right (depth + 1)
        | o => o

/-- The black balance of the tree `0` after a sequence of operations on the
empty heap. -/
def balanceAfter (ops : List Op) : Option (Outcome Nat) :=
  (run emptyHeap ops).map fun m => blackBalance (m.next + 1) m (m.roots 0)

/-- The root of the tree `0` after a sequence of operations on the empty heap,
its colour, and the colour of its left child. -/
def rootAfter (ops : List Op) : Option (Nat × Bool × Bool) :=
  (run emptyHeap ops).map fun m =>
    (m.roots 0, (m.nodes (m.roots 0)).black, isRed m (m.nodes (m.roots 0)).left)

/-- The number of nodes on the longest path of the tree `0` and the number of
its nodes after a sequence of operations on the empty heap. -/
def statsAfter (ops : List Op) : Option (Nat × Nat) :=
  (run emptyHeap ops).map fun m =>
    (depthOf (m.next + 1) m (m.roots 0), sizeOf (m.next + 1) m (m.roots 0))

end Trade

namespace Guidstore

open RB

/-- `testReds(n, depth)` of `guidstore.go`. -/
def testReds : Nat → Store → Nat → Nat → Outcome Unit
  | 0, _, _, _ => Outcome.fuel
  | f + 1, m, n, depth =>
    if n = 0 then Outcome.ok ()
    else
      let x := m.nodes n
      if isRed m n && (isRed m x.left || isRed m x.right) && depth != 0 then Outcome.panic
      else
        match testReds f m x.left (depth + 1) with
        | Outcome.ok _ => testReds f m x.right (depth + 1)
        | o => o

/-- The root of the store after a sequence of `Push` calls on a new store, and
its field `black`. -/
def rootAfter (ks : List Int) : Option (Nat × Bool) :=
  (pushAll NewStore ks).map fun r => (r.1.roots 0, (r.1.nodes (r.1.roots 0)).black)

/-- The checks of `testReds` at a depth other than 0, on a shape: no red node
has a red child. -/
def okBelow : Shape Unit → Bool
  | Shape.nil => true
  | Shape.node l _ c _ r => (c || (!l.isRed && !r.isRed)) && okBelow l && okBelow r

/-- The checks of `testReds` at depth 0, on a shape: as `okBelow`, but the root
may be red with red children. -/
def okRoot : Shape Unit → Bool
  | Shape.nil => true
  | Shape.node l _ _ _ r => okBelow l && okBelow r

end Guidstore

/-! ## Part VI. The price tree and the reference queue in lockstep -/

namespace Trade
open RB

/-- The operations applied to the tree and to the queue. -/
inductive BookOp where
  | push (o : Nat)
  | popMin
  | popMax
  deriving DecidableEq, Repr

/-- One operation applied to the tree `0` of `m` and to the queue `q`: the
order `o` is pushed into the queue and, as a node with `val = o.Price()`, into
the tree; or both pop.  The result is the two states afterwards and, for a pop,
the order of the node the tree returned (read by `getOrder`) with the order the
queue returned. -/
def lockstep (orders : Nat → Matcher.Order) (m : Heap) (q : Matcher.prioq) :
    BookOp → Option (Heap × Matcher.prioq × Option (Option Nat × Option Nat))
  | BookOp.push o =>
    match pushOrder m o (orders o).price, q.push orders o with
    | some m', some q' => some (m', q', none)
    | _, _ => none
  | BookOp.popMin =>
    match popMin m 0 with
    | some (m', n) => some (m', q.popMin, some (getOrder m' n, q.peekMin))
    | none => none
  | BookOp.popMax =>
    match popMax m 0 with
    | some (m', n) => some (m', q.popMax, some (getOrder m' n, q.peekMax))
    | none => none

/-- A sequence of operations applied in lockstep: the two states afterwards and
the pairs of orders returned by the pops, in order. -/
def lockrun (orders : Nat → Matcher.Order) :
    Heap → Matcher.prioq → List BookOp →
      Option (Heap × Matcher.prioq × List (Option Nat × Option Nat))
  | m, q, [] => some (m, q, [])
  | m, q, op :: ops =>
    match lockstep orders m q op with
    | none => none
    | some (m', q', r) =>
      match lockrun orders m' q' ops with
      | none => none
      | some (m'', q'', rs) => some (m'', q'', r.toList ++ rs)

/-- The tree of `m` holds the nodes `tr` and the queue `q` holds their orders,
in the same order; every node has the price of its order as `val`. -/
def Sim (orders : Nat → Matcher.Order) (m : Heap) (q : Matcher.prioq)
    (tr : List (Nat × Int)) : Prop :=
  Reach m tr ∧ q.Holds orders (tr.map (fun x => orderOf m x.1)) ∧
    ∀ x ∈ tr, (orders (orderOf m x.1)).price = x.2

/-- The orders of the lockstep scenario: order `p` has the price `5 + p % 3`. -/
def exBookOps : List BookOp :=
  [BookOp.push 1, BookOp.push 0, BookOp.push 4, BookOp.push 2, BookOp.popMin, BookOp.popMax,
   BookOp.popMax]

end Trade

/-! ## Theorems on the shared pointer machinery -/

namespace RB

variable {α β : Type}

@[simp] theorem rd_eq (m : Mem α) (n : Nat) (h : n ≠ 0) : m.rd n = some (m.nodes n) := by
  simp [Mem.rd, h]

@[simp] theorem wr_eq (m : Mem α) (n : Nat) (f : node α → node α) (h : n ≠ 0) :
    m.wr n f = some (m.upd n f) := by
  simp [Mem.wr, h]

theorem rd_zero (m : Mem α) : m.rd 0 = none := by simp [Mem.rd]

theorem wr_zero (m : Mem α) (f : node α → node α) : m.wr 0 f = none := by simp [Mem.wr]

@[simp] theorem upd_nodes (m : Mem α) (n k : Nat) (f : node α → node α) :
    (m.upd n f).nodes k = if k = n then f (m.nodes n) else m.nodes k := by
  unfold Mem.upd
  by_cases h : k = n
  · subst h; simp
  · simp [h, Function.update_noteq h]

@[simp] theorem upd_roots (m : Mem α) (n : Nat) (f : node α → node α) :
    (m.upd n f).roots = m.roots := rfl

@[simp] theorem upd_next (m : Mem α) (n : Nat) (f : node α → node α) :
    (m.upd n f).next = m.next := rfl

/-- The total form of `Mem.store`. -/
theorem store_root (m : Mem α) (t v : Nat) :
    m.store (Slot.root t) v = some { m with roots := Function.update m.roots t v } := rfl

theorem store_left (m : Mem α) (p v : Nat) (h : p ≠ 0) :
    m.store (Slot.left p) v = some (m.upd p (fun x => { x with left := v })) := by
  simp [Mem.store, h]

theorem store_right (m : Mem α) (p v : Nat) (h : p ≠ 0) :
    m.store (Slot.right p) v = some (m.upd p (fun x => { x with right := v })) := by
  simp [Mem.store, h]

end RB

namespace RB

variable {α β : Type}

theorem Rep_slotVal (m : Mem α) (s : Slot) (p : Nat) (t : Shape β) (h : Rep m s p t) :
    m.slotVal s = t.rootId := by
  cases t with
  | nil => exact h
  | node l x c b r => exact h.1

theorem Rep_ids_ne_zero (m : Mem α) :
    ∀ (t : Shape β) (s : Slot) (p : Nat), Rep m s p t → ∀ y ∈ t.ids, y ≠ 0 := by
  intro t
  induction t with
  | nil => intro s p _ y hy; cases hy
  | node l x c b r ihl ihr =>
    intro s p h y hy
    obtain ⟨_, hx, _, _, _, hl, hr⟩ := h
    simp only [Shape.ids, List.mem_append, List.mem_cons] at hy
    rcases hy with hy | hy | hy
    · exact ihl _ _ hl y hy
    · rw [hy]; exact hx
    · exact ihr _ _ hr y hy

theorem rootId_mem (t : Shape β) (h : t.rootId ≠ 0) : t.rootId ∈ t.ids := by
  cases t with
  | nil => exact absurd rfl h
  | node l x c b r => simp [Shape.ids, Shape.rootId]

theorem rootId_eq_zero_of_rep (m : Mem α) (s : Slot) (p : Nat) (t : Shape β)
    (h : Rep m s p t) (h0 : t.rootId = 0) : t = Shape.nil := by
  cases t with
  | nil => rfl
  | node l x c b r => exact absurd h0 h.2.1

/-- `Rep` only reads the slot and the tree fields of the nodes of the shape. -/
theorem Rep_congr (m m' : Mem α) :
    ∀ (t : Shape β) (s : Slot) (p : Nat),
      (∀ y ∈ t.ids, (m'.nodes y).black = (m.nodes y).black ∧
        (m'.nodes y).left = (m.nodes y).left ∧ (m'.nodes y).right = (m.nodes y).right ∧
        (m'.nodes y).parent = (m.nodes y).parent ∧ (m'.nodes y).pp = (m.nodes y).pp) →
      m'.slotVal s = m.slotVal s → Rep m s p t → Rep m' s p t := by
  intro t
  induction t with
  | nil => intro s p _ hs h; unfold Rep at h ⊢; rw [hs]; exact h
  | node l x c b r ihl ihr =>
    intro s p hy hs h
    obtain ⟨h1, h2, h3, h4, h5, h6, h7⟩ := h
    have hx := hy x (by simp [Shape.ids])
    refine ⟨by rw [hs]; exact h1, h2, by rw [hx.1]; exact h3, by rw [hx.2.2.2.1]; exact h4,
      by rw [hx.2.2.2.2]; exact h5, ?_, ?_⟩
    · exact ihl _ _ (fun y hy' => hy y (by simp [Shape.ids, hy'])) (by simpa [Mem.slotVal] using hx.2.1) h6
    · exact ihr _ _ (fun y hy' => hy y (by simp [Shape.ids, hy'])) (by simpa [Mem.slotVal] using hx.2.2.1) h7

/-- A represented subtree hung into another slot: only the parent link and
the parent slot of its root change. -/
theorem Rep_move (m m' : Mem α) (t : Shape β) (s s' : Slot) (p p' : Nat)
    (h : Rep m s p t)
    (hin : ∀ y ∈ t.ids, (m'.nodes y).black = (m.nodes y).black ∧
        (m'.nodes y).left = (m.nodes y).left ∧ (m'.nodes y).right = (m.nodes y).right ∧
        (y ≠ t.rootId → (m'.nodes y).parent = (m.nodes y).parent ∧
          (m'.nodes y).pp = (m.nodes y).pp))
    (hnd : t.ids.Nodup)
    (hroot : t.rootId ≠ 0 → (m'.nodes t.rootId).parent = p' ∧ (m'.nodes t.rootId).pp = some s')
    (hs : m'.slotVal s' = t.rootId) : Rep m' s' p' t := by
  cases t with
  | nil => exact hs
  | node l x c b r =>
    obtain ⟨h1, h2, h3, h4, h5, h6, h7⟩ := h
    have hx := hin x (by simp [Shape.ids])
    have hr := hroot h2
    simp only [Shape.ids] at hnd
    have hnd' := List.nodup_append.mp hnd
    have hxl : x ∉ l.ids := fun hc => hnd'.2.2 hc (List.mem_cons_self _ _) 
    have hxr : x ∉ r.ids := (List.nodup_cons.mp hnd'.2.1).1
    refine ⟨hs, h2, by rw [hx.1]; exact h3, hr.1, hr.2, ?_, ?_⟩
    · refine Rep_congr m m' l _ _ (fun y hy => ?_) (by simpa [Mem.slotVal] using hx.2.1) h6
      have hyx : y ≠ x := fun e => hxl (e ▸ hy)
      have := hin y (by simp [Shape.ids, hy])
      exact ⟨this.1, this.2.1, this.2.2.1, (this.2.2.2 hyx).1, (this.2.2.2 hyx).2⟩
    · refine Rep_congr m m' r _ _ (fun y hy => ?_) (by simpa [Mem.slotVal] using hx.2.2.1) h7
      have hyx : y ≠ x := fun e => hxr (e ▸ hy)
      have := hin y (by simp [Shape.ids, hy])
      exact ⟨this.1, this.2.1, this.2.2.1, (this.2.2.2 hyx).1, (this.2.2.2 hyx).2⟩

/-- `Rep` is kept by an operation that leaves the nodes and slots of the shape
alone. -/
theorem Rep_frames (m m' : Mem α) (S : List Nat) (hole : Slot) (hf : Frames m m' S hole)
    (t : Shape β) (s : Slot) (p : Nat)
    (hy : ∀ y ∈ t.ids, y ∉ S ∧ hole ≠ Slot.left y ∧ hole ≠ Slot.right y)
    (hs : m'.slotVal s = m.slotVal s) (h : Rep m s p t) : Rep m' s p t :=
  Rep_congr m m' t s p
    (fun y hyt => ⟨hf.black y (hy y hyt).1, hf.left y (hy y hyt).1 (hy y hyt).2.1,
      hf.right y (hy y hyt).1 (hy y hyt).2.2, hf.parent y (hy y hyt).1, hf.pp y (hy y hyt).1⟩)
    hs h

theorem Frames.slotVal {m m' : Mem α} {S : List Nat} {hole : Slot} (hf : Frames m m' S hole)
    (s : Slot) (hne : hole ≠ s) (hown : ∀ y, s = Slot.left y ∨ s = Slot.right y → y ∉ S) :
    m'.slotVal s = m.slotVal s := by
  cases s with
  | root t => exact hf.roots t hne
  | left y => exact hf.left y (hown y (Or.inl rfl)) hne
  | right y => exact hf.right y (hown y (Or.inr rfl)) hne

theorem Frames.same (m : Mem α) (S : List Nat) (hole : Slot) : Frames m m S hole :=
  ⟨fun _ _ => rfl, fun _ _ => rfl, fun _ _ => rfl, fun _ _ _ => rfl, fun _ _ _ => rfl,
    fun _ _ => rfl⟩

/-- Weakening of `Frames` to more nodes. -/
theorem Frames.mono {m m' : Mem α} {S S' : List Nat} {hole : Slot}
    (hf : Frames m m' S hole) (hsub : ∀ y ∈ S, y ∈ S') : Frames m m' S' hole :=
  ⟨fun y hy => hf.black y (fun h => hy (hsub y h)),
   fun y hy => hf.parent y (fun h => hy (hsub y h)),
   fun y hy => hf.pp y (fun h => hy (hsub y h)),
   fun y hy hh => hf.left y (fun h => hy (hsub y h)) hh,
   fun y hy hh => hf.right y (fun h => hy (hsub y h)) hh,
   fun t hh => hf.roots t hh⟩

/-- A hole inside the nodes `S` can be forgotten in favour of any hole. -/
theorem Frames.rehole {m m' : Mem α} {S : List Nat} {hole hole' : Slot}
    (hf : Frames m m' S hole)
    (hown : hole = hole' ∨ ∃ y ∈ S, hole = Slot.left y ∨ hole = Slot.right y) :
    Frames m m' S hole' := by
  refine ⟨hf.black, hf.parent, hf.pp, ?_, ?_, ?_⟩
  · intro y hy hh
    refine hf.left y hy ?_
    rcases hown with e | ⟨z, hz, e | e⟩
    · rw [e]; exact hh
    · rw [e]; intro e'; injection e' with e'; exact hy (e' ▸ hz)
    · rw [e]; intro e'; cases e'
  · intro y hy hh
    refine hf.right y hy ?_
    rcases hown with e | ⟨z, hz, e | e⟩
    · rw [e]; exact hh
    · rw [e]; intro e'; cases e'
    · rw [e]; intro e'; injection e' with e'; exact hy (e' ▸ hz)
  · intro t hh
    refine hf.roots t ?_
    rcases hown with e | ⟨z, hz, e | e⟩
    · rw [e]; exact hh
    · rw [e]; intro e'; cases e'
    · rw [e]; intro e'; cases e'

theorem Frames.comp {m m' m'' : Mem α} {S : List Nat} {hole : Slot}
    (h1 : Frames m m' S hole) (h2 : Frames m' m'' S hole) : Frames m m'' S hole :=
  ⟨fun y hy => (h2.black y hy).trans (h1.black y hy),
   fun y hy => (h2.parent y hy).trans (h1.parent y hy),
   fun y hy => (h2.pp y hy).trans (h1.pp y hy),
   fun y hy hh => (h2.left y hy hh).trans (h1.left y hy hh),
   fun y hy hh => (h2.right y hy hh).trans (h1.right y hy hh),
   fun t hh => (h2.roots t hh).trans (h1.roots t hh)⟩

end RB

namespace RB

variable {α β : Type}

theorem ids_eq_map_toList (t : Shape β) : t.ids = t.toList.map Prod.fst := by
  induction t with
  | nil => rfl
  | node l x c b r ihl ihr => simp [Shape.ids, Shape.toList, ihl, ihr]

theorem plug_cons (f : Frame β) (rest : List (Frame β)) (t : Shape β) :
    plug (f :: rest) t = plug rest (f.fill t) := by
  cases f <;> rfl

theorem plug_toList :
    ∀ (ctx : List (Frame β)) (t : Shape β),
      (plug ctx t).toList = ctxBefore ctx ++ t.toList ++ ctxAfter ctx := by
  intro ctx
  induction ctx with
  | nil => intro t; simp [plug, ctxBefore, ctxAfter]
  | cons f rest ih =>
    intro t
    cases f with
    | L x c b r => simp [plug, ctxBefore, ctxAfter, ih, Shape.toList]
    | R l x c b => simp [plug, ctxBefore, ctxAfter, ih, Shape.toList]

theorem plug_ids (ctx : List (Frame β)) (t : Shape β) :
    (plug ctx t).ids =
      (ctxBefore ctx).map Prod.fst ++ t.ids ++ (ctxAfter ctx).map Prod.fst := by
  simp [ids_eq_map_toList, plug_toList]

theorem ctxIds_perm :
    ∀ (ctx : List (Frame β)),
      List.Perm (ctxIds ctx) ((ctxBefore ctx).map Prod.fst ++ (ctxAfter ctx).map Prod.fst) := by
  intro ctx
  induction ctx with
  | nil => simp [ctxIds, ctxBefore, ctxAfter]
  | cons f rest ih =>
    cases f with
    | L x c b r =>
      simp only [ctxIds, Frame.ids, ctxBefore, ctxAfter, List.map_cons, List.map_append,
        ← ids_eq_map_toList, List.cons_append]
      have h1 : List.Perm (x :: (r.ids ++ ctxIds rest))
          (x :: (r.ids ++ (List.map Prod.fst (ctxBefore rest) ++
            List.map Prod.fst (ctxAfter rest)))) :=
        List.Perm.cons _ (List.Perm.append_left _ ih)
      refine h1.trans ?_
      rw [List.perm_iff_count]
      intro a
      simp only [List.count_append, List.count_cons, List.count_nil]
      omega
    | R l x c b =>
      simp only [ctxIds, Frame.ids, ctxBefore, ctxAfter, List.map_cons, List.map_append,
        ← ids_eq_map_toList, List.cons_append, List.map_nil, List.append_assoc,
        List.singleton_append]
      have h1 : List.Perm (x :: (l.ids ++ ctxIds rest))
          (x :: (l.ids ++ (List.map Prod.fst (ctxBefore rest) ++
            List.map Prod.fst (ctxAfter rest)))) :=
        List.Perm.cons _ (List.Perm.append_left _ ih)
      refine h1.trans ?_
      rw [List.perm_iff_count]
      intro a
      simp only [List.count_append, List.count_cons, List.count_nil]
      omega

theorem plug_ids_perm (ctx : List (Frame β)) (t : Shape β) :
    List.Perm (plug ctx t).ids (t.ids ++ ctxIds ctx) := by
  rw [plug_ids]
  refine List.Perm.trans ?_ (List.Perm.append_left _ (ctxIds_perm ctx).symm)
  rw [List.append_assoc]
  exact (List.perm_append_comm_assoc _ _ _)

theorem plug_nodup (ctx : List (Frame β)) (t : Shape β) :
    (plug ctx t).ids.Nodup ↔
      t.ids.Nodup ∧ (ctxIds ctx).Nodup ∧ ∀ y ∈ t.ids, y ∉ ctxIds ctx := by
  rw [(plug_ids_perm ctx t).nodup_iff, List.nodup_append]
  constructor
  · rintro ⟨h1, h2, h3⟩
    exact ⟨h1, h2, fun y hy hc => h3 hy hc⟩
  · rintro ⟨h1, h2, h3⟩
    exact ⟨h1, h2, fun {y} hy hc => h3 y hy hc⟩

theorem mem_plug_ids (ctx : List (Frame β)) (t : Shape β) (y : Nat) :
    y ∈ (plug ctx t).ids ↔ y ∈ t.ids ∨ y ∈ ctxIds ctx := by
  rw [(plug_ids_perm ctx t).mem_iff, List.mem_append]

/-- Decomposition of a represented tree along a path. -/
theorem Rep_plug (m : Mem α) (t0 : Nat) :
    ∀ (ctx : List (Frame β)) (t : Shape β),
      Rep m (Slot.root t0) 0 (plug ctx t) ↔
        CtxRep m t0 ctx ∧ Rep m (holeSlot t0 ctx) (holeParent ctx) t := by
  intro ctx
  induction ctx with
  | nil => intro t; simp [plug, CtxRep, holeSlot, holeParent]
  | cons f rest ih =>
    intro t
    cases f with
    | L x c b r =>
      simp only [plug, ih, CtxRep, holeSlot, holeParent, Rep]
      tauto
    | R l x c b =>
      simp only [plug, ih, CtxRep, holeSlot, holeParent, Rep]
      tauto

theorem holeSlot_cases (t0 : Nat) (ctx : List (Frame β)) :
    holeSlot t0 ctx = Slot.root t0 ∨
      ∃ y ∈ ctxIds ctx, holeSlot t0 ctx = Slot.left y ∨ holeSlot t0 ctx = Slot.right y := by
  cases ctx with
  | nil => exact Or.inl rfl
  | cons f rest =>
    cases f with
    | L x c b r => exact Or.inr ⟨x, by simp [ctxIds, Frame.ids], Or.inl rfl⟩
    | R l x c b => exact Or.inr ⟨x, by simp [ctxIds, Frame.ids], Or.inr rfl⟩

theorem holeParent_cases (ctx : List (Frame β)) :
    (ctx = [] ∧ holeParent ctx = 0) ∨ holeParent ctx ∈ ctxIds ctx := by
  cases ctx with
  | nil => exact Or.inl ⟨rfl, rfl⟩
  | cons f rest =>
    cases f with
    | L x c b r => exact Or.inr (by simp [holeParent, ctxIds, Frame.ids])
    | R l x c b => exact Or.inr (by simp [holeParent, ctxIds, Frame.ids])

/-- A path is kept by an operation whose hole lies outside the path. -/
theorem CtxRep_frames_off (m m' : Mem α) (S : List Nat) (hole : Slot) (t0 : Nat)
    (hf : Frames m m' S hole) :
    ∀ (ctx : List (Frame β)), (∀ y ∈ ctxIds ctx, y ∉ S) → hole ≠ Slot.root t0 →
      (∀ y ∈ ctxIds ctx, hole ≠ Slot.left y ∧ hole ≠ Slot.right y) →
      CtxRep m t0 ctx → CtxRep m' t0 ctx := by
  intro ctx
  induction ctx with
  | nil => intro _ _ _ _; trivial
  | cons f rest ih =>
    intro hS hroot hown h
    have hS' : ∀ y ∈ ctxIds rest, y ∉ S := fun y hy => hS y (by simp [ctxIds, hy])
    have hown' : ∀ y ∈ ctxIds rest, hole ≠ Slot.left y ∧ hole ≠ Slot.right y :=
      fun y hy => hown y (by simp [ctxIds, hy])
    have hslot : m'.slotVal (holeSlot t0 rest) = m.slotVal (holeSlot t0 rest) := by
      rcases holeSlot_cases t0 rest with e | ⟨y, hy, e | e⟩
      · rw [e]; exact hf.roots t0 hroot
      · rw [e]; exact hf.left y (hS' y hy) (hown' y hy).1
      · rw [e]; exact hf.right y (hS' y hy) (hown' y hy).2
    cases f with
    | L x c b r =>
      obtain ⟨h1, h2, h3, h4, h5, h6, h7⟩ := h
      have hx : x ∉ S := hS x (by simp [ctxIds, Frame.ids])
      refine ⟨by rw [hslot]; exact h1, h2, by rw [hf.black x hx]; exact h3,
        by rw [hf.parent x hx]; exact h4, by rw [hf.pp x hx]; exact h5, ?_, ih hS' hroot hown' h7⟩
      refine Rep_frames m m' S hole hf r _ _ (fun y hy => ?_) ?_ h6
      · exact ⟨hS y (by simp [ctxIds, Frame.ids, hy]), hown y (by simp [ctxIds, Frame.ids, hy])⟩
      · exact hf.right x hx (hown x (by simp [ctxIds, Frame.ids])).2
    | R l x c b =>
      obtain ⟨h1, h2, h3, h4, h5, h6, h7⟩ := h
      have hx : x ∉ S := hS x (by simp [ctxIds, Frame.ids])
      refine ⟨by rw [hslot]; exact h1, h2, by rw [hf.black x hx]; exact h3,
        by rw [hf.parent x hx]; exact h4, by rw [hf.pp x hx]; exact h5, ?_, ih hS' hroot hown' h7⟩
      refine Rep_frames m m' S hole hf l _ _ (fun y hy => ?_) ?_ h6
      · exact ⟨hS y (by simp [ctxIds, Frame.ids, hy]), hown y (by simp [ctxIds, Frame.ids, hy])⟩
      · exact hf.left x hx (hown x (by simp [ctxIds, Frame.ids])).1

/-- A path is kept by an operation on the subtree in its hole. -/
theorem CtxRep_frames (m m' : Mem α) (S : List Nat) (t0 : Nat) (ctx : List (Frame β))
    (hf : Frames m m' S (holeSlot t0 ctx)) (hS : ∀ y ∈ ctxIds ctx, y ∉ S)
    (hnd : (ctxIds ctx).Nodup) (h : CtxRep m t0 ctx) : CtxRep m' t0 ctx := by
  cases ctx with
  | nil => trivial
  | cons f rest =>
    have hS' : ∀ y ∈ ctxIds rest, y ∉ S := fun y hy => hS y (by simp [ctxIds, hy])
    cases f with
    | L x c b r =>
      simp only [ctxIds, Frame.ids, List.cons_append, List.nodup_cons, List.mem_append,
        not_or] at hnd
      obtain ⟨⟨hxr, hxrest⟩, hnd2⟩ := hnd
      have hnd3 := List.nodup_append.mp hnd2
      obtain ⟨h1, h2, h3, h4, h5, h6, h7⟩ := h
      have hx : x ∉ S := hS x (by simp [ctxIds, Frame.ids])
      have hne : ∀ y ∈ ctxIds rest, (Slot.left x) ≠ Slot.left y ∧ (Slot.left x) ≠ Slot.right y :=
        fun y hy => ⟨fun e => by injection e with e; exact hxrest (e ▸ hy), fun e => by cases e⟩
      have hslot : m'.slotVal (holeSlot t0 rest) = m.slotVal (holeSlot t0 rest) := by
        rcases holeSlot_cases t0 rest with e | ⟨y, hy, e | e⟩
        · rw [e]; exact hf.roots t0 (fun e' => by cases e')
        · rw [e]; exact hf.left y (hS' y hy) (hne y hy).1
        · rw [e]; exact hf.right y (hS' y hy) (hne y hy).2
      refine ⟨by rw [hslot]; exact h1, h2, by rw [hf.black x hx]; exact h3,
        by rw [hf.parent x hx]; exact h4, by rw [hf.pp x hx]; exact h5, ?_, ?_⟩
      · refine Rep_frames m m' S _ hf r _ _ (fun y hy => ?_) ?_ h6
        · exact ⟨hS y (by simp [ctxIds, Frame.ids, hy]),
            fun e => by injection e with e; exact hxr (e ▸ hy), fun e => by cases e⟩
        · exact hf.right x hx (fun e => by cases e)
      · exact CtxRep_frames_off m m' S _ t0 hf rest hS' (fun e => by cases e) hne h7
    | R l x c b =>
      simp only [ctxIds, Frame.ids, List.cons_append, List.nodup_cons, List.mem_append,
        not_or] at hnd
      obtain ⟨⟨hxr, hxrest⟩, hnd2⟩ := hnd
      obtain ⟨h1, h2, h3, h4, h5, h6, h7⟩ := h
      have hx : x ∉ S := hS x (by simp [ctxIds, Frame.ids])
      have hne : ∀ y ∈ ctxIds rest, (Slot.right x) ≠ Slot.left y ∧ (Slot.right x) ≠ Slot.right y :=
        fun y hy => ⟨(fun e => by cases e), fun e => by injection e with e; exact hxrest (e ▸ hy)⟩
      have hslot : m'.slotVal (holeSlot t0 rest) = m.slotVal (holeSlot t0 rest) := by
        rcases holeSlot_cases t0 rest with e | ⟨y, hy, e | e⟩
        · rw [e]; exact hf.roots t0 (fun e' => by cases e')
        · rw [e]; exact hf.left y (hS' y hy) (hne y hy).1
        · rw [e]; exact hf.right y (hS' y hy) (hne y hy).2
      refine ⟨by rw [hslot]; exact h1, h2, by rw [hf.black x hx]; exact h3,
        by rw [hf.parent x hx]; exact h4, by rw [hf.pp x hx]; exact h5, ?_, ?_⟩
      · refine Rep_frames m m' S _ hf l _ _ (fun y hy => ?_) ?_ h6
        · exact ⟨hS y (by simp [ctxIds, Frame.ids, hy]),
            (fun e => by cases e), fun e => by injection e with e; exact hxr (e ▸ hy)⟩
        · exact hf.left x hx (fun e => by cases e)
      · exact CtxRep_frames_off m m' S _ t0 hf rest hS' (fun e => by cases e) hne h7

end RB

namespace RB

variable {α β : Type}

theorem store_eq (m : Mem α) (s : Slot) (v : Nat) (h : s.valid) :
    m.store s v = some (m.put s v) := by
  cases s with
  | root t => rfl
  | left p => exact store_left m p v h
  | right p => exact store_right m p v h

@[simp] theorem put_black (m : Mem α) (s : Slot) (v y : Nat) :
    ((m.put s v).nodes y).black = (m.nodes y).black := by
  cases s <;> simp [Mem.put] <;> split <;> simp_all

@[simp] theorem put_parent (m : Mem α) (s : Slot) (v y : Nat) :
    ((m.put s v).nodes y).parent = (m.nodes y).parent := by
  cases s <;> simp [Mem.put] <;> split <;> simp_all

@[simp] theorem put_pp (m : Mem α) (s : Slot) (v y : Nat) :
    ((m.put s v).nodes y).pp = (m.nodes y).pp := by
  cases s <;> simp [Mem.put] <;> split <;> simp_all

@[simp] theorem put_data (m : Mem α) (s : Slot) (v y : Nat) :
    ((m.put s v).nodes y).data = (m.nodes y).data := by
  cases s <;> simp [Mem.put] <;> split <;> simp_all

@[simp] theorem put_next (m : Mem α) (s : Slot) (v : Nat) : (m.put s v).next = m.next := by
  cases s <;> simp [Mem.put]

theorem put_left (m : Mem α) (s : Slot) (v y : Nat) :
    ((m.put s v).nodes y).left = if s = Slot.left y then v else (m.nodes y).left := by
  cases s with
  | root t => simp [Mem.put]
  | left p =>
    simp only [Mem.put, upd_nodes, Slot.left.injEq]
    by_cases h : y = p
    · subst h; simp
    · simp [h, Ne.symm h]
  | right p =>
    simp only [Mem.put, upd_nodes]
    by_cases h : y = p
    · subst h; simp
    · simp [h]

theorem put_right (m : Mem α) (s : Slot) (v y : Nat) :
    ((m.put s v).nodes y).right = if s = Slot.right y then v else (m.nodes y).right := by
  cases s with
  | root t => simp [Mem.put]
  | left p =>
    simp only [Mem.put, upd_nodes]
    by_cases h : y = p
    · subst h; simp
    · simp [h]
  | right p =>
    simp only [Mem.put, upd_nodes, Slot.right.injEq]
    by_cases h : y = p
    · subst h; simp
    · simp [h, Ne.symm h]

theorem put_roots (m : Mem α) (s : Slot) (v t : Nat) :
    (m.put s v).roots t = if s = Slot.root t then v else m.roots t := by
  cases s with
  | root t' =>
    simp only [Mem.put, Slot.root.injEq]
    by_cases h : t = t'
    · subst h; simp
    · simp [Function.update_noteq h, Ne.symm h]
  | left p => simp [Mem.put]
  | right p => simp [Mem.put]

theorem put_slotVal_same (m : Mem α) (s : Slot) (v : Nat) : (m.put s v).slotVal s = v := by
  cases s with
  | root t => simp [Mem.slotVal, put_roots]
  | left p => simp [Mem.slotVal, put_left]
  | right p => simp [Mem.slotVal, put_right]

theorem slotVal_upd (m : Mem α) (n : Nat) (f : node α → node α) (s : Slot)
    (hl : (f (m.nodes n)).left = (m.nodes n).left)
    (hr : (f (m.nodes n)).right = (m.nodes n).right) :
    (m.upd n f).slotVal s = m.slotVal s := by
  cases s with
  | root t => rfl
  | left p =>
    simp only [Mem.slotVal, upd_nodes]
    split
    · rename_i h; subst h; exact hl
    · rfl
  | right p =>
    simp only [Mem.slotVal, upd_nodes]
    split
    · rename_i h; subst h; exact hr
    · rfl

end RB

namespace RB

variable {α β : Type}

theorem giveParent_eq (m : Mem α) (n nn : Nat) (s : Slot) (hn : n ≠ 0) (hnn : nn ≠ 0)
    (hne : n ≠ nn) (hpp : (m.nodes n).pp = some s) (hv : s.valid) :
    giveParent m n nn = some (giveParentT m n nn) := by
  simp [giveParent, giveParentT, hn, hnn, hne, hpp, bind, Option.bind, store_eq _ _ _ hv]

theorem toLeftOf_eq (m : Mem α) (n to_ : Nat) (hto : to_ ≠ 0) :
    toLeftOf m n to_ = some (toLeftOfT m n to_) := by
  by_cases h : n = 0
  · simp [toLeftOf, toLeftOfT, hto, h, bind, Option.bind]
  · simp [toLeftOf, toLeftOfT, hto, h, bind, Option.bind]

theorem toRightOf_eq (m : Mem α) (n to_ : Nat) (hto : to_ ≠ 0) :
    toRightOf m n to_ = some (toRightOfT m n to_) := by
  by_cases h : n = 0
  · simp [toRightOf, toRightOfT, hto, h, bind, Option.bind]
  · simp [toRightOf, toRightOfT, hto, h, bind, Option.bind]

theorem rotateLeft_eq (m : Mem α) (n : Nat) (s : Slot) (hn : n ≠ 0)
    (hr : (m.nodes n).right ≠ 0) (hne : n ≠ (m.nodes n).right)
    (hpp : (m.nodes n).pp = some s) (hv : s.valid) :
    rotateLeft m n = some (rotateLeftT m n, (m.nodes n).right) := by
  unfold rotateLeft rotateLeftT
  simp only [rd_eq m n hn, bind, Option.bind, giveParent_eq m n _ s hn hr hne hpp hv]
  simp only [rd_eq _ _ hr, toRightOf_eq _ _ n hn, toLeftOf_eq _ n _ hr, rd_eq _ n hn,
    wr_eq _ _ _ hr, wr_eq _ n _ hn, pure]

theorem rotateRight_eq (m : Mem α) (n : Nat) (s : Slot) (hn : n ≠ 0)
    (hl : (m.nodes n).left ≠ 0) (hne : n ≠ (m.nodes n).left)
    (hpp : (m.nodes n).pp = some s) (hv : s.valid) :
    rotateRight m n = some (rotateRightT m n, (m.nodes n).left) := by
  unfold rotateRight rotateRightT
  simp only [rd_eq m n hn, bind, Option.bind, giveParent_eq m n _ s hn hl hne hpp hv]
  simp only [rd_eq _ _ hl, toRightOf_eq _ n _ hl, toLeftOf_eq _ _ n hn, rd_eq _ n hn,
    wr_eq _ _ _ hl, wr_eq _ n _ hn, pure]

theorem flip_eq (m : Mem α) (n : Nat) (hn : n ≠ 0) (hl : (m.nodes n).left ≠ 0)
    (hr : (m.nodes n).right ≠ 0) (hln : n ≠ (m.nodes n).left) :
    flip m n = some (flipT m n) := by
  unfold flip flipT
  simp only [wr_eq m n _ hn, bind, Option.bind, rd_eq _ n hn]
  have h1 : ((m.upd n fun x => { x with black := !x.black }).nodes n).left ≠ 0 := by
    simpa using hl
  simp only [wr_eq _ _ _ h1]
  have h2 : (((m.upd n fun x => { x with black := !x.black }).upd
      ((m.upd n fun x => { x with black := !x.black }).nodes n).left
      fun y => { y with black := !y.black }).nodes n).right ≠ 0 := by
    simp only [upd_nodes, if_true, if_neg hln]
    exact hr
  simp only [wr_eq _ _ _ h2]

/-- The nodes of `node a n _ _ (node b r _ _ c)` are pairwise distinct. -/
theorem nodup_node2 (a b c : Shape β) (n r : Nat)
    (h : (a.ids ++ n :: (b.ids ++ r :: c.ids)).Nodup) :
    n ≠ r ∧ n ∉ a.ids ∧ n ∉ b.ids ∧ n ∉ c.ids ∧ r ∉ a.ids ∧ r ∉ b.ids ∧ r ∉ c.ids ∧
    (∀ y ∈ a.ids, y ∉ b.ids ∧ y ∉ c.ids) ∧ (∀ y ∈ b.ids, y ∉ c.ids) ∧
    a.ids.Nodup ∧ b.ids.Nodup ∧ c.ids.Nodup := by
  rw [List.nodup_append] at h
  obtain ⟨ha, h2, h3⟩ := h
  rw [List.nodup_cons] at h2
  obtain ⟨hn, h4⟩ := h2
  rw [List.nodup_append] at h4
  obtain ⟨hb, h5, h6⟩ := h4
  rw [List.nodup_cons] at h5
  obtain ⟨hr, hc⟩ := h5
  simp only [List.mem_append, List.mem_cons, not_or] at hn
  refine ⟨hn.2.1, fun hc' => h3 hc' (by simp), hn.1, hn.2.2,
    fun hc' => h3 hc' (by simp), fun hc' => h6 hc' (by simp), hr, ?_, ?_, ha, hb, hc⟩
  · intro y hy
    exact ⟨fun hc' => h3 hy (by simp [hc']), fun hc' => h3 hy (by simp [hc'])⟩
  · intro y hy hc'
    exact h6 hy (by simp [hc'])

theorem rotateLeftT_n (m : Mem α) (n r rb : Nat) (s : Slot)
    (hn0 : n ≠ 0) (hr0 : r ≠ 0) (hnr : (m.nodes n).right = r) (hbl : (m.nodes r).left = rb)
    (hpp : (m.nodes n).pp = some s) (d1 : n ≠ r) (hrb : r ≠ rb) (hnb : n ≠ rb)
    (hsn : s ≠ Slot.left n ∧ s ≠ Slot.right n) (hsr : s ≠ Slot.left r ∧ s ≠ Slot.right r)
    (hsb : rb ≠ 0 → s ≠ Slot.left rb ∧ s ≠ Slot.right rb) :
    ((rotateLeftT m n).nodes n).black = false ∧
    ((rotateLeftT m n).nodes n).left = (m.nodes n).left ∧
    ((rotateLeftT m n).nodes n).right = rb ∧
    ((rotateLeftT m n).nodes n).parent = r ∧
    ((rotateLeftT m n).nodes n).pp = some (Slot.left r) := by
  by_cases hb0 : rb = 0
  · simp [rotateLeftT, giveParentT, toRightOfT, toLeftOfT, put_left, put_right, put_roots,
      hnr, hbl, hpp, d1, Ne.symm d1, hrb, Ne.symm hrb, hnb, Ne.symm hnb, hn0, hr0, hsn, hsr, hb0]
  · simp [rotateLeftT, giveParentT, toRightOfT, toLeftOfT, put_left, put_right, put_roots,
      hnr, hbl, hpp, d1, Ne.symm d1, hrb, Ne.symm hrb, hnb, Ne.symm hnb, hn0, hr0, hsn, hsr, hb0]

theorem rotateLeftT_r (m : Mem α) (n r rb : Nat) (s : Slot)
    (hn0 : n ≠ 0) (hr0 : r ≠ 0) (hnr : (m.nodes n).right = r) (hbl : (m.nodes r).left = rb)
    (hpp : (m.nodes n).pp = some s) (d1 : n ≠ r) (hrb : r ≠ rb) (hnb : n ≠ rb)
    (hsn : s ≠ Slot.left n ∧ s ≠ Slot.right n) (hsr : s ≠ Slot.left r ∧ s ≠ Slot.right r)
    (hsb : rb ≠ 0 → s ≠ Slot.left rb ∧ s ≠ Slot.right rb) :
    ((rotateLeftT m n).nodes r).black = (m.nodes n).black ∧
    ((rotateLeftT m n).nodes r).left = n ∧
    ((rotateLeftT m n).nodes r).right = (m.nodes r).right ∧
    ((rotateLeftT m n).nodes r).parent = (m.nodes n).parent ∧
    ((rotateLeftT m n).nodes r).pp = some s := by
  by_cases hb0 : rb = 0
  · simp [rotateLeftT, giveParentT, toRightOfT, toLeftOfT, put_left, put_right, put_roots,
      hnr, hbl, hpp, d1, Ne.symm d1, hrb, Ne.symm hrb, hnb, Ne.symm hnb, hn0, hr0, hsn, hsr, hb0]
  · simp [rotateLeftT, giveParentT, toRightOfT, toLeftOfT, put_left, put_right, put_roots,
      hnr, hbl, hpp, d1, Ne.symm d1, hrb, Ne.symm hrb, hnb, Ne.symm hnb, hn0, hr0, hsn, hsr, hb0]

theorem rotateLeftT_b (m : Mem α) (n r rb : Nat) (s : Slot)
    (hn0 : n ≠ 0) (hr0 : r ≠ 0) (hnr : (m.nodes n).right = r) (hbl : (m.nodes r).left = rb)
    (hpp : (m.nodes n).pp = some s) (d1 : n ≠ r) (hrb : r ≠ rb) (hnb : n ≠ rb)
    (hsn : s ≠ Slot.left n ∧ s ≠ Slot.right n) (hsr : s ≠ Slot.left r ∧ s ≠ Slot.right r)
    (hsb : rb ≠ 0 → s ≠ Slot.left rb ∧ s ≠ Slot.right rb) (hb0 : rb ≠ 0) :
    ((rotateLeftT m n).nodes rb).black = (m.nodes rb).black ∧
    ((rotateLeftT m n).nodes rb).left = (m.nodes rb).left ∧
    ((rotateLeftT m n).nodes rb).right = (m.nodes rb).right ∧
    ((rotateLeftT m n).nodes rb).parent = n ∧
    ((rotateLeftT m n).nodes rb).pp = some (Slot.right n) := by
  have hsb1 := (hsb hb0).1
  have hsb2 := (hsb hb0).2
  simp [rotateLeftT, giveParentT, toRightOfT, toLeftOfT, put_left, put_right, put_roots,
      hnr, hbl, hpp, d1, Ne.symm d1, hrb, Ne.symm hrb, hnb, Ne.symm hnb, hn0, hr0, hsn, hsr, hb0, hsb1, hsb2]

theorem rotateLeftT_other (m : Mem α) (n r rb : Nat) (s : Slot)
    (hn0 : n ≠ 0) (hr0 : r ≠ 0) (hnr : (m.nodes n).right = r) (hbl : (m.nodes r).left = rb)
    (hpp : (m.nodes n).pp = some s) (d1 : n ≠ r) (hrb : r ≠ rb) (hnb : n ≠ rb)
    (hsn : s ≠ Slot.left n ∧ s ≠ Slot.right n) (hsr : s ≠ Slot.left r ∧ s ≠ Slot.right r)
    (hsb : rb ≠ 0 → s ≠ Slot.left rb ∧ s ≠ Slot.right rb) (y : Nat)
    (hyn : y ≠ n) (hyr : y ≠ r) (hyb' : rb ≠ 0 → y ≠ rb) :
    ((rotateLeftT m n).nodes y).black = (m.nodes y).black ∧
    ((rotateLeftT m n).nodes y).parent = (m.nodes y).parent ∧
    ((rotateLeftT m n).nodes y).pp = (m.nodes y).pp ∧
    (s ≠ Slot.left y → ((rotateLeftT m n).nodes y).left = (m.nodes y).left) ∧
    (s ≠ Slot.right y → ((rotateLeftT m n).nodes y).right = (m.nodes y).right) := by
  by_cases hb0 : rb = 0
  · simp [rotateLeftT, giveParentT, toRightOfT, toLeftOfT, put_left, put_right, put_roots,
      hnr, hbl, hpp, d1, Ne.symm d1, hrb, Ne.symm hrb, hnb, Ne.symm hnb, hn0, hr0, hsn, hsr, hb0, hyn, hyr]
    constructor <;> intro h <;> simp [h]
  · have hyb := hyb' hb0
    simp [rotateLeftT, giveParentT, toRightOfT, toLeftOfT, put_left, put_right, put_roots,
      hnr, hbl, hpp, d1, Ne.symm d1, hrb, Ne.symm hrb, hnb, Ne.symm hnb, hn0, hr0, hsn, hsr, hb0, hyn, hyr, hyb]
    constructor <;> intro h <;> simp [h]

theorem upd_data (m : Mem α) (n y : Nat) (f : node α → node α)
    (hf : ∀ x, (f x).data = x.data) : ((m.upd n f).nodes y).data = (m.nodes y).data := by
  rw [upd_nodes]
  split
  · rename_i h; subst h; exact hf _
  · rfl

theorem giveParentT_data (m : Mem α) (n nn y : Nat) :
    ((giveParentT m n nn).nodes y).data = (m.nodes y).data := by
  unfold giveParentT
  simp only
  split <;> simp only [upd_data, put_data, implies_true]

theorem toLeftOfT_data (m : Mem α) (n t y : Nat) :
    ((toLeftOfT m n t).nodes y).data = (m.nodes y).data := by
  unfold toLeftOfT
  split <;> simp only [upd_data, implies_true]

theorem toRightOfT_data (m : Mem α) (n t y : Nat) :
    ((toRightOfT m n t).nodes y).data = (m.nodes y).data := by
  unfold toRightOfT
  split <;> simp only [upd_data, implies_true]

theorem rotateLeftT_data (m : Mem α) (n y : Nat) :
    ((rotateLeftT m n).nodes y).data = (m.nodes y).data := by
  unfold rotateLeftT
  simp only
  simp only [upd_data, implies_true, toLeftOfT_data, toRightOfT_data, giveParentT_data]

theorem rotateRightT_data (m : Mem α) (n y : Nat) :
    ((rotateRightT m n).nodes y).data = (m.nodes y).data := by
  unfold rotateRightT
  simp only
  simp only [upd_data, implies_true, toLeftOfT_data, toRightOfT_data, giveParentT_data]

theorem flipT_data (m : Mem α) (n y : Nat) :
    ((flipT m n).nodes y).data = (m.nodes y).data := by
  unfold flipT
  simp only
  simp only [upd_data, implies_true]

theorem giveParentT_next (m : Mem α) (n nn : Nat) : (giveParentT m n nn).next = m.next := by
  unfold giveParentT
  simp only [upd_next]
  split <;> simp

theorem toLeftOfT_next (m : Mem α) (n t : Nat) : (toLeftOfT m n t).next = m.next := by
  unfold toLeftOfT
  split <;> simp

theorem toRightOfT_next (m : Mem α) (n t : Nat) : (toRightOfT m n t).next = m.next := by
  unfold toRightOfT
  split <;> simp

theorem rotateLeftT_next (m : Mem α) (n : Nat) : (rotateLeftT m n).next = m.next := by
  unfold rotateLeftT
  simp only [upd_next, toLeftOfT_next, toRightOfT_next, giveParentT_next]

theorem rotateRightT_next (m : Mem α) (n : Nat) : (rotateRightT m n).next = m.next := by
  unfold rotateRightT
  simp only [upd_next, toLeftOfT_next, toRightOfT_next, giveParentT_next]

theorem flipT_next (m : Mem α) (n : Nat) : (flipT m n).next = m.next := by
  unfold flipT
  simp only [upd_next]

theorem giveParentT_roots (m : Mem α) (n nn t : Nat) (s : Slot)
    (hpp : (m.nodes n).pp = some s) (hs : s ≠ Slot.root t) :
    (giveParentT m n nn).roots t = m.roots t := by
  unfold giveParentT
  simp only [upd_roots, hpp, put_roots, if_neg hs]

theorem giveParentT_roots_same (m : Mem α) (n nn t : Nat)
    (hpp : (m.nodes n).pp = some (Slot.root t)) : (giveParentT m n nn).roots t = nn := by
  unfold giveParentT
  simp only [upd_roots, hpp, put_roots, if_true]

theorem toLeftOfT_roots (m : Mem α) (n t : Nat) : (toLeftOfT m n t).roots = m.roots := by
  unfold toLeftOfT
  split <;> simp

theorem toRightOfT_roots (m : Mem α) (n t : Nat) : (toRightOfT m n t).roots = m.roots := by
  unfold toRightOfT
  split <;> simp

theorem rotateLeftT_roots (m : Mem α) (n t : Nat) (s : Slot)
    (hpp : (m.nodes n).pp = some s) (hs : s ≠ Slot.root t) :
    (rotateLeftT m n).roots t = m.roots t := by
  unfold rotateLeftT
  simp only [upd_roots, toLeftOfT_roots, toRightOfT_roots, giveParentT_roots m n _ t s hpp hs]

theorem rotateRightT_roots (m : Mem α) (n t : Nat) (s : Slot)
    (hpp : (m.nodes n).pp = some s) (hs : s ≠ Slot.root t) :
    (rotateRightT m n).roots t = m.roots t := by
  unfold rotateRightT
  simp only [upd_roots, toLeftOfT_roots, toRightOfT_roots, giveParentT_roots m n _ t s hpp hs]

theorem flipT_roots (m : Mem α) (n : Nat) : (flipT m n).roots = m.roots := by
  unfold flipT
  simp only [upd_roots]

theorem rotateLeftT_slot (m : Mem α) (n r rb : Nat) (s : Slot)
    (hn0 : n ≠ 0) (hr0 : r ≠ 0) (hnr : (m.nodes n).right = r) (hbl : (m.nodes r).left = rb)
    (hpp : (m.nodes n).pp = some s) (d1 : n ≠ r) (hrb : r ≠ rb) (hnb : n ≠ rb)
    (hsn : s ≠ Slot.left n ∧ s ≠ Slot.right n) (hsr : s ≠ Slot.left r ∧ s ≠ Slot.right r)
    (hsb : rb ≠ 0 → s ≠ Slot.left rb ∧ s ≠ Slot.right rb) :
    (rotateLeftT m n).slotVal s = r := by
  cases s with
  | root t =>
    simp only [rotateLeftT, Mem.slotVal, upd_roots, toLeftOfT_roots, toRightOfT_roots,
      giveParentT_roots_same m n _ t hpp, hnr]
  | left q =>
    have hqn : q ≠ n := fun e => hsn.1 (by rw [e])
    have hqr : q ≠ r := fun e => hsr.1 (by rw [e])
    by_cases hb0 : rb = 0
    · simp [Mem.slotVal, rotateLeftT, giveParentT, toRightOfT, toLeftOfT, put_left, put_right, hnr, hbl, hpp,
        hqn, hqr, hb0, d1, Ne.symm d1, hn0, hr0]
    · have hqb : q ≠ rb := fun e => (hsb hb0).1 (by rw [e])
      simp [Mem.slotVal, rotateLeftT, giveParentT, toRightOfT, toLeftOfT, put_left, put_right, hnr, hbl, hpp,
        hqn, hqr, hb0, hqb, d1, Ne.symm d1, hn0, hr0, hrb, Ne.symm hrb, hnb, Ne.symm hnb]
  | right q =>
    have hqn : q ≠ n := fun e => hsn.2 (by rw [e])
    have hqr : q ≠ r := fun e => hsr.2 (by rw [e])
    by_cases hb0 : rb = 0
    · simp [Mem.slotVal, rotateLeftT, giveParentT, toRightOfT, toLeftOfT, put_left, put_right, hnr, hbl, hpp,
        hqn, hqr, hb0, d1, Ne.symm d1, hn0, hr0]
    · have hqb : q ≠ rb := fun e => (hsb hb0).2 (by rw [e])
      simp [Mem.slotVal, rotateLeftT, giveParentT, toRightOfT, toLeftOfT, put_left, put_right, hnr, hbl, hpp,
        hqn, hqr, hb0, hqb, d1, Ne.symm d1, hn0, hr0, hrb, Ne.symm hrb, hnb, Ne.symm hnb]

theorem rotateLeft_rep (m : Mem α) (s : Slot) (p : Nat) (a b c : Shape β) (n r : Nat)
    (cn cr : Bool) (bn br : β)
    (h : Rep m s p (Shape.node a n cn bn (Shape.node b r cr br c)))
    (hnd : (Shape.node a n cn bn (Shape.node b r cr br c)).ids.Nodup)
    (hv : s.valid)
    (hs : ∀ y ∈ (Shape.node a n cn bn (Shape.node b r cr br c)).ids,
      s ≠ Slot.left y ∧ s ≠ Slot.right y) :
    ∃ m', rotateLeft m n = some (m', r) ∧
      Rep m' s p (Shape.node (Shape.node a n false bn b) r cn br c) ∧
      Frames m m' (Shape.node a n cn bn (Shape.node b r cr br c)).ids s ∧
      (∀ y, (m'.nodes y).data = (m.nodes y).data) ∧ m'.next = m.next := by
  obtain ⟨h1, hn0, h3, h4, h5, ha, h7⟩ := h
  obtain ⟨h8, hr0, h10, h11, h12, hb, hc⟩ := h7
  simp only [Shape.ids] at hnd hs
  obtain ⟨d1, d2, d3, d4, d5, d6, d7, d8, d9, d10, d11, d12⟩ := nodup_node2 a b c n r hnd
  have hsn := hs n (by simp)
  have hsr := hs r (by simp)
  have hbl : (m.nodes r).left = b.rootId := Rep_slotVal m _ _ b hb
  have hnr : (m.nodes n).right = r := h8
  have hrb : r ≠ b.rootId := fun e => by
    by_cases hb0 : b.rootId = 0
    · exact hr0 (e.trans hb0)
    · exact d6 (e ▸ rootId_mem b hb0)
  have hnb : n ≠ b.rootId := fun e => by
    by_cases hb0 : b.rootId = 0
    · exact hn0 (e.trans hb0)
    · exact d3 (e ▸ rootId_mem b hb0)
  have hsb : b.rootId ≠ 0 → s ≠ Slot.left b.rootId ∧ s ≠ Slot.right b.rootId := fun hb0 =>
    hs _ (by simp [rootId_mem b hb0])
  have hpn : (m.nodes n).parent = p := h4
  obtain ⟨n1, n2, n3, n4, n5⟩ := rotateLeftT_n m n r b.rootId s hn0 hr0 hnr hbl h5 d1 hrb hnb
    hsn hsr hsb
  obtain ⟨r1, r2, r3, r4, r5⟩ := rotateLeftT_r m n r b.rootId s hn0 hr0 hnr hbl h5 d1 hrb hnb
    hsn hsr hsb
  have hoth := rotateLeftT_other m n r b.rootId s hn0 hr0 hnr hbl h5 d1 hrb hnb hsn hsr hsb
  have hslot := rotateLeftT_slot m n r b.rootId s hn0 hr0 hnr hbl h5 d1 hrb hnb hsn hsr hsb
  have hfr : Frames m (rotateLeftT m n) (Shape.node a n cn bn (Shape.node b r cr br c)).ids s := by
    have hout : ∀ y, y ∉ (Shape.node a n cn bn (Shape.node b r cr br c)).ids → y ≠ n ∧ y ≠ r ∧ (b.rootId ≠ 0 → y ≠ b.rootId) := by
      intro y hy
      simp only [Shape.ids, List.mem_append, List.mem_cons, not_or] at hy
      refine ⟨by tauto, by tauto, fun hb0 e => ?_⟩
      have := rootId_mem b hb0
      rw [← e] at this
      tauto
    refine ⟨?_, ?_, ?_, ?_, ?_, ?_⟩
    · intro y hy
      have hy := hout y hy
      exact (hoth y hy.1 hy.2.1 hy.2.2).1
    · intro y hy
      have hy := hout y hy
      exact (hoth y hy.1 hy.2.1 hy.2.2).2.1
    · intro y hy
      have hy := hout y hy
      exact (hoth y hy.1 hy.2.1 hy.2.2).2.2.1
    · intro y hy hh
      have hy := hout y hy
      exact (hoth y hy.1 hy.2.1 hy.2.2).2.2.2.1 hh
    · intro y hy hh
      have hy := hout y hy
      exact (hoth y hy.1 hy.2.1 hy.2.2).2.2.2.2 hh
    · intro t ht
      exact rotateLeftT_roots m n t s h5 ht
  refine ⟨rotateLeftT m n, ?_, ?_, hfr, fun y => rotateLeftT_data m n y, rotateLeftT_next m n⟩
  · have := rotateLeft_eq m n s hn0 (by rw [hnr]; exact hr0) (by rw [hnr]; exact d1) h5 hv
    rw [hnr] at this
    exact this
  · -- the rotated subtree
    have hA : Rep (rotateLeftT m n) (Slot.left n) n a := by
      refine Rep_congr m _ a _ _ (fun y hy => ?_) ?_ ha
      · have hyn : y ≠ n := fun e => d2 (e ▸ hy)
        have hyr : y ≠ r := fun e => d5 (e ▸ hy)
        have hyb : y ≠ b.rootId := fun e => by
          by_cases hb0 : b.rootId = 0
          · exact Rep_ids_ne_zero m a _ _ ha y hy (e.trans hb0)
          · exact (d8 y hy).1 (e ▸ rootId_mem b hb0)
        have hsy := hs y (by simp [hy])
        have := hoth y hyn hyr (fun _ => hyb)
        first
          | exact ⟨this.1, this.2.2.2.1 hsy.1, this.2.2.2.2 hsy.2, this.2.1, this.2.2.1⟩
          | exact ⟨this.1, this.2.2.2.2 hsy.1, this.2.2.2.1 hsy.2, this.2.1, this.2.2.1⟩
      · simp only [Mem.slotVal]; exact n2
    have hC : Rep (rotateLeftT m n) (Slot.right r) r c := by
      refine Rep_congr m _ c _ _ (fun y hy => ?_) ?_ hc
      · have hyn : y ≠ n := fun e => d4 (e ▸ hy)
        have hyr : y ≠ r := fun e => d7 (e ▸ hy)
        have hyb : y ≠ b.rootId := fun e => by
          by_cases hb0 : b.rootId = 0
          · exact Rep_ids_ne_zero m c _ _ hc y hy (e.trans hb0)
          · exact d9 _ (rootId_mem b hb0) (e ▸ hy)
        have hsy := hs y (by simp [hy])
        have := hoth y hyn hyr (fun _ => hyb)
        first
          | exact ⟨this.1, this.2.2.2.1 hsy.1, this.2.2.2.2 hsy.2, this.2.1, this.2.2.1⟩
          | exact ⟨this.1, this.2.2.2.2 hsy.1, this.2.2.2.1 hsy.2, this.2.1, this.2.2.1⟩
      · simp only [Mem.slotVal]; exact r3
    have hB : Rep (rotateLeftT m n) (Slot.right n) n b := by
      refine Rep_move m _ b (Slot.left r) (Slot.right n) r n hb (fun y hy => ?_) d11 ?_ ?_
      · have hyn : y ≠ n := fun e => d3 (e ▸ hy)
        have hyr : y ≠ r := fun e => d6 (e ▸ hy)
        have hsy := hs y (by simp [hy])
        by_cases hyb : y = b.rootId
        · have hb0 : b.rootId ≠ 0 := fun e => Rep_ids_ne_zero m b _ _ hb y hy (hyb.trans e)
          obtain ⟨b1, b2, b3, b4, b5⟩ := rotateLeftT_b m n r b.rootId s hn0 hr0 hnr hbl h5 d1
            hrb hnb hsn hsr hsb hb0
          rw [hyb]
          exact ⟨b1, b2, b3, fun hne => absurd rfl hne⟩
        · have := hoth y hyn hyr (fun _ => hyb)
          exact ⟨this.1, this.2.2.2.1 hsy.1, this.2.2.2.2 hsy.2, fun _ => ⟨this.2.1, this.2.2.1⟩⟩
      · intro hb0
        obtain ⟨b1, b2, b3, b4, b5⟩ := rotateLeftT_b m n r b.rootId s hn0 hr0 hnr hbl h5 d1
          hrb hnb hsn hsr hsb hb0
        exact ⟨b4, b5⟩
      · simp only [Mem.slotVal]; exact n3
    exact ⟨hslot, hr0, by rw [r1]; exact h3, by rw [r4]; exact hpn, r5,
      ⟨by simp only [Mem.slotVal]; exact r2, hn0, n1, n4, n5, hA, hB⟩, hC⟩

theorem rotateRightT_n (m : Mem α) (n r rb : Nat) (s : Slot)
    (hn0 : n ≠ 0) (hr0 : r ≠ 0) (hnr : (m.nodes n).left = r) (hbl : (m.nodes r).right = rb)
    (hpp : (m.nodes n).pp = some s) (d1 : n ≠ r) (hrb : r ≠ rb) (hnb : n ≠ rb)
    (hsn : s ≠ Slot.right n ∧ s ≠ Slot.left n) (hsr : s ≠ Slot.right r ∧ s ≠ Slot.left r)
    (hsb : rb ≠ 0 → s ≠ Slot.right rb ∧ s ≠ Slot.left rb) :
    ((rotateRightT m n).nodes n).black = false ∧
    ((rotateRightT m n).nodes n).right = (m.nodes n).right ∧
    ((rotateRightT m n).nodes n).left = rb ∧
    ((rotateRightT m n).nodes n).parent = r ∧
    ((rotateRightT m n).nodes n).pp = some (Slot.right r) := by
  by_cases hb0 : rb = 0
  · simp [rotateRightT, giveParentT, toLeftOfT, toRightOfT, put_right, put_left, put_roots,
      hnr, hbl, hpp, d1, Ne.symm d1, hrb, Ne.symm hrb, hnb, Ne.symm hnb, hn0, hr0, hsn, hsr, hb0]
  · simp [rotateRightT, giveParentT, toLeftOfT, toRightOfT, put_right, put_left, put_roots,
      hnr, hbl, hpp, d1, Ne.symm d1, hrb, Ne.symm hrb, hnb, Ne.symm hnb, hn0, hr0, hsn, hsr, hb0]

theorem rotateRightT_r (m : Mem α) (n r rb : Nat) (s : Slot)
    (hn0 : n ≠ 0) (hr0 : r ≠ 0) (hnr : (m.nodes n).left = r) (hbl : (m.nodes r).right = rb)
    (hpp : (m.nodes n).pp = some s) (d1 : n ≠ r) (hrb : r ≠ rb) (hnb : n ≠ rb)
    (hsn : s ≠ Slot.right n ∧ s ≠ Slot.left n) (hsr : s ≠ Slot.right r ∧ s ≠ Slot.left r)
    (hsb : rb ≠ 0 → s ≠ Slot.right rb ∧ s ≠ Slot.left rb) :
    ((rotateRightT m n).nodes r).black = (m.nodes n).black ∧
    ((rotateRightT m n).nodes r).right = n ∧
    ((rotateRightT m n).nodes r).left = (m.nodes r).left ∧
    ((rotateRightT m n).nodes r).parent = (m.nodes n).parent ∧
    ((rotateRightT m n).nodes r).pp = some s := by
  by_cases hb0 : rb = 0
  · simp [rotateRightT, giveParentT, toLeftOfT, toRightOfT, put_right, put_left, put_roots,
      hnr, hbl, hpp, d1, Ne.symm d1, hrb, Ne.symm hrb, hnb, Ne.symm hnb, hn0, hr0, hsn, hsr, hb0]
  · simp [rotateRightT, giveParentT, toLeftOfT, toRightOfT, put_right, put_left, put_roots,
      hnr, hbl, hpp, d1, Ne.symm d1, hrb, Ne.symm hrb, hnb, Ne.symm hnb, hn0, hr0, hsn, hsr, hb0]

theorem rotateRightT_b (m : Mem α) (n r rb : Nat) (s : Slot)
    (hn0 : n ≠ 0) (hr0 : r ≠ 0) (hnr : (m.nodes n).left = r) (hbl : (m.nodes r).right = rb)
    (hpp : (m.nodes n).pp = some s) (d1 : n ≠ r) (hrb : r ≠ rb) (hnb : n ≠ rb)
    (hsn : s ≠ Slot.right n ∧ s ≠ Slot.left n) (hsr : s ≠ Slot.right r ∧ s ≠ Slot.left r)
    (hsb : rb ≠ 0 → s ≠ Slot.right rb ∧ s ≠ Slot.left rb) (hb0 : rb ≠ 0) :
    ((rotateRightT m n).nodes rb).black = (m.nodes rb).black ∧
    ((rotateRightT m n).nodes rb).right = (m.nodes rb).right ∧
    ((rotateRightT m n).nodes rb).left = (m.nodes rb).left ∧
    ((rotateRightT m n).nodes rb).parent = n ∧
    ((rotateRightT m n).nodes rb).pp = some (Slot.left n) := by
  have hsb1 := (hsb hb0).1
  have hsb2 := (hsb hb0).2
  simp [rotateRightT, giveParentT, toLeftOfT, toRightOfT, put_right, put_left, put_roots,
      hnr, hbl, hpp, d1, Ne.symm d1, hrb, Ne.symm hrb, hnb, Ne.symm hnb, hn0, hr0, hsn, hsr, hb0, hsb1, hsb2]

theorem rotateRightT_other (m : Mem α) (n r rb : Nat) (s : Slot)
    (hn0 : n ≠ 0) (hr0 : r ≠ 0) (hnr : (m.nodes n).left = r) (hbl : (m.nodes r).right = rb)
    (hpp : (m.nodes n).pp = some s) (d1 : n ≠ r) (hrb : r ≠ rb) (hnb : n ≠ rb)
    (hsn : s ≠ Slot.right n ∧ s ≠ Slot.left n) (hsr : s ≠ Slot.right r ∧ s ≠ Slot.left r)
    (hsb : rb ≠ 0 → s ≠ Slot.right rb ∧ s ≠ Slot.left rb) (y : Nat)
    (hyn : y ≠ n) (hyr : y ≠ r) (hyb' : rb ≠ 0 → y ≠ rb) :
    ((rotateRightT m n).nodes y).black = (m.nodes y).black ∧
    ((rotateRightT m n).nodes y).parent = (m.nodes y).parent ∧
    ((rotateRightT m n).nodes y).pp = (m.nodes y).pp ∧
    (s ≠ Slot.right y → ((rotateRightT m n).nodes y).right = (m.nodes y).right) ∧
    (s ≠ Slot.left y → ((rotateRightT m n).nodes y).left = (m.nodes y).left) := by
  by_cases hb0 : rb = 0
  · simp [rotateRightT, giveParentT, toLeftOfT, toRightOfT, put_right, put_left, put_roots,
      hnr, hbl, hpp, d1, Ne.symm d1, hrb, Ne.symm hrb, hnb, Ne.symm hnb, hn0, hr0, hsn, hsr, hb0, hyn, hyr]
    constructor <;> intro h <;> simp [h]
  · have hyb := hyb' hb0
    simp [rotateRightT, giveParentT, toLeftOfT, toRightOfT, put_right, put_left, put_roots,
      hnr, hbl, hpp, d1, Ne.symm d1, hrb, Ne.symm hrb, hnb, Ne.symm hnb, hn0, hr0, hsn, hsr, hb0, hyn, hyr, hyb]
    constructor <;> intro h <;> simp [h]

theorem rotateRightT_slot (m : Mem α) (n r rb : Nat) (s : Slot)
    (hn0 : n ≠ 0) (hr0 : r ≠ 0) (hnr : (m.nodes n).left = r) (hbl : (m.nodes r).right = rb)
    (hpp : (m.nodes n).pp = some s) (d1 : n ≠ r) (hrb : r ≠ rb) (hnb : n ≠ rb)
    (hsn : s ≠ Slot.right n ∧ s ≠ Slot.left n) (hsr : s ≠ Slot.right r ∧ s ≠ Slot.left r)
    (hsb : rb ≠ 0 → s ≠ Slot.right rb ∧ s ≠ Slot.left rb) :
    (rotateRightT m n).slotVal s = r := by
  cases s with
  | root t =>
    simp only [rotateRightT, Mem.slotVal, upd_roots, toRightOfT_roots, toLeftOfT_roots,
      giveParentT_roots_same m n _ t hpp, hnr]
  | right q =>
    have hqn : q ≠ n := fun e => hsn.1 (by rw [e])
    have hqr : q ≠ r := fun e => hsr.1 (by rw [e])
    by_cases hb0 : rb = 0
    · simp [Mem.slotVal, rotateRightT, giveParentT, toLeftOfT, toRightOfT, put_right, put_left, hnr, hbl, hpp,
        hqn, hqr, hb0, d1, Ne.symm d1, hn0, hr0]
    · have hqb : q ≠ rb := fun e => (hsb hb0).1 (by rw [e])
      simp [Mem.slotVal, rotateRightT, giveParentT, toLeftOfT, toRightOfT, put_right, put_left, hnr, hbl, hpp,
        hqn, hqr, hb0, hqb, d1, Ne.symm d1, hn0, hr0, hrb, Ne.symm hrb, hnb, Ne.symm hnb]
  | left q =>
    have hqn : q ≠ n := fun e => hsn.2 (by rw [e])
    have hqr : q ≠ r := fun e => hsr.2 (by rw [e])
    by_cases hb0 : rb = 0
    · simp [Mem.slotVal, rotateRightT, giveParentT, toLeftOfT, toRightOfT, put_right, put_left, hnr, hbl, hpp,
        hqn, hqr, hb0, d1, Ne.symm d1, hn0, hr0]
    · have hqb : q ≠ rb := fun e => (hsb hb0).2 (by rw [e])
      simp [Mem.slotVal, rotateRightT, giveParentT, toLeftOfT, toRightOfT, put_right, put_left, hnr, hbl, hpp,
        hqn, hqr, hb0, hqb, d1, Ne.symm d1, hn0, hr0, hrb, Ne.symm hrb, hnb, Ne.symm hnb]

/-- The nodes of `node (node c r _ _ b) n _ _ a` are pairwise distinct. -/
theorem nodup_node2' (a b c : Shape β) (n r : Nat)
    (h : ((c.ids ++ r :: b.ids) ++ n :: a.ids).Nodup) :
    n ≠ r ∧ n ∉ a.ids ∧ n ∉ b.ids ∧ n ∉ c.ids ∧ r ∉ a.ids ∧ r ∉ b.ids ∧ r ∉ c.ids ∧
    (∀ y ∈ a.ids, y ∉ b.ids ∧ y ∉ c.ids) ∧ (∀ y ∈ b.ids, y ∉ c.ids) ∧
    a.ids.Nodup ∧ b.ids.Nodup ∧ c.ids.Nodup := by
  rw [List.nodup_append] at h
  obtain ⟨h1, h2, h3⟩ := h
  rw [List.nodup_cons] at h2
  obtain ⟨hn, ha⟩ := h2
  rw [List.nodup_append] at h1
  obtain ⟨hc, h5, h6⟩ := h1
  rw [List.nodup_cons] at h5
  obtain ⟨hr, hb⟩ := h5
  have hd : ∀ y, y ∈ c.ids ++ r :: b.ids → y ∈ n :: a.ids → False := fun y h1 h2 => h3 h1 h2
  have hd6 : ∀ y, y ∈ c.ids → y ∈ r :: b.ids → False := fun y h1 h2 => h6 h1 h2
  refine ⟨fun e => hd r (by simp) (by simp [e]), hn, fun hc' => hd n (by simp [hc']) (by simp),
    fun hc' => hd n (by simp [hc']) (by simp), fun hc' => hd r (by simp) (by simp [hc']),
    hr, fun hc' => hd6 r hc' (by simp), ?_, ?_, ha, hb, hc⟩
  · intro y hy
    exact ⟨fun hc' => hd y (by simp [hc']) (by simp [hy]),
      fun hc' => hd y (by simp [hc']) (by simp [hy])⟩
  · intro y hy hc'
    exact hd6 y hc' (by simp [hy])

theorem rotateRight_rep (m : Mem α) (s : Slot) (p : Nat) (a b c : Shape β) (n r : Nat)
    (cn cr : Bool) (bn br : β)
    (h : Rep m s p (Shape.node (Shape.node c r cr br b) n cn bn a))
    (hnd : (Shape.node (Shape.node c r cr br b) n cn bn a).ids.Nodup)
    (hv : s.valid)
    (hs : ∀ y ∈ (Shape.node (Shape.node c r cr br b) n cn bn a).ids,
      s ≠ Slot.left y ∧ s ≠ Slot.right y) :
    ∃ m', rotateRight m n = some (m', r) ∧
      Rep m' s p (Shape.node c r cn br (Shape.node b n false bn a)) ∧
      Frames m m' (Shape.node (Shape.node c r cr br b) n cn bn a).ids s ∧
      (∀ y, (m'.nodes y).data = (m.nodes y).data) ∧ m'.next = m.next := by
  obtain ⟨h1, hn0, h3, h4, h5, h7, ha⟩ := h
  obtain ⟨h8, hr0, h10, h11, h12, hc, hb⟩ := h7
  simp only [Shape.ids] at hnd hs
  obtain ⟨d1, d2, d3, d4, d5, d6, d7, d8, d9, d10, d11, d12⟩ := nodup_node2' a b c n r hnd
  have hsn := hs n (by simp)
  have hsr := hs r (by simp)
  have hbl : (m.nodes r).right = b.rootId := Rep_slotVal m _ _ b hb
  have hnr : (m.nodes n).left = r := h8
  have hrb : r ≠ b.rootId := fun e => by
    by_cases hb0 : b.rootId = 0
    · exact hr0 (e.trans hb0)
    · exact d6 (e ▸ rootId_mem b hb0)
  have hnb : n ≠ b.rootId := fun e => by
    by_cases hb0 : b.rootId = 0
    · exact hn0 (e.trans hb0)
    · exact d3 (e ▸ rootId_mem b hb0)
  have hsb : b.rootId ≠ 0 → s ≠ Slot.right b.rootId ∧ s ≠ Slot.left b.rootId := fun hb0 =>
    (hs _ (by simp [rootId_mem b hb0])).symm
  have hsn' := hsn.symm
  have hsr' := hsr.symm
  have hpn : (m.nodes n).parent = p := h4
  obtain ⟨n1, n2, n3, n4, n5⟩ := rotateRightT_n m n r b.rootId s hn0 hr0 hnr hbl h5 d1 hrb hnb
    hsn' hsr' hsb
  obtain ⟨r1, r2, r3, r4, r5⟩ := rotateRightT_r m n r b.rootId s hn0 hr0 hnr hbl h5 d1 hrb hnb
    hsn' hsr' hsb
  have hoth := rotateRightT_other m n r b.rootId s hn0 hr0 hnr hbl h5 d1 hrb hnb hsn' hsr' hsb
  have hslot := rotateRightT_slot m n r b.rootId s hn0 hr0 hnr hbl h5 d1 hrb hnb hsn' hsr' hsb
  have hfr : Frames m (rotateRightT m n) (Shape.node (Shape.node c r cr br b) n cn bn a).ids s := by
    have hout : ∀ y, y ∉ (Shape.node (Shape.node c r cr br b) n cn bn a).ids → y ≠ n ∧ y ≠ r ∧ (b.rootId ≠ 0 → y ≠ b.rootId) := by
      intro y hy
      simp only [Shape.ids, List.mem_append, List.mem_cons, not_or] at hy
      refine ⟨by tauto, by tauto, fun hb0 e => ?_⟩
      have := rootId_mem b hb0
      rw [← e] at this
      tauto
    refine ⟨?_, ?_, ?_, ?_, ?_, ?_⟩
    · intro y hy
      have hy := hout y hy
      exact (hoth y hy.1 hy.2.1 hy.2.2).1
    · intro y hy
      have hy := hout y hy
      exact (hoth y hy.1 hy.2.1 hy.2.2).2.1
    · intro y hy
      have hy := hout y hy
      exact (hoth y hy.1 hy.2.1 hy.2.2).2.2.1
    · intro y hy hh
      have hy := hout y hy
      exact (hoth y hy.1 hy.2.1 hy.2.2).2.2.2.2 hh
    · intro y hy hh
      have hy := hout y hy
      exact (hoth y hy.1 hy.2.1 hy.2.2).2.2.2.1 hh
    · intro t ht
      exact rotateRightT_roots m n t s h5 ht
  refine ⟨rotateRightT m n, ?_, ?_, hfr, fun y => rotateRightT_data m n y, rotateRightT_next m n⟩
  · have := rotateRight_eq m n s hn0 (by rw [hnr]; exact hr0) (by rw [hnr]; exact d1) h5 hv
    rw [hnr] at this
    exact this
  · have hA : Rep (rotateRightT m n) (Slot.right n) n a := by
      refine Rep_congr m _ a _ _ (fun y hy => ?_) ?_ ha
      · have hyn : y ≠ n := fun e => d2 (e ▸ hy)
        have hyr : y ≠ r := fun e => d5 (e ▸ hy)
        have hyb : y ≠ b.rootId := fun e => by
          by_cases hb0 : b.rootId = 0
          · exact Rep_ids_ne_zero m a _ _ ha y hy (e.trans hb0)
          · exact (d8 y hy).1 (e ▸ rootId_mem b hb0)
        have hsy := hs y (by simp [hy])
        have := hoth y hyn hyr (fun _ => hyb)
        first
          | exact ⟨this.1, this.2.2.2.1 hsy.1, this.2.2.2.2 hsy.2, this.2.1, this.2.2.1⟩
          | exact ⟨this.1, this.2.2.2.2 hsy.1, this.2.2.2.1 hsy.2, this.2.1, this.2.2.1⟩
      · simp only [Mem.slotVal]; exact n2
    have hC : Rep (rotateRightT m n) (Slot.left r) r c := by
      refine Rep_congr m _ c _ _ (fun y hy => ?_) ?_ hc
      · have hyn : y ≠ n := fun e => d4 (e ▸ hy)
        have hyr : y ≠ r := fun e => d7 (e ▸ hy)
        have hyb : y ≠ b.rootId := fun e => by
          by_cases hb0 : b.rootId = 0
          · exact Rep_ids_ne_zero m c _ _ hc y hy (e.trans hb0)
          · exact d9 _ (rootId_mem b hb0) (e ▸ hy)
        have hsy := hs y (by simp [hy])
        have := hoth y hyn hyr (fun _ => hyb)
        first
          | exact ⟨this.1, this.2.2.2.1 hsy.1, this.2.2.2.2 hsy.2, this.2.1, this.2.2.1⟩
          | exact ⟨this.1, this.2.2.2.2 hsy.1, this.2.2.2.1 hsy.2, this.2.1, this.2.2.1⟩
      · simp only [Mem.slotVal]; exact r3
    have hB : Rep (rotateRightT m n) (Slot.left n) n b := by
      refine Rep_move m _ b (Slot.right r) (Slot.left n) r n hb (fun y hy => ?_) d11 ?_ ?_
      · have hyn : y ≠ n := fun e => d3 (e ▸ hy)
        have hyr : y ≠ r := fun e => d6 (e ▸ hy)
        have hsy := hs y (by simp [hy])
        by_cases hyb : y = b.rootId
        · have hb0 : b.rootId ≠ 0 := fun e => Rep_ids_ne_zero m b _ _ hb y hy (hyb.trans e)
          obtain ⟨b1, b2, b3, b4, b5⟩ := rotateRightT_b m n r b.rootId s hn0 hr0 hnr hbl h5 d1
            hrb hnb hsn' hsr' hsb hb0
          rw [hyb]
          exact ⟨b1, b3, b2, fun hne => absurd rfl hne⟩
        · have := hoth y hyn hyr (fun _ => hyb)
          exact ⟨this.1, this.2.2.2.2 hsy.1, this.2.2.2.1 hsy.2, fun _ => ⟨this.2.1, this.2.2.1⟩⟩
      · intro hb0
        obtain ⟨b1, b2, b3, b4, b5⟩ := rotateRightT_b m n r b.rootId s hn0 hr0 hnr hbl h5 d1
          hrb hnb hsn' hsr' hsb hb0
        exact ⟨b4, b5⟩
      · simp only [Mem.slotVal]; exact n3
    exact ⟨hslot, hr0, by rw [r1]; exact h3, by rw [r4]; exact hpn, r5, hC,
      ⟨by simp only [Mem.slotVal]; exact r2, hn0, n1, n4, n5, hB, hA⟩⟩

end RB

namespace RB

variable {α β : Type}

theorem isRed_rootId (m : Mem α) (s : Slot) (p : Nat) (t : Shape β) (h : Rep m s p t) :
    isRed m t.rootId = t.isRed := by
  cases t with
  | nil => simp [isRed, Shape.rootId, Shape.isRed]
  | node l x c b r =>
    obtain ⟨_, hx, hc, _⟩ := h
    simp [isRed, Shape.rootId, Shape.isRed, hx, hc]

theorem isRed_ne_nil (t : Shape β) (h : t.isRed = true) : t ≠ Shape.nil := by
  intro e; rw [e] at h; cases h

theorem Rep_left (m : Mem α) (s : Slot) (p : Nat) (l r : Shape β) (x : Nat) (c : Bool) (b : β)
    (h : Rep m s p (Shape.node l x c b r)) : (m.nodes x).left = l.rootId :=
  Rep_slotVal m _ _ l h.2.2.2.2.2.1

theorem Rep_right (m : Mem α) (s : Slot) (p : Nat) (l r : Shape β) (x : Nat) (c : Bool) (b : β)
    (h : Rep m s p (Shape.node l x c b r)) : (m.nodes x).right = r.rootId :=
  Rep_slotVal m _ _ r h.2.2.2.2.2.2

/-- An operation on the left child of a represented node. -/
theorem Rep_fill_left (m m' : Mem α) (S : List Nat) (s : Slot) (p : Nat)
    (l l' r : Shape β) (x : Nat) (c : Bool) (b : β)
    (h : Rep m s p (Shape.node l x c b r))
    (hf : Frames m m' S (Slot.left x)) (hl : Rep m' (Slot.left x) x l')
    (hx : x ∉ S) (hr : ∀ y ∈ r.ids, y ∉ S) (hxr : x ∉ r.ids)
    (hs : s ≠ Slot.left x) (hsS : ∀ y, s = Slot.left y ∨ s = Slot.right y → y ∉ S) :
    Rep m' s p (Shape.node l' x c b r) := by
  obtain ⟨h1, h2, h3, h4, h5, h6, h7⟩ := h
  refine ⟨?_, h2, by rw [hf.black x hx]; exact h3, by rw [hf.parent x hx]; exact h4,
    by rw [hf.pp x hx]; exact h5, hl, ?_⟩
  · rw [hf.slotVal s (Ne.symm hs) hsS]; exact h1
  · refine Rep_frames m m' S _ hf r _ _ (fun y hy => ⟨hr y hy, ?_, ?_⟩) ?_ h7
    · intro e; injection e with e; exact hxr (e ▸ hy)
    · intro e; cases e
    · exact hf.right x hx (fun e => by cases e)

/-- An operation on the right child of a represented node. -/
theorem Rep_fill_right (m m' : Mem α) (S : List Nat) (s : Slot) (p : Nat)
    (l r r' : Shape β) (x : Nat) (c : Bool) (b : β)
    (h : Rep m s p (Shape.node l x c b r))
    (hf : Frames m m' S (Slot.right x)) (hr : Rep m' (Slot.right x) x r')
    (hx : x ∉ S) (hl : ∀ y ∈ l.ids, y ∉ S) (hxl : x ∉ l.ids)
    (hs : s ≠ Slot.right x) (hsS : ∀ y, s = Slot.left y ∨ s = Slot.right y → y ∉ S) :
    Rep m' s p (Shape.node l x c b r') := by
  obtain ⟨h1, h2, h3, h4, h5, h6, h7⟩ := h
  refine ⟨?_, h2, by rw [hf.black x hx]; exact h3, by rw [hf.parent x hx]; exact h4,
    by rw [hf.pp x hx]; exact h5, ?_, hr⟩
  · rw [hf.slotVal s (Ne.symm hs) hsS]; exact h1
  · refine Rep_frames m m' S _ hf l _ _ (fun y hy => ⟨hl y hy, ?_, ?_⟩) ?_ h6
    · intro e; cases e
    · intro e; injection e with e; exact hxl (e ▸ hy)
    · exact hf.left x hx (fun e => by cases e)

theorem flipT_other (m : Mem α) (n y : Nat) (hn : y ≠ n) (hl : y ≠ (m.nodes n).left)
    (hr : y ≠ (m.nodes n).right) (hln : n ≠ (m.nodes n).left) :
    (flipT m n).nodes y = m.nodes y := by
  simp [flipT, upd_nodes, hn, hl, hr, hln]

theorem upd_left_same (m : Mem α) (n y : Nat) (f : node α → node α)
    (hf : ∀ x, (f x).left = x.left) : ((m.upd n f).nodes y).left = (m.nodes y).left := by
  rw [upd_nodes]
  split
  · rename_i h; subst h; exact hf _
  · rfl

theorem upd_right_same (m : Mem α) (n y : Nat) (f : node α → node α)
    (hf : ∀ x, (f x).right = x.right) : ((m.upd n f).nodes y).right = (m.nodes y).right := by
  rw [upd_nodes]
  split
  · rename_i h; subst h; exact hf _
  · rfl

theorem upd_parent_same (m : Mem α) (n y : Nat) (f : node α → node α)
    (hf : ∀ x, (f x).parent = x.parent) :
    ((m.upd n f).nodes y).parent = (m.nodes y).parent := by
  rw [upd_nodes]
  split
  · rename_i h; subst h; exact hf _
  · rfl

theorem upd_pp_same (m : Mem α) (n y : Nat) (f : node α → node α)
    (hf : ∀ x, (f x).pp = x.pp) : ((m.upd n f).nodes y).pp = (m.nodes y).pp := by
  rw [upd_nodes]
  split
  · rename_i h; subst h; exact hf _
  · rfl

theorem upd_black_same (m : Mem α) (n y : Nat) (f : node α → node α)
    (hf : ∀ x, (f x).black = x.black) : ((m.upd n f).nodes y).black = (m.nodes y).black := by
  rw [upd_nodes]
  split
  · rename_i h; subst h; exact hf _
  · rfl

theorem flipT_tree (m : Mem α) (n y : Nat) :
    ((flipT m n).nodes y).left = (m.nodes y).left ∧
    ((flipT m n).nodes y).right = (m.nodes y).right ∧
    ((flipT m n).nodes y).parent = (m.nodes y).parent ∧
    ((flipT m n).nodes y).pp = (m.nodes y).pp := by
  unfold flipT
  simp only [upd_left_same, upd_right_same, upd_parent_same, upd_pp_same, implies_true,
    and_self]

theorem flipT_black (m : Mem α) (n l r : Nat) (hl : (m.nodes n).left = l)
    (hr : (m.nodes n).right = r) (hnl : n ≠ l) (hnr : n ≠ r) (hlr : l ≠ r) :
    ((flipT m n).nodes n).black = !(m.nodes n).black ∧
    ((flipT m n).nodes l).black = !(m.nodes l).black ∧
    ((flipT m n).nodes r).black = !(m.nodes r).black := by
  simp [flipT, upd_nodes, hl, hr, hnl, hnr, hlr, Ne.symm hnl, Ne.symm hnr, Ne.symm hlr]

theorem flip_rep (m : Mem α) (s : Slot) (p : Nat) (a b c d : Shape β) (n l r : Nat)
    (cn cl cr : Bool) (bn bl br : β)
    (h : Rep m s p (Shape.node (Shape.node a l cl bl b) n cn bn (Shape.node c r cr br d)))
    (hnd : (Shape.node (Shape.node a l cl bl b) n cn bn (Shape.node c r cr br d)).ids.Nodup) :
    ∃ m', flip m n = some m' ∧
      Rep m' s p
        (Shape.node (Shape.node a l (!cl) bl b) n (!cn) bn (Shape.node c r (!cr) br d)) ∧
      Frames m m' [n, l, r] s ∧ m'.slotVal s = m.slotVal s ∧
      (∀ y, (m'.nodes y).data = (m.nodes y).data) ∧ m'.next = m.next := by
  obtain ⟨h1, hn0, h3, h4, h5, hL, hR⟩ := h
  obtain ⟨l1, hl0, l3, l4, l5, ha, hb⟩ := hL
  obtain ⟨r1, hr0, r3, r4, r5, hc, hd⟩ := hR
  have hnl : (m.nodes n).left = l := l1
  have hnr : (m.nodes n).right = r := r1
  simp only [Shape.ids] at hnd
  have hmem : ∀ y, y ∈ (a.ids ++ l :: b.ids) ++ n :: (c.ids ++ r :: d.ids) ↔
      y ∈ a.ids ∨ y = l ∨ y ∈ b.ids ∨ y = n ∨ y ∈ c.ids ∨ y = r ∨ y ∈ d.ids := by
    intro y; simp only [List.mem_append, List.mem_cons]; tauto
  rw [List.nodup_append] at hnd
  obtain ⟨hndL, hndR, hdis⟩ := hnd
  rw [List.nodup_cons] at hndR
  obtain ⟨hnR, hndR'⟩ := hndR
  rw [List.nodup_append] at hndL hndR'
  obtain ⟨hnda, hndlb, hdisa⟩ := hndL
  obtain ⟨hndc, hndrd, hdisc⟩ := hndR'
  rw [List.nodup_cons] at hndlb hndrd
  have hd1 : ∀ y, y ∈ a.ids ++ l :: b.ids → y ∈ n :: (c.ids ++ r :: d.ids) → False :=
    fun y h1 h2 => hdis h1 h2
  have hd2 : ∀ y, y ∈ a.ids → y ∈ l :: b.ids → False := fun y h1 h2 => hdisa h1 h2
  have hd3 : ∀ y, y ∈ c.ids → y ∈ r :: d.ids → False := fun y h1 h2 => hdisc h1 h2
  have dnl : n ≠ l := fun e => hd1 l (by simp) (by simp [e])
  have dnr : n ≠ r := fun e => hnR (by simp [e])
  have dlr : l ≠ r := fun e => hd1 l (by simp) (by simp [e])
  obtain ⟨k1, k2, k3⟩ := flipT_black m n l r hnl hnr dnl dnr dlr
  have hsame : ∀ y, y ≠ n → y ≠ l → y ≠ r → (flipT m n).nodes y = m.nodes y := by
    intro y e1 e2 e3
    exact flipT_other m n y e1 (by rw [hnl]; exact e2) (by rw [hnr]; exact e3)
      (by rw [hnl]; exact dnl)
  have hslot : ∀ s', (flipT m n).slotVal s' = m.slotVal s' := by
    intro s'
    cases s' with
    | root t => simp [Mem.slotVal, flipT_roots]
    | left q => exact (flipT_tree m n q).1
    | right q => exact (flipT_tree m n q).2.1
  have hsub : ∀ (t : Shape β) (s' : Slot) (p' : Nat),
      (∀ y ∈ t.ids, y ≠ n ∧ y ≠ l ∧ y ≠ r) → Rep m s' p' t → Rep (flipT m n) s' p' t := by
    intro t s' p' hy ht
    refine Rep_congr m _ t s' p' (fun y hyt => ?_) (hslot s') ht
    obtain ⟨e1, e2, e3⟩ := hy y hyt
    rw [hsame y e1 e2 e3]
    exact ⟨rfl, rfl, rfl, rfl, rfl⟩
  refine ⟨flipT m n, ?_, ?_, ?_, hslot s, fun y => flipT_data m n y, flipT_next m n⟩
  · exact flip_eq m n hn0 (by rw [hnl]; exact hl0) (by rw [hnr]; exact hr0)
      (by rw [hnl]; exact dnl)
  · have tn := flipT_tree m n n
    have tl := flipT_tree m n l
    have tr := flipT_tree m n r
    refine ⟨by rw [hslot]; exact h1, hn0, by rw [k1, h3], by rw [tn.2.2.1]; exact h4,
      by rw [tn.2.2.2]; exact h5, ?_, ?_⟩
    · refine ⟨by rw [hslot]; exact l1, hl0, by rw [k2, l3], by rw [tl.2.2.1]; exact l4,
        by rw [tl.2.2.2]; exact l5, ?_, ?_⟩
      · refine hsub a _ _ (fun y hy => ⟨?_, ?_, ?_⟩) ha
        · intro e; exact hd1 y (by simp [hy]) (by simp [e])
        · intro e; exact hd2 y hy (by simp [e])
        · intro e; exact hd1 y (by simp [hy]) (by simp [e])
      · refine hsub b _ _ (fun y hy => ⟨?_, ?_, ?_⟩) hb
        · intro e; exact hd1 y (by simp [hy]) (by simp [e])
        · intro e; exact hndlb.1 (e ▸ hy)
        · intro e; exact hd1 y (by simp [hy]) (by simp [e])
    · refine ⟨by rw [hslot]; exact r1, hr0, by rw [k3, r3], by rw [tr.2.2.1]; exact r4,
        by rw [tr.2.2.2]; exact r5, ?_, ?_⟩
      · refine hsub c _ _ (fun y hy => ⟨?_, ?_, ?_⟩) hc
        · intro e; exact hnR (by simp [← e, hy])
        · intro e; exact hd1 l (by simp) (by simp [← e, hy])
        · intro e; exact hd3 y hy (by simp [e])
      · refine hsub d _ _ (fun y hy => ⟨?_, ?_, ?_⟩) hd
        · intro e; exact hnR (by simp [← e, hy])
        · intro e; exact hd1 l (by simp) (by simp [← e, hy])
        · intro e; exact hndrd.1 (e ▸ hy)
  · refine ⟨?_, ?_, ?_, ?_, ?_, ?_⟩
    · intro y hy
      simp only [List.mem_cons, List.mem_singleton, not_or, List.not_mem_nil, or_false] at hy
      rw [hsame y hy.1 hy.2.1 hy.2.2]
    · intro y _; exact (flipT_tree m n y).2.2.1
    · intro y _; exact (flipT_tree m n y).2.2.2
    · intro y _ _; exact (flipT_tree m n y).1
    · intro y _ _; exact (flipT_tree m n y).2.1
    · intro t _; rw [flipT_roots]

end RB

namespace RB

variable {α β : Type}

theorem holeSlot_valid (m : Mem α) (t0 : Nat) (ctx : List (Frame β)) (h : CtxRep m t0 ctx) :
    (holeSlot t0 ctx).valid := by
  cases ctx with
  | nil => trivial
  | cons f rest =>
    cases f with
    | L x c b r => exact h.2.1
    | R l x c b => exact h.2.1

theorem holeSlot_not_in (t0 : Nat) (ctx : List (Frame β)) (y : Nat) (hy : y ∉ ctxIds ctx) :
    holeSlot t0 ctx ≠ Slot.left y ∧ holeSlot t0 ctx ≠ Slot.right y := by
  cases ctx with
  | nil => exact ⟨(fun e => by cases e), (fun e => by cases e)⟩
  | cons f rest =>
    cases f with
    | L x c b r =>
      refine ⟨fun e => ?_, fun e => by cases e⟩
      injection e with e
      exact hy (by simp [ctxIds, Frame.ids, e])
    | R l x c b =>
      refine ⟨(fun e => by cases e), fun e => ?_⟩
      injection e with e
      exact hy (by simp [ctxIds, Frame.ids, e])

theorem walkUpA_toList (stepA : Shape β → Shape β) (h : ∀ t, (stepA t).toList = t.toList) :
    ∀ (ctx : List (Frame β)) (t : Shape β),
      (walkUpA stepA ctx t).toList = (plug ctx t).toList := by
  intro ctx
  induction ctx with
  | nil => intro t; simp [walkUpA, plug, h]
  | cons f rest ih =>
    intro t
    rw [walkUpA, ih, plug_cons, plug_toList, plug_toList]
    cases f <;> simp [Frame.fill, Shape.toList, h]

theorem toList_ne_nil (t : Shape β) (h : t ≠ Shape.nil) : t.toList ≠ [] := by
  cases t with
  | nil => exact absurd rfl h
  | node l x c b r => simp [Shape.toList]

theorem ne_nil_of_toList (t t' : Shape β) (h : t'.toList = t.toList) (ht : t ≠ Shape.nil) :
    t' ≠ Shape.nil := by
  intro e
  rw [e] at h
  exact toList_ne_nil t ht h.symm

theorem ids_of_toList (t t' : Shape β) (h : t'.toList = t.toList) : t'.ids = t.ids := by
  rw [ids_eq_map_toList, ids_eq_map_toList, h]

theorem fill_rootId (f : Frame β) (t : Shape β) : (f.fill t).rootId = holeParent (f :: ([] : List (Frame β))) := by
  cases f <;> rfl

theorem fill_ne_nil (f : Frame β) (t : Shape β) : f.fill t ≠ Shape.nil := by
  cases f <;> simp [Frame.fill]

theorem holeParent_cons (f : Frame β) (rest : List (Frame β)) (t : Shape β) :
    holeParent (f :: rest) = (f.fill t).rootId := by
  cases f <;> rfl

/-- The loop `walkUp` from the root of the subtree in the hole of a path up to
the root of the tree refines `walkUpA`. -/
theorem walkUp_rep (step : Mem α → Nat → Option (Mem α × Nat)) (stepA : Shape β → Shape β)
    (hstep : StepOK step stepA) (t0 : Nat) :
    ∀ (ctx : List (Frame β)) (t : Shape β) (m : Mem α) (fuel : Nat), t ≠ Shape.nil →
      Rep m (Slot.root t0) 0 (plug ctx t) → (plug ctx t).ids.Nodup → ctx.length + 2 ≤ fuel →
      ∃ m', walkUp step fuel m t.rootId = some m' ∧
        Rep m' (Slot.root t0) 0 (walkUpA stepA ctx t) ∧
        Frames m m' (plug ctx t).ids (Slot.root t0) ∧
        (∀ y, (m'.nodes y).data = (m.nodes y).data) ∧ m'.next = m.next := by
  intro ctx
  induction ctx with
  | nil =>
    intro t m fuel ht hrep hnd hfuel
    simp only [plug] at hrep hnd
    obtain ⟨m1, h1, ⟨h2, h3, h4, h5, h6⟩⟩ := hstep m (Slot.root t0) 0 t ht ⟨hrep, hnd, trivial,
      (fun y _ => ⟨(fun e => by cases e), (fun e => by cases e)⟩)⟩
    have hne := ne_nil_of_toList t (stepA t) h4 ht
    have hroot : (stepA t).rootId ≠ 0 := by
      cases hst : stepA t with
      | nil => exact absurd hst hne
      | node l x c b r => rw [hst] at h2; exact h2.2.1
    have hpar : (m1.nodes (stepA t).rootId).parent = 0 := by
      cases hst : stepA t with
      | nil => exact absurd hst hne
      | node l x c b r => rw [hst] at h2; exact h2.2.2.2.1
    have ht0 : t.rootId ≠ 0 := by
      cases t with
      | nil => exact absurd rfl ht
      | node l x c b r => exact hrep.2.1
    obtain ⟨f1, rfl⟩ : ∃ f1, fuel = f1 + 1 := ⟨fuel - 1, by omega⟩
    obtain ⟨f2, rfl⟩ : ∃ f2, f1 = f2 + 1 := ⟨f1 - 1, by simp at hfuel; omega⟩
    refine ⟨m1, ?_, h2, h3, h5, h6⟩
    unfold walkUp
    rw [if_neg ht0, h1]
    simp only [parentOf, rd_eq _ _ hroot, Option.map_some', hpar]
    unfold walkUp
    simp
  | cons f rest ih =>
    intro t m fuel ht hrep hnd hfuel
    have hdec := (Rep_plug m t0 (f :: rest) t).mp hrep
    obtain ⟨hctx, hsub⟩ := hdec
    obtain ⟨nd1, nd2, nd3⟩ := (plug_nodup (f :: rest) t).mp hnd
    have hv := holeSlot_valid m t0 (f :: rest) hctx
    obtain ⟨m1, h1, ⟨h2, h3, h4, h5, h6⟩⟩ := hstep m _ _ t ht ⟨hsub, nd1, hv,
      (fun y hy => holeSlot_not_in t0 (f :: rest) y (nd3 y hy))⟩
    have hne := ne_nil_of_toList t (stepA t) h4 ht
    have hids := ids_of_toList t (stepA t) h4
    have hroot : (stepA t).rootId ≠ 0 := by
      cases hst : stepA t with
      | nil => exact absurd hst hne
      | node l x c b r => rw [hst] at h2; exact h2.2.1
    have hpar : (m1.nodes (stepA t).rootId).parent = holeParent (f :: rest) := by
      cases hst : stepA t with
      | nil => exact absurd hst hne
      | node l x c b r => rw [hst] at h2; exact h2.2.2.2.1
    have ht0 : t.rootId ≠ 0 := by
      cases t with
      | nil => exact absurd rfl ht
      | node l x c b r => exact hsub.2.1
    have hctx1 : CtxRep m1 t0 (f :: rest) :=
      CtxRep_frames m m1 t.ids t0 (f :: rest) h3 (fun y hy hc => nd3 y hc hy) nd2 hctx
    have hrep1 : Rep m1 (Slot.root t0) 0 (plug rest (f.fill (stepA t))) := by
      rw [← plug_cons]
      exact (Rep_plug m1 t0 (f :: rest) (stepA t)).mpr ⟨hctx1, h2⟩
    have hnd1 : (plug rest (f.fill (stepA t))).ids.Nodup := by
      rw [← plug_cons, plug_ids, hids, ← plug_ids]
      exact hnd
    obtain ⟨f1, rfl⟩ : ∃ f1, fuel = f1 + 1 := ⟨fuel - 1, by omega⟩
    obtain ⟨m2, g1, g2, g3, g4, g5⟩ := ih (f.fill (stepA t)) m1 f1 (fill_ne_nil f _) hrep1 hnd1
      (by simp at hfuel ⊢; omega)
    have hsame : ∀ y, y ∈ (plug rest (f.fill (stepA t))).ids ↔ y ∈ (plug (f :: rest) t).ids := by
      intro y
      rw [← plug_cons, plug_ids, hids, ← plug_ids]
    refine ⟨m2, ?_, g2, ?_, fun y => (g4 y).trans (h5 y), g5.trans h6⟩
    · unfold walkUp
      rw [if_neg ht0, h1]
      simp only [parentOf, rd_eq _ _ hroot, Option.map_some', hpar]
      rw [holeParent_cons f rest (stepA t)]
      exact g1
    · have hA : Frames m m1 (plug (f :: rest) t).ids (Slot.root t0) := by
        refine (h3.mono (fun y hy => (mem_plug_ids _ _ y).mpr (Or.inl hy))).rehole ?_
        rcases holeSlot_cases t0 (f :: rest) with e | ⟨y, hy, e⟩
        · exact Or.inl e
        · exact Or.inr ⟨y, (mem_plug_ids _ _ y).mpr (Or.inr hy), e⟩
      exact hA.comp (g3.mono (fun y hy => (hsame y).mp hy))

end RB

namespace RB

variable {α β : Type}

theorem Refines.skip (m : Mem α) (t : Shape β) (s : Slot) (p : Nat) (h : Rep m s p t) :
    Refines m t m t s p :=
  ⟨h, Frames.same m _ _, rfl, fun _ => rfl, rfl⟩

theorem Refines.seq {m m1 m2 : Mem α} {t t1 t2 : Shape β} {s : Slot} {p : Nat}
    (h1 : Refines m t m1 t1 s p) (h2 : Refines m1 t1 m2 t2 s p) : Refines m t m2 t2 s p := by
  have hids : t1.ids = t.ids := ids_of_toList t t1 h1.toList
  refine ⟨h2.rep, h1.frames.comp ?_, h2.toList.trans h1.toList,
    fun y => (h2.data y).trans (h1.data y), h2.next.trans h1.next⟩
  rw [← hids]
  exact h2.frames

theorem Refines.pre {m m' : Mem α} {t t' : Shape β} {s : Slot} {p : Nat}
    (h : Refines m t m' t' s p) (hp : Pre m t s p) : Pre m' t' s p := by
  have hids : t'.ids = t.ids := ids_of_toList t t' h.toList
  exact ⟨h.rep, by rw [hids]; exact hp.nodup, hp.valid, by rw [hids]; exact hp.slot⟩

theorem rotateLeft_ok (m : Mem α) (s : Slot) (p : Nat) (a b c : Shape β) (n r : Nat)
    (cn cr : Bool) (bn br : β)
    (hp : Pre m (Shape.node a n cn bn (Shape.node b r cr br c)) s p) :
    ∃ m', rotateLeft m n = some (m', r) ∧
      Refines m (Shape.node a n cn bn (Shape.node b r cr br c)) m'
        (Shape.node (Shape.node a n false bn b) r cn br c) s p := by
  obtain ⟨m', h1, h2, h3, h4, h5⟩ := rotateLeft_rep m s p a b c n r cn cr bn br hp.rep hp.nodup
    hp.valid hp.slot
  exact ⟨m', h1, h2, h3, by simp [Shape.toList], h4, h5⟩

theorem rotateRight_ok (m : Mem α) (s : Slot) (p : Nat) (a b c : Shape β) (n r : Nat)
    (cn cr : Bool) (bn br : β)
    (hp : Pre m (Shape.node (Shape.node c r cr br b) n cn bn a) s p) :
    ∃ m', rotateRight m n = some (m', r) ∧
      Refines m (Shape.node (Shape.node c r cr br b) n cn bn a) m'
        (Shape.node c r cn br (Shape.node b n false bn a)) s p := by
  obtain ⟨m', h1, h2, h3, h4, h5⟩ := rotateRight_rep m s p a b c n r cn cr bn br hp.rep hp.nodup
    hp.valid hp.slot
  exact ⟨m', h1, h2, h3, by simp [Shape.toList], h4, h5⟩

theorem flip_ok (m : Mem α) (s : Slot) (p : Nat) (a b c d : Shape β) (n l r : Nat)
    (cn cl cr : Bool) (bn bl br : β)
    (hp : Pre m (Shape.node (Shape.node a l cl bl b) n cn bn (Shape.node c r cr br d)) s p) :
    ∃ m', flip m n = some m' ∧
      Refines m (Shape.node (Shape.node a l cl bl b) n cn bn (Shape.node c r cr br d)) m'
        (Shape.node (Shape.node a l (!cl) bl b) n (!cn) bn (Shape.node c r (!cr) br d)) s p := by
  obtain ⟨m', h1, h2, h3, _, h4, h5⟩ := flip_rep m s p a b c d n l r cn cl cr bn bl br hp.rep
    hp.nodup
  refine ⟨m', h1, h2, h3.mono (fun y hy => ?_), by simp [Shape.toList], h4, h5⟩
  simp only [List.mem_cons, List.mem_singleton, List.not_mem_nil, or_false] at hy
  rcases hy with e | e | e <;> simp [Shape.ids, e]

/-- The preconditions of the left child. -/
theorem Pre.left {m : Mem α} {l r : Shape β} {x : Nat} {c : Bool} {b : β} {s : Slot} {p : Nat}
    (hp : Pre m (Shape.node l x c b r) s p) : Pre m l (Slot.left x) x := by
  have hnd := hp.nodup
  simp only [Shape.ids] at hnd
  rw [List.nodup_append] at hnd
  refine ⟨hp.rep.2.2.2.2.2.1, hnd.1, hp.rep.2.1, fun y hy => ⟨fun e => ?_, fun e => by cases e⟩⟩
  injection e with e
  exact hnd.2.2 hy (by simp [e])

/-- The preconditions of the right child. -/
theorem Pre.right {m : Mem α} {l r : Shape β} {x : Nat} {c : Bool} {b : β} {s : Slot} {p : Nat}
    (hp : Pre m (Shape.node l x c b r) s p) : Pre m r (Slot.right x) x := by
  have hnd := hp.nodup
  simp only [Shape.ids] at hnd
  rw [List.nodup_append, List.nodup_cons] at hnd
  refine ⟨hp.rep.2.2.2.2.2.2, hnd.2.1.2, hp.rep.2.1,
    fun y hy => ⟨(fun e => by cases e), fun e => ?_⟩⟩
  injection e with e
  exact hnd.2.1.1 (e ▸ hy)

/-- An operation on the left subtree, seen from the node. -/
theorem Refines.lift_left {m m' : Mem α} {l l' r : Shape β} {x : Nat} {c : Bool} {b : β}
    {s : Slot} {p : Nat} (hp : Pre m (Shape.node l x c b r) s p)
    (h : Refines m l m' l' (Slot.left x) x) :
    Refines m (Shape.node l x c b r) m' (Shape.node l' x c b r) s p := by
  have hnd := hp.nodup
  simp only [Shape.ids] at hnd
  rw [List.nodup_append, List.nodup_cons] at hnd
  obtain ⟨hl, ⟨hxr, hr⟩, hdis⟩ := hnd
  have hd : ∀ y, y ∈ l.ids → y ∈ x :: r.ids → False := fun y h1 h2 => hdis h1 h2
  have hx : x ∉ l.ids := fun hc => hd x hc (by simp)
  have hsx := hp.slot x (by simp [Shape.ids])
  refine ⟨?_, ?_, by simp [Shape.toList, h.toList], h.data, h.next⟩
  · exact Rep_fill_left m m' l.ids s p l l' r x c b hp.rep h.frames h.rep hx
      (fun y hy hc => hd y hc (by simp [hy])) hxr hsx.1
      (fun y hy hc => by
        have := hp.slot y (by simp [Shape.ids, hc])
        rcases hy with e | e
        · exact this.1 e
        · exact this.2 e)
  · refine (h.frames.mono (fun y hy => by simp [Shape.ids, hy])).rehole (Or.inr ⟨x, ?_, Or.inl rfl⟩)
    simp [Shape.ids]

/-- An operation on the right subtree, seen from the node. -/
theorem Refines.lift_right {m m' : Mem α} {l r r' : Shape β} {x : Nat} {c : Bool} {b : β}
    {s : Slot} {p : Nat} (hp : Pre m (Shape.node l x c b r) s p)
    (h : Refines m r m' r' (Slot.right x) x) :
    Refines m (Shape.node l x c b r) m' (Shape.node l x c b r') s p := by
  have hnd := hp.nodup
  simp only [Shape.ids] at hnd
  rw [List.nodup_append, List.nodup_cons] at hnd
  obtain ⟨hl, ⟨hxr, hr⟩, hdis⟩ := hnd
  have hd : ∀ y, y ∈ l.ids → y ∈ x :: r.ids → False := fun y h1 h2 => hdis h1 h2
  have hx : x ∉ l.ids := fun hc => hd x hc (by simp)
  have hsx := hp.slot x (by simp [Shape.ids])
  refine ⟨?_, ?_, by simp [Shape.toList, h.toList], h.data, h.next⟩
  · exact Rep_fill_right m m' r.ids s p l r r' x c b hp.rep h.frames h.rep hxr
      (fun y hy hc => hd y hy (by simp [hc])) hx hsx.2
      (fun y hy hc => by
        have := hp.slot y (by simp [Shape.ids, hc])
        rcases hy with e | e
        · exact this.1 e
        · exact this.2 e)
  · refine (h.frames.mono (fun y hy => by simp [Shape.ids, hy])).rehole (Or.inr ⟨x, ?_, Or.inr rfl⟩)
    simp [Shape.ids]

end RB

namespace RB

variable {α β : Type}

theorem Pre.root_ne {m : Mem α} {t : Shape β} {s : Slot} {p : Nat} (hp : Pre m t s p)
    (ht : t ≠ Shape.nil) : t.rootId ≠ 0 := by
  cases t with
  | nil => exact absurd rfl ht
  | node l x c b r => exact hp.rep.2.1

theorem Pre.leftOf {m : Mem α} {t : Shape β} {s : Slot} {p : Nat} (hp : Pre m t s p)
    (ht : t ≠ Shape.nil) : leftOf m t.rootId = some t.left.rootId := by
  cases t with
  | nil => exact absurd rfl ht
  | node l x c b r =>
    show RB.leftOf m x = some l.rootId
    simp only [RB.leftOf, rd_eq m x hp.rep.2.1, Option.map_some']
    rw [Rep_left m s p l r x c b hp.rep]

theorem Pre.rightOf {m : Mem α} {t : Shape β} {s : Slot} {p : Nat} (hp : Pre m t s p)
    (ht : t ≠ Shape.nil) : rightOf m t.rootId = some t.right.rootId := by
  cases t with
  | nil => exact absurd rfl ht
  | node l x c b r =>
    show RB.rightOf m x = some r.rootId
    simp only [RB.rightOf, rd_eq m x hp.rep.2.1, Option.map_some']
    rw [Rep_right m s p l r x c b hp.rep]

theorem Pre.isRed {m : Mem α} {t : Shape β} {s : Slot} {p : Nat} (hp : Pre m t s p) :
    RB.isRed m t.rootId = t.isRed :=
  isRed_rootId m s p t hp.rep

theorem Pre.left' {m : Mem α} {t : Shape β} {s : Slot} {p : Nat} (hp : Pre m t s p)
    (ht : t ≠ Shape.nil) : Pre m t.left (Slot.left t.rootId) t.rootId := by
  cases t with
  | nil => exact absurd rfl ht
  | node l x c b r => exact hp.left

theorem Pre.right' {m : Mem α} {t : Shape β} {s : Slot} {p : Nat} (hp : Pre m t s p)
    (ht : t ≠ Shape.nil) : Pre m t.right (Slot.right t.rootId) t.rootId := by
  cases t with
  | nil => exact absurd rfl ht
  | node l x c b r => exact hp.right

theorem rotateRight_ok' (m : Mem α) (s : Slot) (p : Nat) (t : Shape β) (hp : Pre m t s p)
    (hl : t.left ≠ Shape.nil) :
    ∃ m', rotateRight m t.rootId = some (m', t.rotateRight.rootId) ∧
      Refines m t m' t.rotateRight s p := by
  cases t with
  | nil => exact absurd rfl hl
  | node l x c b r =>
    cases l with
    | nil => exact absurd rfl hl
    | node a y cy bb d => exact rotateRight_ok m s p r d a x y c cy b bb hp

theorem rotateLeft_ok' (m : Mem α) (s : Slot) (p : Nat) (t : Shape β) (hp : Pre m t s p)
    (hr : t.right ≠ Shape.nil) :
    ∃ m', rotateLeft m t.rootId = some (m', t.rotateLeft.rootId) ∧
      Refines m t m' t.rotateLeft s p := by
  cases t with
  | nil => exact absurd rfl hr
  | node l x c b r =>
    cases r with
    | nil => exact absurd rfl hr
    | node a y cy bb d => exact rotateLeft_ok m s p l a d x y c cy b bb hp

theorem flip_ok' (m : Mem α) (s : Slot) (p : Nat) (t : Shape β) (hp : Pre m t s p)
    (hl : t.left ≠ Shape.nil) (hr : t.right ≠ Shape.nil) :
    ∃ m', flip m t.rootId = some m' ∧ Refines m t m' t.flip s p := by
  cases t with
  | nil => exact absurd rfl hl
  | node l x c b r =>
    cases l with
    | nil => exact absurd rfl hl
    | node a y cy bb d =>
      cases r with
      | nil => exact absurd rfl hr
      | node a' y' cy' bb' d' => exact flip_ok m s p a d a' d' x y y' c cy cy' b bb bb' hp

theorem Refines.lift_left' {m m' : Mem α} {t l' : Shape β} {s : Slot} {p : Nat}
    (hp : Pre m t s p) (ht : t ≠ Shape.nil)
    (h : Refines m t.left m' l' (Slot.left t.rootId) t.rootId) :
    Refines m t m' (t.setLeft l') s p := by
  cases t with
  | nil => exact absurd rfl ht
  | node l x c b r => exact Refines.lift_left hp h

theorem Refines.lift_right' {m m' : Mem α} {t r' : Shape β} {s : Slot} {p : Nat}
    (hp : Pre m t s p) (ht : t ≠ Shape.nil)
    (h : Refines m t.right m' r' (Slot.right t.rootId) t.rootId) :
    Refines m t m' (t.setRight r') s p := by
  cases t with
  | nil => exact absurd rfl ht
  | node l x c b r => exact Refines.lift_right hp h

theorem Refines.ne_nil {m m' : Mem α} {t t' : Shape β} {s : Slot} {p : Nat}
    (h : Refines m t m' t' s p) (ht : t ≠ Shape.nil) : t' ≠ Shape.nil :=
  ne_nil_of_toList t t' h.toList ht

theorem setLeft_rootId (t l : Shape β) : (t.setLeft l).rootId = t.rootId := by
  cases t <;> rfl

theorem setRight_rootId (t r : Shape β) : (t.setRight r).rootId = t.rootId := by
  cases t <;> rfl

theorem setLeft_left (t l : Shape β) (ht : t ≠ Shape.nil) : (t.setLeft l).left = l := by
  cases t with
  | nil => exact absurd rfl ht
  | node _ _ _ _ _ => rfl

theorem setRight_right (t r : Shape β) (ht : t ≠ Shape.nil) : (t.setRight r).right = r := by
  cases t with
  | nil => exact absurd rfl ht
  | node _ _ _ _ _ => rfl

theorem rotateLeft_left_ne_nil (t : Shape β) (ht : t ≠ Shape.nil) :
    t.rotateLeft ≠ Shape.nil := by
  cases t with
  | nil => exact absurd rfl ht
  | node l x c b r => cases r <;> simp [Shape.rotateLeft]

theorem rotateRight_ne_nil (t : Shape β) (ht : t ≠ Shape.nil) :
    t.rotateRight ≠ Shape.nil := by
  cases t with
  | nil => exact absurd rfl ht
  | node l x c b r => cases l <;> simp [Shape.rotateRight]

end RB

namespace RB

variable {α β : Type}

theorem rotateLeft_toList (t : Shape β) : t.rotateLeft.toList = t.toList := by
  cases t with
  | nil => rfl
  | node l x c b r => cases r <;> simp [Shape.rotateLeft, Shape.toList]

theorem rotateRight_toList (t : Shape β) : t.rotateRight.toList = t.toList := by
  cases t with
  | nil => rfl
  | node l x c b r => cases l <;> simp [Shape.rotateRight, Shape.toList]

theorem flip_toList (t : Shape β) : t.flip.toList = t.toList := by
  cases t with
  | nil => rfl
  | node l x c b r => cases l <;> cases r <;> simp [Shape.flip, Shape.toList]

theorem setLeft_toList (t l : Shape β) (h : l.toList = t.left.toList) :
    (t.setLeft l).toList = t.toList := by
  cases t with
  | nil => rfl
  | node l0 x c b r => simp [Shape.setLeft, Shape.toList, h, Shape.left]

theorem setRight_toList (t r : Shape β) (h : r.toList = t.right.toList) :
    (t.setRight r).toList = t.toList := by
  cases t with
  | nil => rfl
  | node l x c b r0 => simp [Shape.setRight, Shape.toList, h, Shape.right]

/-- A leaf of a path is no deeper than the path has nodes. -/
theorem ctx_length_le (ctx : List (Frame β)) : ctx.length ≤ (ctxIds ctx).length := by
  induction ctx with
  | nil => simp [ctxIds]
  | cons f rest ih =>
    cases f <;> simp [ctxIds, Frame.ids] <;> omega

theorem plug_ids_length (ctx : List (Frame β)) (t : Shape β) :
    (plug ctx t).ids.length = t.ids.length + (ctxIds ctx).length := by
  rw [(plug_ids_perm ctx t).length_eq, List.length_append]

end RB

/-! ## Theorems on the GUID store -/

namespace Guidstore

open RB

theorem rebalFlip_ok (m : Store) (s : Slot) (p : Nat) (t : Shape Unit) (ht : t ≠ Shape.nil)
    (hp : Pre m t s p) :
    ∃ m', rebalFlip m t.rootId = some m' ∧ Refines m t m' (rebalFlipA t) s p := by
  unfold rebalFlip rebalFlipA
  simp only [hp.leftOf ht, hp.rightOf ht, bind, Option.bind, (hp.left' ht).isRed,
    (hp.right' ht).isRed]
  by_cases hc : (t.left.isRed && t.right.isRed) = true
  · rw [if_pos hc, if_pos hc]
    simp only [Bool.and_eq_true] at hc
    exact flip_ok' m s p t hp (isRed_ne_nil _ hc.1) (isRed_ne_nil _ hc.2)
  · rw [if_neg hc, if_neg hc]
    exact ⟨m, rfl, Refines.skip m t s p hp.rep⟩

theorem rebalLeft_ok (m : Store) (s : Slot) (p : Nat) (t : Shape Unit) (ht : t ≠ Shape.nil)
    (hp : Pre m t s p) :
    ∃ m', rebalLeft m t.rootId = some (m', (rebalLeftA t).rootId) ∧
      Refines m t m' (rebalLeftA t) s p := by
  unfold rebalLeft rebalLeftA
  simp only [hp.leftOf ht, bind, Option.bind, (hp.left' ht).isRed]
  by_cases hl : t.left.isRed = true
  · rw [if_pos hl, if_pos hl]
    have hlne := isRed_ne_nil _ hl
    have hpl := hp.left' ht
    simp only [hpl.leftOf hlne, (hpl.left' hlne).isRed]
    -- first inner `if`
    obtain ⟨m1, e1, R1⟩ : ∃ m1,
        (if t.left.left.isRed = true then rotateRight m t.rootId else pure (m, t.rootId)) =
          some (m1, (if t.left.left.isRed = true then t.rotateRight else t).rootId) ∧
        Refines m t m1 (if t.left.left.isRed = true then t.rotateRight else t) s p := by
      by_cases hll : t.left.left.isRed = true
      · rw [if_pos hll, if_pos hll]
        exact rotateRight_ok' m s p t hp hlne
      · rw [if_neg hll, if_neg hll]
        exact ⟨m, rfl, Refines.skip m t s p hp.rep⟩
    rw [e1]
    simp only
    generalize hu : (if t.left.left.isRed = true then t.rotateRight else t) = u at R1 ⊢
    have hune : u ≠ Shape.nil := R1.ne_nil ht
    have hp1 : Pre m1 u s p := R1.pre hp
    have hul : u.left ≠ Shape.nil := by
      rw [← hu]
      by_cases hll : t.left.left.isRed = true
      · rw [if_pos hll]
        have := isRed_ne_nil _ hll
        cases t with
        | nil => exact absurd rfl ht
        | node l x c b r =>
          cases l with
          | nil => exact absurd rfl hlne
          | node a y cy bb d => exact this
      · rw [if_neg hll]; exact hlne
    have hp1l := hp1.left' hune
    simp only [hp1.leftOf hune, hp1l.rightOf hul, (hp1l.right' hul).isRed]
    by_cases hlr : u.left.right.isRed = true
    · rw [if_pos hlr, if_pos hlr]
      obtain ⟨m2, e2, R2⟩ := rotateLeft_ok' m1 _ _ u.left hp1l (isRed_ne_nil _ hlr)
      rw [e2]
      simp only
      have R2' := Refines.lift_left' hp1 hune R2
      have hp2 := R2'.pre hp1
      have hne2 : u.setLeft u.left.rotateLeft ≠ Shape.nil := R2'.ne_nil hune
      obtain ⟨m3, e3, R3⟩ := rotateRight_ok' m2 s p _ hp2 (by
        rw [setLeft_left _ _ hune]; exact rotateLeft_left_ne_nil _ hul)
      rw [setLeft_rootId] at e3
      exact ⟨m3, e3, R1.seq (R2'.seq R3)⟩
    · rw [if_neg hlr, if_neg hlr]
      exact ⟨m1, rfl, R1⟩
  · rw [if_neg hl, if_neg hl]
    exact ⟨m, rfl, Refines.skip m t s p hp.rep⟩

theorem rebalRight_ok (m : Store) (s : Slot) (p : Nat) (t : Shape Unit) (ht : t ≠ Shape.nil)
    (hp : Pre m t s p) :
    ∃ m', rebalRight m t.rootId = some (m', (rebalRightA t).rootId) ∧
      Refines m t m' (rebalRightA t) s p := by
  unfold rebalRight rebalRightA
  simp only [hp.rightOf ht, bind, Option.bind, (hp.right' ht).isRed]
  by_cases hl : t.right.isRed = true
  · rw [if_pos hl, if_pos hl]
    have hlne := isRed_ne_nil _ hl
    have hpl := hp.right' ht
    simp only [hpl.rightOf hlne, (hpl.right' hlne).isRed]
    obtain ⟨m1, e1, R1⟩ : ∃ m1,
        (if t.right.right.isRed = true then rotateLeft m t.rootId else pure (m, t.rootId)) =
          some (m1, (if t.right.right.isRed = true then t.rotateLeft else t).rootId) ∧
        Refines m t m1 (if t.right.right.isRed = true then t.rotateLeft else t) s p := by
      by_cases hll : t.right.right.isRed = true
      · rw [if_pos hll, if_pos hll]
        exact rotateLeft_ok' m s p t hp hlne
      · rw [if_neg hll, if_neg hll]
        exact ⟨m, rfl, Refines.skip m t s p hp.rep⟩
    rw [e1]
    simp only
    generalize hu : (if t.right.right.isRed = true then t.rotateLeft else t) = u at R1 ⊢
    have hune : u ≠ Shape.nil := R1.ne_nil ht
    have hp1 : Pre m1 u s p := R1.pre hp
    have hul : u.right ≠ Shape.nil := by
      rw [← hu]
      by_cases hll : t.right.right.isRed = true
      · rw [if_pos hll]
        have := isRed_ne_nil _ hll
        cases t with
        | nil => exact absurd rfl ht
        | node l x c b r =>
          cases r with
          | nil => exact absurd rfl hlne
          | node a y cy bb d => exact this
      · rw [if_neg hll]; exact hlne
    have hp1l := hp1.right' hune
    simp only [hp1.rightOf hune, hp1l.leftOf hul, (hp1l.left' hul).isRed]
    by_cases hlr : u.right.left.isRed = true
    · rw [if_pos hlr, if_pos hlr]
      obtain ⟨m2, e2, R2⟩ := rotateRight_ok' m1 _ _ u.right hp1l (isRed_ne_nil _ hlr)
      rw [e2]
      simp only
      have R2' := Refines.lift_right' hp1 hune R2
      have hp2 := R2'.pre hp1
      have hne2 : u.setRight u.right.rotateRight ≠ Shape.nil := R2'.ne_nil hune
      obtain ⟨m3, e3, R3⟩ := rotateLeft_ok' m2 s p _ hp2 (by
        rw [setRight_right _ _ hune]; exact rotateRight_ne_nil _ hul)
      rw [setRight_rootId] at e3
      exact ⟨m3, e3, R1.seq (R2'.seq R3)⟩
    · rw [if_neg hlr, if_neg hlr]
      exact ⟨m1, rfl, R1⟩
  · rw [if_neg hl, if_neg hl]
    exact ⟨m, rfl, Refines.skip m t s p hp.rep⟩

theorem rebalFlipA_rootId (t : Shape Unit) : (rebalFlipA t).rootId = t.rootId := by
  unfold rebalFlipA
  split
  · cases t with
    | nil => rfl
    | node l x c b r => cases l <;> cases r <;> rfl
  · rfl

/-- The loop body of `rebalance` refines `rebalStepA`. -/
theorem rebalanceStep_ok : StepOK rebalanceStep rebalStepA := by
  intro m s p t ht hp
  unfold rebalanceStep rebalStepA
  obtain ⟨m1, e1, R1⟩ := rebalFlip_ok m s p t ht hp
  have hp1 := R1.pre hp
  have hne1 := R1.ne_nil ht
  obtain ⟨m2, e2, R2⟩ := rebalLeft_ok m1 s p _ hne1 hp1
  have hp2 := R2.pre hp1
  have hne2 := R2.ne_nil hne1
  obtain ⟨m3, e3, R3⟩ := rebalRight_ok m2 s p _ hne2 hp2
  rw [rebalFlipA_rootId] at e2
  refine ⟨m3, ?_, R1.seq (R2.seq R3)⟩
  simp only [bind, Option.bind, e1, e2, e3]

end Guidstore

namespace Guidstore

open RB

theorem andNotMask_spec (k : Int) (hk : isInt64 k) :
    andNotMask k % blockSize = 0 ∧ andNotMask k ≤ k ∧ k ≤ andNotMask k + blockMask ∧
    isInt64 (andNotMask k) ∧ isInt64 (andNotMask k + blockMask) ∧
    wrap64 (andNotMask k + blockMask) = andNotMask k + blockMask := by
  unfold isInt64 at *
  unfold andNotMask wrap64 blockMask blockSize
  norm_num
  omega

theorem wrap64_idx (k mn : Int) (h1 : mn ≤ k) (h2 : k ≤ mn + blockMask) :
    wrap64 (k - mn) = k - mn ∧ ¬ (wrap64 (k - mn) < 0 ∨ blockSize ≤ wrap64 (k - mn)) := by
  unfold wrap64 blockMask blockSize at *
  norm_num at *
  omega

/-- Two aligned blocks that cover the same key have the same `min`. -/
theorem aligned_cover_unique (a b k : Int) (ha : a % blockSize = 0) (hb : b % blockSize = 0)
    (h1 : a ≤ k) (h2 : k ≤ a + blockMask) (h3 : b ≤ k) (h4 : k ≤ b + blockMask) : a = b := by
  unfold blockMask blockSize at *
  norm_num at *
  omega

/-- An aligned block wholly below `k` starts below the block of `k`. -/
theorem aligned_below (a k : Int) (ha : a % blockSize = 0) (h : a + blockMask < k) :
    a < andNotMask k := by
  unfold andNotMask blockMask blockSize at *
  norm_num at *
  omega

theorem andNotMask_le (k : Int) : andNotMask k ≤ k := by
  unfold andNotMask blockSize
  norm_num
  omega

/-- Aligned blocks ordered by `min` do not overlap. -/
theorem aligned_lt (a b : Int) (ha : a % blockSize = 0) (hb : b % blockSize = 0) (h : a < b) :
    a + blockMask < b := by
  unfold blockMask blockSize at *
  norm_num at *
  omega

theorem pairwise_map_inj {ι : Type} (f : ι → Int) :
    ∀ (l : List ι), (l.map f).Pairwise (fun a b => a < b) → ∀ x ∈ l, ∀ y ∈ l,
      f x = f y → x = y := by
  intro l
  induction l with
  | nil => intro _ x hx; cases hx
  | cons a rest ih =>
    intro h x hx y hy hxy
    rw [List.map_cons, List.pairwise_cons] at h
    rcases List.mem_cons.mp hx with e1 | e1 <;> rcases List.mem_cons.mp hy with e2 | e2
    · rw [e1, e2]
    · exfalso
      have := h.1 (f y) (List.mem_map_of_mem f e2)
      rw [e1] at hxy; omega
    · exfalso
      have := h.1 (f x) (List.mem_map_of_mem f e1)
      rw [e2] at hxy; omega
    · exact ih h.2 x e1 y e2 hxy

theorem nodup_length_le (l : List Nat) (N : Nat) (hN : 0 < N) (hnd : l.Nodup)
    (h : ∀ x ∈ l, x ≠ 0 ∧ x < N) : l.length + 1 ≤ N := by
  have h1 : l.toFinset ⊆ (Finset.range N).erase 0 := by
    intro x hx
    rw [List.mem_toFinset] at hx
    rw [Finset.mem_erase, Finset.mem_range]
    exact h x hx
  have h2 := Finset.card_le_card h1
  rw [List.toFinset_card_of_nodup hnd] at h2
  have h3 : ((Finset.range N).erase 0).card = N - 1 := by
    rw [Finset.card_erase_of_mem (by simp; omega), Finset.card_range]
  omega

end Guidstore

namespace Guidstore

open RB

theorem GInv.ne_zero {m : Store} {T : Shape Unit} {ks : List Int} (h : GInv m T ks) :
    ∀ x ∈ T.ids, x ≠ 0 :=
  Rep_ids_ne_zero m T _ _ h.rep

/-- A change of the `data` of nodes keeps the representation. -/
theorem Rep_data (m m' : Store) (T : Shape Unit) (s : Slot) (p : Nat)
    (hn : ∀ y, (m'.nodes y).black = (m.nodes y).black ∧ (m'.nodes y).left = (m.nodes y).left ∧
      (m'.nodes y).right = (m.nodes y).right ∧ (m'.nodes y).parent = (m.nodes y).parent ∧
      (m'.nodes y).pp = (m.nodes y).pp)
    (hr : m'.roots = m.roots) (h : Rep m s p T) : Rep m' s p T := by
  refine Rep_congr m m' T s p (fun y _ => hn y) ?_ h
  cases s with
  | root t => simp [Mem.slotVal, hr]
  | left q => exact (hn q).2.1
  | right q => exact (hn q).2.2.1

theorem setBit_tree (m : Store) (x : Nat) (idx : Int) (y : Nat) :
    ((setBit m x idx).nodes y).black = (m.nodes y).black ∧
    ((setBit m x idx).nodes y).left = (m.nodes y).left ∧
    ((setBit m x idx).nodes y).right = (m.nodes y).right ∧
    ((setBit m x idx).nodes y).parent = (m.nodes y).parent ∧
    ((setBit m x idx).nodes y).pp = (m.nodes y).pp := by
  unfold setBit
  simp only [upd_nodes]
  split
  · rename_i h; subst h; exact ⟨rfl, rfl, rfl, rfl, rfl⟩
  · exact ⟨rfl, rfl, rfl, rfl, rfl⟩

theorem setBit_min (m : Store) (x : Nat) (idx : Int) : minOf (setBit m x idx) = minOf m := by
  funext y
  simp only [minOf, setBit, upd_nodes]
  split
  · rename_i h; subst h; rfl
  · rfl

theorem setBit_max (m : Store) (x : Nat) (idx : Int) : maxOf (setBit m x idx) = maxOf m := by
  funext y
  simp only [maxOf, setBit, upd_nodes]
  split
  · rename_i h; subst h; rfl
  · rfl

theorem setBit_block (m : Store) (x : Nat) (idx : Int) (y : Nat) (j : Int) :
    ((setBit m x idx).nodes y).data.block j =
      if y = x ∧ j = idx then true else (m.nodes y).data.block j := by
  simp only [setBit, upd_nodes]
  by_cases hy : y = x
  · subst hy
    by_cases hj : j = idx
    · subst hj; simp
    · simp [hj, Function.update_noteq hj]
  · simp [hy]

theorem setBit_rep (m : Store) (x : Nat) (idx : Int) (T : Shape Unit) (s : Slot) (p : Nat)
    (h : Rep m s p T) : Rep (setBit m x idx) s p T :=
  Rep_data m _ T s p (fun y => setBit_tree m x idx y) rfl h

theorem setBit_recorded (m : Store) (x : Nat) (k : Int) (y : Nat) (v : Int)
    (hcov : minOf m x ≤ k ∧ k ≤ maxOf m x) :
    recorded (setBit m x (k - minOf m x)) y v ↔ recorded m y v ∨ (y = x ∧ v = k) := by
  unfold recorded
  rw [setBit_min, setBit_max, setBit_block]
  by_cases hyx : y = x
  · subst hyx
    by_cases hvk : v = k
    · subst hvk
      simp [hcov.1, hcov.2]
    · have : v - minOf m y ≠ k - minOf m y := by omega
      simp [this, hvk]
  · simp [hyx]

theorem record_covering (m : Store) (T : Shape Unit) (ks : List Int) (k : Int) (x : Nat)
    (hinv : GInv m T ks) (hk : isInt64 k) (hx : x ∈ T.ids)
    (hcov : minOf m x ≤ k ∧ k ≤ maxOf m x) :
    ∃ m' b, record m x k = some (m', b) ∧ GInv m' T (k :: ks) ∧ (b = true ↔ k ∉ ks) ∧
      (∀ y, (m'.nodes y).black = (m.nodes y).black) ∧ m'.next = m.next ∧
      ∀ y, minOf m' y = minOf m y := by
  have hx0 := hinv.ne_zero x hx
  obtain ⟨a1, a2, a3, a4⟩ := hinv.aligned x hx
  have hidx := wrap64_idx k (minOf m x) hcov.1 (by rw [← a2]; exact hcov.2)
  unfold record
  rw [rd_eq m x hx0]
  simp only
  have e1 : (m.nodes x).data.min = minOf m x := rfl
  rw [e1, if_neg hidx.2, hidx.1]
  by_cases hbit : (m.nodes x).data.block (k - minOf m x) = true
  · rw [if_pos hbit]
    have hrec : recorded m x k := ⟨hcov.1, hcov.2, hbit⟩
    have hmem : k ∈ ks := (hinv.mem k hk).mpr ⟨x, hx, hrec⟩
    refine ⟨m, false, rfl, ?_, by simp [hmem], fun _ => rfl, rfl, fun _ => rfl⟩
    refine ⟨hinv.rep, hinv.nodup, hinv.alloc, hinv.next_pos, hinv.sorted, hinv.aligned, ?_⟩
    intro v hv
    rw [← hinv.mem v hv]
    constructor
    · intro h
      rcases List.mem_cons.mp h with e | e
      · rw [e]; exact hmem
      · exact e
    · intro h; exact List.mem_cons_of_mem _ h
  · rw [if_neg hbit]
    have hnot : k ∉ ks := by
      intro hmem
      obtain ⟨y, hy, hry⟩ := (hinv.mem k hk).mp hmem
      obtain ⟨b1, b2, b3, b4⟩ := hinv.aligned y hy
      have hmin : minOf m y = minOf m x :=
        aligned_cover_unique _ _ k b1 a1 hry.1 (by rw [← b2]; exact hry.2.1) hcov.1
          (by rw [← a2]; exact hcov.2)
      have hyx : y = x := pairwise_map_inj (minOf m) T.ids hinv.sorted y hy x hx hmin
      rw [hyx] at hry
      exact hbit hry.2.2
    refine ⟨_, true, rfl, ?_, by simp [hnot], fun y => (setBit_tree m x _ y).1, rfl,
      fun y => by rw [setBit_min]⟩
    refine ⟨setBit_rep m x _ T _ _ hinv.rep, hinv.nodup, hinv.alloc, hinv.next_pos, ?_, ?_, ?_⟩
    · rw [setBit_min]; exact hinv.sorted
    · intro y hy
      rw [setBit_min, setBit_max]
      exact hinv.aligned y hy
    · intro v hv
      constructor
      · intro h
        rcases List.mem_cons.mp h with e | e
        · exact ⟨x, hx, (setBit_recorded m x k x v hcov).mpr (Or.inr ⟨rfl, e⟩)⟩
        · obtain ⟨y, hy, hry⟩ := (hinv.mem v hv).mp e
          exact ⟨y, hy, (setBit_recorded m x k y v hcov).mpr (Or.inl hry)⟩
      · rintro ⟨y, hy, hry⟩
        rcases (setBit_recorded m x k y v hcov).mp hry with h | ⟨_, h⟩
        · exact List.mem_cons_of_mem _ ((hinv.mem v hv).mpr ⟨y, hy, h⟩)
        · rw [h]; exact List.mem_cons_self _ _

end Guidstore

namespace Guidstore

open RB

theorem rebalFlipA_toList (t : Shape Unit) : (rebalFlipA t).toList = t.toList := by
  unfold rebalFlipA
  split
  · exact flip_toList t
  · rfl

theorem rebalLeftA_toList (t : Shape Unit) : (rebalLeftA t).toList = t.toList := by
  unfold rebalLeftA
  split
  · simp only
    generalize hu' : (if t.left.left.isRed = true then t.rotateRight else t) = u
    have hu : u.toList = t.toList := by
      rw [← hu']
      split
      · exact rotateRight_toList t
      · rfl
    split
    · rw [rotateRight_toList, setLeft_toList _ _ (rotateLeft_toList _), hu]
    · exact hu
  · rfl

theorem rebalRightA_toList (t : Shape Unit) : (rebalRightA t).toList = t.toList := by
  unfold rebalRightA
  split
  · simp only
    generalize hu' : (if t.right.right.isRed = true then t.rotateLeft else t) = u
    have hu : u.toList = t.toList := by
      rw [← hu']
      split
      · exact rotateLeft_toList t
      · rfl
    split
    · rw [rotateLeft_toList, setRight_toList _ _ (rotateRight_toList _), hu]
    · exact hu
  · rfl

theorem rebalStepA_toList (t : Shape Unit) : (rebalStepA t).toList = t.toList := by
  unfold rebalStepA
  rw [rebalRightA_toList, rebalLeftA_toList, rebalFlipA_toList]

/-- The memory just before `rebalance` in `attachLeft`. -/
theorem attachLeft_mem (m : Store) (x : Nat) (k : Int) (hx0 : x ≠ 0) (hxn : x < m.next)
    (hk : isInt64 k) :
    ∃ m3 : Store,
      attachLeft m x k = (match rebalance m3 x with
        | none => none
        | some m => some (m, true)) ∧
      (m3.nodes m.next).black = false ∧ (m3.nodes m.next).left = 0 ∧
      (m3.nodes m.next).right = 0 ∧ (m3.nodes m.next).parent = x ∧
      (m3.nodes m.next).pp = some (Slot.left x) ∧
      minOf m3 m.next = andNotMask k ∧ maxOf m3 m.next = andNotMask k + blockMask ∧
      (∀ j, (m3.nodes m.next).data.block j = true ↔ j = k - andNotMask k) ∧
      (m3.nodes x).left = m.next ∧ (m3.nodes x).black = (m.nodes x).black ∧
      (m3.nodes x).right = (m.nodes x).right ∧ (m3.nodes x).parent = (m.nodes x).parent ∧
      (m3.nodes x).pp = (m.nodes x).pp ∧ (m3.nodes x).data = (m.nodes x).data ∧
      (∀ y, y ≠ x → y ≠ m.next → m3.nodes y = m.nodes y) ∧
      m3.roots = m.roots ∧ m3.next = m.next + 1 := by
  have hn0 : m.next ≠ 0 := by omega
  have hne : x ≠ m.next := by omega
  obtain ⟨s1, s2, s3, s4, s5, s6⟩ := andNotMask_spec k hk
  have hidx := wrap64_idx k (andNotMask k) s2 s3
  have hrec : record (newNode m k).1 (newNode m k).2 k =
      some (setBit (newNode m k).1 m.next (k - andNotMask k), true) := by
    unfold record
    simp only [newNode, Mem.rd, if_neg hn0, Function.update_same]
    rw [if_neg hidx.2, hidx.1]
    simp
  have hnn : (newNode m k).2 = m.next := rfl
  refine ⟨toLeftOfT (setBit (newNode m k).1 m.next (k - andNotMask k)) m.next x, ?_, ?_⟩
  · unfold attachLeft
    rw [hnn] at hrec
    simp only [hnn, hrec, toLeftOf_eq _ _ _ hx0]
    all_goals rfl
  simp only [toLeftOfT, if_neg hn0, minOf, maxOf, setBit, newNode, upd_nodes, upd_roots,
    upd_next, Function.update_same, if_true, if_neg hne, if_neg (Ne.symm hne), s6,
    Function.update_noteq hne]
  refine ⟨trivial, trivial, trivial, trivial, trivial, trivial, trivial, ?_, trivial, trivial,
    trivial, trivial, trivial, trivial, ?_, trivial, trivial⟩
  · intro j
    by_cases hj : j = k - andNotMask k
    · subst hj; simp
    · simp [hj, Function.update_noteq hj]
  · intro y hy1 hy2
    simp [hy1, hy2, Function.update_noteq hy2]

end Guidstore

namespace Guidstore

open RB

theorem pairwise_insert {ι : Type} (R : ι → ι → Prop) (B C : List ι) (v : ι)
    (h : (B ++ C).Pairwise R) (hB : ∀ b ∈ B, R b v) (hC : ∀ c ∈ C, R v c) :
    (B ++ v :: C).Pairwise R := by
  rw [List.pairwise_append] at h ⊢
  refine ⟨h.1, List.pairwise_cons.mpr ⟨hC, h.2.1⟩, ?_⟩
  intro a ha b hb
  rcases List.mem_cons.mp hb with e | e
  · rw [e]; exact hB a ha
  · exact h.2.2 a ha b e

theorem minOf_data (m m' : Store) (y : Nat) (h : (m'.nodes y).data = (m.nodes y).data) :
    minOf m' y = minOf m y ∧ maxOf m' y = maxOf m y ∧
      ∀ v, recorded m' y v ↔ recorded m y v := by
  unfold recorded minOf maxOf
  rw [h]
  simp

/-- The walk of `rebalance` is short enough for its fuel. -/
theorem fuel_ok (m : Store) (ctx : List (Frame Unit)) (t : Shape Unit) (hpos : 0 < m.next)
    (hnd : (plug ctx t).ids.Nodup) (hall : ∀ y ∈ (plug ctx t).ids, y ≠ 0 ∧ y < m.next)
    (ht : t ≠ Shape.nil) : ctx.length + 2 ≤ m.next + 1 := by
  have h1 := nodup_length_le _ m.next hpos hnd hall
  rw [plug_ids_length] at h1
  have h2 := ctx_length_le ctx
  have h3 : 1 ≤ t.ids.length := by
    cases t with
    | nil => exact absurd rfl ht
    | node l x c b r => simp [Shape.ids]; omega
  omega

theorem attachLeft_spec (m : Store) (T : Shape Unit) (ks : List Int) (k : Int)
    (ctx : List (Frame Unit)) (x : Nat) (c : Bool) (r : Shape Unit)
    (hinv : GInv m T ks) (hk : isInt64 k)
    (hT : T = plug ctx (Shape.node Shape.nil x c () r))
    (hx : k < minOf m x)
    (hbefore : ∀ y ∈ ctxBefore ctx, maxOf m y.1 < k)
    (hafter : ∀ y ∈ ctxAfter ctx, k < minOf m y.1) :
    ∃ m' T', attachLeft m x k = some (m', true) ∧ GInv m' T' (k :: ks) ∧ k ∉ ks ∧
      Grown m T k m' T' := by
  subst hT
  obtain ⟨hctx, hsub⟩ := (Rep_plug m 0 ctx _).mp hinv.rep
  obtain ⟨nd1, nd2, nd3⟩ := (plug_nodup ctx _).mp hinv.nodup
  have hxT : x ∈ (plug ctx (Shape.node Shape.nil x c () r)).ids :=
    (mem_plug_ids _ _ x).mpr (Or.inl (by simp [Shape.ids]))
  have hx0 : x ≠ 0 := hinv.ne_zero x hxT
  have hxn : x < m.next := hinv.alloc x hxT
  obtain ⟨m3, hatt, p1, p2, p3, p4, p5, p6, p7, p8, q1, q2, q3, q4, q5, q6, hoth, hroots, hnext⟩ :=
    attachLeft_mem m x k hx0 hxn hk
  have hnn0 : m.next ≠ 0 := Nat.pos_iff_ne_zero.mp hinv.next_pos
  have hnnT : m.next ∉ (plug ctx (Shape.node Shape.nil x c () r)).ids :=
    fun hc => absurd (hinv.alloc _ hc) (lt_irrefl _)
  have hxnn : x ≠ m.next := Nat.ne_of_lt hxn
  obtain ⟨s1, s2, s3, s4, s5, s6⟩ := andNotMask_spec k hk
  -- the frame of the attachment
  have hfr : ∀ hole, Frames m m3 [x, m.next] hole := by
    intro hole
    refine ⟨?_, ?_, ?_, ?_, ?_, ?_⟩ <;> intro y hy
    · simp only [List.mem_cons, List.mem_singleton, not_or, List.not_mem_nil, or_false] at hy
      rw [hoth y hy.1 hy.2]
    · simp only [List.mem_cons, List.mem_singleton, not_or, List.not_mem_nil, or_false] at hy
      rw [hoth y hy.1 hy.2]
    · simp only [List.mem_cons, List.mem_singleton, not_or, List.not_mem_nil, or_false] at hy
      rw [hoth y hy.1 hy.2]
    · intro _
      simp only [List.mem_cons, List.mem_singleton, not_or, List.not_mem_nil, or_false] at hy
      rw [hoth y hy.1 hy.2]
    · intro _
      simp only [List.mem_cons, List.mem_singleton, not_or, List.not_mem_nil, or_false] at hy
      rw [hoth y hy.1 hy.2]
    · rw [hroots]
  have hctxS : ∀ y ∈ ctxIds ctx, y ∉ [x, m.next] := by
    intro y hy hc
    simp only [List.mem_cons, List.mem_singleton, List.not_mem_nil, or_false] at hc
    rcases hc with e | e
    · exact nd3 x (by simp [Shape.ids]) (e ▸ hy)
    · exact hnnT ((mem_plug_ids _ _ _).mpr (Or.inr (e ▸ hy)))
  have hctx3 : CtxRep m3 0 ctx := CtxRep_frames m m3 _ 0 ctx (hfr _) hctxS nd2 hctx
  obtain ⟨r1, r2, r3, r4, r5, r6, r7⟩ := hsub
  have hslot : m3.slotVal (holeSlot 0 ctx) = m.slotVal (holeSlot 0 ctx) := by
    refine (hfr (Slot.root 1)).slotVal _ ?_ ?_
    · rcases holeSlot_cases 0 ctx with e | ⟨y, _, e | e⟩ <;> rw [e] <;> intro e' <;> cases e'
    · intro y hy hc
      have hyc : y ∈ ctxIds ctx := by
        rcases holeSlot_cases 0 ctx with e | ⟨z, hz, e | e⟩
        · rw [e] at hy; rcases hy with e' | e' <;> cases e'
        · rw [e] at hy
          rcases hy with e' | e'
          · injection e' with e'; exact e' ▸ hz
          · cases e'
        · rw [e] at hy
          rcases hy with e' | e'
          · cases e'
          · injection e' with e'; exact e' ▸ hz
      exact hctxS y hyc hc
  have hxr : x ∉ r.ids := by
    simp only [Shape.ids, List.nil_append, List.nodup_cons] at nd1
    exact nd1.1
  have hsub3 : Rep m3 (holeSlot 0 ctx) (holeParent ctx)
      (Shape.node (Shape.node Shape.nil m.next false () Shape.nil) x c () r) := by
    refine ⟨by rw [hslot]; exact r1, r2, by rw [q2]; exact r3, by rw [q4]; exact r4,
      by rw [q5]; exact r5, ?_, ?_⟩
    · exact ⟨q1, hnn0, p1, p4, p5, p2, p3⟩
    · refine Rep_congr m m3 r _ _ (fun y hy => ?_) ?_ r7
      · have hyx : y ≠ x := fun e => hxr (e ▸ hy)
        have hyn : y ≠ m.next := fun e =>
          hnnT ((mem_plug_ids _ _ _).mpr (Or.inl (by simp [Shape.ids, ← e, hy])))
        rw [hoth y hyx hyn]
        exact ⟨rfl, rfl, rfl, rfl, rfl⟩
      · simp only [Mem.slotVal]; exact q3
  have hrep3 : Rep m3 (Slot.root 0) 0
      (plug ctx (Shape.node (Shape.node Shape.nil m.next false () Shape.nil) x c () r)) :=
    (Rep_plug m3 0 ctx _).mpr ⟨hctx3, hsub3⟩
  have hids3 : ∀ y, y ∈ (plug ctx (Shape.node (Shape.node Shape.nil m.next false ()
      Shape.nil) x c () r)).ids ↔
      y = m.next ∨ y ∈ (plug ctx (Shape.node Shape.nil x c () r)).ids := by
    intro y
    simp only [mem_plug_ids, Shape.ids, List.nil_append, List.mem_cons, List.mem_append,
      List.not_mem_nil, false_or]
    tauto
  have hnd3 : (plug ctx (Shape.node (Shape.node Shape.nil m.next false () Shape.nil) x c ()
      r)).ids.Nodup := by
    rw [plug_nodup]
    refine ⟨?_, nd2, ?_⟩
    · simp only [Shape.ids, List.nil_append, List.nodup_cons, List.mem_cons, not_or,
        List.cons_append]
      simp only [Shape.ids, List.nil_append, List.nodup_cons] at nd1
      refine ⟨⟨Ne.symm hxnn, fun hc => ?_⟩, nd1⟩
      exact hnnT ((mem_plug_ids _ _ _).mpr (Or.inl (by simp [Shape.ids, hc])))
    · intro y hy hc
      simp only [Shape.ids, List.nil_append, List.mem_cons, List.cons_append] at hy
      rcases hy with e | e | e
      · exact hnnT ((mem_plug_ids _ _ _).mpr (Or.inr (e ▸ hc)))
      · exact nd3 x (by simp [Shape.ids]) (e ▸ hc)
      · exact nd3 y (by simp [Shape.ids, e]) hc
  have hall3 : ∀ y ∈ (plug ctx (Shape.node (Shape.node Shape.nil m.next false () Shape.nil)
      x c () r)).ids, y ≠ 0 ∧ y < m3.next := by
    intro y hy
    rw [hnext]
    rcases (hids3 y).mp hy with e | e
    · rw [e]; exact ⟨hnn0, Nat.lt_succ_self _⟩
    · exact ⟨hinv.ne_zero y e, Nat.lt_succ_of_lt (hinv.alloc y e)⟩
  obtain ⟨m4, w1, w2, w3, w4, w5⟩ := walkUp_rep rebalanceStep rebalStepA rebalanceStep_ok 0
    ctx _ m3 (m3.next + 1) (by simp) hrep3 hnd3
    (fuel_ok m3 ctx _ (by rw [hnext]; omega) hnd3 hall3 (by simp))
  have htl := walkUpA_toList rebalStepA rebalStepA_toList ctx
    (Shape.node (Shape.node Shape.nil m.next false () Shape.nil) x c () r)
  have hids4 := ids_of_toList _ _ htl
  -- no block of the old tree covers `k`
  have hTids : (plug ctx (Shape.node Shape.nil x c () r)).ids =
      (ctxBefore ctx).map Prod.fst ++ (x :: r.ids) ++ (ctxAfter ctx).map Prod.fst := by
    rw [plug_ids]; simp [Shape.ids]
  have hsorted := hinv.sorted
  rw [hTids] at hsorted
  simp only [List.map_append, List.map_cons, List.append_assoc, List.cons_append] at hsorted
  have hB : ∀ y ∈ (ctxBefore ctx).map Prod.fst, maxOf m y < k := by
    intro y hy
    obtain ⟨z, hz, rfl⟩ := List.mem_map.mp hy
    exact hbefore z hz
  have hA : ∀ y ∈ (ctxAfter ctx).map Prod.fst, k < minOf m y := by
    intro y hy
    obtain ⟨z, hz, rfl⟩ := List.mem_map.mp hy
    exact hafter z hz
  have hR : ∀ y ∈ r.ids, k < minOf m y := by
    intro y hy
    have h1 := (List.pairwise_append.mp hsorted).2.1
    have h2 := (List.pairwise_cons.mp h1).1 (minOf m y)
      (List.mem_append_left _ (List.mem_map_of_mem _ hy))
    omega
  have hnocover : ∀ y ∈ (plug ctx (Shape.node Shape.nil x c () r)).ids,
      ¬ (minOf m y ≤ k ∧ k ≤ maxOf m y) := by
    intro y hy hc
    rw [hTids] at hy
    simp only [List.mem_append, List.mem_cons] at hy
    rcases hy with (h | h | h) | h
    · have := hB y h; omega
    · rw [h] at hc; omega
    · have := hR y h; omega
    · have := hA y h; omega
  have hnot : k ∉ ks := by
    intro hmem
    obtain ⟨y, hy, hry⟩ := (hinv.mem k hk).mp hmem
    exact hnocover y hy ⟨hry.1, hry.2.1⟩
  have hdata4 : ∀ y, y ≠ m.next → (m4.nodes y).data = (m.nodes y).data := by
    intro y hy
    rw [w4 y]
    by_cases hyx : y = x
    · rw [hyx]; exact q6
    · rw [hoth y hyx hy]
  have hmin4n : minOf m4 m.next = andNotMask k := by
    rw [(minOf_data m3 m4 _ (w4 _)).1]; exact p6
  have hmax4n : maxOf m4 m.next = andNotMask k + blockMask := by
    rw [(minOf_data m3 m4 _ (w4 _)).2.1]; exact p7
  refine ⟨m4, walkUpA rebalStepA ctx
    (Shape.node (Shape.node Shape.nil m.next false () Shape.nil) x c () r), ?_, ?_, hnot,
    Or.inr ⟨by rw [w5, hnext], hmin4n, fun y hy => (minOf_data m m4 y (hdata4 y hy)).1,
      Or.inr (Or.inl ⟨ctx, x, c, r, rfl, rfl⟩)⟩⟩
  · rw [hatt]
    have w1' : rebalance m3 x = some m4 := w1
    rw [w1']
  refine ⟨w2, by rw [hids4]; exact hnd3, ?_, by rw [w5, hnext]; omega, ?_, ?_, ?_⟩
  · intro y hy
    rw [hids4] at hy
    rw [w5]
    exact (hall3 y hy).2
  · -- ordered by `min`
    rw [hids4, plug_ids]
    simp only [Shape.ids, List.nil_append, List.map_append, List.map_cons, List.append_assoc,
      List.cons_append]
    have hcongr : ∀ (l : List Nat), (∀ y ∈ l, y ≠ m.next) → l.map (minOf m4) = l.map (minOf m) := by
      intro l hl
      exact List.map_congr_left (fun y hy => (minOf_data m m4 y (hdata4 y (hl y hy))).1)
    have hBn : ∀ y ∈ (ctxBefore ctx).map Prod.fst, y ≠ m.next := fun y hy e =>
      hnnT (by rw [hTids, ← e]; simp [hy])
    have hAn : ∀ y ∈ (ctxAfter ctx).map Prod.fst, y ≠ m.next := fun y hy e =>
      hnnT (by rw [hTids, ← e]; simp [hy])
    have hRn : ∀ y ∈ r.ids, y ≠ m.next := fun y hy e =>
      hnnT (by rw [hTids, ← e]; simp [hy])
    rw [hcongr _ hBn, hcongr _ hAn, hcongr _ hRn, hmin4n,
      (minOf_data m m4 x (hdata4 x hxnn)).1]
    refine pairwise_insert _ _ _ _ hsorted ?_ ?_
    · intro b hb
      obtain ⟨y, hy, rfl⟩ := List.mem_map.mp hb
      have hyT : y ∈ (plug ctx (Shape.node Shape.nil x c () r)).ids := by
        rw [hTids]; simp [hy]
      obtain ⟨a1, a2, _, _⟩ := hinv.aligned y hyT
      have := hB y hy
      exact aligned_below _ k a1 (by rw [← a2]; exact this)
    · intro c' hc'
      have : k < c' := by
        simp only [List.mem_cons, List.mem_append, List.mem_map] at hc'
        rcases hc' with e | ⟨y, hy, rfl⟩ | ⟨y, hy, rfl⟩
        · rw [e]; exact hx
        · exact hR y hy
        · exact hA y (List.mem_map.mpr hy)
      omega
  · intro y hy
    rw [hids4] at hy
    rcases (hids3 y).mp hy with e | e
    · rw [e, hmin4n, hmax4n]
      exact ⟨s1, rfl, s4, s5⟩
    · have hyn : y ≠ m.next := fun e' => hnnT (e' ▸ e)
      obtain ⟨d1, d2, _⟩ := minOf_data m m4 y (hdata4 y hyn)
      rw [d1, d2]
      exact hinv.aligned y e
  · intro v hv
    have hrecn : recorded m4 m.next v ↔ v = k := by
      unfold recorded
      rw [hmin4n, hmax4n, w4 m.next, p8]
      constructor
      · rintro ⟨_, _, h⟩; omega
      · intro h; subst h; exact ⟨s2, s3, rfl⟩
    constructor
    · intro h
      rcases List.mem_cons.mp h with e | e
      · exact ⟨m.next, by rw [hids4]; exact (hids3 _).mpr (Or.inl rfl), hrecn.mpr e⟩
      · obtain ⟨y, hy, hry⟩ := (hinv.mem v hv).mp e
        have hyn : y ≠ m.next := fun e' => hnnT (e' ▸ hy)
        exact ⟨y, by rw [hids4]; exact (hids3 _).mpr (Or.inr hy),
          ((minOf_data m m4 y (hdata4 y hyn)).2.2 v).mpr hry⟩
    · rintro ⟨y, hy, hry⟩
      rw [hids4] at hy
      rcases (hids3 y).mp hy with e | e
      · rw [e] at hry
        rw [hrecn.mp hry]
        exact List.mem_cons_self _ _
      · have hyn : y ≠ m.next := fun e' => hnnT (e' ▸ e)
        exact List.mem_cons_of_mem _ ((hinv.mem v hv).mpr
          ⟨y, e, ((minOf_data m m4 y (hdata4 y hyn)).2.2 v).mp hry⟩)

end Guidstore

namespace Guidstore

open RB

theorem attachRight_mem (m : Store) (x : Nat) (k : Int) (hx0 : x ≠ 0) (hxn : x < m.next)
    (hk : isInt64 k) :
    ∃ m3 : Store,
      attachRight m x k = (match rebalance m3 x with
        | none => none
        | some m => some (m, true)) ∧
      (m3.nodes m.next).black = false ∧ (m3.nodes m.next).right = 0 ∧
      (m3.nodes m.next).left = 0 ∧ (m3.nodes m.next).parent = x ∧
      (m3.nodes m.next).pp = some (Slot.right x) ∧
      minOf m3 m.next = andNotMask k ∧ maxOf m3 m.next = andNotMask k + blockMask ∧
      (∀ j, (m3.nodes m.next).data.block j = true ↔ j = k - andNotMask k) ∧
      (m3.nodes x).right = m.next ∧ (m3.nodes x).black = (m.nodes x).black ∧
      (m3.nodes x).left = (m.nodes x).left ∧ (m3.nodes x).parent = (m.nodes x).parent ∧
      (m3.nodes x).pp = (m.nodes x).pp ∧ (m3.nodes x).data = (m.nodes x).data ∧
      (∀ y, y ≠ x → y ≠ m.next → m3.nodes y = m.nodes y) ∧
      m3.roots = m.roots ∧ m3.next = m.next + 1 := by
  have hn0 : m.next ≠ 0 := by omega
  have hne : x ≠ m.next := by omega
  obtain ⟨s1, s2, s3, s4, s5, s6⟩ := andNotMask_spec k hk
  have hidx := wrap64_idx k (andNotMask k) s2 s3
  have hrec : record (newNode m k).1 (newNode m k).2 k =
      some (setBit (newNode m k).1 m.next (k - andNotMask k), true) := by
    unfold record
    simp only [newNode, Mem.rd, if_neg hn0, Function.update_same]
    rw [if_neg hidx.2, hidx.1]
    simp
  have hnn : (newNode m k).2 = m.next := rfl
  refine ⟨toRightOfT (setBit (newNode m k).1 m.next (k - andNotMask k)) m.next x, ?_, ?_⟩
  · unfold attachRight
    rw [hnn] at hrec
    simp only [hnn, hrec, toRightOf_eq _ _ _ hx0]
    all_goals rfl
  simp only [toRightOfT, if_neg hn0, minOf, maxOf, setBit, newNode, upd_nodes, upd_roots,
    upd_next, Function.update_same, if_true, if_neg hne, if_neg (Ne.symm hne), s6,
    Function.update_noteq hne]
  refine ⟨trivial, trivial, trivial, trivial, trivial, trivial, trivial, ?_, trivial, trivial,
    trivial, trivial, trivial, trivial, ?_, trivial, trivial⟩
  · intro j
    by_cases hj : j = k - andNotMask k
    · subst hj; simp
    · simp [hj, Function.update_noteq hj]
  · intro y hy1 hy2
    simp [hy1, hy2, Function.update_noteq hy2]

theorem attachRight_spec (m : Store) (T : Shape Unit) (ks : List Int) (k : Int)
    (ctx : List (Frame Unit)) (x : Nat) (c : Bool) (l : Shape Unit)
    (hinv : GInv m T ks) (hk : isInt64 k)
    (hT : T = plug ctx (Shape.node l x c () Shape.nil))
    (hx : maxOf m x < k)
    (hbefore : ∀ y ∈ ctxBefore ctx, maxOf m y.1 < k)
    (hafter : ∀ y ∈ ctxAfter ctx, k < minOf m y.1) :
    ∃ m' T', attachRight m x k = some (m', true) ∧ GInv m' T' (k :: ks) ∧ k ∉ ks ∧
      Grown m T k m' T' := by
  subst hT
  obtain ⟨hctx, hsub⟩ := (Rep_plug m 0 ctx _).mp hinv.rep
  obtain ⟨nd1, nd2, nd3⟩ := (plug_nodup ctx _).mp hinv.nodup
  have hxT : x ∈ (plug ctx (Shape.node l x c () Shape.nil)).ids :=
    (mem_plug_ids _ _ x).mpr (Or.inl (by simp [Shape.ids]))
  have hx0 : x ≠ 0 := hinv.ne_zero x hxT
  have hxn : x < m.next := hinv.alloc x hxT
  obtain ⟨m3, hatt, p1, p2, p3, p4, p5, p6, p7, p8, q1, q2, q3, q4, q5, q6, hoth, hroots, hnext⟩ :=
    attachRight_mem m x k hx0 hxn hk
  have hnn0 : m.next ≠ 0 := Nat.pos_iff_ne_zero.mp hinv.next_pos
  have hnnT : m.next ∉ (plug ctx (Shape.node l x c () Shape.nil)).ids :=
    fun hc => absurd (hinv.alloc _ hc) (lt_irrefl _)
  have hxnn : x ≠ m.next := Nat.ne_of_lt hxn
  obtain ⟨s1, s2, s3, s4, s5, s6⟩ := andNotMask_spec k hk
  -- the frame of the attachment
  have hfr : ∀ hole, Frames m m3 [x, m.next] hole := by
    intro hole
    refine ⟨?_, ?_, ?_, ?_, ?_, ?_⟩ <;> intro y hy
    · simp only [List.mem_cons, List.mem_singleton, not_or, List.not_mem_nil, or_false] at hy
      rw [hoth y hy.1 hy.2]
    · simp only [List.mem_cons, List.mem_singleton, not_or, List.not_mem_nil, or_false] at hy
      rw [hoth y hy.1 hy.2]
    · simp only [List.mem_cons, List.mem_singleton, not_or, List.not_mem_nil, or_false] at hy
      rw [hoth y hy.1 hy.2]
    · intro _
      simp only [List.mem_cons, List.mem_singleton, not_or, List.not_mem_nil, or_false] at hy
      rw [hoth y hy.1 hy.2]
    · intro _
      simp only [List.mem_cons, List.mem_singleton, not_or, List.not_mem_nil, or_false] at hy
      rw [hoth y hy.1 hy.2]
    · rw [hroots]
  have hctxS : ∀ y ∈ ctxIds ctx, y ∉ [x, m.next] := by
    intro y hy hc
    simp only [List.mem_cons, List.mem_singleton, List.not_mem_nil, or_false] at hc
    rcases hc with e | e
    · exact nd3 x (by simp [Shape.ids]) (e ▸ hy)
    · exact hnnT ((mem_plug_ids _ _ _).mpr (Or.inr (e ▸ hy)))
  have hctx3 : CtxRep m3 0 ctx := CtxRep_frames m m3 _ 0 ctx (hfr _) hctxS nd2 hctx
  obtain ⟨r1, r2, r3, r4, r5, r6, r7⟩ := hsub
  have hslot : m3.slotVal (holeSlot 0 ctx) = m.slotVal (holeSlot 0 ctx) := by
    refine (hfr (Slot.root 1)).slotVal _ ?_ ?_
    · rcases holeSlot_cases 0 ctx with e | ⟨y, _, e | e⟩ <;> rw [e] <;> intro e' <;> cases e'
    · intro y hy hc
      have hyc : y ∈ ctxIds ctx := by
        rcases holeSlot_cases 0 ctx with e | ⟨z, hz, e | e⟩
        · rw [e] at hy; rcases hy with e' | e' <;> cases e'
        · rw [e] at hy
          rcases hy with e' | e'
          · injection e' with e'; exact e' ▸ hz
          · cases e'
        · rw [e] at hy
          rcases hy with e' | e'
          · cases e'
          · injection e' with e'; exact e' ▸ hz
      exact hctxS y hyc hc
  have hxr : x ∉ l.ids := by
    simp only [Shape.ids, List.append_nil] at nd1
    intro hc
    exact (List.nodup_append.mp nd1).2.2 hc (List.mem_singleton_self x)
  have hsub3 : Rep m3 (holeSlot 0 ctx) (holeParent ctx)
      (Shape.node l x c () (Shape.node Shape.nil m.next false () Shape.nil)) := by
    refine ⟨by rw [hslot]; exact r1, r2, by rw [q2]; exact r3, by rw [q4]; exact r4,
      by rw [q5]; exact r5, ?_, ?_⟩
    · refine Rep_congr m m3 l _ _ (fun y hy => ?_) ?_ r6
      · have hyx : y ≠ x := fun e => hxr (e ▸ hy)
        have hyn : y ≠ m.next := fun e =>
          hnnT ((mem_plug_ids _ _ _).mpr (Or.inl (by simp [Shape.ids, ← e, hy])))
        rw [hoth y hyx hyn]
        exact ⟨rfl, rfl, rfl, rfl, rfl⟩
      · simp only [Mem.slotVal]; exact q3
    · exact ⟨q1, hnn0, p1, p4, p5, p3, p2⟩
  have hrep3 : Rep m3 (Slot.root 0) 0
      (plug ctx (Shape.node l x c () (Shape.node Shape.nil m.next false () Shape.nil))) :=
    (Rep_plug m3 0 ctx _).mpr ⟨hctx3, hsub3⟩
  have hids3 : ∀ y, y ∈ (plug ctx (Shape.node l x c ()
      (Shape.node Shape.nil m.next false () Shape.nil))).ids ↔
      y = m.next ∨ y ∈ (plug ctx (Shape.node l x c () Shape.nil)).ids := by
    intro y
    simp only [mem_plug_ids, Shape.ids, List.nil_append, List.mem_cons, List.mem_append,
      List.not_mem_nil, false_or, or_false, List.append_nil]
    tauto
  have hnd3 : (plug ctx (Shape.node l x c ()
      (Shape.node Shape.nil m.next false () Shape.nil))).ids.Nodup := by
    rw [plug_nodup]
    refine ⟨?_, nd2, ?_⟩
    · simp only [Shape.ids, List.append_nil, List.nil_append] at nd1 ⊢
      have he : l.ids ++ [x, m.next] = (l.ids ++ [x]) ++ [m.next] := by simp
      rw [he]
      refine List.nodup_append.mpr ⟨nd1, List.nodup_singleton _, ?_⟩
      intro y hy hy'
      rw [List.mem_singleton] at hy'
      exact hnnT ((mem_plug_ids _ _ _).mpr (Or.inl (by
        simp only [Shape.ids, List.append_nil]; exact hy' ▸ hy)))
    · intro y hy hc
      simp only [Shape.ids, List.nil_append, List.mem_cons, List.mem_append, List.append_nil,
        List.not_mem_nil, or_false] at hy
      rcases hy with e | e | e
      · exact nd3 y (by simp [Shape.ids, e]) hc
      · exact nd3 x (by simp [Shape.ids]) (e ▸ hc)
      · exact hnnT ((mem_plug_ids _ _ _).mpr (Or.inr (e ▸ hc)))
  have hall3 : ∀ y ∈ (plug ctx (Shape.node l x c ()
      (Shape.node Shape.nil m.next false () Shape.nil))).ids, y ≠ 0 ∧ y < m3.next := by
    intro y hy
    rw [hnext]
    rcases (hids3 y).mp hy with e | e
    · rw [e]; exact ⟨hnn0, Nat.lt_succ_self _⟩
    · exact ⟨hinv.ne_zero y e, Nat.lt_succ_of_lt (hinv.alloc y e)⟩
  obtain ⟨m4, w1, w2, w3, w4, w5⟩ := walkUp_rep rebalanceStep rebalStepA rebalanceStep_ok 0
    ctx _ m3 (m3.next + 1) (by simp) hrep3 hnd3
    (fuel_ok m3 ctx _ (by rw [hnext]; omega) hnd3 hall3 (by simp))
  have htl := walkUpA_toList rebalStepA rebalStepA_toList ctx
    (Shape.node l x c () (Shape.node Shape.nil m.next false () Shape.nil))
  have hids4 := ids_of_toList _ _ htl
  -- no block of the old tree covers `k`
  have hTids : (plug ctx (Shape.node l x c () Shape.nil)).ids =
      ((ctxBefore ctx).map Prod.fst ++ (l.ids ++ [x])) ++ (ctxAfter ctx).map Prod.fst := by
    rw [plug_ids]; simp [Shape.ids]
  have hsorted := hinv.sorted
  rw [hTids] at hsorted
  simp only [List.map_append, List.map_cons, List.map_nil] at hsorted
  have hB : ∀ y ∈ (ctxBefore ctx).map Prod.fst, maxOf m y < k := by
    intro y hy
    obtain ⟨z, hz, rfl⟩ := List.mem_map.mp hy
    exact hbefore z hz
  have hA : ∀ y ∈ (ctxAfter ctx).map Prod.fst, k < minOf m y := by
    intro y hy
    obtain ⟨z, hz, rfl⟩ := List.mem_map.mp hy
    exact hafter z hz
  have hxal := hinv.aligned x hxT
  have hR : ∀ y ∈ l.ids, maxOf m y < k := by
    intro y hy
    have hyT : y ∈ (plug ctx (Shape.node l x c () Shape.nil)).ids := by
      rw [hTids]; simp [hy]
    have hyal := hinv.aligned y hyT
    have h1 := (List.pairwise_append.mp (List.pairwise_append.mp hsorted).1).2.1
    have h2 := (List.pairwise_append.mp h1).2.2 (minOf m y) (List.mem_map_of_mem _ hy)
      (minOf m x) (List.mem_singleton_self _)
    have h3 := aligned_lt _ _ hyal.1 hxal.1 h2
    rw [hyal.2.1]
    unfold blockMask at *
    omega
  have hnocover : ∀ y ∈ (plug ctx (Shape.node l x c () Shape.nil)).ids,
      ¬ (minOf m y ≤ k ∧ k ≤ maxOf m y) := by
    intro y hy hc
    rw [hTids] at hy
    simp only [List.mem_append, List.mem_cons, List.mem_singleton, List.not_mem_nil,
      or_false] at hy
    rcases hy with (h | h | h) | h
    · have := hB y h; omega
    · have := hR y h; omega
    · rw [h] at hc; omega
    · have := hA y h; omega
  have hnot : k ∉ ks := by
    intro hmem
    obtain ⟨y, hy, hry⟩ := (hinv.mem k hk).mp hmem
    exact hnocover y hy ⟨hry.1, hry.2.1⟩
  have hdata4 : ∀ y, y ≠ m.next → (m4.nodes y).data = (m.nodes y).data := by
    intro y hy
    rw [w4 y]
    by_cases hyx : y = x
    · rw [hyx]; exact q6
    · rw [hoth y hyx hy]
  have hmin4n : minOf m4 m.next = andNotMask k := by
    rw [(minOf_data m3 m4 _ (w4 _)).1]; exact p6
  have hmax4n : maxOf m4 m.next = andNotMask k + blockMask := by
    rw [(minOf_data m3 m4 _ (w4 _)).2.1]; exact p7
  refine ⟨m4, walkUpA rebalStepA ctx
    (Shape.node l x c () (Shape.node Shape.nil m.next false () Shape.nil)), ?_, ?_, hnot,
    Or.inr ⟨by rw [w5, hnext], hmin4n, fun y hy => (minOf_data m m4 y (hdata4 y hy)).1,
      Or.inr (Or.inr ⟨ctx, l, x, c, rfl, rfl⟩)⟩⟩
  · rw [hatt]
    have w1' : rebalance m3 x = some m4 := w1
    rw [w1']
  refine ⟨w2, by rw [hids4]; exact hnd3, ?_, by rw [w5, hnext]; omega, ?_, ?_, ?_⟩
  · intro y hy
    rw [hids4] at hy
    rw [w5]
    exact (hall3 y hy).2
  · -- ordered by `min`
    rw [hids4, plug_ids]
    simp only [Shape.ids, List.nil_append, List.map_append, List.map_cons, List.append_nil,
      List.map_nil]
    have hcongr : ∀ (l : List Nat), (∀ y ∈ l, y ≠ m.next) → l.map (minOf m4) = l.map (minOf m) := by
      intro l hl
      exact List.map_congr_left (fun y hy => (minOf_data m m4 y (hdata4 y (hl y hy))).1)
    have hBn : ∀ y ∈ (ctxBefore ctx).map Prod.fst, y ≠ m.next := fun y hy e =>
      hnnT (by rw [hTids, ← e]; simp [hy])
    have hAn : ∀ y ∈ (ctxAfter ctx).map Prod.fst, y ≠ m.next := fun y hy e =>
      hnnT (by rw [hTids, ← e]; simp [hy])
    have hRn : ∀ y ∈ l.ids, y ≠ m.next := fun y hy e =>
      hnnT (by rw [hTids, ← e]; simp [hy])
    rw [hcongr _ hBn, hcongr _ hAn, hcongr _ hRn, hmin4n,
      (minOf_data m m4 x (hdata4 x hxnn)).1]
    have key : (((ctxBefore ctx).map Prod.fst).map (minOf m) ++
        (l.ids.map (minOf m) ++ [minOf m x]) ++ andNotMask k ::
        ((ctxAfter ctx).map Prod.fst).map (minOf m)).Pairwise (fun a b => a < b) := by
      refine pairwise_insert _ _ _ _ hsorted ?_ ?_
      · intro b hb
        have : ∃ y ∈ (plug ctx (Shape.node l x c () Shape.nil)).ids, minOf m y = b ∧
            maxOf m y < k := by
          rcases List.mem_append.mp hb with hb | hb
          · obtain ⟨y, hy, rfl⟩ := List.mem_map.mp hb
            exact ⟨y, by rw [hTids]; exact List.mem_append_left _ (List.mem_append_left _ hy),
              rfl, hB y hy⟩
          · rcases List.mem_append.mp hb with hb | hb
            · obtain ⟨y, hy, rfl⟩ := List.mem_map.mp hb
              exact ⟨y, by rw [hTids]; simp [hy], rfl, hR y hy⟩
            · exact ⟨x, hxT, (List.mem_singleton.mp hb).symm, hx⟩
        obtain ⟨y, hyT, rfl, hlt⟩ := this
        obtain ⟨a1, a2, _, _⟩ := hinv.aligned y hyT
        exact aligned_below _ k a1 (by rw [← a2]; exact hlt)
      · intro c' hc'
        obtain ⟨y, hy, rfl⟩ := List.mem_map.mp hc'
        have := hA y hy
        omega
    simp only [List.append_assoc, List.cons_append, List.nil_append] at key ⊢
    exact key
  · intro y hy
    rw [hids4] at hy
    rcases (hids3 y).mp hy with e | e
    · rw [e, hmin4n, hmax4n]
      exact ⟨s1, rfl, s4, s5⟩
    · have hyn : y ≠ m.next := fun e' => hnnT (e' ▸ e)
      obtain ⟨d1, d2, _⟩ := minOf_data m m4 y (hdata4 y hyn)
      rw [d1, d2]
      exact hinv.aligned y e
  · intro v hv
    have hrecn : recorded m4 m.next v ↔ v = k := by
      unfold recorded
      rw [hmin4n, hmax4n, w4 m.next, p8]
      constructor
      · rintro ⟨_, _, h⟩; omega
      · intro h; subst h; exact ⟨s2, s3, rfl⟩
    constructor
    · intro h
      rcases List.mem_cons.mp h with e | e
      · exact ⟨m.next, by rw [hids4]; exact (hids3 _).mpr (Or.inl rfl), hrecn.mpr e⟩
      · obtain ⟨y, hy, hry⟩ := (hinv.mem v hv).mp e
        have hyn : y ≠ m.next := fun e' => hnnT (e' ▸ hy)
        exact ⟨y, by rw [hids4]; exact (hids3 _).mpr (Or.inr hy),
          ((minOf_data m m4 y (hdata4 y hyn)).2.2 v).mpr hry⟩
    · rintro ⟨y, hy, hry⟩
      rw [hids4] at hy
      rcases (hids3 y).mp hy with e | e
      · rw [e] at hry
        rw [hrecn.mp hry]
        exact List.mem_cons_self _ _
      · have hyn : y ≠ m.next := fun e' => hnnT (e' ▸ e)
        exact List.mem_cons_of_mem _ ((hinv.mem v hv).mpr
          ⟨y, e, ((minOf_data m m4 y (hdata4 y hyn)).2.2 v).mp hry⟩)

end Guidstore

namespace Guidstore

open RB

/-- In a tree ordered by `min` whose blocks are aligned, the blocks left of a
node lie below it and the blocks right of it lie above it. -/
theorem sorted_split (m : Store) (ks : List Int) (ctx : List (Frame Unit))
    (l r : Shape Unit) (x : Nat) (c : Bool)
    (hinv : GInv m (plug ctx (Shape.node l x c () r)) ks) :
    (∀ y ∈ l.ids, maxOf m y < minOf m x) ∧ (∀ y ∈ r.ids, maxOf m x < minOf m y) := by
  have hTids : (plug ctx (Shape.node l x c () r)).ids =
      (ctxBefore ctx).map Prod.fst ++ (l.ids ++ x :: r.ids) ++ (ctxAfter ctx).map Prod.fst := by
    rw [plug_ids]; rfl
  have hsorted := hinv.sorted
  rw [hTids] at hsorted
  simp only [List.map_append, List.map_cons] at hsorted
  have h1 := (List.pairwise_append.mp (List.pairwise_append.mp hsorted).1).2.1
  have hxT : x ∈ (plug ctx (Shape.node l x c () r)).ids := by rw [hTids]; simp
  have hxal := hinv.aligned x hxT
  constructor
  · intro y hy
    have hyT : y ∈ (plug ctx (Shape.node l x c () r)).ids := by rw [hTids]; simp [hy]
    have hyal := hinv.aligned y hyT
    have h2 := (List.pairwise_append.mp h1).2.2 (minOf m y) (List.mem_map_of_mem _ hy)
      (minOf m x) (List.mem_cons_self _ _)
    have h3 := aligned_lt _ _ hyal.1 hxal.1 h2
    rw [hyal.2.1]; exact h3
  · intro y hy
    have hyT : y ∈ (plug ctx (Shape.node l x c () r)).ids := by rw [hTids]; simp [hy]
    have hyal := hinv.aligned y hyT
    have h2 := (List.pairwise_cons.mp (List.pairwise_append.mp h1).2.1).1 (minOf m y)
      (List.mem_map_of_mem _ hy)
    have h3 := aligned_lt _ _ hxal.1 hyal.1 h2
    rw [hxal.2.1]; exact h3

theorem mem_toList_ids (t : Shape Unit) (y : Nat × Unit) (h : y ∈ t.toList) : y.1 ∈ t.ids := by
  rw [ids_eq_map_toList]
  exact List.mem_map_of_mem _ h

/-- The descent of `node.push` from the root of a subtree whose path separates
the key from the rest of the tree: the key is recorded, and the result is `true`
exactly when it was not recorded before. -/
theorem pushLoop_spec (ks : List Int) (k : Int) (hk : isInt64 k) :
    ∀ (t : Shape Unit) (m : Store) (ctx : List (Frame Unit)) (fuel : Nat), t ≠ Shape.nil →
      GInv m (plug ctx t) ks →
      (∀ y ∈ ctxBefore ctx, maxOf m y.1 < k) → (∀ y ∈ ctxAfter ctx, k < minOf m y.1) →
      t.height ≤ fuel →
      ∃ m' T' b, pushLoop fuel m t.rootId k = some (m', b) ∧ GInv m' T' (k :: ks) ∧
        (b = true ↔ k ∉ ks) ∧ Grown m (plug ctx t) k m' T' := by
  intro t
  induction t with
  | nil => intro m ctx fuel h; exact absurd rfl h
  | node l x c u r ihl ihr =>
    intro m ctx fuel _ hinv hbefore hafter hfuel
    cases u
    obtain ⟨hctx, hsub⟩ := (Rep_plug m 0 ctx _).mp hinv.rep
    obtain ⟨r1, r2, r3, r4, r5, r6, r7⟩ := hsub
    obtain ⟨hsl, hsr⟩ := sorted_split m ks ctx l r x c hinv
    have hxT : x ∈ (plug ctx (Shape.node l x c () r)).ids :=
      (mem_plug_ids _ _ x).mpr (Or.inl (by simp [Shape.ids]))
    have hxal := hinv.aligned x hxT
    have hbm : (0 : Int) ≤ blockMask := by unfold blockMask blockSize; norm_num
    cases fuel with
    | zero => simp [Shape.height] at hfuel
    | succ f =>
      have hl : l.height ≤ f := by
        simp only [Shape.height] at hfuel
        have := le_max_left l.height r.height
        omega
      have hr : r.height ≤ f := by
        simp only [Shape.height] at hfuel
        have := le_max_right l.height r.height
        omega
      have hlv : (m.nodes x).left = l.rootId := Rep_slotVal m _ _ l r6
      have hrv : (m.nodes x).right = r.rootId := Rep_slotVal m _ _ r r7
      show ∃ m' T' b, pushLoop (f + 1) m x k = some (m', b) ∧ _
      unfold pushLoop
      rw [rd_eq m x r2]
      simp only
      by_cases hcov : k ≥ (m.nodes x).data.min ∧ k ≤ (m.nodes x).data.max
      · rw [if_pos hcov]
        obtain ⟨m', b, e1, e2, e3, _, e5, e6⟩ := record_covering m _ ks k x hinv hk hxT hcov
        exact ⟨m', _, b, e1, e2, e3, Or.inl ⟨rfl, e5, e6⟩⟩
      · rw [if_neg hcov]
        by_cases hlt : k < (m.nodes x).data.min
        · rw [if_pos hlt]
          by_cases hl0 : (m.nodes x).left = 0
          · rw [if_pos hl0]
            have hlnil : l = Shape.nil := rootId_eq_zero_of_rep m _ _ l r6 (hlv ▸ hl0)
            subst hlnil
            obtain ⟨m', T', e1, e2, e3, e4⟩ := attachLeft_spec m _ ks k ctx x c r hinv hk rfl
              hlt hbefore hafter
            exact ⟨m', T', true, e1, e2, by simp [e3], e4⟩
          · rw [if_neg hl0, hlv]
            have hlne : l ≠ Shape.nil := fun e => hl0 (by rw [hlv, e]; rfl)
            refine ihl m (Frame.L x c () r :: ctx) f hlne ?_ ?_ ?_ hl
            · rw [plug_cons]; exact hinv
            · exact hbefore
            · intro y hy
              simp only [ctxAfter, List.cons_append, List.mem_cons, List.mem_append] at hy
              rcases hy with e | e | e
              · rw [e]; exact hlt
              · have := hsr y.1 (mem_toList_ids r y e)
                have h2 : minOf m x ≤ maxOf m x := by rw [hxal.2.1]; omega
                have h3 : k < minOf m x := hlt
                omega
              · exact hafter y e
        · rw [if_neg hlt]
          have hgt : k > (m.nodes x).data.max := by
            have : ¬ (k ≥ (m.nodes x).data.min) ∨ ¬ (k ≤ (m.nodes x).data.max) := by
              by_contra hc
              push_neg at hc
              exact hcov hc
            omega
          rw [if_pos hgt]
          by_cases hr0 : (m.nodes x).right = 0
          · rw [if_pos hr0]
            have hrnil : r = Shape.nil := rootId_eq_zero_of_rep m _ _ r r7 (hrv ▸ hr0)
            subst hrnil
            obtain ⟨m', T', e1, e2, e3, e4⟩ := attachRight_spec m _ ks k ctx x c l hinv hk rfl
              hgt hbefore hafter
            exact ⟨m', T', true, e1, e2, by simp [e3], e4⟩
          · rw [if_neg hr0, hrv]
            have hrne : r ≠ Shape.nil := fun e => hr0 (by rw [hrv, e]; rfl)
            refine ihr m (Frame.R l x c () :: ctx) f hrne ?_ ?_ ?_ hr
            · rw [plug_cons]; exact hinv
            · intro y hy
              simp only [ctxBefore, List.mem_append, List.mem_singleton] at hy
              rcases hy with (e | e) | e
              · exact hbefore y e
              · have := hsl y.1 (mem_toList_ids l y e)
                have h2 : minOf m x ≤ maxOf m x := by rw [hxal.2.1]; omega
                have h3 : maxOf m x < k := hgt
                omega
              · rw [e]; exact hgt
            · exact hafter

end Guidstore

namespace Guidstore

open RB

theorem height_le_ids (t : Shape Unit) : t.height ≤ t.ids.length := by
  induction t with
  | nil => simp [Shape.height, Shape.ids]
  | node l x c b r ihl ihr =>
    simp only [Shape.height, Shape.ids, List.length_append, List.length_cons]
    rcases max_cases l.height r.height with ⟨e, _⟩ | ⟨e, _⟩ <;> rw [e] <;> omega

/-- The empty store satisfies the invariant. -/
theorem NewStore_inv : GInv NewStore Shape.nil [] := by
  refine ⟨rfl, List.nodup_nil, ?_, by decide, List.Pairwise.nil, ?_, ?_⟩
  · intro x hx; cases hx
  · intro x hx; cases hx
  · intro v _
    constructor
    · intro h; cases h
    · rintro ⟨x, hx, _⟩; cases hx

theorem firstRoot_inv (m : Store) (ks : List Int) (k : Int) (hinv : GInv m Shape.nil ks)
    (hk : isInt64 k) :
    GInv (firstRoot m k) (Shape.node Shape.nil m.next false () Shape.nil) ks := by
  have hn0 : m.next ≠ 0 := Nat.pos_iff_ne_zero.mp hinv.next_pos
  obtain ⟨s1, s2, s3, s4, s5, s6⟩ := andNotMask_spec k hk
  have hnode : (firstRoot m k).nodes m.next =
      ⟨false, 0, 0, 0, some (Slot.root 0),
        ⟨andNotMask k, andNotMask k + blockMask, fun _ => false⟩⟩ := by
    simp [firstRoot, Mem.upd, s6]
  have hroot : (firstRoot m k).roots 0 = m.next := by
    simp [firstRoot, Mem.upd]
  have hnext : (firstRoot m k).next = m.next + 1 := by
    simp [firstRoot, Mem.upd]
  refine ⟨?_, ?_, ?_, ?_, ?_, ?_, ?_⟩
  · refine ⟨hroot, hn0, ?_, ?_, ?_, ?_, ?_⟩
    · rw [hnode]
    · rw [hnode]
    · rw [hnode]
    · show ((firstRoot m k).nodes m.next).left = 0
      rw [hnode]
    · show ((firstRoot m k).nodes m.next).right = 0
      rw [hnode]
  · simp [Shape.ids]
  · intro x hx
    simp only [Shape.ids, List.nil_append, List.mem_singleton] at hx
    rw [hx, hnext]; exact Nat.lt_succ_self _
  · rw [hnext]; exact Nat.succ_pos _
  · simp [Shape.ids]
  · intro x hx
    simp only [Shape.ids, List.nil_append, List.mem_singleton] at hx
    subst hx
    unfold minOf maxOf
    rw [hnode]
    exact ⟨s1, rfl, s4, s5⟩
  · intro v hv
    constructor
    · intro h
      obtain ⟨x, hx, _⟩ := (hinv.mem v hv).mp h
      cases hx
    · rintro ⟨x, hx, h1, h2, h3⟩
      simp only [Shape.ids, List.nil_append, List.mem_singleton] at hx
      subst hx
      rw [hnode] at h3
      cases h3

/-- One call of `Push` keeps the invariant, records the key, and returns `true`
exactly when the key was not recorded before. -/
theorem Push_spec (m : Store) (T : Shape Unit) (ks : List Int) (k : Int)
    (hinv : GInv m T ks) (hk : isInt64 k) :
    ∃ m' T' b, Push m k = some (m', b) ∧ GInv m' T' (k :: ks) ∧ (b = true ↔ k ∉ ks) ∧
      Grown m T k m' T' := by
  have hn0 : m.next ≠ 0 := Nat.pos_iff_ne_zero.mp hinv.next_pos
  have hroot : m.roots 0 = T.rootId := Rep_slotVal m _ _ T hinv.rep
  by_cases h0 : m.roots 0 = 0
  · have hT : T = Shape.nil := rootId_eq_zero_of_rep m _ _ T hinv.rep (hroot ▸ h0)
    subst hT
    have hinv1 := firstRoot_inv m ks k hinv hk
    have hPush : Push m k = pushLoop (m.next + 1 + 1) (firstRoot m k) m.next k := by
      unfold Push
      rw [if_pos h0]
      simp only [newNode, Function.update_same]
      rw [wr_eq _ _ _ hn0]
      simp only [nodePush, firstRoot, Mem.upd, Function.update_same]
    rw [hPush]
    obtain ⟨s1, s2, s3, s4, s5, s6⟩ := andNotMask_spec k hk
    have hnode : (firstRoot m k).nodes m.next =
        ⟨false, 0, 0, 0, some (Slot.root 0),
          ⟨andNotMask k, andNotMask k + blockMask, fun _ => false⟩⟩ := by
      simp [firstRoot, Mem.upd, s6]
    have hnext1 : (firstRoot m k).next = m.next + 1 := by simp [firstRoot, Mem.upd]
    have hmin1 : ∀ y, y ≠ m.next → minOf (firstRoot m k) y = minOf m y := by
      intro y hy
      simp [minOf, firstRoot, Mem.upd, hy]
    have hcov : minOf (firstRoot m k) m.next ≤ k ∧ k ≤ maxOf (firstRoot m k) m.next := by
      unfold minOf maxOf
      rw [hnode]
      exact ⟨s2, s3⟩
    obtain ⟨m', b, e1, e2, e3, _, e5, e6⟩ := record_covering (firstRoot m k) _ ks k m.next
      hinv1 hk (by simp [Shape.ids]) hcov
    have hloop : pushLoop (m.next + 1 + 1) (firstRoot m k) m.next k =
        record (firstRoot m k) m.next k := by
      unfold pushLoop
      rw [rd_eq _ _ hn0]
      simp only
      rw [if_pos ⟨hcov.1, hcov.2⟩]
    rw [hloop]
    refine ⟨m', _, b, e1, e2, e3, Or.inr ⟨by rw [e5, hnext1], ?_, ?_, Or.inl ⟨rfl, rfl⟩⟩⟩
    · rw [e6]
      unfold minOf
      rw [hnode]
    · intro y hy
      rw [e6, hmin1 y hy]
  · have hT : T ≠ Shape.nil := fun e => h0 (by rw [hroot, e]; rfl)
    have hPush : Push m k = pushLoop (m.next + 1) m T.rootId k := by
      unfold Push
      rw [if_neg h0, hroot]
      rfl
    rw [hPush]
    have hlen := nodup_length_le _ m.next hinv.next_pos hinv.nodup
      (fun x hx => ⟨hinv.ne_zero x hx, hinv.alloc x hx⟩)
    have hh := height_le_ids T
    exact pushLoop_spec ks k hk T m [] (m.next + 1) hT hinv
      (by intro y hy; cases hy) (by intro y hy; cases hy) (by omega)

/-- A sequence of `Push` calls returns, call by call, whether the key is pushed
for the first time. -/
theorem pushAll_spec :
    ∀ (ks : List Int) (m : Store) (T : Shape Unit) (seen : List Int), GInv m T seen →
      (∀ k ∈ ks, isInt64 k) →
      ∃ m' T', pushAll m ks = some (m', firstTimes seen ks) ∧ GInv m' T' (ks.reverse ++ seen) := by
  intro ks
  induction ks with
  | nil => intro m T seen hinv _; exact ⟨m, T, rfl, hinv⟩
  | cons k ks ih =>
    intro m T seen hinv hks
    obtain ⟨m1, T1, b, e1, e2, e3, _⟩ := Push_spec m T seen k hinv
      (hks k (List.mem_cons_self _ _))
    obtain ⟨m2, T2, f1, f2⟩ := ih m1 T1 (k :: seen) e2
      (fun k' hk' => hks k' (List.mem_cons_of_mem _ hk'))
    refine ⟨m2, T2, ?_, ?_⟩
    · unfold pushAll
      rw [e1]
      simp only
      rw [f1]
      simp only [firstTimes]
      have : b = decide (k ∉ seen) := by
        by_cases hm : k ∈ seen
        · have : ¬ (b = true) := fun hb => (e3.mp hb) hm
          simp [hm, this]
        · simp [hm, e3.mpr hm]
      rw [this]
    · simpa using f2

end Guidstore

namespace Guidstore

open RB

theorem firstTimes_getElem :
    ∀ (ks seen : List Int) (i : Nat) (k : Int), ks[i]? = some k →
      (firstTimes seen ks)[i]? = some (decide (k ∉ seen ∧ k ∉ ks.take i)) := by
  intro ks
  induction ks with
  | nil => intro seen i k h; simp at h
  | cons a ks ih =>
    intro seen i k h
    cases i with
    | zero =>
      simp only [List.getElem?_cons_zero, Option.some.injEq] at h
      subst h
      simp [firstTimes]
    | succ i =>
      simp only [List.getElem?_cons_succ] at h
      simp only [firstTimes, List.getElem?_cons_succ, List.take_succ_cons]
      rw [ih (a :: seen) i k h]
      congr 1
      simp only [List.mem_cons, not_or, decide_eq_decide]
      tauto

/-- C1: every sequence of `Push` calls with `int64` keys on a store created by
`NewStore` returns, and the call number `i`, with key `k`, returns `true`
exactly when `k` is not among the keys of the calls before it. -/
theorem Push_true_iff_first (ks : List Int) (hks : ∀ k ∈ ks, isInt64 k) :
    ∃ m bs, pushAll NewStore ks = some (m, bs) ∧
      ∀ (i : Nat) (k : Int), ks[i]? = some k → bs[i]? = some (decide (k ∉ ks.take i)) := by
  obtain ⟨m, T, h1, _⟩ := pushAll_spec ks NewStore Shape.nil [] NewStore_inv hks
  refine ⟨m, _, h1, ?_⟩
  intro i k hi
  rw [firstTimes_getElem ks [] i k hi]
  simp

/-- Witness of C1: the keys `5, 2000000, 5, -7, 2000000` give the results
`true, true, false, true, false`. -/
theorem Push_true_iff_first_witness :
    (∀ k ∈ [5, 2000000, 5, -7, 2000000], isInt64 k) ∧
    ∃ m bs, pushAll NewStore [5, 2000000, 5, -7, 2000000] = some (m, bs) ∧
      ∀ (i : Nat) (k : Int), [5, 2000000, 5, -7, 2000000][i]? = some k →
        bs[i]? = some (decide (k ∉ ([5, 2000000, 5, -7, 2000000] : List Int).take i)) :=
  ⟨by decide, Push_true_iff_first [5, 2000000, 5, -7, 2000000] (by decide)⟩

end Guidstore

/-! ## Theorems on the price tree -/

namespace RB

variable {α β : Type}

theorem Pre_of_plug (m : Mem α) (t0 : Nat) (ctx : List (Frame β)) (t : Shape β)
    (hrep : Rep m (Slot.root t0) 0 (plug ctx t)) (hnd : (plug ctx t).ids.Nodup) :
    Pre m t (holeSlot t0 ctx) (holeParent ctx) := by
  obtain ⟨hctx, hsub⟩ := (Rep_plug m t0 ctx t).mp hrep
  obtain ⟨nd1, nd2, nd3⟩ := (plug_nodup ctx t).mp hnd
  exact ⟨hsub, nd1, holeSlot_valid m t0 ctx hctx,
    fun y hy => holeSlot_not_in t0 ctx y (nd3 y hy)⟩

/-- A refinement of the subtree in the hole of a path is a refinement of the
whole tree. -/
theorem Refines.plug {m m' : Mem α} {t t' : Shape β} (t0 : Nat) (ctx : List (Frame β))
    (hrep : Rep m (Slot.root t0) 0 (plug ctx t)) (hnd : (plug ctx t).ids.Nodup)
    (h : Refines m t m' t' (holeSlot t0 ctx) (holeParent ctx)) :
    Refines m (RB.plug ctx t) m' (RB.plug ctx t') (Slot.root t0) 0 := by
  obtain ⟨hctx, hsub⟩ := (Rep_plug m t0 ctx t).mp hrep
  obtain ⟨nd1, nd2, nd3⟩ := (plug_nodup ctx t).mp hnd
  have hctx1 := CtxRep_frames m m' t.ids t0 ctx h.frames (fun y hy hc => nd3 y hc hy) nd2 hctx
  refine ⟨(Rep_plug m' t0 ctx t').mpr ⟨hctx1, h.rep⟩, ?_, ?_, h.data, h.next⟩
  · refine (h.frames.mono (fun y hy => (mem_plug_ids _ _ y).mpr (Or.inl hy))).rehole ?_
    rcases holeSlot_cases t0 ctx with e | ⟨y, hy, e⟩
    · exact Or.inl e
    · exact Or.inr ⟨y, (mem_plug_ids _ _ y).mpr (Or.inr hy), e⟩
  · rw [plug_toList, plug_toList, h.toList]

/-- The loop `walkUp` from the hole of a path refines the whole tree. -/
theorem walkUp_refines (step : Mem α → Nat → Option (Mem α × Nat)) (stepA : Shape β → Shape β)
    (hstep : StepOK step stepA) (hlist : ∀ t, (stepA t).toList = t.toList) (t0 : Nat)
    (ctx : List (Frame β)) (t : Shape β) (m : Mem α) (fuel : Nat) (ht : t ≠ Shape.nil)
    (hrep : Rep m (Slot.root t0) 0 (plug ctx t)) (hnd : (plug ctx t).ids.Nodup)
    (hfuel : ctx.length + 2 ≤ fuel) :
    ∃ m', walkUp step fuel m t.rootId = some m' ∧
      Refines m (plug ctx t) m' (walkUpA stepA ctx t) (Slot.root t0) 0 := by
  obtain ⟨m', h1, h2, h3, h4, h5⟩ := walkUp_rep step stepA hstep t0 ctx t m fuel ht hrep hnd hfuel
  exact ⟨m', h1, h2, h3, walkUpA_toList stepA hlist ctx t, h4, h5⟩

theorem paint_ne_nil (t : Shape β) (c : Bool) (ht : t ≠ Shape.nil) : t.paint c ≠ Shape.nil := by
  cases t with
  | nil => exact absurd rfl ht
  | node l x c' b r => simp [Shape.paint]

theorem paint_rootId (t : Shape β) (c : Bool) : (t.paint c).rootId = t.rootId := by
  cases t <;> rfl

theorem paint_left (t : Shape β) (c : Bool) : (t.paint c).left = t.left := by
  cases t <;> rfl

theorem paint_right (t : Shape β) (c : Bool) : (t.paint c).right = t.right := by
  cases t <;> rfl

/-- The assignment `n.black = c` at the root of a represented subtree. -/
theorem paint_ok (m : Mem α) (s : Slot) (p : Nat) (t : Shape β) (c : Bool) (ht : t ≠ Shape.nil)
    (hp : Pre m t s p) :
    ∃ m', m.wr t.rootId (fun x => { x with black := c }) = some m' ∧
      Refines m t m' (t.paint c) s p := by
  cases t with
  | nil => exact absurd rfl ht
  | node l x c' b r =>
    obtain ⟨r1, r2, r3, r4, r5, r6, r7⟩ := hp.rep
    have hnd := hp.nodup
    simp only [Shape.ids] at hnd
    rw [List.nodup_append, List.nodup_cons] at hnd
    obtain ⟨hl, ⟨hxr, hr⟩, hdis⟩ := hnd
    have hxl : x ∉ l.ids := fun h => hdis h (List.mem_cons_self _ _)
    have hf : ∀ y, ((m.upd x (fun y => { y with black := c })).nodes y).left = (m.nodes y).left ∧
        ((m.upd x (fun y => { y with black := c })).nodes y).right = (m.nodes y).right ∧
        ((m.upd x (fun y => { y with black := c })).nodes y).parent = (m.nodes y).parent ∧
        ((m.upd x (fun y => { y with black := c })).nodes y).pp = (m.nodes y).pp ∧
        ((m.upd x (fun y => { y with black := c })).nodes y).data = (m.nodes y).data ∧
        (y ≠ x → ((m.upd x (fun y => { y with black := c })).nodes y).black =
          (m.nodes y).black) := by
      intro y
      simp only [upd_nodes]
      split <;> rename_i h
      · subst h; exact ⟨rfl, rfl, rfl, rfl, rfl, fun e => absurd rfl e⟩
      · exact ⟨rfl, rfl, rfl, rfl, rfl, fun _ => rfl⟩
    have hsv : ∀ s', (m.upd x (fun y => { y with black := c })).slotVal s' = m.slotVal s' := by
      intro s'
      cases s' with
      | root t => rfl
      | left q => exact (hf q).1
      | right q => exact (hf q).2.1
    refine ⟨m.upd x (fun y => { y with black := c }), wr_eq m x _ r2, ?_, ?_, rfl, ?_, rfl⟩
    · refine ⟨?_, r2, ?_, ?_, ?_, ?_, ?_⟩
      · rw [hsv]; exact r1
      · simp [upd_nodes]
      · rw [(hf x).2.2.1]; exact r4
      · rw [(hf x).2.2.2.1]; exact r5
      · refine Rep_congr m _ l _ _ (fun y hy => ?_) (hsv _) r6
        have : y ≠ x := fun e => hxl (e ▸ hy)
        exact ⟨(hf y).2.2.2.2.2 this, (hf y).1, (hf y).2.1, (hf y).2.2.1, (hf y).2.2.2.1⟩
      · refine Rep_congr m _ r _ _ (fun y hy => ?_) (hsv _) r7
        have : y ≠ x := fun e => hxr (e ▸ hy)
        exact ⟨(hf y).2.2.2.2.2 this, (hf y).1, (hf y).2.1, (hf y).2.2.1, (hf y).2.2.2.1⟩
    · refine ⟨?_, ?_, ?_, ?_, ?_, ?_⟩
      · intro y hy
        have : y ≠ x := fun e => hy (by simp [Shape.ids, e])
        exact (hf y).2.2.2.2.2 this
      · intro y _; exact (hf y).2.2.1
      · intro y _; exact (hf y).2.2.2.1
      · intro y _ _; exact (hf y).1
      · intro y _ _; exact (hf y).2.1
      · intro t _; rfl
    · intro y; exact (hf y).2.2.2.2.1

theorem plug_append (c1 c2 : List (Frame β)) (t : Shape β) :
    plug (c1 ++ c2) t = plug c2 (plug c1 t) := by
  induction c1 generalizing t with
  | nil => rfl
  | cons f rest ih =>
    rw [List.cons_append, plug_cons, plug_cons, ih]

theorem ctxAfter_append (c1 c2 : List (Frame β)) :
    ctxAfter (c1 ++ c2) = ctxAfter c1 ++ ctxAfter c2 := by
  induction c1 with
  | nil => rfl
  | cons f rest ih =>
    cases f <;> simp [ctxAfter, ih, plug_toList]

theorem ctxBefore_append (c1 c2 : List (Frame β)) :
    ctxBefore (c1 ++ c2) = ctxBefore c2 ++ ctxBefore c1 := by
  induction c1 with
  | nil => simp [ctxBefore]
  | cons f rest ih =>
    cases f <;> simp [ctxBefore, ih]

/-- Every node of a tree is the root of the subtree in the hole of a path. -/
theorem focus (x : Nat) :
    ∀ (T : Shape β), x ∈ T.ids →
      ∃ ctx l c b r, T = plug ctx (Shape.node l x c b r) := by
  intro T
  induction T with
  | nil => intro h; cases h
  | node l y c b r ihl ihr =>
    intro h
    simp only [Shape.ids, List.mem_append, List.mem_cons] at h
    rcases h with h | h | h
    · obtain ⟨ctx, l', c', b', r', e⟩ := ihl h
      refine ⟨ctx ++ [Frame.L y c b r], l', c', b', r', ?_⟩
      rw [plug_append, ← e]; rfl
    · subst h
      exact ⟨[], l, c, b, r, rfl⟩
    · obtain ⟨ctx, l', c', b', r', e⟩ := ihr h
      refine ⟨ctx ++ [Frame.R l y c b], l', c', b', r', ?_⟩
      rw [plug_append, ← e]; rfl

end RB

/-! ### The checks of `testReds` and `blackBalance` on shapes -/

namespace Trade

open RB

variable {β : Type}

@[simp] theorem isRed_mk (l r : Shape β) (x : Nat) (c : Bool) (b : β) :
    (Shape.node l x c b r).isRed = !c := rfl

@[simp] theorem isRed_nil : (Shape.nil : Shape β).isRed = false := rfl

@[simp] theorem left_mk (l r : Shape β) (x : Nat) (c : Bool) (b : β) :
    (Shape.node l x c b r).left = l := rfl

@[simp] theorem right_mk (l r : Shape β) (x : Nat) (c : Bool) (b : β) :
    (Shape.node l x c b r).right = r := rfl

theorem rotateLeft_mk (a b c : Shape β) (n r : Nat) (cn cr : Bool) (bn br : β) :
    (Shape.node a n cn bn (Shape.node b r cr br c)).rotateLeft =
      Shape.node (Shape.node a n false bn b) r cn br c := rfl

theorem rotateRight_mk (a b c : Shape β) (n l : Nat) (cn cl : Bool) (bn bl : β) :
    (Shape.node (Shape.node a l cl bl b) n cn bn c).rotateRight =
      Shape.node a l cn bl (Shape.node b n false bn c) := rfl

theorem flip_mk (a b c d : Shape β) (n l r : Nat) (cn cl cr : Bool) (bn bl br : β) :
    (Shape.node (Shape.node a l cl bl b) n cn bn (Shape.node c r cr br d)).flip =
      Shape.node (Shape.node a l (!cl) bl b) n (!cn) bn (Shape.node c r (!cr) br d) := rfl

theorem isRed_node (t : Shape β) (h : t.isRed = true) :
    ∃ l x b r, t = Shape.node l x false b r := by
  cases t with
  | nil => cases h
  | node l x c b r =>
    cases c
    · exact ⟨l, x, b, r, rfl⟩
    · cases h

theorem nr_node (l r : Shape β) (x : Nat) (c : Bool) (b : β) :
    (Shape.node l x c b r).nr = true ↔
      r.isRed = false ∧ (c = true ∨ l.isRed = false) ∧ l.nr = true ∧ r.nr = true := by
  simp [Shape.nr, and_assoc]

theorem wk_node (l r : Shape β) (x : Nat) (c : Bool) (b : β) :
    (Shape.node l x c b r).wk = true ↔ r.isRed = false ∧ l.nr = true ∧ r.nr = true := by
  simp [Shape.wk, and_assoc]

theorem nr_wk (t : Shape β) (h : t.nr = true) : t.wk = true := by
  cases t with
  | nil => rfl
  | node l x c b r =>
    rw [nr_node] at h
    rw [wk_node]
    exact ⟨h.1, h.2.2.1, h.2.2.2⟩

theorem wk_nr (t : Shape β) (h : t.wk = true) (h2 : (t.isRed && t.left.isRed) = false) :
    t.nr = true := by
  cases t with
  | nil => rfl
  | node l x c b r =>
    rw [wk_node] at h
    rw [nr_node]
    refine ⟨h.1, ?_, h.2.1, h.2.2⟩
    cases c
    · right; simpa using h2
    · left; rfl

theorem llrbA_self (t : Shape β) (h1 : (t.right.isRed && !t.left.isRed) = false)
    (h2 : (t.left.isRed && t.left.left.isRed) = false)
    (h3 : (t.left.isRed && t.right.isRed) = false) : llrbA t = t := by
  have e1 : llrbLeftA t = t := by unfold llrbLeftA; rw [h1]; rfl
  have e2 : llrbRightA t = t := by
    unfold llrbRightA
    cases h : t.left.isRed
    · rfl
    · rw [h] at h2
      simp only [Bool.true_and] at h2
      rw [h2]
      rfl
  have e3 : llrbFlipA t = t := by unfold llrbFlipA; rw [h3]; rfl
  unfold llrbA
  rw [e1, e2, e3]

theorem llrbA_fill (f : Frame β) (t : Shape β) (hf : f.okWith true false = true)
    (ht : t.wk = true) (hs : t.nr = true ∨ f.isR = false) :
    (llrbA (f.fill t)).wk = true ∧ (f.red = false → (llrbA (f.fill t)).nr = true) := by
  cases f with
  | L x c b r =>
    have hr : r.isRed = false ∧ r.nr = true := by
      simpa [Frame.okWith] using hf
    by_cases hA : (t.isRed && t.left.isRed) = true
    · simp only [Bool.and_eq_true] at hA
      obtain ⟨tl, tx, tb, tr, rfl⟩ := isRed_node t hA.1
      obtain ⟨a, lx, lb, bb, rfl⟩ := isRed_node tl hA.2
      rw [wk_node, nr_node] at ht
      have e : llrbA (Frame.fill (Frame.L x c b r) (Shape.node (Shape.node a lx false lb bb) tx false tb tr)) =
          Shape.node (Shape.node a lx true lb bb) tx (!c) tb (Shape.node tr x true b r) := by
        simp [llrbA, llrbLeftA, llrbRightA, llrbFlipA, Frame.fill, hr.1, rotateRight_mk, flip_mk]
      rw [e]
      constructor
      · rw [wk_node, nr_node, nr_node]
        simp [ht.1, ht.2.1.1, ht.2.1.2.2.1, ht.2.1.2.2.2, ht.2.2, hr.1, hr.2]
      · intro hc
        simp only [Frame.red, Bool.not_eq_false'] at hc
        subst hc
        rw [nr_node, nr_node, nr_node]
        simp [ht.1, ht.2.1.1, ht.2.1.2.2.1, ht.2.1.2.2.2, ht.2.2, hr.1, hr.2]
    · simp only [Bool.not_eq_true] at hA
      have htn := wk_nr t ht hA
      have e : llrbA (Frame.fill (Frame.L x c b r) t) = Shape.node t x c b r := by
        apply llrbA_self
        · simp [Frame.fill, hr.1]
        · simpa [Frame.fill] using hA
        · simp [Frame.fill, hr.1]
      rw [e]
      constructor
      · rw [wk_node]; exact ⟨hr.1, htn, hr.2⟩
      · intro hc
        simp only [Frame.red, Bool.not_eq_false'] at hc
        rw [nr_node]; exact ⟨hr.1, Or.inl hc, htn, hr.2⟩
  | R l x c b =>
    have hl : l.nr = true := by simpa [Frame.okWith] using hf
    have htn : t.nr = true := by
      rcases hs with h | h
      · exact h
      · cases h
    by_cases hA : (t.isRed && !l.isRed) = true
    · simp only [Bool.and_eq_true, Bool.not_eq_true'] at hA
      obtain ⟨tl, tx, tb, tr, rfl⟩ := isRed_node t hA.1
      rw [nr_node] at htn
      have htl : tl.isRed = false := by
        rcases htn.2.1 with h | h
        · cases h
        · exact h
      have e : llrbA (Frame.fill (Frame.R l x c b) (Shape.node tl tx false tb tr)) =
          Shape.node (Shape.node l x false b tl) tx c tb tr := by
        simp [llrbA, llrbLeftA, llrbRightA, llrbFlipA, Frame.fill, hA.2, rotateLeft_mk, htn.1]
      rw [e]
      constructor
      · rw [wk_node, nr_node]
        exact ⟨htn.1, ⟨htl, Or.inr hA.2, hl, htn.2.2.1⟩, htn.2.2.2⟩
      · intro hc
        simp only [Frame.red, Bool.not_eq_false'] at hc
        rw [nr_node, nr_node]
        exact ⟨htn.1, Or.inl hc, ⟨htl, Or.inr hA.2, hl, htn.2.2.1⟩, htn.2.2.2⟩
    · simp only [Bool.not_eq_true] at hA
      have hll : (l.isRed && l.left.isRed) = false := by
        cases l with
        | nil => rfl
        | node la lx lc lb lr =>
          rw [nr_node] at hl
          cases lc
          · rcases hl.2.1 with h | h
            · cases h
            · simp [h]
          · rfl
      by_cases hB : (l.isRed && t.isRed) = true
      · simp only [Bool.and_eq_true] at hB
        obtain ⟨tl, tx, tb, tr, rfl⟩ := isRed_node t hB.2
        obtain ⟨la, lx, lb, lr, rfl⟩ := isRed_node l hB.1
        rw [nr_node] at htn hl
        have e : llrbA (Frame.fill (Frame.R (Shape.node la lx false lb lr) x c b)
            (Shape.node tl tx false tb tr)) =
            Shape.node (Shape.node la lx true lb lr) x (!c) b (Shape.node tl tx true tb tr) := by
          have h1 : la.isRed = false := by
            rcases hl.2.1 with h | h
            · cases h
            · exact h
          simp [llrbA, llrbLeftA, llrbRightA, llrbFlipA, Frame.fill, flip_mk, h1]
        rw [e]
        constructor
        · rw [wk_node, nr_node, nr_node]
          simp [htn.1, htn.2.2.1, htn.2.2.2, hl.1, hl.2.2.1, hl.2.2.2]
        · intro hc
          simp only [Frame.red, Bool.not_eq_false'] at hc
          subst hc
          rw [nr_node, nr_node, nr_node]
          simp [htn.1, htn.2.2.1, htn.2.2.2, hl.1, hl.2.2.1, hl.2.2.2]
      · simp only [Bool.not_eq_true] at hB
        have htr : t.isRed = false := by
          cases h : t.isRed
          · rfl
          · rw [h] at hA hB
            cases h2 : l.isRed
            · rw [h2] at hA; simp at hA
            · rw [h2] at hB; simp at hB
        have e : llrbA (Frame.fill (Frame.R l x c b) t) = Shape.node l x c b t := by
          apply llrbA_self
          · simp [Frame.fill, htr]
          · simpa [Frame.fill] using hll
          · simp [Frame.fill, htr]
        rw [e]
        constructor
        · rw [wk_node]; exact ⟨htr, hl, htn⟩
        · intro hc
          simp only [Frame.red, Bool.not_eq_false'] at hc
          rw [nr_node]; exact ⟨htr, Or.inl hc, hl, htn⟩


theorem fill_isRed (f : Frame β) (t : Shape β) : (f.fill t).isRed = f.red := by
  cases f <;> rfl

theorem okWith_mono (f : Frame β) (a b : Bool) (h : f.okWith a b = true) :
    f.okWith true false = true := by
  cases f <;> simp_all [Frame.okWith]

theorem okWith_weaken (f : Frame β) (a b : Bool) (h : f.okWith a b = true) :
    f.okWith a false = true := by
  cases f <;> simp_all [Frame.okWith]

theorem ctxOK_mono (ctx : List (Frame β)) (b : Bool) (h : ctxOK ctx b = true) :
    ctxOK ctx false = true := by
  cases ctx with
  | nil => rfl
  | cons f rest =>
    simp only [ctxOK, Bool.and_eq_true] at h ⊢
    exact ⟨okWith_weaken f _ b h.1, h.2⟩

theorem ctxOK_isL (f : Frame β) (rest : List (Frame β)) (h : ctxOK (f :: rest) true = true) :
    f.isR = false := by
  simp only [ctxOK, Bool.and_eq_true] at h
  cases f <;> simp_all [Frame.okWith, Frame.isR]

/-- One step of `llrbToRoot` keeps `Good`. -/
theorem good_step (f : Frame β) (rest : List (Frame β)) (t : Shape β)
    (h : Good (f :: rest) t = true) : Good rest (llrbA (f.fill t)) = true := by
  simp only [Good, Bool.and_eq_true, Bool.or_eq_true] at h ⊢
  obtain ⟨⟨h1, h2⟩, h4⟩ := h
  have h2' := h2
  simp only [ctxOK, Bool.and_eq_true] at h2'
  obtain ⟨g1, g2⟩ := llrbA_fill f t (okWith_mono f _ _ h2'.1) h1
    (h4.imp id (ctxOK_isL f rest))
  refine ⟨⟨g1, ctxOK_mono rest _ h2'.2⟩, ?_⟩
  cases hc : f.red
  · exact Or.inl (g2 hc)
  · rw [hc] at h2'
    exact Or.inr h2'.2

/-- The walk of `llrbToRoot` from the parent of a subtree that is `Good` ends
with a tree that passes `testReds`. -/
theorem walk_good (ctx : List (Frame β)) :
    ∀ (f : Frame β) (t : Shape β), Good (f :: ctx) t = true →
      (walkUpA llrbA ctx (f.fill t)).wk = true := by
  induction ctx with
  | nil =>
    intro f t h
    have := good_step f [] t h
    simp only [Good, Bool.and_eq_true] at this
    exact this.1.1
  | cons g rest ih =>
    intro f t h
    exact ih g _ (good_step f (g :: rest) t h)

/-- The checks of `testReds` on a tree, split into the path to a subtree and
the subtree. -/
theorem plug_wk (ctx : List (Frame β)) :
    ∀ t : Shape β, (plug ctx t).wk =
      (match ctx with
        | [] => t.wk
        | _ :: _ => t.nr && ctxOK ctx t.isRed) := by
  induction ctx with
  | nil => intro t; rfl
  | cons f rest ih =>
    intro t
    rw [plug_cons, ih]
    cases rest with
    | nil =>
      simp only [ctxOK, List.isEmpty_nil, Bool.and_true]
      cases f <;> simp [Frame.fill, Shape.wk, Frame.okWith, Bool.and_comm, Bool.and_assoc,
        Bool.and_left_comm]
    | cons g rest2 =>
      simp only [ctxOK, List.isEmpty_cons]
      rw [fill_isRed]
      cases f <;> simp [Frame.fill, Shape.nr, Frame.okWith, Frame.red, Bool.and_comm,
        Bool.and_assoc, Bool.and_left_comm]

theorem walkUpA_wk (ctx : List (Frame β)) (u : Shape β) (h : Good ctx (llrbA u) = true) :
    (walkUpA llrbA ctx u).wk = true := by
  cases ctx with
  | nil =>
    simp only [Good, Bool.and_eq_true] at h
    exact h.1.1
  | cons f rest => exact walk_good rest f (llrbA u) h

theorem good_of_nr (ctx : List (Frame β)) (v : Shape β) (hc : ctxOK ctx false = true)
    (hv : v.nr = true) : Good ctx v = true := by
  simp [Good, nr_wk v hv, hc, hv]

/-- A non-red subtree that passes the checks, in the hole of a path that passes
them, is a state of the loop of `repairToRoot` one level up. -/
theorem rgood_up (f : Frame β) (rest : List (Frame β)) (v : Shape β)
    (hc : ctxOK (f :: rest) false = true) (hv : v.nr = true) (hr : v.isRed = false) :
    RGood rest (f.fill v) f.isR = true := by
  simp only [ctxOK, Bool.and_eq_true] at hc
  have h1 := ctxOK_mono rest _ hc.2
  cases f with
  | L x c b r =>
    have h2 : r.isRed = false ∧ r.nr = true := by simpa [Frame.okWith] using hc.1
    simp [RGood, h1, sib, Frame.fill, Frame.isR, hv, hr, h2.1, h2.2]
  | R l x c b =>
    have h2 : l.nr = true ∧ ((c = true ∨ rest = []) ∨ l.isRed = false) := by
      simpa [Frame.okWith] using hc.1
    rcases h2.2 with (h | h) | h
    · simp [RGood, h1, sib, Frame.fill, Frame.isR, hv, hr, h2.1, h]
    · subst h
      simp [RGood, sib, Frame.fill, Frame.isR, hv, hr, h2.1, ctxOK]
    · simp [RGood, h1, sib, Frame.fill, Frame.isR, hv, hr, h2.1, h]

theorem not_isRed_node (t : Shape β) (h : t.isRed = false) (hn : t.isNil = false) :
    ∃ l x b r, t = Shape.node l x true b r := by
  cases t with
  | nil => cases hn
  | node l x c b r =>
    cases c
    · cases h
    · exact ⟨l, x, b, r, rfl⟩

/-- The loop of `repairToRoot` when the sibling is `nil`. -/
theorem rgood_nil (ctx : List (Frame β)) (u : Shape β) (sl : Bool)
    (h : RGood ctx u sl = true) (hn : (sib u sl).isNil = true) : Good ctx (llrbA u) = true := by
  cases u with
  | nil => exact good_of_nr ctx _ (by simp only [RGood, Bool.and_eq_true] at h; exact h.1.1.1.1.1) rfl
  | node l x c b r =>
    simp only [RGood, Bool.and_eq_true, Bool.or_eq_true, Bool.not_eq_true'] at h
    obtain ⟨⟨⟨⟨⟨h1, h2⟩, h3⟩, h4⟩, h5⟩, h6⟩ := h
    cases sl with
    | true =>
      simp only [sib, if_true, left_mk, Bool.not_true, Bool.false_eq_true, if_false,
        right_mk] at hn h2 h3 h4
      cases l with
      | node _ _ _ _ _ => cases hn
      | nil =>
        have e : llrbA (Shape.node Shape.nil x c b r) = Shape.node Shape.nil x c b r :=
          llrbA_self _ (by simp [h3]) (by simp) (by simp)
        rw [e]
        exact good_of_nr ctx _ h1 (by rw [nr_node]; exact ⟨h3, Or.inr rfl, rfl, h2⟩)
    | false =>
      simp only [sib, Bool.false_eq_true, if_false, right_mk, Bool.not_false, if_true,
        left_mk] at hn h2 h3 h4
      cases r with
      | node _ _ _ _ _ => cases hn
      | nil =>
        have e : llrbA (Shape.node l x c b Shape.nil) = Shape.node l x c b Shape.nil :=
          llrbA_self _ (by simp) (by simp [h3]) (by simp)
        rw [e]
        exact good_of_nr ctx _ h1 (by rw [nr_node]; exact ⟨rfl, Or.inr h3, h2, rfl⟩)

/-- The rounds of `repairToRoot` that paint the sibling red: afterwards `llrb`
leaves a black subtree that passes the checks. -/
theorem rgood_paint (u : Shape β) (sl : Bool)
    (hd : (sib u (!sl)).nr = true) (hdr : (sib u (!sl)).isRed = false)
    (hs : (sib u sl).nr = true) (hsn : (sib u sl).isNil = false)
    (hsr : (sib u sl).isRed = false) (hsl : (sib u sl).left.isRed = false) :
    (llrbA (paintSib (u.paint true) sl false)).nr = true ∧
      (llrbA (paintSib (u.paint true) sl false)).isRed = false := by
  cases u with
  | nil => cases sl <;> cases hsn
  | node l x c b r =>
    cases sl with
    | true =>
      simp only [sib, if_true, left_mk, Bool.not_true, Bool.false_eq_true, if_false,
        right_mk] at hd hdr hs hsn hsr hsl
      obtain ⟨sa, sx, sb, sr, rfl⟩ := not_isRed_node l hsr hsn
      rw [nr_node] at hs
      simp only [left_mk] at hsl
      have e : llrbA (paintSib ((Shape.node (Shape.node sa sx true sb sr) x c b r).paint true)
          true false) = Shape.node (Shape.node sa sx false sb sr) x true b r := by
        have : paintSib ((Shape.node (Shape.node sa sx true sb sr) x c b r).paint true)
            true false = Shape.node (Shape.node sa sx false sb sr) x true b r := rfl
        rw [this]
        exact llrbA_self _ (by simp [hdr]) (by simp [hsl]) (by simp [hdr])
      rw [e]
      refine ⟨?_, rfl⟩
      rw [nr_node, nr_node]
      exact ⟨hdr, Or.inl rfl, ⟨hs.1, Or.inr hsl, hs.2.2.1, hs.2.2.2⟩, hd⟩
    | false =>
      simp only [sib, Bool.false_eq_true, if_false, right_mk, Bool.not_false, if_true,
        left_mk] at hd hdr hs hsn hsr hsl
      obtain ⟨sa, sx, sb, sr, rfl⟩ := not_isRed_node r hsr hsn
      rw [nr_node] at hs
      simp only [left_mk] at hsl
      have e : llrbA (paintSib ((Shape.node l x c b (Shape.node sa sx true sb sr)).paint true)
          false false) = Shape.node (Shape.node l x false b sa) sx true sb sr := by
        have : paintSib ((Shape.node l x c b (Shape.node sa sx true sb sr)).paint true)
            false false = Shape.node l x true b (Shape.node sa sx false sb sr) := rfl
        rw [this]
        simp [llrbA, llrbLeftA, llrbRightA, llrbFlipA, rotateLeft_mk, hdr, hs.1]
      rw [e]
      refine ⟨?_, rfl⟩
      rw [nr_node, nr_node]
      exact ⟨hs.1, Or.inl rfl, ⟨hsl, Or.inr hdr, hd, hs.2.2.1⟩, hs.2.2.2⟩

/-- The round of `repairToRoot` that rotates a red nephew up: afterwards `llrb`
leaves a subtree that passes the checks. -/
theorem rgood_rotate (u : Shape β) (sl : Bool)
    (hd : (sib u (!sl)).nr = true) (hdr : (sib u (!sl)).isRed = false)
    (hs : (sib u sl).nr = true)
    (hsr : (sib u sl).isRed = false) (hsl : (sib u sl).left.isRed = true) :
    (llrbA (if sl then u.rotateRight
      else (u.setRight u.right.rotateRight).rotateLeft)).nr = true := by
  cases u with
  | nil => cases sl <;> cases hsl
  | node l x c b r =>
    cases sl with
    | true =>
      simp only [sib, if_true, left_mk, Bool.not_true, Bool.false_eq_true, if_false,
        right_mk] at hd hdr hs hsr hsl
      have hsn : l.isNil = false := by
        cases l with
        | nil => cases hsl
        | node _ _ _ _ _ => rfl
      obtain ⟨sa, sx, sb, sr, rfl⟩ := not_isRed_node l hsr hsn
      simp only [left_mk] at hsl
      obtain ⟨a1, ax, ab, a2, rfl⟩ := isRed_node sa hsl
      rw [nr_node, nr_node] at hs
      have ha1 : a1.isRed = false := by
        rcases hs.2.2.1.2.1 with h | h
        · cases h
        · exact h
      have e : llrbA (Shape.node (Shape.node (Shape.node a1 ax false ab a2) sx true sb sr) x c b
          r).rotateRight =
          Shape.node (Shape.node a1 ax true ab a2) sx (!c) sb (Shape.node sr x true b r) := by
        simp [llrbA, llrbLeftA, llrbRightA, llrbFlipA, rotateRight_mk, flip_mk, ha1]
      simp only [if_true]
      rw [e, nr_node, nr_node, nr_node]
      simp [hs.1, hs.2.2.1.1, hs.2.2.1.2.2.1, hs.2.2.1.2.2.2, hs.2.2.2, hd, hdr]
    | false =>
      simp only [sib, Bool.false_eq_true, if_false, right_mk, Bool.not_false, if_true,
        left_mk] at hd hdr hs hsr hsl
      have hsn : r.isNil = false := by
        cases r with
        | nil => cases hsl
        | node _ _ _ _ _ => rfl
      obtain ⟨sa, sx, sb, sr, rfl⟩ := not_isRed_node r hsr hsn
      simp only [left_mk] at hsl
      obtain ⟨a1, ax, ab, a2, rfl⟩ := isRed_node sa hsl
      rw [nr_node, nr_node] at hs
      have ha1 : a1.isRed = false := by
        rcases hs.2.2.1.2.1 with h | h
        · cases h
        · exact h
      have e : llrbA ((Shape.node l x c b (Shape.node (Shape.node a1 ax false ab a2) sx true sb
          sr)).setRight (Shape.node l x c b (Shape.node (Shape.node a1 ax false ab a2) sx true sb
          sr)).right.rotateRight).rotateLeft =
          Shape.node (Shape.node l x true b a1) ax (!c) ab (Shape.node a2 sx true sb sr) := by
        simp [llrbA, llrbLeftA, llrbRightA, llrbFlipA, rotateRight_mk, rotateLeft_mk, flip_mk,
          Shape.setRight, hdr]
      simp only [Bool.false_eq_true, if_false]
      rw [e, nr_node, nr_node, nr_node]
      simp [hs.1, hs.2.2.1.1, hs.2.2.1.2.2.1, hs.2.2.1.2.2.2, hs.2.2.2, hd, hdr, ha1]

/-- The round of `repairToRoot` with a red sibling: `llrb` changes nothing. -/
theorem rgood_red (u : Shape β)
    (hd : u.right.nr = true) (hdr : u.right.isRed = false)
    (hs : u.left.nr = true) (hsr : u.left.isRed = true) :
    llrbA u = u ∧ u.wk = true ∧ (u.isRed = false → u.nr = true) := by
  cases u with
  | nil => cases hsr
  | node l x c b r =>
    simp only [left_mk, right_mk] at hd hdr hs hsr
    obtain ⟨sa, sx, sb, sr, rfl⟩ := isRed_node l hsr
    rw [nr_node] at hs
    have ha : sa.isRed = false := by
      rcases hs.2.1 with h | h
      · cases h
      · exact h
    refine ⟨llrbA_self _ (by simp [hdr]) (by simp [ha]) (by simp [hdr]), ?_, ?_⟩
    · rw [wk_node, nr_node]; exact ⟨hdr, hs, hd⟩
    · intro hc
      simp only [isRed_mk, Bool.not_eq_false'] at hc
      rw [nr_node, nr_node]; exact ⟨hdr, Or.inl hc, hs, hd⟩

theorem paint_of_black (u : Shape β) (h : u.isRed = false) : u.paint true = u := by
  cases u with
  | nil => rfl
  | node l x c b r =>
    cases c
    · cases h
    · rfl

/-- What a round of `repairToRoot` leaves when the sibling is not `nil`: the
whole tree, which passes the checks, or a non-red subtree of `p` that passes
them after `llrb`, or, with a red sibling, the unchanged subtree. -/
theorem repairRoundA_good (ctx : List (Frame β)) (u : Shape β) (sl : Bool)
    (h : RGood ctx u sl = true) (hn : (sib u sl).isNil = false) :
    (∃ T, repairRoundA ctx u sl = Sum.inl T ∧ T.wk = true) ∨
    (∃ u1, repairRoundA ctx u sl = Sum.inr u1 ∧ (llrbA u1).wk = true ∧
      (ctx ≠ [] → (llrbA u1).nr = true ∧ (llrbA u1).isRed = false)) := by
  simp only [RGood, Bool.and_eq_true, Bool.or_eq_true, Bool.not_eq_true'] at h
  obtain ⟨⟨⟨⟨⟨h1, h2⟩, h3⟩, h4⟩, h5⟩, h6⟩ := h
  unfold repairRoundA
  by_cases c1 : (!(sib u sl).isRed && !(sib u sl).left.isRed && u.isRed) = true
  · rw [if_pos c1]
    simp only [Bool.and_eq_true, Bool.not_eq_true'] at c1
    obtain ⟨g1, g2⟩ := rgood_paint u sl h2 h3 h4 hn c1.1.1 c1.1.2
    exact Or.inl ⟨_, rfl, walkUpA_wk ctx _ (good_of_nr ctx _ h1 g1)⟩
  · rw [if_neg c1]
    by_cases c2 : (!(sib u sl).isRed && !(sib u sl).left.isRed && !u.isRed) = true
    · rw [if_pos c2]
      simp only [Bool.and_eq_true, Bool.not_eq_true'] at c2
      obtain ⟨g1, g2⟩ := rgood_paint u sl h2 h3 h4 hn c2.1.1 c2.1.2
      rw [paint_of_black u c2.2] at g1 g2
      exact Or.inr ⟨_, rfl, nr_wk _ g1, fun _ => ⟨g1, g2⟩⟩
    · rw [if_neg c2]
      by_cases c3 : (!(sib u sl).isRed && (sib u sl).left.isRed) = true
      · rw [if_pos c3]
        simp only [Bool.and_eq_true, Bool.not_eq_true'] at c3
        have g := rgood_rotate u sl h2 h3 h4 c3.1 c3.2
        cases sl with
        | true =>
          simp only [if_true] at g ⊢
          exact Or.inl ⟨_, rfl, walkUpA_wk ctx _ (good_of_nr ctx _ h1 g)⟩
        | false =>
          simp only [Bool.false_eq_true, if_false] at g ⊢
          exact Or.inl ⟨_, rfl, walkUpA_wk ctx _ (good_of_nr ctx _ h1 g)⟩
      · rw [if_neg c3]
        have hsr : (sib u sl).isRed = true := by
          cases hr : (sib u sl).isRed
          · rw [hr] at c1 c2 c3
            cases hl : (sib u sl).left.isRed
            · rw [hl] at c1 c2
              cases hu : u.isRed
              · rw [hu] at c2; simp at c2
              · rw [hu] at c1; simp at c1
            · rw [hl] at c3; simp at c3
          · rfl
        have hsl : sl = true := by
          rcases h5 with h | h
          · rw [h] at hsr; cases hsr
          · exact h
        subst hsl
        simp only [sib, if_true, Bool.not_true, Bool.false_eq_true, if_false] at h2 h3 h4 hsr
        obtain ⟨e, g1, g2⟩ := rgood_red u h2 h3 h4 hsr
        refine Or.inr ⟨u, rfl, by rw [e]; exact g1, ?_⟩
        intro hctx
        rw [e]
        have hur : u.isRed = false := by
          rcases h6 with h | h
          · simp only [sib, if_true, hsr, Bool.and_true] at h
            exact h
          · exact absurd (List.isEmpty_iff.mp h) hctx
        exact ⟨g2 hur, hur⟩

/-- The loop of `repairToRoot` ends with a tree that passes `testReds`. -/
theorem repairLoopA_wk (ctx : List (Frame β)) :
    ∀ (u : Shape β) (sl : Bool), RGood ctx u sl = true → (repairLoopA ctx u sl).wk = true := by
  induction ctx with
  | nil =>
    intro u sl h
    unfold repairLoopA
    cases hn : (sib u sl).isNil
    · simp only [Bool.false_eq_true, if_false]
      rcases repairRoundA_good [] u sl h hn with ⟨T, e, g⟩ | ⟨u1, e, g, _⟩
      · rw [e]; exact g
      · rw [e]; exact g
    · simp only [if_true]
      exact walkUpA_wk [] u (rgood_nil [] u sl h hn)
  | cons f rest ih =>
    intro u sl h
    unfold repairLoopA
    cases hn : (sib u sl).isNil
    · simp only [Bool.false_eq_true, if_false]
      rcases repairRoundA_good (f :: rest) u sl h hn with ⟨T, e, g⟩ | ⟨u1, e, _, g⟩
      · rw [e]; exact g
      · rw [e]
        simp only
        obtain ⟨g1, g2⟩ := g (by simp)
        apply ih
        apply rgood_up f rest _ _ g1 g2
        simp only [RGood, Bool.and_eq_true] at h
        exact h.1.1.1.1.1
    · simp only [if_true]
      exact walkUpA_wk (f :: rest) u (rgood_nil (f :: rest) u sl h hn)

theorem nr_paint (t : Shape β) (h : t.nr = true) : (t.paint true).nr = true := by
  cases t with
  | nil => rfl
  | node l x c b r =>
    rw [nr_node] at h
    show (Shape.node l x true b r).nr = true
    rw [nr_node]
    exact ⟨h.1, Or.inl rfl, h.2.2.1, h.2.2.2⟩

theorem isRed_paint (t : Shape β) : (t.paint true).isRed = false := by
  cases t <;> rfl

/-- A subtree that passes the checks and is not red can replace any subtree of
a tree that passes them. -/
theorem plug_wk_of (ctx : List (Frame β)) (t0 t : Shape β) (h : (plug ctx t0).wk = true)
    (ht : t.nr = true) (hr : t.isRed = false) : (plug ctx t).wk = true := by
  rw [plug_wk] at h ⊢
  cases ctx with
  | nil => exact nr_wk t ht
  | cons f rest =>
    simp only [Bool.and_eq_true] at h ⊢
    rw [hr]
    exact ⟨ht, ctxOK_mono _ _ h.2⟩

/-- The checks do not depend on the address and the label of a node. -/
theorem plug_wk_relabel (ctx : List (Frame β)) (l r : Shape β) (x y : Nat) (c : Bool)
    (b b' : β) :
    (plug ctx (Shape.node l y c b' r)).wk = (plug ctx (Shape.node l x c b r)).wk := by
  rw [plug_wk, plug_wk]
  cases ctx <;> rfl

theorem repairToRootA_wk (ctx : List (Frame β)) (t1 : Shape β)
    (hc : ctxOK ctx false = true) (ht : t1.nr = true) (hr : t1.isRed = false) :
    (repairToRootA ctx t1).wk = true := by
  cases ctx with
  | nil => exact nr_wk t1 ht
  | cons f rest => exact repairLoopA_wk rest _ _ (rgood_up f rest t1 hc ht hr)

/-- After `repairDetach` the tree passes `testReds`: the node `n`, which had at
most one child, has been taken out of a tree that passed it. -/
theorem repairDetachA_wk (ctx : List (Frame β)) (l r t1 : Shape β) (n : Nat) (c : Bool) (b : β)
    (hw : (plug ctx (Shape.node l n c b r)).wk = true)
    (ht : (t1 = l ∧ r = Shape.nil) ∨ (t1 = r ∧ l = Shape.nil)) :
    (repairDetachA ctx t1 (!c)).wk = true := by
  have F : t1.nr = true ∧ (ctx ≠ [] → ctxOK ctx (!c) = true) ∧
      (c = false → ctx ≠ [] → t1.isRed = false) := by
    rw [plug_wk] at hw
    cases ctx with
    | nil =>
      simp only at hw
      rw [wk_node] at hw
      refine ⟨?_, fun h => absurd rfl h, fun _ h => absurd rfl h⟩
      rcases ht with ⟨e, _⟩ | ⟨e, _⟩
      · rw [e]; exact hw.2.1
      · rw [e]; exact hw.2.2
    | cons f rest =>
      simp only [Bool.and_eq_true, isRed_mk] at hw
      obtain ⟨hw1, hw2⟩ := hw
      rw [nr_node] at hw1
      refine ⟨?_, fun _ => hw2, ?_⟩
      · rcases ht with ⟨e, _⟩ | ⟨e, _⟩
        · rw [e]; exact hw1.2.2.1
        · rw [e]; exact hw1.2.2.2
      · intro hc _
        rcases ht with ⟨e, _⟩ | ⟨e, _⟩
        · rw [e]
          rcases hw1.2.1 with h | h
          · rw [hc] at h; cases h
          · exact h
        · rw [e]; exact hw1.1
  obtain ⟨f1, f2, f3⟩ := F
  unfold repairDetachA
  cases c with
  | false =>
    simp only [Bool.not_false, if_true]
    cases ctx with
    | nil => exact nr_wk t1 f1
    | cons f rest => exact plug_wk_of _ _ t1 hw f1 (f3 rfl (by simp))
  | true =>
    simp only [Bool.not_true, Bool.false_eq_true, if_false]
    have hc : ctxOK ctx false = true := by
      cases ctx with
      | nil => rfl
      | cons f rest => exact f2 (by simp)
    by_cases h1 : t1.isRed = true
    · rw [if_pos h1]
      exact plug_wk_of _ _ _ hw (nr_paint t1 f1) (isRed_paint t1)
    · rw [if_neg h1]
      simp only [Bool.not_eq_true] at h1
      by_cases h2 : (holeSib ctx).isRed = true
      · rw [if_pos h2]
        cases ctx with
        | nil => cases h2
        | cons f rest =>
          simp only [ctxOK, Bool.and_eq_true] at hc
          cases f with
          | L x c' b' r' =>
            exfalso
            simp only [holeSib] at h2
            have : r'.isRed = false := by
              have := hc.1
              simp only [Frame.okWith, Bool.and_eq_true, Bool.not_eq_true'] at this
              exact this.1.1
            rw [this] at h2
            cases h2
          | R l' x c' b' =>
            simp only [holeSib] at h2
            obtain ⟨ll, y, bz, lr, rfl⟩ := isRed_node l' h2
            simp only
            have hl : (Shape.node ll y false bz lr).nr = true := by
              have := hc.1
              simp only [Frame.okWith, Bool.and_eq_true] at this
              exact this.1.2
            rw [nr_node] at hl
            have hll : ll.isRed = false := by
              rcases hl.2.1 with h | h
              · cases h
              · exact h
            show (repairLoopA (Frame.R ll y c' bz :: rest) (Shape.node lr x false b' t1) true).wk
              = true
            apply repairLoopA_wk
            have hr2 : ctxOK rest (!c') = true := hc.2
            simp [RGood, ctxOK, Frame.okWith, Frame.red, sib, hl.1, hl.2.2.1, hl.2.2.2, hll, f1,
              h1, hr2]
      · rw [if_neg h2]
        exact repairToRootA_wk ctx t1 hc f1 h1

/-- After a red leaf is linked to the left of a node and `llrbToRoot` has run
from that node, the tree passes `testReds` when it passed it before. -/
theorem attach_left_wk (ctx : List (Frame β)) (r : Shape β) (x n : Nat) (c : Bool) (b bn : β)
    (hw : (plug ctx (Shape.node Shape.nil x c b r)).wk = true) :
    (walkUpA llrbA ctx
      (Shape.node (Shape.node Shape.nil n false bn Shape.nil) x c b r)).wk = true := by
  have h : (plug (Frame.L x c b r :: ctx) Shape.nil).wk = true := hw
  rw [plug_wk] at h
  simp only [Bool.and_eq_true] at h
  exact walk_good ctx (Frame.L x c b r) (Shape.node Shape.nil n false bn Shape.nil)
    (by simp only [Good, Bool.and_eq_true, Bool.or_eq_true]; exact ⟨⟨rfl, h.2⟩, Or.inl rfl⟩)

/-- After a red leaf is linked to the right of a node and `llrbToRoot` has run
from that node, the tree passes `testReds` when it passed it before. -/
theorem attach_right_wk (ctx : List (Frame β)) (l : Shape β) (x n : Nat) (c : Bool) (b bn : β)
    (hw : (plug ctx (Shape.node l x c b Shape.nil)).wk = true) :
    (walkUpA llrbA ctx
      (Shape.node l x c b (Shape.node Shape.nil n false bn Shape.nil))).wk = true := by
  have h : (plug (Frame.R l x c b :: ctx) Shape.nil).wk = true := hw
  rw [plug_wk] at h
  simp only [Bool.and_eq_true] at h
  exact walk_good ctx (Frame.R l x c b) (Shape.node Shape.nil n false bn Shape.nil)
    (by simp only [Good, Bool.and_eq_true, Bool.or_eq_true]; exact ⟨⟨rfl, h.2⟩, Or.inl rfl⟩)

theorem bal_node (l r : Shape β) (x : Nat) (c : Bool) (b : β) :
    (Shape.node l x c b r).bal = true ↔ l.bh = r.bh ∧ l.bal = true ∧ r.bal = true := by
  simp [Shape.bal, and_assoc]

theorem bh_node (l r : Shape β) (x : Nat) (c : Bool) (b : β) :
    (Shape.node l x c b r).bh = l.bh + (if c then 1 else 0) := rfl

/-- The function `llrb` keeps the black balance of a subtree whose child has
been left by `llrb`, and below the root it keeps the number of black nodes on
its paths. -/
theorem llrbA_fill_bal (f : Frame β) (t : Shape β) (isRoot : Bool)
    (hf : f.okWith isRoot false = true) (ht : t.wk = true)
    (hs : t.nr = true ∨ f.okWith isRoot true = true) (hb : (f.fill t).bal = true) :
    (llrbA (f.fill t)).bal = true ∧
      (isRoot = false → (llrbA (f.fill t)).bh = (f.fill t).bh) := by
  cases f with
  | L x c b r =>
    have hr : r.isRed = false ∧ r.nr = true := by
      have := okWith_mono _ _ _ hf
      simpa [Frame.okWith] using this
    by_cases hA : (t.isRed && t.left.isRed) = true
    · simp only [Bool.and_eq_true] at hA
      obtain ⟨tl, tx, tb, tr, rfl⟩ := isRed_node t hA.1
      obtain ⟨a, lx, lb, bb, rfl⟩ := isRed_node tl hA.2
      have hroot : c = true ∨ isRoot = true := by
        rcases hs with h | h
        · rw [nr_node] at h
          rcases h.2.1 with h' | h'
          · cases h'
          · cases h'
        · simp only [Frame.okWith, isRed_mk, Bool.not_false, Bool.not_true, Bool.or_false,
            Bool.and_eq_true, Bool.or_eq_true] at h
          exact h.2
      have e : llrbA (Frame.fill (Frame.L x c b r)
          (Shape.node (Shape.node a lx false lb bb) tx false tb tr)) =
          Shape.node (Shape.node a lx true lb bb) tx (!c) tb (Shape.node tr x true b r) := by
        simp [llrbA, llrbLeftA, llrbRightA, llrbFlipA, Frame.fill, hr.1, rotateRight_mk, flip_mk]
      rw [e]
      simp only [Frame.fill, bal_node, bh_node, Bool.false_eq_true, if_false, if_true,
        Nat.add_zero] at hb ⊢
      obtain ⟨q1, ⟨q2, ⟨q3, q4, q5⟩, q6⟩, q7⟩ := hb
      refine ⟨⟨by omega, ⟨q3, q4, q5⟩, by omega, q6, q7⟩, ?_⟩
      intro hi
      rcases hroot with h | h
      · subst h; simp
      · rw [hi] at h; cases h
    · simp only [Bool.not_eq_true] at hA
      have e : llrbA (Frame.fill (Frame.L x c b r) t) = Frame.fill (Frame.L x c b r) t := by
        apply llrbA_self
        · simp [Frame.fill, hr.1]
        · simpa [Frame.fill] using hA
        · simp [Frame.fill, hr.1]
      rw [e]
      exact ⟨hb, fun _ => rfl⟩
  | R l x c b =>
    have hf' := hf
    simp only [Frame.okWith, Bool.not_false, Bool.true_and, Bool.and_eq_true, Bool.or_eq_true,
      Bool.not_eq_true'] at hf'
    have hl : l.nr = true := hf'.1
    have htn : t.nr = true := by
      rcases hs with h | h
      · exact h
      · simp [Frame.okWith] at h
    by_cases hA : (t.isRed && !l.isRed) = true
    · simp only [Bool.and_eq_true, Bool.not_eq_true'] at hA
      obtain ⟨tl, tx, tb, tr, rfl⟩ := isRed_node t hA.1
      rw [nr_node] at htn
      have e : llrbA (Frame.fill (Frame.R l x c b) (Shape.node tl tx false tb tr)) =
          Shape.node (Shape.node l x false b tl) tx c tb tr := by
        simp [llrbA, llrbLeftA, llrbRightA, llrbFlipA, Frame.fill, hA.2, rotateLeft_mk, htn.1]
      rw [e]
      simp only [Frame.fill, bal_node, bh_node, Bool.false_eq_true, if_false, if_true,
        Nat.add_zero] at hb ⊢
      obtain ⟨q1, q2, q3, q4, q5⟩ := hb
      exact ⟨⟨by omega, ⟨by omega, q2, q4⟩, q5⟩, fun _ => trivial⟩
    · simp only [Bool.not_eq_true] at hA
      have hll : (l.isRed && l.left.isRed) = false := by
        cases l with
        | nil => rfl
        | node la lx lc lb lr =>
          rw [nr_node] at hl
          cases lc
          · rcases hl.2.1 with h | h
            · cases h
            · simp [h]
          · rfl
      by_cases hB : (l.isRed && t.isRed) = true
      · simp only [Bool.and_eq_true] at hB
        obtain ⟨tl, tx, tb, tr, rfl⟩ := isRed_node t hB.2
        obtain ⟨la, lx, lb, lr, rfl⟩ := isRed_node l hB.1
        rw [nr_node] at hl
        have h1 : la.isRed = false := by
          rcases hl.2.1 with h | h
          · cases h
          · exact h
        have hroot : c = true ∨ isRoot = true := by
          rcases hf'.2 with (h | h) | h
          · exact Or.inl h
          · exact Or.inr h
          · cases h
        have e : llrbA (Frame.fill (Frame.R (Shape.node la lx false lb lr) x c b)
            (Shape.node tl tx false tb tr)) =
            Shape.node (Shape.node la lx true lb lr) x (!c) b (Shape.node tl tx true tb tr) := by
          simp [llrbA, llrbLeftA, llrbRightA, llrbFlipA, Frame.fill, flip_mk, h1]
        rw [e]
        simp only [Frame.fill, bal_node, bh_node, Bool.false_eq_true, if_false, if_true,
          Nat.add_zero] at hb ⊢
        obtain ⟨q1, ⟨q2, q3, q4⟩, q5, q6, q7⟩ := hb
        refine ⟨⟨by omega, ⟨q2, q3, q4⟩, q5, q6, q7⟩, ?_⟩
        intro hi
        rcases hroot with h | h
        · subst h; simp
        · rw [hi] at h; cases h
      · simp only [Bool.not_eq_true] at hB
        have htr : t.isRed = false := by
          cases h : t.isRed
          · rfl
          · rw [h] at hA hB
            cases h2 : l.isRed
            · rw [h2] at hA; simp at hA
            · rw [h2] at hB; simp at hB
        have e : llrbA (Frame.fill (Frame.R l x c b) t) = Frame.fill (Frame.R l x c b) t := by
          apply llrbA_self
          · simp [Frame.fill, htr]
          · simpa [Frame.fill] using hll
          · simp [Frame.fill, htr]
        rw [e]
        exact ⟨hb, fun _ => rfl⟩

theorem fill_bh_L (x : Nat) (c : Bool) (b : β) (r t : Shape β) :
    (Frame.fill (Frame.L x c b r) t).bh = t.bh + (if c then 1 else 0) := rfl

/-- The check of `blackBalance` on a tree, split into the path to a subtree and
the subtree. -/
theorem plug_bal (ctx : List (Frame β)) :
    ∀ t : Shape β, (plug ctx t).bal = (t.bal && ctxBal ctx t.bh) := by
  induction ctx with
  | nil => intro t; simp [plug, ctxBal]
  | cons f rest ih =>
    intro t
    rw [plug_cons, ih]
    cases f with
    | L x c b r =>
      simp only [Frame.fill, Shape.bal, Shape.bh, ctxBal]
      by_cases h : t.bh = r.bh
      · simp [h, Bool.and_comm, Bool.and_assoc, Bool.and_left_comm]
      · have h' : ¬ r.bh = t.bh := fun e => h e.symm
        simp [h, h']
    | R l x c b =>
      simp only [Frame.fill, Shape.bal, Shape.bh, ctxBal]
      by_cases h : l.bh = t.bh
      · simp [h, Bool.and_comm, Bool.and_assoc, Bool.and_left_comm]
      · simp [h]

theorem plug_bal_relabel (ctx : List (Frame β)) (l r : Shape β) (x y : Nat) (c : Bool)
    (b b' : β) :
    (plug ctx (Shape.node l y c b' r)).bal = (plug ctx (Shape.node l x c b r)).bal := by
  rw [plug_bal, plug_bal]
  rfl

theorem ctxBal_fill (g : Frame β) (rest : List (Frame β)) (t : Shape β) (h : Nat)
    (hc : ctxBal (g :: rest) h = true) (hb : t.bal = true) (hh : t.bh = h) :
    (g.fill t).bal = true ∧ ctxBal rest (g.fill t).bh = true := by
  subst hh
  cases g with
  | L x c b r =>
    simp only [ctxBal, Bool.and_eq_true, decide_eq_true_eq] at hc
    refine ⟨?_, hc.2⟩
    simp only [Frame.fill]
    rw [bal_node]
    exact ⟨hc.1.1.symm, hb, hc.1.2⟩
  | R l x c b =>
    simp only [ctxBal, Bool.and_eq_true, decide_eq_true_eq] at hc
    refine ⟨?_, ?_⟩
    · simp only [Frame.fill]
      rw [bal_node]
      exact ⟨hc.1.1, hc.1.2, hb⟩
    · simp only [Frame.fill, Shape.bh]
      rw [hc.1.1]
      exact hc.2

/-- The walk of `llrbToRoot` keeps the black balance. -/
theorem walk_bal (ctx : List (Frame β)) :
    ∀ (f : Frame β) (t : Shape β), Good (f :: ctx) t = true → (f.fill t).bal = true →
      ctxBal ctx (f.fill t).bh = true → (walkUpA llrbA ctx (f.fill t)).bal = true := by
  induction ctx with
  | nil =>
    intro f t h hb _
    simp only [Good, ctxOK, List.isEmpty_nil, Bool.and_true, Bool.and_eq_true,
      Bool.or_eq_true] at h
    exact (llrbA_fill_bal f t true h.1.2 h.1.1 h.2 hb).1
  | cons g rest ih =>
    intro f t h hb hc
    have h' := h
    simp only [Good, ctxOK, List.isEmpty_cons, Bool.and_eq_true, Bool.or_eq_true] at h'
    obtain ⟨g1, g2⟩ := llrbA_fill_bal f t false h'.1.2.1 h'.1.1 (h'.2.imp id (fun x => x.1)) hb
    obtain ⟨g3, g4⟩ := ctxBal_fill g rest (llrbA (f.fill t)) _ hc g1 (g2 rfl)
    exact ih g _ (good_step f (g :: rest) t h) g3 g4

/-- After a red leaf is linked to the left of a node and `llrbToRoot` has run
from that node, the tree is black-balanced when it was before and passed
`testReds`. -/
theorem attach_left_bal (ctx : List (Frame β)) (r : Shape β) (x n : Nat) (c : Bool) (b bn : β)
    (hw : (plug ctx (Shape.node Shape.nil x c b r)).wk = true)
    (hb : (plug ctx (Shape.node Shape.nil x c b r)).bal = true) :
    (walkUpA llrbA ctx
      (Shape.node (Shape.node Shape.nil n false bn Shape.nil) x c b r)).bal = true := by
  have h : (plug (Frame.L x c b r :: ctx) Shape.nil).wk = true := hw
  rw [plug_wk] at h
  simp only [Bool.and_eq_true] at h
  rw [plug_bal] at hb
  simp only [Bool.and_eq_true] at hb
  have hb1 := hb.1
  rw [bal_node] at hb1
  refine walk_bal ctx (Frame.L x c b r) (Shape.node Shape.nil n false bn Shape.nil)
    (by simp only [Good, Bool.and_eq_true, Bool.or_eq_true]; exact ⟨⟨rfl, h.2⟩, Or.inl rfl⟩)
    ?_ hb.2
  simp only [Frame.fill]
  rw [bal_node]
  exact ⟨hb1.1, rfl, hb1.2.2⟩

/-- After a red leaf is linked to the right of a node and `llrbToRoot` has run
from that node, the tree is black-balanced when it was before and passed
`testReds`. -/
theorem attach_right_bal (ctx : List (Frame β)) (l : Shape β) (x n : Nat) (c : Bool) (b bn : β)
    (hw : (plug ctx (Shape.node l x c b Shape.nil)).wk = true)
    (hb : (plug ctx (Shape.node l x c b Shape.nil)).bal = true) :
    (walkUpA llrbA ctx
      (Shape.node l x c b (Shape.node Shape.nil n false bn Shape.nil))).bal = true := by
  have h : (plug (Frame.R l x c b :: ctx) Shape.nil).wk = true := hw
  rw [plug_wk] at h
  simp only [Bool.and_eq_true] at h
  rw [plug_bal] at hb
  simp only [Bool.and_eq_true] at hb
  have hb1 := hb.1
  rw [bal_node] at hb1
  refine walk_bal ctx (Frame.R l x c b) (Shape.node Shape.nil n false bn Shape.nil)
    (by simp only [Good, Bool.and_eq_true, Bool.or_eq_true]; exact ⟨⟨rfl, h.2⟩, Or.inl rfl⟩)
    ?_ hb.2
  simp only [Frame.fill]
  rw [bal_node]
  exact ⟨hb1.1, hb1.2.1, rfl⟩

end Trade

namespace Trade

open RB

variable {β : Type}

theorem llrbLeft_ok (m : Heap) (s : Slot) (p : Nat) (t : Shape β) (ht : t ≠ Shape.nil)
    (hp : Pre m t s p) :
    ∃ m', llrbLeft m t.rootId = some (m', (llrbLeftA t).rootId) ∧
      Refines m t m' (llrbLeftA t) s p := by
  unfold llrbLeft llrbLeftA
  simp only [hp.leftOf ht, hp.rightOf ht, bind, Option.bind, (hp.left' ht).isRed,
    (hp.right' ht).isRed]
  by_cases hc : (t.right.isRed && !t.left.isRed) = true
  · rw [if_pos hc, if_pos hc]
    simp only [Bool.and_eq_true] at hc
    exact rotateLeft_ok' m s p t hp (isRed_ne_nil _ hc.1)
  · rw [if_neg hc, if_neg hc]
    exact ⟨m, rfl, Refines.skip m t s p hp.rep⟩

theorem llrbRight_ok (m : Heap) (s : Slot) (p : Nat) (t : Shape β) (ht : t ≠ Shape.nil)
    (hp : Pre m t s p) :
    ∃ m', llrbRight m t.rootId = some (m', (llrbRightA t).rootId) ∧
      Refines m t m' (llrbRightA t) s p := by
  unfold llrbRight llrbRightA
  simp only [hp.leftOf ht, bind, Option.bind, (hp.left' ht).isRed]
  by_cases hl : t.left.isRed = true
  · rw [if_pos hl, if_pos hl]
    have hlne := isRed_ne_nil _ hl
    have hpl := hp.left' ht
    simp only [hpl.leftOf hlne, (hpl.left' hlne).isRed]
    by_cases hll : t.left.left.isRed = true
    · rw [if_pos hll, if_pos hll]
      exact rotateRight_ok' m s p t hp hlne
    · rw [if_neg hll, if_neg hll]
      exact ⟨m, rfl, Refines.skip m t s p hp.rep⟩
  · rw [if_neg hl, if_neg hl]
    exact ⟨m, rfl, Refines.skip m t s p hp.rep⟩

theorem llrbFlip_ok (m : Heap) (s : Slot) (p : Nat) (t : Shape β) (ht : t ≠ Shape.nil)
    (hp : Pre m t s p) :
    ∃ m', llrbFlip m t.rootId = some m' ∧ Refines m t m' (llrbFlipA t) s p := by
  unfold llrbFlip llrbFlipA
  simp only [hp.leftOf ht, hp.rightOf ht, bind, Option.bind, (hp.left' ht).isRed,
    (hp.right' ht).isRed]
  by_cases hc : (t.left.isRed && t.right.isRed) = true
  · rw [if_pos hc, if_pos hc]
    simp only [Bool.and_eq_true] at hc
    exact flip_ok' m s p t hp (isRed_ne_nil _ hc.1) (isRed_ne_nil _ hc.2)
  · rw [if_neg hc, if_neg hc]
    exact ⟨m, rfl, Refines.skip m t s p hp.rep⟩

theorem flip_rootId (t : Shape β) : t.flip.rootId = t.rootId := by
  cases t with
  | nil => rfl
  | node l x c b r =>
    cases l with
    | nil => rfl
    | node _ _ _ _ _ =>
      cases r with
      | nil => rfl
      | node _ _ _ _ _ => rfl

theorem llrbFlipA_rootId (t : Shape β) : (llrbFlipA t).rootId = t.rootId := by
  unfold llrbFlipA
  split
  · exact flip_rootId t
  · rfl

/-- The function `llrb` at the root of a represented subtree does what `llrbA`
does to the shape. -/
theorem llrb_ok : StepOK llrb (llrbA : Shape β → Shape β) := by
  intro m s p t ht hp
  obtain ⟨m1, e1, R1⟩ := llrbLeft_ok m s p t ht hp
  have hp1 := R1.pre hp
  have ht1 := R1.ne_nil ht
  obtain ⟨m2, e2, R2⟩ := llrbRight_ok m1 s p _ ht1 hp1
  have hp2 := R2.pre hp1
  have ht2 := R2.ne_nil ht1
  obtain ⟨m3, e3, R3⟩ := llrbFlip_ok m2 s p _ ht2 hp2
  refine ⟨m3, ?_, R1.seq (R2.seq R3)⟩
  unfold llrb
  simp only [bind, Option.bind, e1, e2, e3, pure]
  unfold llrbA
  rw [llrbFlipA_rootId]

theorem llrbA_toList (t : Shape β) : (llrbA t).toList = t.toList := by
  have h1 : ∀ t : Shape β, (llrbLeftA t).toList = t.toList := by
    intro t; unfold llrbLeftA; split
    · exact rotateLeft_toList t
    · rfl
  have h2 : ∀ t : Shape β, (llrbRightA t).toList = t.toList := by
    intro t; unfold llrbRightA; split
    · split
      · exact rotateRight_toList t
      · rfl
    · rfl
  have h3 : ∀ t : Shape β, (llrbFlipA t).toList = t.toList := by
    intro t; unfold llrbFlipA; split
    · exact flip_toList t
    · rfl
  unfold llrbA
  rw [h3, h2, h1]

/-- The loop `llrbToRoot` from the hole of a path refines the whole tree: the
nodes stay the same, in the same order. -/
theorem llrbToRoot_ok (m : Heap) (ctx : List (Frame β)) (t : Shape β) (ht : t ≠ Shape.nil)
    (hrep : Rep m (Slot.root 0) 0 (plug ctx t)) (hnd : (plug ctx t).ids.Nodup)
    (hal : ∀ y ∈ (plug ctx t).ids, y < m.next) (hpos : 0 < m.next) :
    ∃ m', llrbToRoot m t.rootId = some m' ∧
      Refines m (plug ctx t) m' (walkUpA llrbA ctx t) (Slot.root 0) 0 := by
  have hfuel : ctx.length + 2 ≤ m.next + 1 := by
    have h1 := Guidstore.nodup_length_le _ m.next hpos hnd
      (fun y hy => ⟨Rep_ids_ne_zero m _ _ _ hrep y hy, hal y hy⟩)
    rw [plug_ids_length] at h1
    have h2 := ctx_length_le ctx
    have h3 : 1 ≤ t.ids.length := by
      cases t with
      | nil => exact absurd rfl ht
      | node l x c b r => simp [Shape.ids]; omega
    omega
  obtain ⟨m', h1, h2⟩ := walkUp_refines llrb llrbA llrb_ok llrbA_toList 0 ctx t m (m.next + 1) ht
    hrep hnd hfuel
  exact ⟨m', h1, h2⟩

end Trade

namespace Trade

open RB

variable {β : Type}

/-- After a refinement of the subtree in the hole of a path, `llrbToRoot` from
its root refines the whole tree. -/
theorem finish_ok (m0 m : Heap) (ctx : List (Frame β)) (u0 u : Shape β) (hu : u0 ≠ Shape.nil)
    (hrep : Rep m0 (Slot.root 0) 0 (plug ctx u0)) (hnd : (plug ctx u0).ids.Nodup)
    (hal : ∀ y ∈ (plug ctx u0).ids, y < m0.next) (hpos : 0 < m0.next)
    (R : Refines m0 u0 m u (holeSlot 0 ctx) (holeParent ctx)) :
    ∃ m', llrbToRoot m u.rootId = some m' ∧
      Refines m0 (plug ctx u0) m' (walkUpA llrbA ctx u) (Slot.root 0) 0 := by
  have R1 := R.plug 0 ctx hrep hnd
  have hids := ids_of_toList _ _ R1.toList
  obtain ⟨m', e, R2⟩ := llrbToRoot_ok m ctx u (R.ne_nil hu) R1.rep (by rw [hids]; exact hnd)
    (by rw [hids, R1.next]; exact hal) (by rw [R1.next]; exact hpos)
  exact ⟨m', e, R1.seq R2⟩

theorem left_ne_right_root (u : Shape β) (hnd : u.ids.Nodup) (h : u.right.rootId ≠ 0) :
    u.left.rootId ≠ u.right.rootId := by
  cases u with
  | nil => exact absurd rfl h
  | node l x c b r =>
    simp only [Shape.left, Shape.right] at h ⊢
    intro e
    have h1 : r.rootId ∈ r.ids := rootId_mem r h
    have h2 : l.rootId ∈ l.ids := rootId_mem l (e ▸ h)
    simp only [Shape.ids] at hnd
    exact (List.nodup_append.mp hnd).2.2 h2 (List.mem_cons_of_mem _ (e ▸ h1))

theorem ne_nil_of_rootId (t : Shape β) (h : t.rootId ≠ 0) : t ≠ Shape.nil := by
  intro e; rw [e] at h; exact h rfl

theorem paint_isRed_left (t : Shape β) (c : Bool) : (t.paint c).left = t.left := paint_left t c

/-- Painting the left child of the root. -/
theorem paintLeft_ok (m : Heap) (s : Slot) (p : Nat) (t : Shape β) (c : Bool) (ht : t ≠ Shape.nil)
    (hl : t.left ≠ Shape.nil) (hp : Pre m t s p) :
    ∃ m', m.wr t.left.rootId (fun x => { x with black := c }) = some m' ∧
      Refines m t m' (t.setLeft (t.left.paint c)) s p := by
  obtain ⟨m', e, R⟩ := paint_ok m _ _ t.left c hl (hp.left' ht)
  exact ⟨m', e, Refines.lift_left' hp ht R⟩

/-- Painting the right child of the root. -/
theorem paintRight_ok (m : Heap) (s : Slot) (p : Nat) (t : Shape β) (c : Bool)
    (ht : t ≠ Shape.nil) (hr : t.right ≠ Shape.nil) (hp : Pre m t s p) :
    ∃ m', m.wr t.right.rootId (fun x => { x with black := c }) = some m' ∧
      Refines m t m' (t.setRight (t.right.paint c)) s p := by
  obtain ⟨m', e, R⟩ := paint_ok m _ _ t.right c hr (hp.right' ht)
  exact ⟨m', e, Refines.lift_right' hp ht R⟩

/-- Painting the child `s` of the root. -/
theorem paintChild_ok (m : Heap) (sl : Slot) (p : Nat) (t : Shape β) (c : Bool) (s : Nat)
    (sd : Bool) (ht : t ≠ Shape.nil) (hs0 : s ≠ 0) (hs : s = (sib t sd).rootId)
    (hp : Pre m t sl p) :
    ∃ m', m.wr s (fun x => { x with black := c }) = some m' ∧
      Refines m t m' (paintSib t sd c) sl p ∧ (paintSib t sd c).rootId = t.rootId := by
  cases sd with
  | true =>
    simp only [sib, if_true] at hs
    obtain ⟨m', e1, R⟩ := paintLeft_ok m sl p t c ht (ne_nil_of_rootId _ (hs ▸ hs0)) hp
    exact ⟨m', by rw [hs]; exact e1, R, setLeft_rootId _ _⟩
  | false =>
    simp only [sib, Bool.false_eq_true, if_false] at hs
    obtain ⟨m', e1, R⟩ := paintRight_ok m sl p t c ht (ne_nil_of_rootId _ (hs ▸ hs0)) hp
    exact ⟨m', by rw [hs]; exact e1, R, setRight_rootId _ _⟩

/-- The colour and the left child of the child `s` of the root. -/
theorem child_reads (m : Heap) (sl : Slot) (p : Nat) (t : Shape β) (s : Nat) (sd : Bool)
    (ht : t ≠ Shape.nil) (hs0 : s ≠ 0) (hs : s = (sib t sd).rootId)
    (hp : Pre m t sl p) :
    sib t sd ≠ Shape.nil ∧
      isRed m s = (sib t sd).isRed ∧ leftOf m s = some (sib t sd).left.rootId ∧
      isRed m (sib t sd).left.rootId = (sib t sd).left.isRed := by
  cases sd with
  | true =>
    simp only [sib, if_true] at hs ⊢
    have hne := ne_nil_of_rootId t.left (hs ▸ hs0)
    have hpl := hp.left' ht
    exact ⟨hne, by rw [hs]; exact hpl.isRed,
      by rw [hs]; exact hpl.leftOf hne, (hpl.left' hne).isRed⟩
  | false =>
    simp only [sib, Bool.false_eq_true, if_false] at hs ⊢
    have hne := ne_nil_of_rootId t.right (hs ▸ hs0)
    have hpl := hp.right' ht
    exact ⟨hne, by rw [hs]; exact hpl.isRed,
      by rw [hs]; exact hpl.leftOf hne, (hpl.left' hne).isRed⟩

end Trade

namespace Trade

open RB

variable {β : Type}

/-- One round of the loop of `repairToRoot` either ends the repair with the
whole tree refined, or refines the subtree of `p` and goes on; the shapes are
those of `repairRoundA`. -/
theorem repairRound_ok (m : Heap) (ctx : List (Frame β)) (u : Shape β) (s : Nat) (sd : Bool)
    (hu : u ≠ Shape.nil)
    (hrep : Rep m (Slot.root 0) 0 (plug ctx u)) (hnd : (plug ctx u).ids.Nodup)
    (hal : ∀ y ∈ (plug ctx u).ids, y < m.next) (hpos : 0 < m.next)
    (hs0 : s ≠ 0) (hs : s = (sib u sd).rootId) :
    (∃ m' T', repairRound m u.rootId s = some (m', none) ∧
      Refines m (plug ctx u) m' T' (Slot.root 0) 0 ∧ repairRoundA ctx u sd = Sum.inl T') ∨
    (∃ m' u', repairRound m u.rootId s = some (m', some u.rootId) ∧
      Refines m u m' u' (holeSlot 0 ctx) (holeParent ctx) ∧ u'.rootId = u.rootId ∧
      repairRoundA ctx u sd = Sum.inr u') := by
  have hp := Pre_of_plug m 0 ctx u hrep hnd
  obtain ⟨hch, r1, r2, r3⟩ := child_reads m _ _ u s sd hu hs0 hs hp
  unfold repairRound repairRoundA
  simp only [r1, r2, r3, hp.isRed, bind, Option.bind]
  by_cases c1 : (!(sib u sd).isRed && !(sib u sd).left.isRed && u.isRed) = true
  · rw [if_pos c1, if_pos c1]
    left
    obtain ⟨m1, e1, R1⟩ := paint_ok m _ _ u true hu hp
    rw [e1]
    simp only
    have hp1 := R1.pre hp
    obtain ⟨m2, e2, R2, hr2⟩ := paintChild_ok m1 _ _ (u.paint true) false s sd
      (paint_ne_nil _ _ hu) hs0 (by
        rw [hs]; cases sd <;> simp [sib, paint_left, paint_right]) hp1
    rw [e2]
    simp only
    obtain ⟨m3, e3, R3⟩ := finish_ok m m2 ctx u _ hu hrep hnd hal hpos (R1.seq R2)
    rw [hr2, paint_rootId] at e3
    rw [e3]
    exact ⟨m3, _, rfl, R3, rfl⟩
  · rw [if_neg c1, if_neg c1]
    by_cases c2 : (!(sib u sd).isRed && !(sib u sd).left.isRed && !u.isRed) = true
    · rw [if_pos c2, if_pos c2]
      right
      obtain ⟨m1, e1, R1, hr1⟩ := paintChild_ok m _ _ u false s sd hu hs0 hs hp
      rw [e1]
      exact ⟨m1, _, rfl, R1, hr1, rfl⟩
    · rw [if_neg c2, if_neg c2]
      by_cases c3 : (!(sib u sd).isRed && (sib u sd).left.isRed) = true
      · rw [if_pos c3, if_pos c3]
        left
        rw [rd_eq m _ (hp.root_ne hu)]
        simp only
        have hleft : (m.nodes u.rootId).left = u.left.rootId := by
          have := hp.leftOf hu
          simp only [leftOf, rd_eq m _ (hp.root_ne hu), Option.map_some',
            Option.some.injEq] at this
          exact this
        simp only [Bool.and_eq_true] at c3
        have hchl : (sib u sd).left ≠ Shape.nil := isRed_ne_nil _ c3.2
        cases sd with
        | true =>
          simp only [sib, if_true] at hs hch hchl
          have hl : (m.nodes u.rootId).left = s := by rw [hleft, hs]
          rw [if_pos hl]
          obtain ⟨m1, e1, R1⟩ := rotateRight_ok' m _ _ u hp hch
          rw [e1]
          simp only
          obtain ⟨m2, e2, R2⟩ := finish_ok m m1 ctx u _ hu hrep hnd hal hpos R1
          rw [e2]
          exact ⟨m2, _, rfl, R2, rfl⟩
        | false =>
          simp only [sib, Bool.false_eq_true, if_false] at hs hch hchl
          have hne : ¬ (m.nodes u.rootId).left = s := by
            rw [hleft, hs]
            exact left_ne_right_root u hp.nodup (by rw [← hs]; exact hs0)
          rw [if_neg hne]
          have hpr := hp.right' hu
          obtain ⟨m1, e1, R1⟩ := rotateRight_ok' m _ _ u.right hpr hchl
          have R1' := Refines.lift_right' hp hu R1
          rw [hs, e1]
          simp only
          have hp1 := R1'.pre hp
          obtain ⟨m2, e2, R2⟩ := rotateLeft_ok' m1 _ _ (u.setRight u.right.rotateRight) hp1 (by
            rw [setRight_right _ _ hu]; exact rotateRight_ne_nil _ hch)
          rw [setRight_rootId] at e2
          rw [e2]
          simp only
          obtain ⟨m3, e3, R3⟩ := finish_ok m m2 ctx u _ hu hrep hnd hal hpos (R1'.seq R2)
          rw [e3]
          exact ⟨m3, _, rfl, R3, rfl⟩
      · rw [if_neg c3, if_neg c3]
        right
        exact ⟨m, u, rfl, Refines.skip m u _ _ hp.rep, rfl, rfl⟩

/-- The sibling and the parent of the root of the subtree in the hole of a
path. -/
theorem hole_sibling (m : Heap) (f : Frame β) (rest : List (Frame β)) (u : Shape β)
    (hu : u ≠ Shape.nil)
    (hrep : Rep m (Slot.root 0) 0 (plug (f :: rest) u)) (hnd : (plug (f :: rest) u).ids.Nodup) :
    parentOf m u.rootId = some (f.fill u).rootId ∧
    getSibling m u.rootId = some (sib (f.fill u) f.isR).rootId := by
  have hp := Pre_of_plug m 0 (f :: rest) u hrep hnd
  have hu0 := hp.root_ne hu
  have hpar : (m.nodes u.rootId).parent = holeParent (f :: rest) := by
    cases u with
    | nil => exact absurd rfl hu
    | node l x c b r => exact hp.rep.2.2.2.1
  rw [plug_cons] at hrep hnd
  have hp' := Pre_of_plug m 0 rest (f.fill u) hrep hnd
  have hx0 := hp'.root_ne (fill_ne_nil f u)
  have hl := hp'.leftOf (fill_ne_nil f u)
  have hr := hp'.rightOf (fill_ne_nil f u)
  simp only [leftOf, rightOf, rd_eq m _ hx0, Option.map_some', Option.some.injEq] at hl hr
  rw [holeParent_cons f rest u] at hpar
  refine ⟨by simp [parentOf, rd_eq m _ hu0, hpar], ?_⟩
  unfold getSibling
  simp only [rd_eq m _ hu0, bind, Option.bind, hpar, if_neg hx0, rd_eq m _ hx0, hl, hr]
  cases f with
  | L x c b r =>
    simp only [Frame.fill, Shape.left, Shape.right, Frame.isR, sib, Bool.false_eq_true,
      if_false, if_true]
    rfl
  | R l x c b =>
    have hne : ¬ (Frame.fill (Frame.R l x c b) u).left.rootId = u.rootId := by
      have := left_ne_right_root (Frame.fill (Frame.R l x c b) u) hp'.nodup
        (by simp only [Frame.fill, Shape.right]; exact hu0)
      simpa [Frame.fill, Shape.left, Shape.right] using this
    rw [if_neg hne]
    simp only [Frame.fill, Shape.left, Frame.isR, sib, if_true]
    rfl

/-- The root of a represented tree has no parent and no sibling. -/
theorem root_sibling (m : Heap) (u : Shape β) (hu : u ≠ Shape.nil)
    (hrep : Rep m (Slot.root 0) 0 u) :
    parentOf m u.rootId = some 0 ∧ getSibling m u.rootId = some 0 := by
  cases u with
  | nil => exact absurd rfl hu
  | node l x c b r =>
    obtain ⟨_, hx0, _, hpar, _⟩ := hrep
    simp [parentOf, getSibling, Shape.rootId, rd_eq m x hx0, hpar]

theorem isNil_iff_rootId (m : Heap) (t : Shape β) (s : Slot) (p : Nat) (h : Rep m s p t) :
    t.isNil = true ↔ t.rootId = 0 := by
  cases t with
  | nil => simp [Shape.isNil, Shape.rootId]
  | node l x c b r =>
    have : x ≠ 0 := h.2.1
    simp [Shape.isNil, Shape.rootId, this]

/-- The loop of `repairToRoot` from the subtree of `p` in the hole of a path,
with `s` a child of `p`, refines the whole tree: the nodes stay the same, in the
same order, and the tree is the one of `repairLoopA`. -/
theorem repairLoop_ok (n : Nat) :
    ∀ (ctx : List (Frame β)) (u : Shape β) (m : Heap) (fuel s : Nat) (sd : Bool),
      u ≠ Shape.nil →
      Rep m (Slot.root 0) 0 (plug ctx u) → (plug ctx u).ids.Nodup →
      (∀ y ∈ (plug ctx u).ids, y < m.next) → 0 < m.next → ctx.length + 2 ≤ fuel →
      s = (sib u sd).rootId →
      ∃ m', repairLoop fuel m u.rootId n s = some m' ∧
        Refines m (plug ctx u) m' (repairLoopA ctx u sd) (Slot.root 0) 0 := by
  intro ctx
  induction ctx with
  | nil =>
    intro u m fuel s sd hu hrep hnd hal hpos hfuel hs
    have hp := Pre_of_plug m 0 [] u hrep hnd
    have hu0 := hp.root_ne hu
    have hsn : (sib u sd).isNil = true ↔ s = 0 := by
      rw [hs]
      cases sd
      · exact isNil_iff_rootId m _ _ _ (hp.right' hu).rep
      · exact isNil_iff_rootId m _ _ _ (hp.left' hu).rep
    obtain ⟨f1, rfl⟩ : ∃ f1, fuel = f1 + 1 := ⟨fuel - 1, by omega⟩
    obtain ⟨f2, rfl⟩ : ∃ f2, f1 = f2 + 1 := ⟨f1 - 1, by simp at hfuel; omega⟩
    unfold repairLoop repairLoopA
    rw [if_neg hu0]
    by_cases hs0 : s = 0
    · rw [if_pos hs0, if_pos (hsn.mpr hs0)]
      exact llrbToRoot_ok m [] u hu hrep hnd hal hpos
    · rw [if_neg hs0, if_neg (fun h => hs0 (hsn.mp h))]
      rcases repairRound_ok m [] u s sd hu hrep hnd hal hpos hs0 hs with
        ⟨m1, T1, e1, R1, a1⟩ | ⟨m1, u1, e1, R1, hr1, a1⟩
      · rw [e1, a1]; exact ⟨m1, rfl, R1⟩
      · rw [e1, a1]
        simp only
        have hu1 := R1.ne_nil hu
        have hp1 := R1.pre hp
        obtain ⟨m2, e2, R2⟩ := llrb_ok m1 _ _ u1 hu1 hp1
        rw [hr1] at e2
        rw [e2]
        simp only
        have hu2 := R2.ne_nil hu1
        obtain ⟨g1, g2⟩ := root_sibling m2 (llrbA u1) hu2 R2.rep
        rw [g1, g2]
        simp only
        unfold repairLoop
        rw [if_pos rfl]
        exact ⟨m2, rfl, R1.seq R2⟩
  | cons f rest ih =>
    intro u m fuel s sd hu hrep hnd hal hpos hfuel hs
    have hp := Pre_of_plug m 0 (f :: rest) u hrep hnd
    have hu0 := hp.root_ne hu
    have hsn : (sib u sd).isNil = true ↔ s = 0 := by
      rw [hs]
      cases sd
      · exact isNil_iff_rootId m _ _ _ (hp.right' hu).rep
      · exact isNil_iff_rootId m _ _ _ (hp.left' hu).rep
    obtain ⟨f1, rfl⟩ : ∃ f1, fuel = f1 + 1 := ⟨fuel - 1, by omega⟩
    unfold repairLoop repairLoopA
    rw [if_neg hu0]
    by_cases hs0 : s = 0
    · rw [if_pos hs0, if_pos (hsn.mpr hs0)]
      exact llrbToRoot_ok m (f :: rest) u hu hrep hnd hal hpos
    · rw [if_neg hs0, if_neg (fun h => hs0 (hsn.mp h))]
      rcases repairRound_ok m (f :: rest) u s sd hu hrep hnd hal hpos hs0 hs with
        ⟨m1, T1, e1, R1, a1⟩ | ⟨m1, u1, e1, R1, hr1, a1⟩
      · rw [e1, a1]; exact ⟨m1, rfl, R1⟩
      · rw [e1, a1]
        simp only
        have hu1 := R1.ne_nil hu
        have hp1 := R1.pre hp
        obtain ⟨m2, e2, R2⟩ := llrb_ok m1 _ _ u1 hu1 hp1
        rw [hr1] at e2
        rw [e2]
        simp only
        have hu2 := R2.ne_nil hu1
        have R12 := (R1.seq R2).plug 0 (f :: rest) hrep hnd
        have hids := ids_of_toList _ _ R12.toList
        have hnd2 : (plug (f :: rest) (llrbA u1)).ids.Nodup := by rw [hids]; exact hnd
        obtain ⟨g1, g2⟩ := hole_sibling m2 f rest (llrbA u1) hu2 R12.rep hnd2
        rw [g2, g1]
        simp only
        have hrep2 := R12.rep
        rw [plug_cons] at hrep2 hnd2 hids
        obtain ⟨m3, e3, R3⟩ := ih (f.fill (llrbA u1)) m2 f1 _ f.isR (fill_ne_nil f _) hrep2 hnd2
          (by rw [hids, R12.next]; exact hal) (by rw [R12.next]; exact hpos)
          (by simp at hfuel ⊢; omega) rfl
        rw [e3]
        refine ⟨m3, rfl, R12.seq ?_⟩
        rw [plug_cons]
        exact R3

end Trade

namespace Trade

open RB

variable {β : Type}

theorem fuel_bound (m : Heap) (ctx : List (Frame β)) (t : Shape β) (ht : t ≠ Shape.nil)
    (hrep : Rep m (Slot.root 0) 0 (plug ctx t)) (hnd : (plug ctx t).ids.Nodup)
    (hal : ∀ y ∈ (plug ctx t).ids, y < m.next) (hpos : 0 < m.next) :
    ctx.length + 2 ≤ m.next + 1 := by
  have h1 := Guidstore.nodup_length_le _ m.next hpos hnd
    (fun y hy => ⟨Rep_ids_ne_zero m _ _ _ hrep y hy, hal y hy⟩)
  rw [plug_ids_length] at h1
  have h2 := ctx_length_le ctx
  have h3 : 1 ≤ t.ids.length := by
    cases t with
    | nil => exact absurd rfl ht
    | node l x c b r => simp [Shape.ids]; omega
  omega

/-- The function `repairToRoot` from the parent of the hole of a path. -/
theorem repairToRoot_ok (m : Heap) (ctx : List (Frame β)) (t1 : Shape β) (n s : Nat)
    (hrep : Rep m (Slot.root 0) 0 (plug ctx t1)) (hnd : (plug ctx t1).ids.Nodup)
    (hal : ∀ y ∈ (plug ctx t1).ids, y < m.next) (hpos : 0 < m.next)
    (hs : s = holeSibling ctx) :
    ∃ m', repairToRoot m (holeParent ctx) n s = some m' ∧
      Refines m (plug ctx t1) m' (repairToRootA ctx t1) (Slot.root 0) 0 := by
  cases ctx with
  | nil =>
    refine ⟨m, ?_, Refines.skip m _ _ _ hrep⟩
    unfold repairToRoot repairLoop
    simp [holeParent]
  | cons f rest =>
    rw [plug_cons] at hrep hnd hal ⊢
    have hfuel := fuel_bound m rest (f.fill t1) (fill_ne_nil f t1) hrep hnd hal hpos
    have := repairLoop_ok n rest (f.fill t1) m (m.next + 1) s f.isR (fill_ne_nil f t1) hrep hnd
      hal hpos hfuel (by
        cases f <;> simp [hs, holeSibling, Frame.fill, Shape.left, Shape.right, sib, Frame.isR])
    rw [← holeParent_cons f rest t1] at this
    exact this

/-- The function `repairDetach` after the node `n` has been taken out of the
hole of a path: the nodes of the tree stay the same, in the same order. -/
theorem repairDetach_ok (m : Heap) (ctx : List (Frame β)) (t1 : Shape β) (n s : Nat)
    (hrep : Rep m (Slot.root 0) 0 (plug ctx t1)) (hnd : (plug ctx t1).ids.Nodup)
    (hal : ∀ y ∈ (plug ctx t1).ids, y < m.next) (hpos : 0 < m.next)
    (hs : s = holeSibling ctx) :
    ∃ m', repairDetach m (holeParent ctx) n s t1.rootId = some m' ∧
      Refines m (plug ctx t1) m' (repairDetachA ctx t1 (isRed m n)) (Slot.root 0) 0 := by
  have hp := Pre_of_plug m 0 ctx t1 hrep hnd
  unfold repairDetach repairDetachA
  by_cases hn : isRed m n = true
  · rw [if_pos hn, if_pos hn]
    exact ⟨m, rfl, Refines.skip m _ _ _ hrep⟩
  rw [if_neg hn, if_neg hn, hp.isRed]
  by_cases hnn : t1.isRed = true
  · rw [if_pos hnn, if_pos hnn]
    obtain ⟨m1, e1, R1⟩ := paint_ok m _ _ t1 true (isRed_ne_nil _ hnn) hp
    rw [e1]
    exact ⟨m1, rfl, R1.plug 0 ctx hrep hnd⟩
  rw [if_neg hnn, if_neg hnn]
  have hsib : isRed m s = (holeSib ctx).isRed := by
    rw [hs]
    cases ctx with
    | nil => simp [holeSibling, holeSib, isRed]
    | cons f rest =>
      have hrep' := hrep
      have hnd' := hnd
      rw [plug_cons] at hrep' hnd'
      have hp' := Pre_of_plug m 0 rest (f.fill t1) hrep' hnd'
      cases f with
      | L x c b r => exact hp'.right.isRed
      | R l x c b => exact hp'.left.isRed
  by_cases hsr : isRed m s = true
  · rw [if_pos hsr, if_pos (hsib ▸ hsr)]
    cases ctx with
    | nil =>
      rw [hs] at hsr
      simp [holeSibling, isRed] at hsr
    | cons f rest =>
      have hrep' := hrep
      have hnd' := hnd
      have hal' := hal
      rw [plug_cons] at hrep' hnd' hal'
      have hp' := Pre_of_plug m 0 rest (f.fill t1) hrep' hnd'
      cases f with
      | L x c b r =>
        simp only [holeSibling] at hs
        simp only [Frame.fill] at hrep' hnd' hp' hal'
        have hr : isRed m r.rootId = r.isRed := hp'.right.isRed
        rw [hs, hr] at hsr
        cases r with
        | nil => simp [Shape.isRed] at hsr
        | node rl y cy bz rr =>
          have hx0 : x ≠ 0 := hp'.rep.2.1
          have hleft : (m.nodes x).left = t1.rootId := Rep_left m _ _ _ _ x c b hp'.rep
          have hne : ¬ (m.nodes x).left = s := by
            rw [hleft, hs]
            exact left_ne_right_root (Shape.node t1 x c b (Shape.node rl y cy bz rr)) hp'.nodup
              hp'.rep.2.2.2.2.2.2.2.1
          simp only [holeParent, rd_eq m x hx0, bind, Option.bind, if_neg hne]
          obtain ⟨m1, e1, R1⟩ := rotateLeft_ok m _ _ t1 rl rr x y c cy b bz hp'
          rw [e1]
          simp only
          have R1' := R1.plug 0 rest hrep' hnd'
          have hids := ids_of_toList _ _ R1'.toList
          have hrep1 : Rep m1 (Slot.root 0) 0
              (plug (Frame.L x false b rl :: Frame.L y c bz rr :: rest) t1) := R1'.rep
          have hnd1 : (plug (Frame.L x false b rl :: Frame.L y c bz rr :: rest) t1).ids.Nodup := by
            show (plug rest _).ids.Nodup
            rw [hids]; exact hnd'
          have hp1 := Pre_of_plug m1 0 (Frame.L y c bz rr :: rest) (Shape.node t1 x false b rl)
            hrep1 hnd1
          have hright : rightOf m1 x = some rl.rootId := hp1.rightOf (by simp)
          rw [hright]
          simp only
          obtain ⟨m2, e2, R2⟩ := repairToRoot_ok m1
            (Frame.L x false b rl :: Frame.L y c bz rr :: rest) t1 n rl.rootId hrep1 hnd1
            (by show ∀ y ∈ (plug rest _).ids, _; rw [hids, R1'.next]; exact hal')
            (by rw [R1'.next]; exact hpos) (by simp [holeSibling])
          simp only [holeParent] at e2
          exact ⟨m2, e2, R1'.seq R2⟩
      | R l x c b =>
        simp only [holeSibling] at hs
        simp only [Frame.fill] at hrep' hnd' hp' hal'
        have hr : isRed m l.rootId = l.isRed := hp'.left.isRed
        rw [hs, hr] at hsr
        cases l with
        | nil => simp [Shape.isRed] at hsr
        | node ll y cy bz lr =>
          have hx0 : x ≠ 0 := hp'.rep.2.1
          have hleft : (m.nodes x).left = s := by
            rw [hs]; exact Rep_left m _ _ _ _ x c b hp'.rep
          simp only [holeParent, rd_eq m x hx0, bind, Option.bind, if_pos hleft]
          obtain ⟨m1, e1, R1⟩ := rotateRight_ok m _ _ t1 lr ll x y c cy b bz hp'
          rw [e1]
          simp only
          have R1' := R1.plug 0 rest hrep' hnd'
          have hids := ids_of_toList _ _ R1'.toList
          have hrep1 : Rep m1 (Slot.root 0) 0
              (plug (Frame.R lr x false b :: Frame.R ll y c bz :: rest) t1) := R1'.rep
          have hnd1 : (plug (Frame.R lr x false b :: Frame.R ll y c bz :: rest) t1).ids.Nodup := by
            show (plug rest _).ids.Nodup
            rw [hids]; exact hnd'
          have hp1 := Pre_of_plug m1 0 (Frame.R ll y c bz :: rest) (Shape.node lr x false b t1)
            hrep1 hnd1
          have hleft1 : leftOf m1 x = some lr.rootId := hp1.leftOf (by simp)
          rw [hleft1]
          simp only
          obtain ⟨m2, e2, R2⟩ := repairToRoot_ok m1
            (Frame.R lr x false b :: Frame.R ll y c bz :: rest) t1 n lr.rootId hrep1 hnd1
            (by show ∀ y ∈ (plug rest _).ids, _; rw [hids, R1'.next]; exact hal')
            (by rw [R1'.next]; exact hpos) (by simp [holeSibling])
          simp only [holeParent] at e2
          exact ⟨m2, e2, R1'.seq R2⟩
  · rw [if_neg hsr, if_neg (hsib ▸ hsr)]
    exact repairToRoot_ok m ctx t1 n s hrep hnd hal hpos hs

end Trade

namespace Trade

open RB

variable {α β : Type}

/-- The fields after `n.giveParent(nn)`. -/
theorem giveParentT_spec (m : Mem α) (n nn : Nat) (s : Slot) (hpp : (m.nodes n).pp = some s)
    (hne : n ≠ nn) :
    (∀ y, ((giveParentT m n nn).nodes y).black = (m.nodes y).black) ∧
    (∀ y, ((giveParentT m n nn).nodes y).data = (m.nodes y).data) ∧
    (∀ y, ((giveParentT m n nn).nodes y).parent =
      if y = n then 0 else if y = nn then (m.nodes n).parent else (m.nodes y).parent) ∧
    (∀ y, ((giveParentT m n nn).nodes y).pp =
      if y = n then none else if y = nn then some s else (m.nodes y).pp) ∧
    (∀ y, ((giveParentT m n nn).nodes y).left =
      if s = Slot.left y then nn else (m.nodes y).left) ∧
    (∀ y, ((giveParentT m n nn).nodes y).right =
      if s = Slot.right y then nn else (m.nodes y).right) ∧
    (∀ t, (giveParentT m n nn).roots t = if s = Slot.root t then nn else m.roots t) ∧
    (giveParentT m n nn).next = m.next := by
  unfold giveParentT
  simp only [hpp]
  refine ⟨?_, ?_, ?_, ?_, ?_, ?_, ?_, ?_⟩
  · intro y
    by_cases h1 : y = n <;> by_cases h2 : y = nn <;>
      simp [upd_nodes, h1, h2, hne, Ne.symm hne]
  · intro y
    by_cases h1 : y = n <;> by_cases h2 : y = nn <;>
      simp [upd_nodes, h1, h2, hne, Ne.symm hne]
  · intro y
    by_cases h1 : y = n <;> by_cases h2 : y = nn <;>
      simp [upd_nodes, h1, h2, hne, Ne.symm hne]
  · intro y
    by_cases h1 : y = n <;> by_cases h2 : y = nn <;>
      simp [upd_nodes, h1, h2, hne, Ne.symm hne]
  · intro y
    by_cases h1 : y = n <;> by_cases h2 : y = nn <;>
      simp [upd_nodes, h1, h2, hne, Ne.symm hne, put_left]
  · intro y
    by_cases h1 : y = n <;> by_cases h2 : y = nn <;>
      simp [upd_nodes, h1, h2, hne, Ne.symm hne, put_right]
  · intro t
    simp only [upd_roots, put_roots]
  · simp

/-- The sibling of the root of the subtree in the hole of a path. -/
theorem getSibling_hole (m : Heap) (ctx : List (Frame β)) (u : Shape β) (hu : u ≠ Shape.nil)
    (hrep : Rep m (Slot.root 0) 0 (plug ctx u)) (hnd : (plug ctx u).ids.Nodup) :
    getSibling m u.rootId = some (holeSibling ctx) ∧
    (m.nodes u.rootId).parent = holeParent ctx ∧
    (m.nodes u.rootId).pp = some (holeSlot 0 ctx) := by
  have hp := Pre_of_plug m 0 ctx u hrep hnd
  have hu0 := hp.root_ne hu
  have hpar : (m.nodes u.rootId).parent = holeParent ctx ∧
      (m.nodes u.rootId).pp = some (holeSlot 0 ctx) := by
    cases u with
    | nil => exact absurd rfl hu
    | node l x c b r => exact ⟨hp.rep.2.2.2.1, hp.rep.2.2.2.2.1⟩
  refine ⟨?_, hpar⟩
  cases ctx with
  | nil =>
    simp [getSibling, rd_eq m _ hu0, hpar.1, holeParent, holeSibling]
  | cons f rest =>
    rw [plug_cons] at hrep hnd
    have hp' := Pre_of_plug m 0 rest (f.fill u) hrep hnd
    have hx0 := hp'.root_ne (fill_ne_nil f u)
    have hl := hp'.leftOf (fill_ne_nil f u)
    have hr := hp'.rightOf (fill_ne_nil f u)
    simp only [leftOf, rightOf, rd_eq m _ hx0, Option.map_some', Option.some.injEq] at hl hr
    have hpar' := hpar.1
    rw [holeParent_cons f rest u] at hpar'
    unfold getSibling
    simp only [rd_eq m _ hu0, bind, Option.bind, hpar', if_neg hx0, rd_eq m _ hx0, hl, hr]
    cases f with
    | L x c b r => simp [Frame.fill, Shape.left, Shape.right, holeSibling]
    | R l x c b =>
      simp only [Frame.fill, Shape.left, Shape.right, holeSibling]
      have hne : l.rootId ≠ u.rootId := by
        have := left_ne_right_root (Shape.node l x c b u) hp'.nodup hu0
        exact this
      rw [if_neg hne]
      rfl

/-- The subtree in the hole of a path is replaced. -/
theorem hole_replace (m m' : Heap) (ctx : List (Frame β)) (t t' : Shape β) (S : List Nat)
    (hrep : Rep m (Slot.root 0) 0 (plug ctx t)) (hnd : (plug ctx t).ids.Nodup)
    (hfr : Frames m m' S (holeSlot 0 ctx)) (hS : ∀ y ∈ ctxIds ctx, y ∉ S)
    (hrep' : Rep m' (holeSlot 0 ctx) (holeParent ctx) t') :
    Rep m' (Slot.root 0) 0 (plug ctx t') ∧
      Frames m m' (S ++ (plug ctx t).ids) (Slot.root 0) := by
  obtain ⟨hctx, hsub⟩ := (Rep_plug m 0 ctx t).mp hrep
  obtain ⟨nd1, nd2, nd3⟩ := (plug_nodup ctx t).mp hnd
  have hctx1 := CtxRep_frames m m' S 0 ctx hfr hS nd2 hctx
  refine ⟨(Rep_plug m' 0 ctx t').mpr ⟨hctx1, hrep'⟩, ?_⟩
  refine (hfr.mono (fun y hy => List.mem_append_left _ hy)).rehole ?_
  rcases holeSlot_cases 0 ctx with e | ⟨y, hy, e⟩
  · exact Or.inl e
  · exact Or.inr ⟨y, List.mem_append_right _ ((mem_plug_ids _ _ y).mpr (Or.inr hy)), e⟩

theorem filter_remove {γ : Type} (A B : List (Nat × γ)) (n : Nat) (b : γ)
    (hA : ∀ q ∈ A, q.1 ≠ n) (hB : ∀ q ∈ B, q.1 ≠ n) :
    (A ++ (n, b) :: B).filter (fun q => decide (q.1 ≠ n)) = A ++ B := by
  rw [List.filter_append, List.filter_cons]
  simp only [ne_eq, not_true_eq_false, decide_False, Bool.false_eq_true, if_false]
  rw [List.filter_eq_self.mpr (fun q hq => by simpa using hA q hq),
    List.filter_eq_self.mpr (fun q hq => by simpa using hB q hq)]

end Trade

namespace Trade

open RB

variable {β : Type}

theorem toList_not_mem (l : List (Nat × β)) (n : Nat) (h : n ∉ l.map Prod.fst) :
    ∀ q ∈ l, q.1 ≠ n :=
  fun q hq e => h (e ▸ List.mem_map_of_mem _ hq)

/-- After the node in the hole of a path has been unlinked and `repairDetach`
has run, the tree is the tree without the node. -/
theorem removed_of_raw (m m1 m2 : Heap) (ctx : List (Frame β)) (t t1 T2 : Shape β)
    (n : Nat) (b : β) (S : List Nat)
    (hrep : Rep m (Slot.root 0) 0 (plug ctx t)) (hnd : (plug ctx t).ids.Nodup)
    (ht : t.toList = t1.toList ++ [(n, b)] ∨ t.toList = (n, b) :: t1.toList)
    (hSt : ∀ y ∈ S, y ∈ t.ids)
    (hfr : Frames m m1 S (holeSlot 0 ctx))
    (hrep1 : Rep m1 (holeSlot 0 ctx) (holeParent ctx) t1)
    (hdata : ∀ y, (m1.nodes y).data = (m.nodes y).data) (hnext : m1.next = m.next)
    (hpp : (m1.nodes n).pp = none)
    (hclean : (m1.nodes n).left = 0 ∧ (m1.nodes n).right = 0 ∧ (m1.nodes n).parent = 0)
    (R : Refines m1 (plug ctx t1) m2 T2 (Slot.root 0) 0) :
    Removed m (plug ctx t) n m2 T2 := by
  obtain ⟨nd1, nd2, nd3⟩ := (plug_nodup ctx t).mp hnd
  have hSctx : ∀ y ∈ ctxIds ctx, y ∉ S := fun y hy hc => nd3 y (hSt y hc) hy
  obtain ⟨h1, h2⟩ := hole_replace m m1 ctx t t1 S hrep hnd hfr hSctx hrep1
  have hnd' := hnd
  rw [plug_ids, ids_eq_map_toList t] at hnd'
  have hsub : ∀ y ∈ (plug ctx t1).ids, y ∈ (plug ctx t).ids := by
    intro y hy
    rw [plug_ids, ids_eq_map_toList] at hy ⊢
    rcases ht with e | e <;> rw [e] <;> simp only [List.mem_append, List.map_append,
      List.map_cons, List.mem_cons] at hy ⊢ <;> tauto
  have hn1 : n ∉ (plug ctx t1).ids := by
    rw [plug_ids, ids_eq_map_toList]
    rcases ht with e | e
    · rw [e] at hnd'
      simp only [List.map_append, List.map_cons, List.map_nil, List.append_assoc] at hnd'
      intro hc
      simp only [List.mem_append] at hc
      have := List.nodup_append.mp hnd'
      have h3 := List.nodup_append.mp this.2.1
      rcases hc with (hc | hc) | hc
      · exact this.2.2 hc (by simp)
      · exact h3.2.2 hc (by simp)
      · have h4 := List.nodup_append.mp h3.2.1
        exact h4.2.2 (List.mem_singleton_self _) hc
    · rw [e] at hnd'
      simp only [List.map_append, List.map_cons, List.append_assoc, List.cons_append] at hnd'
      intro hc
      simp only [List.mem_append] at hc
      have := List.nodup_append.mp hnd'
      have h3 := List.nodup_cons.mp this.2.1
      rcases hc with (hc | hc) | hc
      · exact this.2.2 hc (by simp)
      · exact h3.1 (by simp [hc])
      · exact h3.1 (by simp [hc])
  refine ⟨R.rep, ?_, ?_, fun y => (R.data y).trans (hdata y), R.next.trans hnext, ?_,
    ⟨by rw [R.frames.left n hn1 (fun e => by cases e)]; exact hclean.1,
     by rw [R.frames.right n hn1 (fun e => by cases e)]; exact hclean.2.1,
     by rw [R.frames.parent n hn1]; exact hclean.2.2⟩⟩
  · rw [R.toList, plug_toList, plug_toList]
    have hn1' := hn1
    rw [plug_ids] at hn1'
    simp only [List.mem_append, not_or] at hn1'
    have hA := toList_not_mem (ctxBefore ctx) n hn1'.1.1
    have hB := toList_not_mem (ctxAfter ctx) n hn1'.2
    have hT := toList_not_mem t1.toList n (by rw [← ids_eq_map_toList]; exact hn1'.1.2)
    rcases ht with e | e
    · rw [e]
      have := filter_remove (ctxBefore ctx ++ t1.toList) (ctxAfter ctx) n b
        (fun q hq => by
          rcases List.mem_append.mp hq with h | h
          · exact hA q h
          · exact hT q h) hB
      simp only [List.append_assoc, List.singleton_append] at this ⊢
      rw [this]
    · rw [e]
      have := filter_remove (ctxBefore ctx) (t1.toList ++ ctxAfter ctx) n b hA
        (fun q hq => by
          rcases List.mem_append.mp hq with h | h
          · exact hT q h
          · exact hB q h)
      simp only [List.append_assoc, List.cons_append] at this ⊢
      rw [this]
  · refine Frames.comp (h2.mono (fun y hy => ?_)) (R.frames.mono hsub)
    rcases List.mem_append.mp hy with h | h
    · exact (mem_plug_ids _ _ y).mpr (Or.inl (hSt y h))
    · exact h
  · rw [R.frames.pp n hn1]
    exact hpp

end Trade

namespace Trade

open RB

variable {β : Type}

theorem plug_nil_nodup (ctx : List (Frame β)) (t : Shape β) (h : (plug ctx t).ids.Nodup) :
    (plug ctx (Shape.nil : Shape β)).ids.Nodup := by
  obtain ⟨_, nd2, _⟩ := (plug_nodup ctx t).mp h
  exact (plug_nodup ctx Shape.nil).mpr ⟨List.nodup_nil, nd2, fun y hy => by cases hy⟩

theorem plug_sub_nodup (ctx : List (Frame β)) (t t1 : Shape β) (h : (plug ctx t).ids.Nodup)
    (hnd1 : t1.ids.Nodup) (hsub : ∀ y ∈ t1.ids, y ∈ t.ids) : (plug ctx t1).ids.Nodup := by
  obtain ⟨_, nd2, nd3⟩ := (plug_nodup ctx t).mp h
  exact (plug_nodup ctx t1).mpr ⟨hnd1, nd2, fun y hy => nd3 y (hsub y hy)⟩

theorem plug_sub_mem (ctx : List (Frame β)) (t t1 : Shape β) (hsub : ∀ y ∈ t1.ids, y ∈ t.ids) :
    ∀ y ∈ (plug ctx t1).ids, y ∈ (plug ctx t).ids := by
  intro y hy
  rcases (mem_plug_ids _ _ y).mp hy with h | h
  · exact (mem_plug_ids _ _ y).mpr (Or.inl (hsub y h))
  · exact (mem_plug_ids _ _ y).mpr (Or.inr h)

/-- The function `detach` on a node without children. -/
theorem detach_leaf (fuel : Nat) (m : Heap) (ctx : List (Frame β)) (n : Nat) (c : Bool) (b : β)
    (hrep : Rep m (Slot.root 0) 0 (plug ctx (Shape.node Shape.nil n c b Shape.nil)))
    (hnd : (plug ctx (Shape.node Shape.nil n c b Shape.nil)).ids.Nodup)
    (hal : ∀ y ∈ (plug ctx (Shape.node Shape.nil n c b Shape.nil)).ids, y < m.next)
    (hpos : 0 < m.next) :
    ∃ m' T', detach (fuel + 1) m n = some m' ∧
      Removed m (plug ctx (Shape.node Shape.nil n c b Shape.nil)) n m' T' ∧
      ((plug ctx (Shape.node Shape.nil n c b Shape.nil)).wk = true → T'.wk = true) := by
  have hp := Pre_of_plug m 0 ctx _ hrep hnd
  have hn0 : n ≠ 0 := hp.rep.2.1
  obtain ⟨hsib, hpar, hpp⟩ := getSibling_hole m ctx _ (by simp) hrep hnd
  simp only [Shape.rootId] at hsib hpar hpp
  have hl : (m.nodes n).left = 0 := Rep_left m _ _ _ _ n c b hp.rep
  have hr : (m.nodes n).right = 0 := Rep_right m _ _ _ _ n c b hp.rep
  unfold detach
  simp only [rd_eq m n hn0, bind, Option.bind, hsib, hl, hr, and_self, if_true, hpp,
    store_eq _ _ _ hp.valid, wr_eq _ _ _ hn0, hpar]
  generalize hm1 : ((m.put (holeSlot 0 ctx) 0).upd n (fun y => { y with pp := none })).upd n
    (fun y => { y with parent := 0 }) = m1
  have hf : ∀ y, (m1.nodes y).black = (m.nodes y).black ∧ (m1.nodes y).data = (m.nodes y).data ∧
      (m1.nodes y).left = (if holeSlot 0 ctx = Slot.left y then 0 else (m.nodes y).left) ∧
      (m1.nodes y).right = (if holeSlot 0 ctx = Slot.right y then 0 else (m.nodes y).right) ∧
      (y ≠ n → (m1.nodes y).parent = (m.nodes y).parent ∧ (m1.nodes y).pp = (m.nodes y).pp) := by
    intro y
    rw [← hm1]
    by_cases h1 : y = n <;> simp [upd_nodes, h1, put_left, put_right]
  have hpp1 : (m1.nodes n).pp = none := by rw [← hm1]; simp [upd_nodes]
  have hcl1 : (m1.nodes n).left = 0 ∧ (m1.nodes n).right = 0 ∧ (m1.nodes n).parent = 0 := by
    refine ⟨?_, ?_, ?_⟩
    · rw [(hf n).2.2.1]; split <;> [rfl; exact hl]
    · rw [(hf n).2.2.2.1]; split <;> [rfl; exact hr]
    · rw [← hm1]; simp [upd_nodes]
  have hroots : ∀ t, m1.roots t = if holeSlot 0 ctx = Slot.root t then 0 else m.roots t := by
    intro t; rw [← hm1]; simp [upd_roots, put_roots]
  have hnext : m1.next = m.next := by rw [← hm1]; simp
  have hsv : m1.slotVal (holeSlot 0 ctx) = 0 := by
    cases hh : holeSlot 0 ctx with
    | root t => simp [Mem.slotVal, hroots, hh]
    | left q => simp [Mem.slotVal, (hf q).2.2.1, hh]
    | right q => simp [Mem.slotVal, (hf q).2.2.2.1, hh]
  have hfr : Frames m m1 [n] (holeSlot 0 ctx) := by
    refine ⟨fun y _ => (hf y).1, fun y hy => ((hf y).2.2.2.2 (by simpa using hy)).1,
      fun y hy => ((hf y).2.2.2.2 (by simpa using hy)).2, ?_, ?_, ?_⟩
    · intro y _ hh; rw [(hf y).2.2.1, if_neg hh]
    · intro y _ hh; rw [(hf y).2.2.2.1, if_neg hh]
    · intro t hh; rw [hroots, if_neg hh]
  have hrep1 : Rep m1 (holeSlot 0 ctx) (holeParent ctx) (Shape.nil : Shape β) := hsv
  have hnd1 := plug_nil_nodup ctx _ hnd
  have hsub := plug_sub_mem ctx (Shape.node Shape.nil n c b Shape.nil) Shape.nil
    (fun y hy => by cases hy)
  obtain ⟨nd1, nd2, nd3⟩ := (plug_nodup ctx _).mp hnd
  have hrepP := (hole_replace m m1 ctx _ Shape.nil [n] hrep hnd hfr
    (fun y hy hc => nd3 n (by simp [Shape.ids]) ((List.mem_singleton.mp hc) ▸ hy)) hrep1).1
  obtain ⟨m2, e2, R2⟩ := repairDetach_ok m1 ctx Shape.nil n (holeSibling ctx) hrepP hnd1
    (fun y hy => by rw [hnext]; exact hal y (hsub y hy)) (by rw [hnext]; exact hpos) rfl
  refine ⟨m2, _, e2, removed_of_raw m m1 m2 ctx _ Shape.nil _ n b [n] hrep hnd
    (Or.inr rfl) (fun y hy => by simp [Shape.ids] at hy ⊢; exact hy) hfr hrep1
    (fun y => (hf y).2.1) hnext hpp1 hcl1 R2, ?_⟩
  intro hw
  have hcol : isRed m1 n = !c := by
    simp only [isRed, if_neg hn0, (hf n).1]
    rw [hp.rep.2.2.1]
  rw [hcol]
  exact repairDetachA_wk ctx _ _ Shape.nil n c b hw (Or.inl ⟨rfl, rfl⟩)

end Trade

namespace Trade

open RB

variable {β : Type}

/-- The function `detach` on a node with a left child only. -/
theorem detach_left_only (fuel : Nat) (m : Heap) (ctx : List (Frame β)) (l : Shape β) (n : Nat)
    (c : Bool) (b : β) (hl : l ≠ Shape.nil)
    (hrep : Rep m (Slot.root 0) 0 (plug ctx (Shape.node l n c b Shape.nil)))
    (hnd : (plug ctx (Shape.node l n c b Shape.nil)).ids.Nodup)
    (hal : ∀ y ∈ (plug ctx (Shape.node l n c b Shape.nil)).ids, y < m.next)
    (hpos : 0 < m.next) :
    ∃ m' T', detach (fuel + 1) m n = some m' ∧
      Removed m (plug ctx (Shape.node l n c b Shape.nil)) n m' T' ∧
      ((plug ctx (Shape.node l n c b Shape.nil)).wk = true → T'.wk = true) := by
  have hp := Pre_of_plug m 0 ctx _ hrep hnd
  have hn0 : n ≠ 0 := hp.rep.2.1
  obtain ⟨hsib, hpar, hpp⟩ := getSibling_hole m ctx _ (by simp) hrep hnd
  simp only [Shape.rootId] at hsib hpar hpp
  have hpl := hp.left
  have hnn0 : l.rootId ≠ 0 := hpl.root_ne hl
  have hlf : (m.nodes n).left = l.rootId := Rep_left m _ _ _ _ n c b hp.rep
  have hr : (m.nodes n).right = 0 := Rep_right m _ _ _ _ n c b hp.rep
  have hnl : n ∉ l.ids := by
    have := hp.nodup
    simp only [Shape.ids] at this
    exact fun hc => (List.nodup_append.mp this).2.2 hc (List.mem_cons_self _ _)
  have hne : n ≠ l.rootId := fun e => hnl (e ▸ rootId_mem l hnn0)
  unfold detach
  simp only [rd_eq m n hn0, bind, Option.bind, hsib, hlf, hr, hnn0, and_false, if_false, if_true,
    giveParent_eq m n l.rootId _ hn0 hnn0 hne hpp hp.valid, wr_eq _ _ _ hn0, hpar]
  obtain ⟨g1, g2, g3, g4, g5, g6, g7, g8⟩ := giveParentT_spec m n l.rootId _ hpp hne
  generalize hm0 : giveParentT m n l.rootId = m0 at g1 g2 g3 g4 g5 g6 g7 g8
  generalize hm1 : m0.upd n (fun y => { y with left := 0 }) = m1
  have hslot := hp.slot
  have hf : ∀ y, (m1.nodes y).black = (m.nodes y).black ∧ (m1.nodes y).data = (m.nodes y).data ∧
      (m1.nodes y).left = (if y = n then 0 else if holeSlot 0 ctx = Slot.left y then l.rootId
        else (m.nodes y).left) ∧
      (m1.nodes y).right = (if holeSlot 0 ctx = Slot.right y then l.rootId
        else (m.nodes y).right) ∧
      (m1.nodes y).parent = (if y = n then 0 else if y = l.rootId then holeParent ctx
        else (m.nodes y).parent) ∧
      (m1.nodes y).pp = (if y = n then none else if y = l.rootId then some (holeSlot 0 ctx)
        else (m.nodes y).pp) := by
    intro y
    rw [← hm1]
    by_cases h1 : y = n
    · subst h1; simp [upd_nodes, g1, g2, g3, g4, g5, g6, hpar]
    · simp [upd_nodes, h1, g1, g2, g3, g4, g5, g6, hpar]
  have hpp1 : (m1.nodes n).pp = none := by rw [(hf n).2.2.2.2.2, if_pos rfl]
  have hcl1 : (m1.nodes n).left = 0 ∧ (m1.nodes n).right = 0 ∧ (m1.nodes n).parent = 0 := by
    have h1 : (m1.nodes n).left = 0 := by rw [(hf n).2.2.1, if_pos rfl]
    have h2 : (m1.nodes n).right = 0 := by
      rw [(hf n).2.2.2.1, if_neg (hp.slot n (by simp [Shape.ids])).2]; exact hr
    have h3 : (m1.nodes n).parent = 0 := by rw [(hf n).2.2.2.2.1, if_pos rfl]
    exact ⟨h1, h2, h3⟩
  have hroots : ∀ t, m1.roots t = if holeSlot 0 ctx = Slot.root t then l.rootId else m.roots t := by
    intro t; rw [← hm1]; simp [upd_roots, g7]
  have hnext : m1.next = m.next := by rw [← hm1]; simp [g8]
  have hnotin : ∀ y ∈ (Shape.node l n c b Shape.nil).ids,
      holeSlot 0 ctx ≠ Slot.left y ∧ holeSlot 0 ctx ≠ Slot.right y := hslot
  have hsv : m1.slotVal (holeSlot 0 ctx) = l.rootId := by
    cases hh : holeSlot 0 ctx with
    | root t => simp [Mem.slotVal, hroots, hh]
    | left q =>
      have hq : q ≠ n := fun e => (hnotin n (by simp [Shape.ids])).1 (by rw [hh, e])
      simp [Mem.slotVal, (hf q).2.2.1, hh, hq]
    | right q => simp [Mem.slotVal, (hf q).2.2.2.1, hh]
  have hfr : Frames m m1 [n, l.rootId] (holeSlot 0 ctx) := by
    refine ⟨fun y _ => (hf y).1, ?_, ?_, ?_, ?_, ?_⟩
    · intro y hy
      simp only [List.mem_cons, List.mem_singleton, not_or, List.not_mem_nil, or_false] at hy
      rw [(hf y).2.2.2.2.1, if_neg hy.1, if_neg hy.2]
    · intro y hy
      simp only [List.mem_cons, List.mem_singleton, not_or, List.not_mem_nil, or_false] at hy
      rw [(hf y).2.2.2.2.2, if_neg hy.1, if_neg hy.2]
    · intro y hy hh
      simp only [List.mem_cons, List.mem_singleton, not_or, List.not_mem_nil, or_false] at hy
      rw [(hf y).2.2.1, if_neg hy.1, if_neg hh]
    · intro y _ hh; rw [(hf y).2.2.2.1, if_neg hh]
    · intro t hh; rw [hroots, if_neg hh]
  have hrep1 : Rep m1 (holeSlot 0 ctx) (holeParent ctx) l := by
    refine Rep_move m m1 l (Slot.left n) (holeSlot 0 ctx) n (holeParent ctx) hpl.rep ?_ hpl.nodup
      ?_ hsv
    · intro y hy
      have hyn : y ≠ n := fun e => hnl (e ▸ hy)
      have hy' := hnotin y (by simp [Shape.ids, hy])
      refine ⟨(hf y).1, ?_, ?_, fun hyr => ⟨?_, ?_⟩⟩
      · rw [(hf y).2.2.1, if_neg hyn, if_neg hy'.1]
      · rw [(hf y).2.2.2.1, if_neg hy'.2]
      · rw [(hf y).2.2.2.2.1, if_neg hyn, if_neg hyr]
      · rw [(hf y).2.2.2.2.2, if_neg hyn, if_neg hyr]
    · intro _
      constructor
      · rw [(hf _).2.2.2.2.1, if_neg (Ne.symm hne), if_pos rfl]
      · rw [(hf _).2.2.2.2.2, if_neg (Ne.symm hne), if_pos rfl]
  have hsubl : ∀ y ∈ l.ids, y ∈ (Shape.node l n c b Shape.nil).ids :=
    fun y hy => by simp [Shape.ids, hy]
  have hnd1 := plug_sub_nodup ctx _ l hnd hpl.nodup hsubl
  have hsub := plug_sub_mem ctx (Shape.node l n c b Shape.nil) l hsubl
  obtain ⟨nd1, nd2, nd3⟩ := (plug_nodup ctx _).mp hnd
  have hS : ∀ y ∈ [n, l.rootId], y ∈ (Shape.node l n c b Shape.nil).ids := by
    intro y hy
    simp only [List.mem_cons, List.mem_singleton, List.not_mem_nil, or_false] at hy
    rcases hy with e | e
    · simp [Shape.ids, e]
    · rw [e]; exact hsubl _ (rootId_mem l hnn0)
  have hrepP := (hole_replace m m1 ctx _ l [n, l.rootId] hrep hnd hfr
    (fun y hy hc => nd3 y (hS y hc) hy) hrep1).1
  obtain ⟨m2, e2, R2⟩ := repairDetach_ok m1 ctx l n (holeSibling ctx) hrepP hnd1
    (fun y hy => by rw [hnext]; exact hal y (hsub y hy)) (by rw [hnext]; exact hpos) rfl
  refine ⟨m2, _, e2, removed_of_raw m m1 m2 ctx _ l _ n b [n, l.rootId] hrep hnd
    (Or.inl (by simp [Shape.toList])) hS hfr hrep1 (fun y => (hf y).2.1) hnext hpp1 hcl1 R2, ?_⟩
  intro hw
  have hcol : isRed m1 n = !c := by
    simp only [isRed, if_neg hn0, (hf n).1]
    rw [hp.rep.2.2.1]
  rw [hcol]
  exact repairDetachA_wk ctx _ _ l n c b hw (Or.inl ⟨rfl, rfl⟩)

end Trade

namespace Trade

open RB

variable {β : Type}

/-- The function `detach` on a node with a right child only. -/
theorem detach_right_only (fuel : Nat) (m : Heap) (ctx : List (Frame β)) (l : Shape β) (n : Nat)
    (c : Bool) (b : β) (hl : l ≠ Shape.nil)
    (hrep : Rep m (Slot.root 0) 0 (plug ctx (Shape.node Shape.nil n c b l)))
    (hnd : (plug ctx (Shape.node Shape.nil n c b l)).ids.Nodup)
    (hal : ∀ y ∈ (plug ctx (Shape.node Shape.nil n c b l)).ids, y < m.next)
    (hpos : 0 < m.next) :
    ∃ m' T', detach (fuel + 1) m n = some m' ∧
      Removed m (plug ctx (Shape.node Shape.nil n c b l)) n m' T' ∧
      ((plug ctx (Shape.node Shape.nil n c b l)).wk = true → T'.wk = true) := by
  have hp := Pre_of_plug m 0 ctx _ hrep hnd
  have hn0 : n ≠ 0 := hp.rep.2.1
  obtain ⟨hsib, hpar, hpp⟩ := getSibling_hole m ctx _ (by simp) hrep hnd
  simp only [Shape.rootId] at hsib hpar hpp
  have hpl := hp.right
  have hnn0 : l.rootId ≠ 0 := hpl.root_ne hl
  have hlf : (m.nodes n).right = l.rootId := Rep_right m _ _ _ _ n c b hp.rep
  have hr : (m.nodes n).left = 0 := Rep_left m _ _ _ _ n c b hp.rep
  have hnl : n ∉ l.ids := by
    have := hp.nodup
    simp only [Shape.ids, List.nil_append, List.nodup_cons] at this
    exact this.1
  have hne : n ≠ l.rootId := fun e => hnl (e ▸ rootId_mem l hnn0)
  unfold detach
  simp only [rd_eq m n hn0, bind, Option.bind, hsib, hlf, hr, hnn0, and_false, if_false, if_true,
    giveParent_eq m n l.rootId _ hn0 hnn0 hne hpp hp.valid, wr_eq _ _ _ hn0, hpar]
  obtain ⟨g1, g2, g3, g4, g5, g6, g7, g8⟩ := giveParentT_spec m n l.rootId _ hpp hne
  generalize hm0 : giveParentT m n l.rootId = m0 at g1 g2 g3 g4 g5 g6 g7 g8
  generalize hm1 : m0.upd n (fun y => { y with right := 0 }) = m1
  have hslot := hp.slot
  have hf : ∀ y, (m1.nodes y).black = (m.nodes y).black ∧ (m1.nodes y).data = (m.nodes y).data ∧
      (m1.nodes y).right = (if y = n then 0 else if holeSlot 0 ctx = Slot.right y then l.rootId
        else (m.nodes y).right) ∧
      (m1.nodes y).left = (if holeSlot 0 ctx = Slot.left y then l.rootId
        else (m.nodes y).left) ∧
      (m1.nodes y).parent = (if y = n then 0 else if y = l.rootId then holeParent ctx
        else (m.nodes y).parent) ∧
      (m1.nodes y).pp = (if y = n then none else if y = l.rootId then some (holeSlot 0 ctx)
        else (m.nodes y).pp) := by
    intro y
    rw [← hm1]
    by_cases h1 : y = n
    · subst h1; simp [upd_nodes, g1, g2, g3, g4, g5, g6, hpar]
    · simp [upd_nodes, h1, g1, g2, g3, g4, g5, g6, hpar]
  have hpp1 : (m1.nodes n).pp = none := by rw [(hf n).2.2.2.2.2, if_pos rfl]
  have hcl1 : (m1.nodes n).left = 0 ∧ (m1.nodes n).right = 0 ∧ (m1.nodes n).parent = 0 := by
    have h1 : (m1.nodes n).right = 0 := by rw [(hf n).2.2.1, if_pos rfl]
    have h2 : (m1.nodes n).left = 0 := by
      rw [(hf n).2.2.2.1, if_neg (hp.slot n (by simp [Shape.ids])).1]; exact hr
    have h3 : (m1.nodes n).parent = 0 := by rw [(hf n).2.2.2.2.1, if_pos rfl]
    exact ⟨h2, h1, h3⟩
  have hroots : ∀ t, m1.roots t = if holeSlot 0 ctx = Slot.root t then l.rootId else m.roots t := by
    intro t; rw [← hm1]; simp [upd_roots, g7]
  have hnext : m1.next = m.next := by rw [← hm1]; simp [g8]
  have hnotin : ∀ y ∈ (Shape.node Shape.nil n c b l).ids,
      holeSlot 0 ctx ≠ Slot.left y ∧ holeSlot 0 ctx ≠ Slot.right y := hslot
  have hsv : m1.slotVal (holeSlot 0 ctx) = l.rootId := by
    cases hh : holeSlot 0 ctx with
    | root t => simp [Mem.slotVal, hroots, hh]
    | right q =>
      have hq : q ≠ n := fun e => (hnotin n (by simp [Shape.ids])).2 (by rw [hh, e])
      simp [Mem.slotVal, (hf q).2.2.1, hh, hq]
    | left q => simp [Mem.slotVal, (hf q).2.2.2.1, hh]
  have hfr : Frames m m1 [n, l.rootId] (holeSlot 0 ctx) := by
    refine ⟨fun y _ => (hf y).1, ?_, ?_, ?_, ?_, ?_⟩
    · intro y hy
      simp only [List.mem_cons, List.mem_singleton, not_or, List.not_mem_nil, or_false] at hy
      rw [(hf y).2.2.2.2.1, if_neg hy.1, if_neg hy.2]
    · intro y hy
      simp only [List.mem_cons, List.mem_singleton, not_or, List.not_mem_nil, or_false] at hy
      rw [(hf y).2.2.2.2.2, if_neg hy.1, if_neg hy.2]
    · intro y _ hh; rw [(hf y).2.2.2.1, if_neg hh]
    · intro y hy hh
      simp only [List.mem_cons, List.mem_singleton, not_or, List.not_mem_nil, or_false] at hy
      rw [(hf y).2.2.1, if_neg hy.1, if_neg hh]
    · intro t hh; rw [hroots, if_neg hh]
  have hrep1 : Rep m1 (holeSlot 0 ctx) (holeParent ctx) l := by
    refine Rep_move m m1 l (Slot.right n) (holeSlot 0 ctx) n (holeParent ctx) hpl.rep ?_ hpl.nodup
      ?_ hsv
    · intro y hy
      have hyn : y ≠ n := fun e => hnl (e ▸ hy)
      have hy' := hnotin y (by simp [Shape.ids, hy])
      refine ⟨(hf y).1, ?_, ?_, fun hyr => ⟨?_, ?_⟩⟩
      · rw [(hf y).2.2.2.1, if_neg hy'.1]
      · rw [(hf y).2.2.1, if_neg hyn, if_neg hy'.2]
      · rw [(hf y).2.2.2.2.1, if_neg hyn, if_neg hyr]
      · rw [(hf y).2.2.2.2.2, if_neg hyn, if_neg hyr]
    · intro _
      constructor
      · rw [(hf _).2.2.2.2.1, if_neg (Ne.symm hne), if_pos rfl]
      · rw [(hf _).2.2.2.2.2, if_neg (Ne.symm hne), if_pos rfl]
  have hsubl : ∀ y ∈ l.ids, y ∈ (Shape.node Shape.nil n c b l).ids :=
    fun y hy => by simp [Shape.ids, hy]
  have hnd1 := plug_sub_nodup ctx _ l hnd hpl.nodup hsubl
  have hsub := plug_sub_mem ctx (Shape.node Shape.nil n c b l) l hsubl
  obtain ⟨nd1, nd2, nd3⟩ := (plug_nodup ctx _).mp hnd
  have hS : ∀ y ∈ [n, l.rootId], y ∈ (Shape.node Shape.nil n c b l).ids := by
    intro y hy
    simp only [List.mem_cons, List.mem_singleton, List.not_mem_nil, or_false] at hy
    rcases hy with e | e
    · simp [Shape.ids, e]
    · rw [e]; exact hsubl _ (rootId_mem l hnn0)
  have hrepP := (hole_replace m m1 ctx _ l [n, l.rootId] hrep hnd hfr
    (fun y hy hc => nd3 y (hS y hc) hy) hrep1).1
  obtain ⟨m2, e2, R2⟩ := repairDetach_ok m1 ctx l n (holeSibling ctx) hrepP hnd1
    (fun y hy => by rw [hnext]; exact hal y (hsub y hy)) (by rw [hnext]; exact hpos) rfl
  refine ⟨m2, _, e2, removed_of_raw m m1 m2 ctx _ l _ n b [n, l.rootId] hrep hnd
    (Or.inr (by simp [Shape.toList])) hS hfr hrep1 (fun y => (hf y).2.1) hnext hpp1 hcl1 R2, ?_⟩
  intro hw
  have hcol : isRed m1 n = !c := by
    simp only [isRed, if_neg hn0, (hf n).1]
    rw [hp.rep.2.2.1]
  rw [hcol]
  exact repairDetachA_wk ctx _ _ l n c b hw (Or.inr ⟨rfl, rfl⟩)

end Trade

namespace Trade

open RB

variable {β : Type}

/-- The fields after `n.givePosition(nn)`. -/
theorem givePosition_spec (m : Heap) (n nn l0 r0 : Nat) (s : Slot) (hn : n ≠ 0) (hnn : nn ≠ 0)
    (hne : n ≠ nn) (hpp : (m.nodes n).pp = some s) (hv : s.valid)
    (hl : (m.nodes n).left = l0) (hr : (m.nodes n).right = r0)
    (hl1 : l0 ≠ n) (hl2 : l0 ≠ nn) (hr1 : r0 ≠ n) (hr2 : r0 ≠ nn) (hlr : l0 ≠ 0 → l0 ≠ r0)
    (hs1 : s ≠ Slot.left n ∧ s ≠ Slot.right n) (hs2 : s ≠ Slot.left nn ∧ s ≠ Slot.right nn) :
    ∃ m', givePosition m n nn = some m' ∧
      (∀ y, (m'.nodes y).data = (m.nodes y).data) ∧ m'.next = m.next ∧
      (∀ y, (m'.nodes y).black = if y = nn then (m.nodes n).black else (m.nodes y).black) ∧
      (∀ y, (m'.nodes y).parent = if y = n then 0 else if y = nn then (m.nodes n).parent
        else if y ≠ 0 ∧ (y = l0 ∨ y = r0) then nn else (m.nodes y).parent) ∧
      (∀ y, (m'.nodes y).pp = if y = n then none else if y = nn then some s
        else if y ≠ 0 ∧ y = l0 then some (Slot.left nn)
        else if y ≠ 0 ∧ y = r0 then some (Slot.right nn) else (m.nodes y).pp) ∧
      (∀ y, (m'.nodes y).left = if y = n then 0 else if y = nn then l0
        else if s = Slot.left y then nn else (m.nodes y).left) ∧
      (∀ y, (m'.nodes y).right = if y = n then 0 else if y = nn then r0
        else if s = Slot.right y then nn else (m.nodes y).right) ∧
      (∀ t, m'.roots t = if s = Slot.root t then nn else m.roots t) := by
  obtain ⟨g1, g2, g3, g4, g5, g6, g7, g8⟩ := giveParentT_spec m n nn s hpp hne
  unfold givePosition
  simp only [giveParent_eq m n nn s hn hnn hne hpp hv, bind, Option.bind]
  generalize hm0 : giveParentT m n nn = m0 at g1 g2 g3 g4 g5 g6 g7 g8
  have hl0 : (m0.nodes n).left = l0 := by rw [g5, if_neg hs1.1, hl]
  have hr0 : (m0.nodes n).right = r0 := by rw [g6, if_neg hs1.2, hr]
  unfold giveChildren
  simp only [rd_eq _ n hn, rd_eq _ nn hnn, wr_eq _ nn _ hnn, wr_eq _ n _ hn, bind, Option.bind,
    upd_nodes, if_neg hne, if_neg (Ne.symm hne), if_true, hl0, hr0, ite_not]
  by_cases hlz : l0 = 0 <;> by_cases hrz : r0 = 0
  · subst hlz; subst hrz
    simp only [if_true, pure, rd_eq _ nn hnn, wr_eq _ n _ hn, wr_eq _ nn _ hnn, upd_nodes,
      if_neg hne, if_neg (Ne.symm hne)]
    refine ⟨_, rfl, ?_, ?_, ?_, ?_, ?_, ?_, ?_, ?_⟩
    · intro y; by_cases h1 : y = n <;> by_cases h2 : y = nn <;>
        simp [upd_nodes, h1, h2, hne, Ne.symm hne, g2]
    · simp [g8]
    · intro y; by_cases h1 : y = n <;> by_cases h2 : y = nn <;>
        simp [upd_nodes, h1, h2, hne, Ne.symm hne, g1]
    · intro y; by_cases h1 : y = n <;> by_cases h2 : y = nn <;>
        simp [upd_nodes, h1, h2, hne, Ne.symm hne, g3]
    · intro y; by_cases h1 : y = n <;> by_cases h2 : y = nn <;>
        simp [upd_nodes, h1, h2, hne, Ne.symm hne, g4]
    · intro y; by_cases h1 : y = n <;> by_cases h2 : y = nn <;>
        simp [upd_nodes, h1, h2, hne, Ne.symm hne, g5]
    · intro y; by_cases h1 : y = n <;> by_cases h2 : y = nn <;>
        simp [upd_nodes, h1, h2, hne, Ne.symm hne, g6]
    · intro t; simp [upd_roots, g7]
  · subst hlz
    simp only [if_true, if_neg hrz, pure, rd_eq _ nn hnn, wr_eq _ n _ hn, wr_eq _ nn _ hnn,
      wr_eq _ r0 _ hrz, upd_nodes, if_neg hne, if_neg (Ne.symm hne), if_neg hr2, if_neg hr1,
      if_neg (Ne.symm hr2), if_neg (Ne.symm hr1)]
    refine ⟨_, rfl, ?_, ?_, ?_, ?_, ?_, ?_, ?_, ?_⟩
    · intro y; by_cases h1 : y = n <;> by_cases h2 : y = nn <;> by_cases h3 : y = r0 <;>
        simp [upd_nodes, h1, h2, h3, hne, Ne.symm hne, hr1, hr2, Ne.symm hr1, Ne.symm hr2, g2]
    · simp [g8]
    · intro y; by_cases h1 : y = n <;> by_cases h2 : y = nn <;> by_cases h3 : y = r0 <;>
        simp [upd_nodes, h1, h2, h3, hne, Ne.symm hne, hr1, hr2, Ne.symm hr1, Ne.symm hr2, g1]
    · intro y; by_cases h1 : y = n <;> by_cases h2 : y = nn <;> by_cases h3 : y = r0 <;>
        simp [upd_nodes, h1, h2, h3, hne, Ne.symm hne, hr1, hr2, Ne.symm hr1, Ne.symm hr2, g3,
          hrz, hn, hnn]
    · intro y; by_cases h1 : y = n <;> by_cases h2 : y = nn <;> by_cases h3 : y = r0 <;>
        simp [upd_nodes, h1, h2, h3, hne, Ne.symm hne, hr1, hr2, Ne.symm hr1, Ne.symm hr2, g4,
          hrz, hn, hnn]
    · intro y; by_cases h1 : y = n <;> by_cases h2 : y = nn <;> by_cases h3 : y = r0 <;>
        simp [upd_nodes, h1, h2, h3, hne, Ne.symm hne, hr1, hr2, Ne.symm hr1, Ne.symm hr2, g5]
    · intro y; by_cases h1 : y = n <;> by_cases h2 : y = nn <;> by_cases h3 : y = r0 <;>
        simp [upd_nodes, h1, h2, h3, hne, Ne.symm hne, hr1, hr2, Ne.symm hr1, Ne.symm hr2, g6]
    · intro t; simp [upd_roots, g7]
  · subst hrz
    simp only [if_true, if_neg hlz, pure, rd_eq _ nn hnn, wr_eq _ n _ hn, wr_eq _ nn _ hnn,
      wr_eq _ l0 _ hlz, upd_nodes, if_neg hne, if_neg (Ne.symm hne), if_neg hl2, if_neg hl1,
      if_neg (Ne.symm hl2), if_neg (Ne.symm hl1)]
    refine ⟨_, rfl, ?_, ?_, ?_, ?_, ?_, ?_, ?_, ?_⟩
    · intro y; by_cases h1 : y = n <;> by_cases h2 : y = nn <;> by_cases h3 : y = l0 <;>
        simp [upd_nodes, h1, h2, h3, hne, Ne.symm hne, hl1, hl2, Ne.symm hl1, Ne.symm hl2, g2]
    · simp [g8]
    · intro y; by_cases h1 : y = n <;> by_cases h2 : y = nn <;> by_cases h3 : y = l0 <;>
        simp [upd_nodes, h1, h2, h3, hne, Ne.symm hne, hl1, hl2, Ne.symm hl1, Ne.symm hl2, g1]
    · intro y; by_cases h1 : y = n <;> by_cases h2 : y = nn <;> by_cases h3 : y = l0 <;>
        simp [upd_nodes, h1, h2, h3, hne, Ne.symm hne, hl1, hl2, Ne.symm hl1, Ne.symm hl2, g3,
          hlz, hn, hnn]
    · intro y; by_cases h1 : y = n <;> by_cases h2 : y = nn <;> by_cases h3 : y = l0 <;>
        simp [upd_nodes, h1, h2, h3, hne, Ne.symm hne, hl1, hl2, Ne.symm hl1, Ne.symm hl2, g4,
          hlz, hn, hnn]
    · intro y; by_cases h1 : y = n <;> by_cases h2 : y = nn <;> by_cases h3 : y = l0 <;>
        simp [upd_nodes, h1, h2, h3, hne, Ne.symm hne, hl1, hl2, Ne.symm hl1, Ne.symm hl2, g5]
    · intro y; by_cases h1 : y = n <;> by_cases h2 : y = nn <;> by_cases h3 : y = l0 <;>
        simp [upd_nodes, h1, h2, h3, hne, Ne.symm hne, hl1, hl2, Ne.symm hl1, Ne.symm hl2, g6]
    · intro t; simp [upd_roots, g7]
  · have hlr' := hlr hlz
    simp only [if_true, if_neg hrz, if_neg hlz, pure, rd_eq _ nn hnn, wr_eq _ n _ hn, wr_eq _ nn _ hnn,
      wr_eq _ l0 _ hlz, wr_eq _ r0 _ hrz, upd_nodes, if_neg hne, if_neg (Ne.symm hne),
      if_neg hl2, if_neg hl1, if_neg (Ne.symm hl2), if_neg (Ne.symm hl1), if_neg hr2,
      if_neg hr1, if_neg (Ne.symm hr2), if_neg (Ne.symm hr1)]
    refine ⟨_, rfl, ?_, ?_, ?_, ?_, ?_, ?_, ?_, ?_⟩
    · intro y; by_cases h1 : y = n <;> by_cases h2 : y = nn <;> by_cases h3 : y = l0 <;>
        by_cases h4 : y = r0 <;>
        simp [upd_nodes, h1, h2, h3, h4, hne, Ne.symm hne, hl1, hl2, Ne.symm hl1, Ne.symm hl2,
          hr1, hr2, Ne.symm hr1, Ne.symm hr2, hlr', Ne.symm hlr', g2]
    · simp [g8]
    · intro y; by_cases h1 : y = n <;> by_cases h2 : y = nn <;> by_cases h3 : y = l0 <;>
        by_cases h4 : y = r0 <;>
        simp [upd_nodes, h1, h2, h3, h4, hne, Ne.symm hne, hl1, hl2, Ne.symm hl1, Ne.symm hl2,
          hr1, hr2, Ne.symm hr1, Ne.symm hr2, hlr', Ne.symm hlr', g1]
    · intro y; by_cases h1 : y = n <;> by_cases h2 : y = nn <;> by_cases h3 : y = l0 <;>
        by_cases h4 : y = r0 <;>
        simp [upd_nodes, h1, h2, h3, h4, hne, Ne.symm hne, hl1, hl2, Ne.symm hl1, Ne.symm hl2,
          hr1, hr2, Ne.symm hr1, Ne.symm hr2, hlr', Ne.symm hlr', g3, hlz, hrz, hn, hnn]
    · intro y; by_cases h1 : y = n <;> by_cases h2 : y = nn <;> by_cases h3 : y = l0 <;>
        by_cases h4 : y = r0 <;>
        simp [upd_nodes, h1, h2, h3, h4, hne, Ne.symm hne, hl1, hl2, Ne.symm hl1, Ne.symm hl2,
          hr1, hr2, Ne.symm hr1, Ne.symm hr2, hlr', Ne.symm hlr', g4, hlz, hrz, hn, hnn]
    · intro y; by_cases h1 : y = n <;> by_cases h2 : y = nn <;> by_cases h3 : y = l0 <;>
        by_cases h4 : y = r0 <;>
        simp [upd_nodes, h1, h2, h3, h4, hne, Ne.symm hne, hl1, hl2, Ne.symm hl1, Ne.symm hl2,
          hr1, hr2, Ne.symm hr1, Ne.symm hr2, hlr', Ne.symm hlr', g5]
    · intro y; by_cases h1 : y = n <;> by_cases h2 : y = nn <;> by_cases h3 : y = l0 <;>
        by_cases h4 : y = r0 <;>
        simp [upd_nodes, h1, h2, h3, h4, hne, Ne.symm hne, hl1, hl2, Ne.symm hl1, Ne.symm hl2,
          hr1, hr2, Ne.symm hr1, Ne.symm hr2, hlr', Ne.symm hlr', g6]
    · intro t; simp [upd_roots, g7]

end Trade

namespace Trade

open RB

variable {β : Type}

theorem root_notin (t : Shape β) (y : Nat) (hy0 : y ≠ 0) (hy : y ∉ t.ids) : y ≠ t.rootId := by
  intro e
  exact hy (by rw [e]; exact rootId_mem t (by rw [← e]; exact hy0))

/-- The node `nn`, which is not in the tree, takes the position of the node
`n`. -/
theorem givePosition_ok (m : Heap) (ctx : List (Frame β)) (l r : Shape β) (n nn : Nat) (c : Bool)
    (b b' : β)
    (hrep : Rep m (Slot.root 0) 0 (plug ctx (Shape.node l n c b r)))
    (hnd : (plug ctx (Shape.node l n c b r)).ids.Nodup)
    (hnn0 : nn ≠ 0) (hnnT : nn ∉ (plug ctx (Shape.node l n c b r)).ids) :
    ∃ m', givePosition m n nn = some m' ∧
      Rep m' (Slot.root 0) 0 (plug ctx (Shape.node l nn c b' r)) ∧
      Frames m m' (nn :: (plug ctx (Shape.node l n c b r)).ids) (Slot.root 0) ∧
      (∀ y, (m'.nodes y).data = (m.nodes y).data) ∧ m'.next = m.next ∧
      (m'.nodes n).pp = none ∧
      ((m'.nodes n).left = 0 ∧ (m'.nodes n).right = 0 ∧ (m'.nodes n).parent = 0) ∧
      (m'.nodes nn).black = c := by
  have hp := Pre_of_plug m 0 ctx _ hrep hnd
  obtain ⟨r1, hn0, r3, r4, r5, r6, r7⟩ := hp.rep
  obtain ⟨nd1, nd2, nd3⟩ := (plug_nodup ctx _).mp hnd
  have hnd1 := nd1
  simp only [Shape.ids] at hnd1
  rw [List.nodup_append, List.nodup_cons] at hnd1
  obtain ⟨hlnd, ⟨hnr, hrnd⟩, hdis⟩ := hnd1
  have hnl : n ∉ l.ids := fun hc => hdis hc (List.mem_cons_self _ _)
  have hnnt : nn ∉ (Shape.node l n c b r).ids := fun hc => hnnT ((mem_plug_ids _ _ _).mpr (Or.inl hc))
  have hnnc : nn ∉ ctxIds ctx := fun hc => hnnT ((mem_plug_ids _ _ _).mpr (Or.inr hc))
  have hnnl : nn ∉ l.ids := fun hc => hnnt (by simp [Shape.ids, hc])
  have hnnr : nn ∉ r.ids := fun hc => hnnt (by simp [Shape.ids, hc])
  have hne : n ≠ nn := fun e => hnnt (by simp [Shape.ids, e])
  have hl0 : (m.nodes n).left = l.rootId := Rep_slotVal m _ _ l r6
  have hr0 : (m.nodes n).right = r.rootId := Rep_slotVal m _ _ r r7
  have hlr : l.rootId ≠ 0 → l.rootId ≠ r.rootId := by
    intro h e
    have h2 : r.rootId ∈ r.ids := rootId_mem r (by rw [← e]; exact h)
    exact hdis (rootId_mem l h) (List.mem_cons_of_mem _ (by rw [e]; exact h2))
  obtain ⟨m', e, f1, f2, f3, f4, f5, f6, f7, f8⟩ := givePosition_spec m n nn l.rootId r.rootId
    (holeSlot 0 ctx) hn0 hnn0 hne r5 hp.valid hl0 hr0
    (Ne.symm (root_notin l n hn0 hnl)) (Ne.symm (root_notin l nn hnn0 hnnl))
    (Ne.symm (root_notin r n hn0 hnr)) (Ne.symm (root_notin r nn hnn0 hnnr)) hlr
    (hp.slot n (by simp [Shape.ids])) (holeSlot_not_in 0 ctx nn hnnc)
  have hslot := hp.slot
  have hsv : m'.slotVal (holeSlot 0 ctx) = nn := by
    cases hh : holeSlot 0 ctx with
    | root t => simp [Mem.slotVal, f8, hh]
    | left q =>
      have hq1 : q ≠ n := fun e => (hslot n (by simp [Shape.ids])).1 (by rw [hh, e])
      have hq2 : q ≠ nn := fun e => (holeSlot_not_in 0 ctx nn hnnc).1 (by rw [hh, e])
      simp [Mem.slotVal, f6, hh, hq1, hq2]
    | right q =>
      have hq1 : q ≠ n := fun e => (hslot n (by simp [Shape.ids])).2 (by rw [hh, e])
      have hq2 : q ≠ nn := fun e => (holeSlot_not_in 0 ctx nn hnnc).2 (by rw [hh, e])
      simp [Mem.slotVal, f7, hh, hq1, hq2]
  have hin : ∀ (t : Shape β), (∀ y ∈ t.ids, y ∈ (Shape.node l n c b r).ids) → n ∉ t.ids →
      (∀ y ∈ t.ids, y ≠ t.rootId → y ≠ l.rootId ∧ y ≠ r.rootId) →
      ∀ y ∈ t.ids, (m'.nodes y).black = (m.nodes y).black ∧
        (m'.nodes y).left = (m.nodes y).left ∧ (m'.nodes y).right = (m.nodes y).right ∧
        (y ≠ t.rootId → (m'.nodes y).parent = (m.nodes y).parent ∧
          (m'.nodes y).pp = (m.nodes y).pp) := by
    intro t hsub hnt hroot y hy
    have hyn : y ≠ n := fun e => hnt (e ▸ hy)
    have hynn : y ≠ nn := fun e => hnnt (e ▸ hsub y hy)
    have hys := hslot y (hsub y hy)
    refine ⟨by rw [f3, if_neg hynn], by rw [f6, if_neg hyn, if_neg hynn, if_neg hys.1],
      by rw [f7, if_neg hyn, if_neg hynn, if_neg hys.2], fun hyr => ?_⟩
    obtain ⟨h1, h2⟩ := hroot y hy hyr
    constructor
    · rw [f4, if_neg hyn, if_neg hynn, if_neg (by tauto)]
    · rw [f5, if_neg hyn, if_neg hynn, if_neg (by tauto), if_neg (by tauto)]
  have hrep1 : Rep m' (holeSlot 0 ctx) (holeParent ctx) (Shape.node l nn c b' r) := by
    refine ⟨hsv, hnn0, by rw [f3, if_pos rfl]; exact r3,
      by rw [f4, if_neg (Ne.symm hne), if_pos rfl]; exact r4,
      by rw [f5, if_neg (Ne.symm hne), if_pos rfl], ?_, ?_⟩
    · refine Rep_move m m' l (Slot.left n) (Slot.left nn) n nn r6
        (hin l (fun y hy => by simp [Shape.ids, hy]) hnl ?_) hlnd ?_ ?_
      · intro y hy hyr
        refine ⟨hyr, fun e => ?_⟩
        have hy0 : y ≠ 0 := Rep_ids_ne_zero m l _ _ r6 y hy
        have h2 : r.rootId ∈ r.ids := rootId_mem r (by rw [← e]; exact hy0)
        exact hdis hy (List.mem_cons_of_mem _ (by rw [e]; exact h2))
      · intro h0
        have h1 : l.rootId ≠ n := Ne.symm (root_notin l n hn0 hnl)
        have h2 : l.rootId ≠ nn := Ne.symm (root_notin l nn hnn0 hnnl)
        constructor
        · rw [f4, if_neg h1, if_neg h2, if_pos ⟨h0, Or.inl rfl⟩]
        · rw [f5, if_neg h1, if_neg h2, if_pos ⟨h0, rfl⟩]
      · show (m'.nodes nn).left = l.rootId
        rw [f6, if_neg (Ne.symm hne), if_pos rfl]
    · refine Rep_move m m' r (Slot.right n) (Slot.right nn) n nn r7
        (hin r (fun y hy => by simp [Shape.ids, hy]) hnr ?_) hrnd ?_ ?_
      · intro y hy hyr
        refine ⟨fun e => ?_, hyr⟩
        have hy0 : y ≠ 0 := Rep_ids_ne_zero m r _ _ r7 y hy
        have h2 : l.rootId ∈ l.ids := rootId_mem l (by rw [← e]; exact hy0)
        exact hdis (by rw [e]; exact h2) (List.mem_cons_of_mem _ hy)
      · intro h0
        have h1 : r.rootId ≠ n := Ne.symm (root_notin r n hn0 hnr)
        have h2 : r.rootId ≠ nn := Ne.symm (root_notin r nn hnn0 hnnr)
        have h3 : ¬ (r.rootId ≠ 0 ∧ r.rootId = l.rootId) := by
          rintro ⟨_, e⟩
          exact hlr (by rw [← e]; exact h0) e.symm
        constructor
        · rw [f4, if_neg h1, if_neg h2, if_pos ⟨h0, Or.inr rfl⟩]
        · rw [f5, if_neg h1, if_neg h2, if_neg h3, if_pos ⟨h0, rfl⟩]
      · show (m'.nodes nn).right = r.rootId
        rw [f7, if_neg (Ne.symm hne), if_pos rfl]
  have hfr : Frames m m' (nn :: (Shape.node l n c b r).ids) (holeSlot 0 ctx) := by
    have hS : ∀ y, y ∉ nn :: (Shape.node l n c b r).ids →
        y ≠ n ∧ y ≠ nn ∧ ¬ (y ≠ 0 ∧ (y = l.rootId ∨ y = r.rootId)) ∧
        ¬ (y ≠ 0 ∧ y = l.rootId) ∧ ¬ (y ≠ 0 ∧ y = r.rootId) := by
      intro y hy
      simp only [List.mem_cons, Shape.ids, List.mem_append, not_or] at hy
      have hl' : ¬ (y ≠ 0 ∧ y = l.rootId) := by
        rintro ⟨h0, e⟩
        exact hy.2.1 (by rw [e]; exact rootId_mem l (by rw [← e]; exact h0))
      have hr' : ¬ (y ≠ 0 ∧ y = r.rootId) := by
        rintro ⟨h0, e⟩
        exact hy.2.2.2 (by rw [e]; exact rootId_mem r (by rw [← e]; exact h0))
      exact ⟨hy.2.2.1, hy.1, by tauto, hl', hr'⟩
    refine ⟨?_, ?_, ?_, ?_, ?_, ?_⟩
    · intro y hy; rw [f3, if_neg (hS y hy).2.1]
    · intro y hy
      obtain ⟨h1, h2, h3, _, _⟩ := hS y hy
      rw [f4, if_neg h1, if_neg h2, if_neg h3]
    · intro y hy
      obtain ⟨h1, h2, _, h4, h5⟩ := hS y hy
      rw [f5, if_neg h1, if_neg h2, if_neg h4, if_neg h5]
    · intro y hy hh
      obtain ⟨h1, h2, _, _, _⟩ := hS y hy
      rw [f6, if_neg h1, if_neg h2, if_neg hh]
    · intro y hy hh
      obtain ⟨h1, h2, _, _, _⟩ := hS y hy
      rw [f7, if_neg h1, if_neg h2, if_neg hh]
    · intro t hh; rw [f8, if_neg hh]
  obtain ⟨h1, h2⟩ := hole_replace m m' ctx _ (Shape.node l nn c b' r)
    (nn :: (Shape.node l n c b r).ids) hrep hnd hfr (fun y hy hc => by
      rcases List.mem_cons.mp hc with e | e
      · exact hnnc (e ▸ hy)
      · exact nd3 y e hy) hrep1
  refine ⟨m', e, h1, h2.mono (fun y hy => ?_), f1, f2, by rw [f5, if_pos rfl],
    ⟨by rw [f6, if_pos rfl], by rw [f7, if_pos rfl], by rw [f4, if_pos rfl]⟩,
    by rw [f3, if_pos rfl]; exact r3⟩
  rcases List.mem_append.mp hy with h | h
  · rcases List.mem_cons.mp h with e | e
    · exact List.mem_cons.mpr (Or.inl e)
    · exact List.mem_cons_of_mem _ ((mem_plug_ids _ _ _).mpr (Or.inl e))
  · exact List.mem_cons_of_mem _ h

end Trade

namespace Trade

open RB

variable {β : Type}

theorem height_le (t : Shape β) : t.height ≤ t.ids.length := by
  induction t with
  | nil => simp [Shape.height, Shape.ids]
  | node l x c b r ihl ihr =>
    simp only [Shape.height, Shape.ids, List.length_append, List.length_cons]
    rcases max_cases l.height r.height with ⟨e, _⟩ | ⟨e, _⟩ <;> rw [e] <;> omega

/-- The loop of `detachMax` and `peekMax` ends at the last node of the
subtree. -/
theorem maxLoop_spec (m : Heap) :
    ∀ (t : Shape β) (s : Slot) (p fuel : Nat), Rep m s p t → t ≠ Shape.nil → t.height ≤ fuel →
      ∃ ctxR l2 mx c b, t = plug ctxR (Shape.node l2 mx c b Shape.nil) ∧ ctxAfter ctxR = [] ∧
        maxLoop fuel m t.rootId = some mx := by
  intro t
  induction t with
  | nil => intro s p fuel _ h; exact absurd rfl h
  | node l x c b r ihl ihr =>
    intro s p fuel hrep _ hfuel
    obtain ⟨r1, r2, r3, r4, r5, r6, r7⟩ := hrep
    have hrv : (m.nodes x).right = r.rootId := Rep_slotVal m _ _ r r7
    cases fuel with
    | zero => simp [Shape.height] at hfuel
    | succ f =>
      have hr : r.height ≤ f := by
        simp only [Shape.height] at hfuel
        have := le_max_right l.height r.height
        omega
      show ∃ ctxR l2 mx c' b', _ ∧ _ ∧ maxLoop (f + 1) m x = some mx
      unfold maxLoop
      rw [rd_eq m x r2]
      simp only [hrv, ite_not]
      by_cases hr0 : r.rootId = 0
      · rw [if_pos hr0]
        have hrnil : r = Shape.nil := rootId_eq_zero_of_rep m _ _ r r7 hr0
        subst hrnil
        exact ⟨[], l, x, c, b, rfl, rfl, rfl⟩
      · rw [if_neg hr0]
        obtain ⟨ctxR, l2, mx, c2, b2, e1, e2, e3⟩ := ihr _ _ f r7 (ne_nil_of_rootId r hr0) hr
        refine ⟨ctxR ++ [Frame.R l x c b], l2, mx, c2, b2, ?_, ?_, e3⟩
        · rw [plug_append, ← e1]; rfl
        · rw [ctxAfter_append, e2]; rfl

/-- The loop of `peekMin` ends at the first node of the subtree. -/
theorem minLoop_spec (m : Heap) :
    ∀ (t : Shape β) (s : Slot) (p fuel : Nat), Rep m s p t → t ≠ Shape.nil → t.height ≤ fuel →
      ∃ q rest, t.toList = q :: rest ∧ minLoop fuel m t.rootId = some q.1 := by
  intro t
  induction t with
  | nil => intro s p fuel _ h; exact absurd rfl h
  | node l x c b r ihl ihr =>
    intro s p fuel hrep _ hfuel
    obtain ⟨r1, r2, r3, r4, r5, r6, r7⟩ := hrep
    have hlv : (m.nodes x).left = l.rootId := Rep_slotVal m _ _ l r6
    cases fuel with
    | zero => simp [Shape.height] at hfuel
    | succ f =>
      have hl : l.height ≤ f := by
        simp only [Shape.height] at hfuel
        have := le_max_left l.height r.height
        omega
      show ∃ q rest, _ ∧ minLoop (f + 1) m x = some q.1
      unfold minLoop
      rw [rd_eq m x r2]
      simp only [hlv, ite_not]
      by_cases hl0 : l.rootId = 0
      · rw [if_pos hl0]
        have hlnil : l = Shape.nil := rootId_eq_zero_of_rep m _ _ l r6 hl0
        subst hlnil
        exact ⟨(x, b), r.toList, rfl, rfl⟩
      · rw [if_neg hl0]
        obtain ⟨q, rest, e1, e2⟩ := ihl _ _ f r6 (ne_nil_of_rootId l hl0) hl
        exact ⟨q, rest ++ (x, b) :: r.toList, by simp [Shape.toList, e1], e2⟩

/-- The loop of `peekMax` ends at the last node of the subtree. -/
theorem maxLoop_last (m : Heap) (t : Shape β) (s : Slot) (p fuel : Nat) (hrep : Rep m s p t)
    (ht : t ≠ Shape.nil) (hfuel : t.height ≤ fuel) :
    ∃ q init, t.toList = init ++ [q] ∧ maxLoop fuel m t.rootId = some q.1 := by
  obtain ⟨ctxR, l2, mx, c, b, e1, e2, e3⟩ := maxLoop_spec m t s p fuel hrep ht hfuel
  refine ⟨(mx, b), ctxBefore ctxR ++ l2.toList, ?_, e3⟩
  rw [e1, plug_toList, e2]
  simp [Shape.toList]

theorem split_unique {γ : Type} (n : Nat) :
    ∀ (A A' B B' : List (Nat × γ)) (b b' : γ), A ++ (n, b) :: B = A' ++ (n, b') :: B' →
      (∀ q ∈ A, q.1 ≠ n) → (∀ q ∈ A', q.1 ≠ n) → A = A' ∧ b = b' ∧ B = B' := by
  intro A
  induction A with
  | nil =>
    intro A' B B' b b' h hA hA'
    cases A' with
    | nil =>
      simp only [List.nil_append, List.cons.injEq, Prod.mk.injEq, true_and] at h
      exact ⟨rfl, h.1, h.2⟩
    | cons a A'' =>
      simp only [List.nil_append, List.cons_append, List.cons.injEq] at h
      exact absurd (by rw [← h.1]) (hA' a (List.mem_cons_self _ _))
  | cons a A ih =>
    intro A' B B' b b' h hA hA'
    cases A' with
    | nil =>
      simp only [List.nil_append, List.cons_append, List.cons.injEq] at h
      exact absurd (by rw [h.1]) (hA a (List.mem_cons_self _ _))
    | cons a' A'' =>
      simp only [List.cons_append, List.cons.injEq] at h
      obtain ⟨h1, h2, h3⟩ := ih A'' B B' b b' h.2 (fun q hq => hA q (List.mem_cons_of_mem _ hq))
        (fun q hq => hA' q (List.mem_cons_of_mem _ hq))
      exact ⟨by rw [h.1, h1], h2, h3⟩

end Trade

namespace Trade

open RB

variable {β : Type}

theorem Removed.ids {m m' : Heap} {T T' : Shape β} {n : Nat} (h : Removed m T n m' T') :
    T'.ids = T.ids.filter (fun y => decide (y ≠ n)) := by
  rw [ids_eq_map_toList, ids_eq_map_toList, h.toList, List.filter_map]
  rfl

/-- The list of a tree after the node `n` has been replaced by its predecessor
`mx`, which was removed before. -/
theorem replace_pred {γ : Type} (L L1 P Q X Y : List (Nat × γ)) (mx n : Nat) (b2 b b3 : γ)
    (hL : L = X ++ (mx, b2) :: (n, b) :: Y) (hnd : (L.map Prod.fst).Nodup)
    (hL1 : L1 = L.filter (fun q => decide (q.1 ≠ mx)))
    (hsplit : L1 = P ++ (n, b3) :: Q) :
    P ++ (mx, b2) :: Q = L.filter (fun q => decide (q.1 ≠ n)) := by
  subst hL
  simp only [List.map_append, List.map_cons] at hnd
  have h1 := List.nodup_append.mp hnd
  have h2 := List.nodup_cons.mp h1.2.1
  have h3 := List.nodup_cons.mp h2.2
  have hmxX : ∀ q ∈ X, q.1 ≠ mx := fun q hq e =>
    h1.2.2 (List.mem_map_of_mem _ hq) (by rw [e]; exact List.mem_cons_self _ _)
  have hnX : ∀ q ∈ X, q.1 ≠ n := fun q hq e =>
    h1.2.2 (List.mem_map_of_mem _ hq)
      (by rw [e]; exact List.mem_cons_of_mem _ (List.mem_cons_self _ _))
  have hmxn : mx ≠ n := fun e => h2.1 (by rw [e]; exact List.mem_cons_self _ _)
  have hmxY : ∀ q ∈ Y, q.1 ≠ mx := fun q hq e =>
    h2.1 (by rw [← e]; exact List.mem_cons_of_mem _ (List.mem_map_of_mem _ hq))
  have hnY : ∀ q ∈ Y, q.1 ≠ n := fun q hq e =>
    h3.1 (by rw [← e]; exact List.mem_map_of_mem _ hq)
  have e1 := filter_remove X ((n, b) :: Y) mx b2 hmxX (by
    intro q hq
    rcases List.mem_cons.mp hq with e | e
    · rw [e]; exact Ne.symm hmxn
    · exact hmxY q e)
  rw [e1] at hL1
  have hP : ∀ q ∈ P, q.1 ≠ n := by
    have hnd1 : ((P ++ (n, b3) :: Q).map Prod.fst).Nodup := by
      rw [← hsplit, hL1]
      simp only [List.map_append, List.map_cons]
      refine List.nodup_append.mpr ⟨h1.1, h2.2, ?_⟩
      intro a ha ha'
      exact h1.2.2 ha (List.mem_cons_of_mem _ ha')
    simp only [List.map_append, List.map_cons] at hnd1
    intro q hq e
    exact (List.nodup_append.mp hnd1).2.2 (List.mem_map_of_mem _ hq)
      (by rw [e]; exact List.mem_cons_self _ _)
  obtain ⟨p1, _, p3⟩ := split_unique n X P Y Q b b3 (hL1.symm.trans hsplit) hnX hP
  have e2 := filter_remove (X ++ [(mx, b2)]) Y n b (by
    intro q hq
    rcases List.mem_append.mp hq with e | e
    · exact hnX q e
    · rw [List.mem_singleton.mp e]; exact hmxn) hnY
  simp only [List.append_assoc, List.singleton_append] at e2
  rw [e2, ← p1, ← p3]

end Trade

namespace Trade

open RB

variable {β : Type}

/-- The function `detach` on a node with two children: its predecessor is
detached and takes its position. -/
theorem detach_two (m : Heap) (ctx : List (Frame β)) (l r : Shape β) (n : Nat) (c : Bool) (b : β)
    (hl : l ≠ Shape.nil) (hr : r ≠ Shape.nil)
    (hrep : Rep m (Slot.root 0) 0 (plug ctx (Shape.node l n c b r)))
    (hnd : (plug ctx (Shape.node l n c b r)).ids.Nodup)
    (hal : ∀ y ∈ (plug ctx (Shape.node l n c b r)).ids, y < m.next) (hpos : 0 < m.next) :
    ∃ m' T', detach 2 m n = some m' ∧ Removed m (plug ctx (Shape.node l n c b r)) n m' T' ∧
      ((plug ctx (Shape.node l n c b r)).wk = true → T'.wk = true) := by
  have hp := Pre_of_plug m 0 ctx _ hrep hnd
  have hn0 : n ≠ 0 := hp.rep.2.1
  obtain ⟨hsib, _, _⟩ := getSibling_hole m ctx _ (by simp) hrep hnd
  simp only [Shape.rootId] at hsib
  have hlf : (m.nodes n).left = l.rootId := Rep_left m _ _ _ _ n c b hp.rep
  have hrf : (m.nodes n).right = r.rootId := Rep_right m _ _ _ _ n c b hp.rep
  have hl0 : l.rootId ≠ 0 := hp.left.root_ne hl
  have hr0 : r.rootId ≠ 0 := hp.right.root_ne hr
  have hfuel : l.height ≤ m.next + 1 := by
    have h1 := Guidstore.nodup_length_le _ m.next hpos hnd
      (fun y hy => ⟨Rep_ids_ne_zero m _ _ _ hrep y hy, hal y hy⟩)
    rw [plug_ids_length] at h1
    simp only [Shape.ids, List.length_append, List.length_cons] at h1
    have := height_le l
    omega
  obtain ⟨ctxR, l2, mx, c2, b2, e1, e2, e3⟩ := maxLoop_spec m l _ _ (m.next + 1) hp.left.rep hl
    hfuel
  have hT : plug ctx (Shape.node l n c b r) =
      plug (ctxR ++ Frame.L n c b r :: ctx) (Shape.node l2 mx c2 b2 Shape.nil) := by
    rw [plug_append, ← e1]; rfl
  unfold detach
  simp only [rd_eq m n hn0, bind, Option.bind, hsib, hlf, hrf, hl0, hr0, false_and, and_false,
    if_false, e3]
  -- the predecessor is detached
  obtain ⟨m1, T1, d1, Rm1, Rw1⟩ : ∃ m1 T1, detach 1 m mx = some m1 ∧
      Removed m (plug ctx (Shape.node l n c b r)) mx m1 T1 ∧
      ((plug ctx (Shape.node l n c b r)).wk = true → T1.wk = true) := by
    rw [hT] at hrep hnd hal ⊢
    by_cases hl2 : l2 = Shape.nil
    · subst hl2
      exact detach_leaf 0 m _ mx c2 b2 hrep hnd hal hpos
    · exact detach_left_only 0 m _ l2 mx c2 b2 hl2 hrep hnd hal hpos
  rw [d1]
  simp only
  have hmxT : mx ∈ (plug ctx (Shape.node l n c b r)).ids := by
    rw [hT]; exact (mem_plug_ids _ _ _).mpr (Or.inl (by simp [Shape.ids]))
  have hmx0 : mx ≠ 0 := Rep_ids_ne_zero m _ _ _ hrep mx hmxT
  have hnmx : n ≠ mx := by
    intro e
    have : mx ∈ l.ids := by
      rw [e1]; exact (mem_plug_ids _ _ _).mpr (Or.inl (by simp [Shape.ids]))
    have hnd1 := hp.nodup
    simp only [Shape.ids] at hnd1
    exact (List.nodup_append.mp hnd1).2.2 this (by rw [e]; exact List.mem_cons_self _ _)
  have hids1 := Rm1.ids
  have hn1 : n ∈ T1.ids := by
    rw [hids1, List.mem_filter]
    exact ⟨(mem_plug_ids _ _ _).mpr (Or.inl (by simp [Shape.ids])), by simpa using hnmx⟩
  have hmx1 : mx ∉ T1.ids := by
    rw [hids1, List.mem_filter]
    simp
  have hnd1 : T1.ids.Nodup := by rw [hids1]; exact hnd.filter _
  obtain ⟨ctx3, l3, c3, b3, r3, e4⟩ := focus n T1 hn1
  have hrep1 := Rm1.rep
  rw [e4] at hrep1 hnd1 hmx1
  obtain ⟨m2, g1, g2, g3, g4, g5, g6, g7, _⟩ := givePosition_ok m1 ctx3 l3 r3 n mx c3 b3 b2 hrep1 hnd1
    hmx0 hmx1
  refine ⟨m2, _, g1, ⟨g2, ?_, ?_, fun y => (g4 y).trans (Rm1.data y), g5.trans Rm1.next, g6,
    g7⟩, ?_⟩
  · have hnd' : ((plug ctx (Shape.node l n c b r)).toList.map Prod.fst).Nodup := by
      rw [← ids_eq_map_toList]; exact hnd
    have hL : (plug ctx (Shape.node l n c b r)).toList =
        (ctxBefore ctx ++ ctxBefore ctxR ++ l2.toList) ++ (mx, b2) :: (n, b) ::
          (r.toList ++ ctxAfter ctx) := by
      rw [hT, plug_toList, ctxBefore_append, ctxAfter_append, e2]
      simp [Shape.toList, ctxBefore, ctxAfter]
    have hs : T1.toList = (ctxBefore ctx3 ++ l3.toList) ++ (n, b3) ::
        (r3.toList ++ ctxAfter ctx3) := by
      rw [e4, plug_toList]
      simp [Shape.toList]
    have := replace_pred _ _ _ _ _ _ mx n b2 b b3 hL hnd' Rm1.toList hs
    rw [← this, plug_toList]
    simp [Shape.toList]
  · refine Frames.comp Rm1.frames (g3.mono (fun y hy => ?_))
    rcases List.mem_cons.mp hy with e | e
    · rw [e]; exact hmxT
    · rw [← e4, hids1] at e
      exact (List.mem_filter.mp e).1
  · intro hw
    have := Rw1 hw
    rw [e4] at this
    rw [plug_wk_relabel ctx3 l3 r3 n mx c3 b3 b2]
    exact this

/-- The function `detach` takes a node out of the tree: the other nodes stay,
in the same order. -/
theorem detach_ok (m : Heap) (T : Shape β) (n : Nat)
    (hrep : Rep m (Slot.root 0) 0 T) (hnd : T.ids.Nodup)
    (hal : ∀ y ∈ T.ids, y < m.next) (hpos : 0 < m.next) (hn : n ∈ T.ids) :
    ∃ m' T', detach 2 m n = some m' ∧ Removed m T n m' T' ∧ (T.wk = true → T'.wk = true) := by
  obtain ⟨ctx, l, c, b, r, rfl⟩ := focus n T hn
  by_cases hl : l = Shape.nil
  · by_cases hr : r = Shape.nil
    · subst hl; subst hr
      exact detach_leaf 1 m ctx n c b hrep hnd hal hpos
    · subst hl
      exact detach_right_only 1 m ctx r n c b hr hrep hnd hal hpos
  · by_cases hr : r = Shape.nil
    · subst hr
      exact detach_left_only 1 m ctx l n c b hl hrep hnd hal hpos
    · exact detach_two m ctx l r n c b hl hr hrep hnd hal hpos

end Trade

namespace Trade

open RB

theorem Chain_congr (m m' : Heap) :
    ∀ (xs : List Nat) (a b : Nat), (∀ y ∈ a :: xs, prevOf m' y = prevOf m y) →
      (∀ y ∈ xs ++ [b], nextOf m' y = nextOf m y) → Chain m a xs b → Chain m' a xs b := by
  intro xs
  induction xs with
  | nil =>
    intro a b hp hn h
    exact ⟨by rw [hp a (by simp)]; exact h.1, by rw [hn b (by simp)]; exact h.2⟩
  | cons x xs ih =>
    intro a b hp hn h
    refine ⟨by rw [hp a (by simp)]; exact h.1, by rw [hn x (by simp)]; exact h.2.1, ?_⟩
    exact ih x b (fun y hy => hp y (List.mem_cons_of_mem _ hy))
      (fun y hy => hn y (by simp at hy ⊢; tauto)) h.2.2

/-- The `next` of the end of a chain is a node of the chain. -/
theorem chain_next_mem (m : Heap) :
    ∀ (xs : List Nat) (a b : Nat), Chain m a xs b → nextOf m b ∈ a :: xs := by
  intro xs
  induction xs with
  | nil => intro a b h; rw [h.2]; exact List.mem_cons_self _ _
  | cons x xs ih => intro a b h; exact List.mem_cons_of_mem _ (ih x b h.2.2)

/-- The `prev` of the start of a chain is a node of the chain. -/
theorem chain_prev_mem (m : Heap) (xs : List Nat) (a b : Nat) (h : Chain m a xs b) :
    prevOf m a ∈ xs ++ [b] := by
  cases xs with
  | nil => rw [h.1]; simp
  | cons x xs => rw [h.1]; simp

/-- The ring after `addLast`. -/
theorem chain_snoc (m m' : Heap) (h n : Nat)
    (hprev : ∀ y, prevOf m' y = if y = n then h else if y = nextOf m h then n else prevOf m y)
    (hnext : ∀ y, nextOf m' y = if y = h then n else if y = n then nextOf m h else nextOf m y)
    (hnh : n ≠ h) :
    ∀ (xs : List Nat) (a : Nat), Chain m a xs h → (a :: xs).Nodup → h ∉ xs → n ∉ a :: xs →
      Chain m' a (xs ++ [n]) h := by
  intro xs
  induction xs with
  | nil =>
    intro a hc _ _ hn
    have han : a ≠ n := fun e => hn (by simp [e])
    have hl : nextOf m h = a := hc.2
    refine ⟨?_, ?_, ?_, ?_⟩
    · rw [hprev, if_neg han, hl, if_pos rfl]
    · rw [hnext, if_neg hnh, if_pos rfl, hl]
    · rw [hprev, if_pos rfl]
    · rw [hnext, if_pos rfl]
  | cons x xs ih =>
    intro a hc hnd hh hn
    have han : a ≠ n := fun e => hn (by simp [e])
    have hxn : x ≠ n := fun e => hn (by simp [e])
    have hxh : x ≠ h := fun e => hh (by simp [e])
    have hlast := chain_next_mem m xs x h hc.2.2
    have hal : a ≠ nextOf m h := fun e => (List.nodup_cons.mp hnd).1 (e ▸ hlast)
    refine ⟨?_, ?_, ?_⟩
    · rw [hprev, if_neg han, if_neg hal]; exact hc.1
    · rw [hnext, if_neg hxh, if_neg hxn]; exact hc.2.1
    · exact ih x hc.2.2 (List.nodup_cons.mp hnd).2 (fun hc' => hh (List.mem_cons_of_mem _ hc'))
        (fun hc' => hn (List.mem_cons_of_mem _ hc'))

/-- The ring after a member that is not the tree node has been unlinked. -/
theorem chain_erase (m m' : Heap) (h n : Nat) (ys : List Nat)
    (hprev : ∀ y, y ≠ n → prevOf m' y = if y = nextOf m n then prevOf m n else prevOf m y)
    (hnext : ∀ y, y ≠ n → nextOf m' y = if y = prevOf m n then nextOf m n else nextOf m y) :
    ∀ (xs : List Nat) (a : Nat), Chain m a (xs ++ n :: ys) h → (a :: (xs ++ n :: ys)).Nodup →
      h ∉ xs ++ n :: ys → Chain m' a (xs ++ ys) h := by
  intro xs
  induction xs with
  | nil =>
    intro a hc hnd hh
    simp only [List.nil_append] at hc hnd hh ⊢
    obtain ⟨c1, c2, c3⟩ := hc
    have han : a ≠ n := fun e => (List.nodup_cons.mp hnd).1 (by simp [e])
    have hhn : h ≠ n := fun e => hh (by simp [e])
    cases ys with
    | nil =>
      obtain ⟨c4, c5⟩ := c3
      refine ⟨?_, ?_⟩
      · rw [hprev a han, c2, if_pos rfl, c4]
      · rw [hnext h hhn, c4, if_pos rfl, c2]
    | cons y ys =>
      obtain ⟨c4, c5, c6⟩ := c3
      have hyn : y ≠ n := fun e => by
        have := (List.nodup_cons.mp (List.nodup_cons.mp hnd).2).1
        exact this (by simp [e])
      refine ⟨?_, ?_, ?_⟩
      · rw [hprev a han, c2, if_pos rfl, c4]
      · rw [hnext y hyn, c4, if_pos rfl, c2]
      · refine Chain_congr m m' ys y h ?_ ?_ c6
        · intro z hz
          have hzn : z ≠ n := fun e => by
            have := (List.nodup_cons.mp (List.nodup_cons.mp hnd).2).1
            exact this (e ▸ hz)
          have hza : z ≠ a := fun e => (List.nodup_cons.mp hnd).1
            (by rw [← e]; exact List.mem_cons_of_mem _ hz)
          rw [hprev z hzn, c2, if_neg hza]
        · intro z hz
          have hzn : z ≠ n := by
            intro e
            rcases List.mem_append.mp hz with h1 | h1
            · have := (List.nodup_cons.mp (List.nodup_cons.mp hnd).2).1
              exact this (List.mem_cons_of_mem _ (e ▸ h1))
            · exact hhn ((List.mem_singleton.mp h1) ▸ e)
          have hzy : z ≠ y := by
            intro e
            rcases List.mem_append.mp hz with h1 | h1
            · have := (List.nodup_cons.mp (List.nodup_cons.mp (List.nodup_cons.mp hnd).2).2).1
              exact this (e ▸ h1)
            · exact hh (by rw [← List.mem_singleton.mp h1, e]; simp)
          rw [hnext z hzn, c4, if_neg hzy]
  | cons x xs ih =>
    intro a hc hnd hh
    simp only [List.cons_append] at hc hnd hh ⊢
    obtain ⟨c1, c2, c3⟩ := hc
    have hnd2 := List.nodup_cons.mp hnd
    have han : a ≠ n := fun e => hnd2.1 (by simp [e])
    have hxn : x ≠ n := fun e => (List.nodup_cons.mp hnd2.2).1 (by simp [e])
    -- the neighbours of `n` lie in the rest of the chain
    have hpred : ∀ (zs : List Nat) (s : Nat), Chain m s (zs ++ n :: ys) h →
        nextOf m n ∈ s :: zs := by
      intro zs
      induction zs with
      | nil => intro s hs; rw [hs.2.1]; simp
      | cons z zs ihz => intro s hs; exact List.mem_cons_of_mem _ (ihz z hs.2.2)
    have hsucc : ∀ (zs : List Nat) (s : Nat), Chain m s (zs ++ n :: ys) h →
        prevOf m n ∈ ys ++ [h] := by
      intro zs
      induction zs with
      | nil => intro s hs; exact chain_prev_mem m ys n h hs.2.2
      | cons z zs ihz => intro s hs; exact ihz z hs.2.2
    have hp := hpred xs x c3
    have hs := hsucc xs x c3
    have ha : a ≠ nextOf m n := fun e => hnd2.1 (by
      rw [e]
      rcases List.mem_cons.mp hp with h1 | h1
      · rw [h1]; simp
      · simp [h1])
    have hx : x ≠ prevOf m n := fun e => by
      rcases List.mem_append.mp hs with h1 | h1
      · exact (List.nodup_cons.mp hnd2.2).1 (by rw [e]; simp [h1])
      · exact hh (by rw [← List.mem_singleton.mp h1, ← e]; simp)
    refine ⟨?_, ?_, ?_⟩
    · rw [hprev a han, if_neg ha]; exact c1
    · rw [hnext x hxn, if_neg hx]; exact c2
    · exact ih x c3 hnd2.2 (fun hc' => hh (List.mem_cons_of_mem _ hc'))

/-- The ring after its tree node `n` has been unlinked: the next member `a`
is the tree node. -/
theorem chain_head (m m' : Heap) (n a : Nat)
    (hprev : ∀ y, y ≠ n → prevOf m' y = if y = nextOf m n then a else prevOf m y)
    (hnext : ∀ y, y ≠ n → nextOf m' y = if y = a then nextOf m n else nextOf m y)
    (han : a ≠ n) :
    ∀ (xs : List Nat) (s : Nat), Chain m s xs n → (s :: xs).Nodup → n ∉ s :: xs → a ∉ xs →
      Chain m' s xs a := by
  intro xs
  induction xs with
  | nil =>
    intro s hc _ hn _
    have hsn : s ≠ n := fun e => hn (by simp [e])
    refine ⟨?_, ?_⟩
    · rw [hprev s hsn, hc.2, if_pos rfl]
    · rw [hnext a han, if_pos rfl, hc.2]
  | cons x xs ih =>
    intro s hc hnd hn ha
    have hsn : s ≠ n := fun e => hn (by simp [e])
    have hxn : x ≠ n := fun e => hn (by simp [e])
    have hxa : x ≠ a := fun e => ha (by simp [e])
    have hlast := chain_next_mem m xs x n hc.2.2
    have hsl : s ≠ nextOf m n := fun e => (List.nodup_cons.mp hnd).1 (e ▸ hlast)
    refine ⟨?_, ?_, ?_⟩
    · rw [hprev s hsn, if_neg hsl]; exact hc.1
    · rw [hnext x hxn, if_neg hxa]; exact hc.2.1
    · exact ih x hc.2.2 (List.nodup_cons.mp hnd).2 (fun hc' => hn (List.mem_cons_of_mem _ hc'))
        (fun hc' => ha (List.mem_cons_of_mem _ hc'))

end Trade

namespace Trade

open RB

theorem members_append (A B : List (Nat × List Nat)) :
    members (A ++ B) = members A ++ members B := by
  induction A with
  | nil => rfl
  | cons q A ih => simp [members, ih]

theorem mem_members (L : List (Nat × List Nat)) (y : Nat) :
    y ∈ members L ↔ ∃ q ∈ L, y = q.1 ∨ y ∈ q.2 := by
  induction L with
  | nil => simp [members]
  | cons q L ih =>
    have e : y ∈ members (q :: L) ↔ (y = q.1 ∨ y ∈ q.2) ∨ y ∈ members L := by
      simp only [members, List.mem_cons, List.mem_append, or_assoc]
    rw [e, ih]
    constructor
    · rintro (h | ⟨q', hq', h⟩)
      · exact ⟨q, List.mem_cons_self _ _, h⟩
      · exact ⟨q', List.mem_cons_of_mem _ hq', h⟩
    · rintro ⟨q', hq', h⟩
      rcases List.mem_cons.mp hq' with e' | e'
      · subst e'; exact Or.inl h
      · exact Or.inr ⟨q', e', h⟩

theorem heads_sublist (L : List (Nat × List Nat)) : (L.map Prod.fst).Sublist (members L) := by
  induction L with
  | nil => exact List.Sublist.slnil
  | cons q L ih =>
    simp only [List.map_cons, members]
    exact List.Sublist.cons₂ _ (List.Sublist.trans ih (List.sublist_append_right _ _))

theorem head_mem_members (L : List (Nat × List Nat)) (q : Nat × List Nat) (h : q ∈ L) :
    q.1 ∈ members L :=
  (mem_members L q.1).mpr ⟨q, h, Or.inl rfl⟩

theorem tail_mem_members (L : List (Nat × List Nat)) (q : Nat × List Nat) (h : q ∈ L) (y : Nat)
    (hy : y ∈ q.2) : y ∈ members L :=
  (mem_members L y).mpr ⟨q, h, Or.inr hy⟩

/-- In a list of levels without repetition a tail member is no tree node. -/
theorem tail_not_head (L : List (Nat × List Nat)) (hnd : (members L).Nodup) :
    ∀ q ∈ L, ∀ y ∈ q.2, y ∉ L.map Prod.fst := by
  induction L with
  | nil => intro q hq; cases hq
  | cons a L ih =>
    intro q hq y hy hc
    have hnd0 : (a.1 :: (a.2 ++ members L)).Nodup := hnd
    rw [List.nodup_cons, List.mem_append, not_or] at hnd0
    obtain ⟨⟨ha1, ha2⟩, hnd2⟩ := hnd0
    have hnd3 := List.nodup_append.mp hnd2
    simp only [List.map_cons, List.mem_cons] at hc
    rcases List.mem_cons.mp hq with e | e
    · subst e
      rcases hc with hc | hc
      · exact ha1 (hc ▸ hy)
      · exact hnd3.2.2 hy ((heads_sublist L).subset hc)
    · rcases hc with hc | hc
      · exact ha2 (hc ▸ tail_mem_members L q e y hy)
      · exact ih hnd3.2.1 q e y hy hc

/-- The levels keep their invariant under an operation that keeps the nodes of
the tree, in order, and all `data`. -/
theorem LInv_refines (m m' : Heap) (T T' : Shape (List Nat))
    (R : Refines m T m' T' (Slot.root 0) 0) (h : LInv m T.toList) : LInv m' T'.toList := by
  rw [R.toList]
  have hval : ∀ y, valOf m' y = valOf m y := fun y => by unfold valOf; rw [R.data]
  have hprev : ∀ y, prevOf m' y = prevOf m y := fun y => by unfold prevOf; rw [R.data]
  have hnext : ∀ y, nextOf m' y = nextOf m y := fun y => by unfold nextOf; rw [R.data]
  have hclean : ∀ y, y ∉ T.ids → (Clean m' y ↔ Clean m y) := by
    intro y hy
    unfold Clean
    rw [R.frames.pp y hy, R.frames.left y hy (fun e => by cases e),
      R.frames.right y hy (fun e => by cases e), R.frames.parent y hy]
  have hids : T.ids = T.toList.map Prod.fst := ids_eq_map_toList T
  refine ⟨h.nodup, fun x hx => by rw [R.next]; exact h.alloc x hx, by rw [R.next]; exact h.next_pos,
    ?_, ?_, ?_, ?_⟩
  · have : (fun q : Nat × List Nat => valOf m' q.1) = (fun q => valOf m q.1) := by
      funext q; exact hval q.1
    rw [this]; exact h.sorted
  · intro q hq
    exact Chain_congr m m' q.2 q.1 q.1 (fun y _ => hprev y) (fun y _ => hnext y) (h.ring q hq)
  · intro q hq y hy
    have hyT : y ∉ T.ids := by rw [hids]; exact tail_not_head _ h.nodup q hq y hy
    rw [hval, hval, hclean y hyT]
    exact h.tail q hq y hy
  · intro y hy0 hyn hym
    rw [R.next] at hyn
    have hyT : y ∉ T.ids := by
      rw [hids]; exact fun hc => hym ((heads_sublist _).subset hc)
    rw [hclean y hyT, hprev, hnext]
    exact h.free y hy0 hyn hym

end Trade

namespace Trade

open RB

theorem members_mid (A B : List (Nat × List Nat)) (q : Nat × List Nat) :
    members (A ++ q :: B) = members A ++ (q.1 :: q.2 ++ members B) := by
  rw [members_append]; rfl

theorem mem_members_mid (A B : List (Nat × List Nat)) (q : Nat × List Nat) (y : Nat) :
    y ∈ members (A ++ q :: B) ↔ y ∈ members A ∨ y = q.1 ∨ y ∈ q.2 ∨ y ∈ members B := by
  rw [members_mid]
  simp only [List.mem_append, List.mem_cons, List.cons_append]

/-- The nodes of two different levels are different. -/
theorem level_disjoint (A B : List (Nat × List Nat)) (q0 : Nat × List Nat)
    (hnd : (members (A ++ q0 :: B)).Nodup) :
    ∀ y, y ∈ members A ∨ y ∈ members B → y ≠ q0.1 ∧ y ∉ q0.2 := by
  intro y hy
  rw [members_mid] at hnd
  have h1 := List.nodup_append.mp hnd
  have h2 : (q0.1 :: (q0.2 ++ members B)).Nodup := h1.2.1
  rw [List.nodup_cons, List.mem_append, not_or] at h2
  have h3 := List.nodup_append.mp h2.2
  rcases hy with hy | hy
  · constructor
    · intro e
      exact h1.2.2 hy (by rw [e]; exact List.mem_cons_self _ _)
    · intro e
      exact h1.2.2 hy (List.mem_cons_of_mem _ (List.mem_append_left _ e))
  · constructor
    · intro e
      exact h2.1.2 (e ▸ hy)
    · intro e
      exact h3.2.2 e hy

theorem level_nodup (A B : List (Nat × List Nat)) (q0 : Nat × List Nat)
    (hnd : (members (A ++ q0 :: B)).Nodup) : (q0.1 :: q0.2).Nodup := by
  rw [members_mid] at hnd
  have h1 := List.nodup_append.mp hnd
  have h2 : (q0.1 :: (q0.2 ++ members B)).Nodup := h1.2.1
  rw [List.nodup_cons, List.mem_append, not_or] at h2
  exact List.nodup_cons.mpr ⟨h2.1.1, (List.nodup_append.mp h2.2).1⟩

theorem mem_mid {γ : Type} (A B : List γ) (q q' : γ) (hq : q' ∈ A ++ q :: B) :
    q' = q ∨ q' ∈ A ∨ q' ∈ B := by
  rcases List.mem_append.mp hq with h | h
  · exact Or.inr (Or.inl h)
  · rcases List.mem_cons.mp h with h | h
    · exact Or.inl h
    · exact Or.inr (Or.inr h)

theorem mem_mid_of {γ : Type} (A B : List γ) (q q' : γ) (hq : q' ∈ A ∨ q' ∈ B) :
    q' ∈ A ++ q :: B := by
  rcases hq with h | h
  · exact List.mem_append_left _ h
  · exact List.mem_append_right _ (List.mem_cons_of_mem _ h)

theorem level_mem_side (A B : List (Nat × List Nat)) (q : Nat × List Nat) (hq : q ∈ A ∨ q ∈ B)
    (y : Nat) (hy : y = q.1 ∨ y ∈ q.2) : y ∈ members A ∨ y ∈ members B := by
  rcases hq with h | h
  · exact Or.inl ((mem_members A y).mpr ⟨q, h, hy⟩)
  · exact Or.inr ((mem_members B y).mpr ⟨q, h, hy⟩)

/-- The levels after `addLast`. -/
theorem LInv_addLast (m m' : Heap) (A B : List (Nat × List Nat)) (x n : Nat) (tl : List Nat)
    (h : LInv m (A ++ (x, tl) :: B))
    (hn0 : n ≠ 0) (hnn : n < m.next) (hnm : n ∉ members (A ++ (x, tl) :: B))
    (hv : valOf m n = valOf m x)
    (hnext : m'.next = m.next)
    (hclean : ∀ y, Clean m' y ↔ Clean m y)
    (hval : ∀ y, valOf m' y = valOf m y)
    (hprev : ∀ y, prevOf m' y = if y = n then x else if y = nextOf m x then n else prevOf m y)
    (hnextf : ∀ y, nextOf m' y = if y = x then n else if y = n then nextOf m x else nextOf m y) :
    LInv m' (A ++ (x, tl ++ [n]) :: B) := by
  have hmem : ∀ y, y ∈ members (A ++ (x, tl ++ [n]) :: B) ↔
      y = n ∨ y ∈ members (A ++ (x, tl) :: B) := by
    intro y
    simp only [mem_members_mid, List.mem_append, List.mem_singleton]
    tauto
  have hxm : x ∈ members (A ++ (x, tl) :: B) := (mem_members_mid _ _ _ _).mpr (Or.inr (Or.inl rfl))
  have hnx : n ≠ x := fun e => hnm (e ▸ hxm)
  have hlnd := level_nodup A B (x, tl) h.nodup
  have hc := h.ring (x, tl) (by simp)
  have hlast : nextOf m x ∈ x :: tl := chain_next_mem m tl x x hc
  have hlastm : nextOf m x ∈ members (A ++ (x, tl) :: B) := by
    rw [mem_members_mid]
    rcases List.mem_cons.mp hlast with e | e
    · exact Or.inr (Or.inl e)
    · exact Or.inr (Or.inr (Or.inl e))
  have hdis := level_disjoint A B (x, tl) h.nodup
  refine ⟨?_, ?_, by rw [hnext]; exact h.next_pos, ?_, ?_, ?_, ?_⟩
  · have hp : (members (A ++ (x, tl ++ [n]) :: B)).Perm (n :: members (A ++ (x, tl) :: B)) := by
      rw [members_mid, members_mid, List.perm_iff_count]
      intro a
      simp only [List.count_append, List.count_cons, List.count_nil]
      omega
    exact hp.nodup_iff.mpr (List.nodup_cons.mpr ⟨hnm, h.nodup⟩)
  · intro y hy
    rw [hnext]
    rcases (hmem y).mp hy with e | e
    · rw [e]; exact ⟨hn0, hnn⟩
    · exact h.alloc y e
  · have := h.sorted
    simp only [List.map_append, List.map_cons] at this ⊢
    simp only [hval]
    exact this
  · intro q hq
    rcases mem_mid A B _ q hq with e | e
    · subst e
      have hxs : x ∉ tl := (List.nodup_cons.mp hlnd).1
      exact chain_snoc m m' x n hprev hnextf hnx tl x hc hlnd hxs (by
        intro hc'
        exact hnm ((mem_members_mid _ _ _ _).mpr (by
          rcases List.mem_cons.mp hc' with e | e
          · exact Or.inr (Or.inl e)
          · exact Or.inr (Or.inr (Or.inl e)))))
    · have hq' := h.ring q (mem_mid_of A B _ q e)
      have hside : ∀ y, y = q.1 ∨ y ∈ q.2 → y ≠ n ∧ y ≠ x ∧ y ≠ nextOf m x := by
        intro y hy
        have h1 := level_mem_side A B q e y hy
        have h2 := hdis y h1
        refine ⟨fun e' => hnm (e' ▸ (mem_members_mid _ _ _ _).mpr (by tauto)), h2.1, ?_⟩
        intro e'
        rcases List.mem_cons.mp hlast with e2 | e2
        · exact h2.1 (e'.trans e2)
        · exact h2.2 (e' ▸ e2)
      refine Chain_congr m m' q.2 q.1 q.1 ?_ ?_ hq'
      · intro y hy
        obtain ⟨h1, h2, h3⟩ := hside y (by simpa using hy)
        rw [hprev, if_neg h1, if_neg h3]
      · intro y hy
        obtain ⟨h1, h2, h3⟩ := hside y (by
          rcases List.mem_append.mp hy with e' | e'
          · exact Or.inr e'
          · exact Or.inl (List.mem_singleton.mp e'))
        rw [hnextf, if_neg h2, if_neg h1]
  · intro q hq y hy
    rw [hval, hval, hclean]
    rcases mem_mid A B _ q hq with e | e
    · subst e
      rcases List.mem_append.mp hy with e' | e'
      · exact h.tail (x, tl) (by simp) y e'
      · rw [List.mem_singleton.mp e']
        exact ⟨hv, (h.free n hn0 hnn hnm).1⟩
    · exact h.tail q (mem_mid_of A B _ q e) y hy
  · intro y hy0 hyn hym
    rw [hnext] at hyn
    have hy' : y ≠ n ∧ y ∉ members (A ++ (x, tl) :: B) := by
      constructor
      · exact fun e => hym ((hmem y).mpr (Or.inl e))
      · exact fun e => hym ((hmem y).mpr (Or.inr e))
    have hf := h.free y hy0 hyn hy'.2
    have hyx : y ≠ x := fun e => hy'.2 (e ▸ hxm)
    have hyl : y ≠ nextOf m x := fun e => hy'.2 (e ▸ hlastm)
    rw [hclean, hprev, hnextf, if_neg hy'.1, if_neg hyl, if_neg hyx, if_neg hy'.1]
    exact hf

end Trade

namespace Trade

open RB

theorem chain_mid_next (m : Heap) (n b : Nat) (ys : List Nat) :
    ∀ (xs : List Nat) (a : Nat), Chain m a (xs ++ n :: ys) b → nextOf m n ∈ a :: xs := by
  intro xs
  induction xs with
  | nil => intro a h; rw [h.2.1]; simp
  | cons x xs ih => intro a h; exact List.mem_cons_of_mem _ (ih x h.2.2)

theorem chain_mid_prev (m : Heap) (n b : Nat) (ys : List Nat) :
    ∀ (xs : List Nat) (a : Nat), Chain m a (xs ++ n :: ys) b → prevOf m n ∈ ys ++ [b] := by
  intro xs
  induction xs with
  | nil => intro a h; exact chain_prev_mem m ys n b h.2.2
  | cons x xs ih => intro a h; exact ih x h.2.2

/-- The levels after a ring member that is no tree node has been popped. -/
theorem LInv_popTail (m m' : Heap) (A B : List (Nat × List Nat)) (h0 n : Nat)
    (xs ys : List Nat)
    (h : LInv m (A ++ (h0, xs ++ n :: ys) :: B))
    (hnext : m'.next = m.next)
    (hcleanO : ∀ y, y ≠ n → (Clean m' y ↔ Clean m y)) (hcn : Clean m' n)
    (hval : ∀ y, valOf m' y = valOf m y)
    (hprev : ∀ y, y ≠ n → prevOf m' y = if y = nextOf m n then prevOf m n else prevOf m y)
    (hpn : prevOf m' n = n)
    (hnextf : ∀ y, y ≠ n → nextOf m' y = if y = prevOf m n then nextOf m n else nextOf m y)
    (hnn : nextOf m' n = n) :
    LInv m' (A ++ (h0, xs ++ ys) :: B) := by
  have hlnd := level_nodup A B (h0, xs ++ n :: ys) h.nodup
  have hc := h.ring (h0, xs ++ n :: ys) (by simp)
  have hdis := level_disjoint A B (h0, xs ++ n :: ys) h.nodup
  have hh0 : h0 ∉ xs ++ n :: ys := (List.nodup_cons.mp hlnd).1
  have hnl : n ∉ xs ∧ n ∉ ys := by
    have := (List.nodup_cons.mp hlnd).2
    have h1 := List.nodup_append.mp this
    exact ⟨fun e => h1.2.2 e (List.mem_cons_self _ _), (List.nodup_cons.mp h1.2.1).1⟩
  have hmem : ∀ y, y ∈ members (A ++ (h0, xs ++ ys) :: B) ↔
      y ≠ n ∧ y ∈ members (A ++ (h0, xs ++ n :: ys) :: B) := by
    intro y
    simp only [mem_members_mid, List.mem_append, List.mem_cons]
    constructor
    · rintro (e | e | (e | e) | e)
      · exact ⟨fun e' => (hdis y (Or.inl e)).2 (by simp [e']), Or.inl e⟩
      · exact ⟨fun e' => hh0 (by rw [← e, e']; simp), Or.inr (Or.inl e)⟩
      · exact ⟨fun e' => hnl.1 (e' ▸ e), Or.inr (Or.inr (Or.inl (Or.inl e)))⟩
      · exact ⟨fun e' => hnl.2 (e' ▸ e), Or.inr (Or.inr (Or.inl (Or.inr (Or.inr e))))⟩
      · exact ⟨fun e' => (hdis y (Or.inr e)).2 (by simp [e']), Or.inr (Or.inr (Or.inr e))⟩
    · rintro ⟨hne, e | e | (e | e | e) | e⟩
      · exact Or.inl e
      · exact Or.inr (Or.inl e)
      · exact Or.inr (Or.inr (Or.inl (Or.inl e)))
      · exact absurd e hne
      · exact Or.inr (Or.inr (Or.inl (Or.inr e)))
      · exact Or.inr (Or.inr (Or.inr e))
  have hpm : nextOf m n ∈ h0 :: xs := chain_mid_next m n h0 ys xs h0 hc
  have hsm : prevOf m n ∈ ys ++ [h0] := chain_mid_prev m n h0 ys xs h0 hc
  have hpmem : nextOf m n ∈ members (A ++ (h0, xs ++ n :: ys) :: B) := by
    rw [mem_members_mid]
    rcases List.mem_cons.mp hpm with e | e
    · exact Or.inr (Or.inl e)
    · exact Or.inr (Or.inr (Or.inl (by simp [e])))
  have hsmem : prevOf m n ∈ members (A ++ (h0, xs ++ n :: ys) :: B) := by
    rw [mem_members_mid]
    rcases List.mem_append.mp hsm with e | e
    · exact Or.inr (Or.inr (Or.inl (by simp [e])))
    · exact Or.inr (Or.inl (List.mem_singleton.mp e))
  have hnmem : n ∈ members (A ++ (h0, xs ++ n :: ys) :: B) := by
    rw [mem_members_mid]; exact Or.inr (Or.inr (Or.inl (by simp)))
  refine ⟨?_, ?_, by rw [hnext]; exact h.next_pos, ?_, ?_, ?_, ?_⟩
  · have hs : (members (A ++ (h0, xs ++ ys) :: B)).Sublist
        (members (A ++ (h0, xs ++ n :: ys) :: B)) := by
      rw [members_mid, members_mid]
      refine List.Sublist.append (List.Sublist.refl _) ?_
      refine List.Sublist.cons₂ _ ?_
      refine List.Sublist.append ?_ (List.Sublist.refl _)
      exact List.Sublist.append (List.Sublist.refl _) (List.sublist_cons_self _ _)
    exact h.nodup.sublist hs
  · intro y hy
    rw [hnext]
    exact h.alloc y ((hmem y).mp hy).2
  · have := h.sorted
    simp only [List.map_append, List.map_cons] at this ⊢
    simp only [hval]
    exact this
  · intro q hq
    rcases mem_mid A B _ q hq with e | e
    · subst e
      exact chain_erase m m' h0 n ys hprev hnextf xs h0 hc hlnd hh0
    · have hq' := h.ring q (mem_mid_of A B _ q e)
      have hside : ∀ y, y = q.1 ∨ y ∈ q.2 → y ≠ n ∧ y ≠ nextOf m n ∧ y ≠ prevOf m n := by
        intro y hy
        have h2 := hdis y (level_mem_side A B q e y hy)
        refine ⟨fun e' => h2.2 (by simp [e']), ?_, ?_⟩
        · intro e'
          rcases List.mem_cons.mp hpm with e2 | e2
          · exact h2.1 (e'.trans e2)
          · exact h2.2 (by rw [e']; simp [e2])
        · intro e'
          rcases List.mem_append.mp hsm with e2 | e2
          · exact h2.2 (by rw [e']; simp [e2])
          · exact h2.1 (e'.trans (List.mem_singleton.mp e2))
      refine Chain_congr m m' q.2 q.1 q.1 ?_ ?_ hq'
      · intro y hy
        obtain ⟨h1, h2, h3⟩ := hside y (by simpa using hy)
        rw [hprev y h1, if_neg h2]
      · intro y hy
        obtain ⟨h1, h2, h3⟩ := hside y (by
          rcases List.mem_append.mp hy with e' | e'
          · exact Or.inr e'
          · exact Or.inl (List.mem_singleton.mp e'))
        rw [hnextf y h1, if_neg h3]
  · intro q hq y hy
    rw [hval, hval]
    rcases mem_mid A B _ q hq with e | e
    · subst e
      have hy' : y ∈ xs ++ n :: ys := by
        rcases List.mem_append.mp hy with e' | e'
        · simp [e']
        · simp [e']
      have hyn : y ≠ n := by
        intro e'
        rcases List.mem_append.mp hy with e2 | e2
        · exact hnl.1 (e' ▸ e2)
        · exact hnl.2 (e' ▸ e2)
      rw [hcleanO y hyn]
      exact h.tail (h0, xs ++ n :: ys) (by simp) y hy'
    · have hyn : y ≠ n := fun e' =>
        (hdis y (level_mem_side A B q e y (Or.inr hy))).2 (by simp [e'])
      rw [hcleanO y hyn]
      exact h.tail q (mem_mid_of A B _ q e) y hy
  · intro y hy0 hyn hym
    rw [hnext] at hyn
    by_cases e : y = n
    · rw [e]; exact ⟨hcn, hpn, hnn⟩
    · have hy' : y ∉ members (A ++ (h0, xs ++ n :: ys) :: B) :=
        fun hc' => hym ((hmem y).mpr ⟨e, hc'⟩)
      have hf := h.free y hy0 hyn hy'
      have h1 : y ≠ nextOf m n := fun e' => hy' (e' ▸ hpmem)
      have h2 : y ≠ prevOf m n := fun e' => hy' (e' ▸ hsmem)
      rw [hcleanO y e, hprev y e, hnextf y e, if_neg h1, if_neg h2]
      exact hf

end Trade

namespace Trade

open RB

/-- The levels after the tree node of a ring with other members has been
popped: the next member is the tree node. -/
theorem LInv_popHead (m m' : Heap) (A B : List (Nat × List Nat)) (n a : Nat) (rest : List Nat)
    (h : LInv m (A ++ (n, a :: rest) :: B))
    (hnext : m'.next = m.next)
    (hcleanO : ∀ y, y ∉ a :: (A ++ (n, a :: rest) :: B).map Prod.fst →
      (Clean m' y ↔ Clean m y))
    (hcn : Clean m' n)
    (hval : ∀ y, valOf m' y = valOf m y)
    (hprev : ∀ y, y ≠ n → prevOf m' y = if y = nextOf m n then a else prevOf m y)
    (hpn : prevOf m' n = n)
    (hnextf : ∀ y, y ≠ n → nextOf m' y = if y = a then nextOf m n else nextOf m y)
    (hnn : nextOf m' n = n) :
    LInv m' (A ++ (a, rest) :: B) := by
  have hlnd := level_nodup A B (n, a :: rest) h.nodup
  have hc := h.ring (n, a :: rest) (by simp)
  obtain ⟨c1, c2, c3⟩ := hc
  have hdis := level_disjoint A B (n, a :: rest) h.nodup
  have hnl : n ∉ a :: rest := (List.nodup_cons.mp hlnd).1
  have hna : a ≠ n := fun e => hnl (by simp [e])
  have har : a ∉ rest := (List.nodup_cons.mp (List.nodup_cons.mp hlnd).2).1
  have hmem : ∀ y, y ∈ members (A ++ (a, rest) :: B) ↔
      y ≠ n ∧ y ∈ members (A ++ (n, a :: rest) :: B) := by
    intro y
    simp only [mem_members_mid, List.mem_cons]
    constructor
    · rintro (e | e | e | e)
      · exact ⟨fun e' => (hdis y (Or.inl e)).1 e', Or.inl e⟩
      · exact ⟨fun e' => hna (e ▸ e'), Or.inr (Or.inr (Or.inl (Or.inl e)))⟩
      · exact ⟨fun e' => hnl (by simp [← e', e]), Or.inr (Or.inr (Or.inl (Or.inr e)))⟩
      · exact ⟨fun e' => (hdis y (Or.inr e)).1 e', Or.inr (Or.inr (Or.inr e))⟩
    · rintro ⟨hne, e | e | (e | e) | e⟩
      · exact Or.inl e
      · exact absurd e hne
      · exact Or.inr (Or.inl e)
      · exact Or.inr (Or.inr (Or.inl e))
      · exact Or.inr (Or.inr (Or.inr e))
  have hlast : nextOf m n ∈ a :: rest := chain_next_mem m rest a n c3
  have hlmem : nextOf m n ∈ members (A ++ (n, a :: rest) :: B) := by
    rw [mem_members_mid]; exact Or.inr (Or.inr (Or.inl hlast))
  have hamem : a ∈ members (A ++ (n, a :: rest) :: B) := by
    rw [mem_members_mid]; exact Or.inr (Or.inr (Or.inl (by simp)))
  have hva : valOf m a = valOf m n := (h.tail (n, a :: rest) (by simp) a (by simp)).1
  have hheads : ∀ q ∈ A ++ (n, a :: rest) :: B, ∀ y ∈ q.2, y ∉ (A ++ (n, a :: rest) :: B).map Prod.fst :=
    tail_not_head _ h.nodup
  refine ⟨?_, ?_, by rw [hnext]; exact h.next_pos, ?_, ?_, ?_, ?_⟩
  · have hs : (members (A ++ (a, rest) :: B)).Sublist
        (members (A ++ (n, a :: rest) :: B)) := by
      rw [members_mid, members_mid]
      refine List.Sublist.append (List.Sublist.refl _) ?_
      exact List.sublist_cons_self _ _
    exact h.nodup.sublist hs
  · intro y hy
    rw [hnext]
    exact h.alloc y ((hmem y).mp hy).2
  · have := h.sorted
    simp only [List.map_append, List.map_cons] at this ⊢
    simp only [hval]
    rw [hva]
    exact this
  · intro q hq
    rcases mem_mid A B _ q hq with e | e
    · subst e
      exact chain_head m m' n a hprev hnextf hna rest a c3 (List.nodup_cons.mp hlnd).2 hnl har
    · have hq' := h.ring q (mem_mid_of A B _ q e)
      have hside : ∀ y, y = q.1 ∨ y ∈ q.2 → y ≠ n ∧ y ≠ nextOf m n ∧ y ≠ a := by
        intro y hy
        have h2 := hdis y (level_mem_side A B q e y hy)
        exact ⟨h2.1, fun e' => h2.2 (e' ▸ hlast), fun e' => h2.2 (by simp [e'])⟩
      refine Chain_congr m m' q.2 q.1 q.1 ?_ ?_ hq'
      · intro y hy
        obtain ⟨h1, h2, h3⟩ := hside y (by simpa using hy)
        rw [hprev y h1, if_neg h2]
      · intro y hy
        obtain ⟨h1, h2, h3⟩ := hside y (by
          rcases List.mem_append.mp hy with e' | e'
          · exact Or.inr e'
          · exact Or.inl (List.mem_singleton.mp e'))
        rw [hnextf y h1, if_neg h3]
  · intro q hq y hy
    rw [hval, hval]
    rcases mem_mid A B _ q hq with e | e
    · subst e
      have hy' : y ∈ a :: rest := List.mem_cons_of_mem _ hy
      have hya : y ≠ a := fun e' => har (e' ▸ hy)
      have hyh := hheads (n, a :: rest) (by simp) y hy'
      rw [hcleanO y (by simp [hya]; simpa using hyh)]
      have := h.tail (n, a :: rest) (by simp) y hy'
      exact ⟨this.1.trans hva.symm, this.2⟩
    · have hq0 := mem_mid_of A B (n, a :: rest) q e
      have hya : y ≠ a := fun e' =>
        (hdis y (level_mem_side A B q e y (Or.inr hy))).2 (by simp [e'])
      have hyh := hheads q hq0 y hy
      rw [hcleanO y (by simp [hya]; simpa using hyh)]
      exact h.tail q hq0 y hy
  · intro y hy0 hyn hym
    rw [hnext] at hyn
    by_cases e : y = n
    · rw [e]; exact ⟨hcn, hpn, hnn⟩
    · have hy' : y ∉ members (A ++ (n, a :: rest) :: B) :=
        fun hc' => hym ((hmem y).mpr ⟨e, hc'⟩)
      have hf := h.free y hy0 hyn hy'
      have h1 : y ≠ nextOf m n := fun e' => hy' (e' ▸ hlmem)
      have h2 : y ≠ a := fun e' => hy' (e' ▸ hamem)
      have h3 : y ∉ (A ++ (n, a :: rest) :: B).map Prod.fst :=
        fun hc' => hy' ((heads_sublist _).subset hc')
      rw [hcleanO y (by simp [h2]; simpa using h3), hprev y e, hnextf y e, if_neg h1, if_neg h2]
      exact hf

/-- The levels after a new level with the single node `n` has been put in. -/
theorem LInv_insert (m m' : Heap) (A B : List (Nat × List Nat)) (n : Nat)
    (h : LInv m (A ++ B))
    (hn0 : n ≠ 0) (hnn : n < m.next) (hnm : n ∉ members (A ++ B))
    (hA : ∀ q ∈ A, valOf m q.1 < valOf m n) (hB : ∀ q ∈ B, valOf m n < valOf m q.1)
    (hnext : m'.next = m.next)
    (hdata : ∀ y, (m'.nodes y).data = (m.nodes y).data)
    (hcleanO : ∀ y, y ∉ n :: (A ++ B).map Prod.fst → (Clean m' y ↔ Clean m y)) :
    LInv m' (A ++ (n, []) :: B) := by
  have hval : ∀ y, valOf m' y = valOf m y := fun y => by unfold valOf; rw [hdata]
  have hprev : ∀ y, prevOf m' y = prevOf m y := fun y => by unfold prevOf; rw [hdata]
  have hnextf : ∀ y, nextOf m' y = nextOf m y := fun y => by unfold nextOf; rw [hdata]
  have hmem : ∀ y, y ∈ members (A ++ (n, []) :: B) ↔ y = n ∨ y ∈ members (A ++ B) := by
    intro y
    rw [mem_members_mid, members_append, List.mem_append]
    simp only [List.not_mem_nil, false_or]
    tauto
  have hfn := h.free n hn0 hnn hnm
  have hheads := tail_not_head _ h.nodup
  refine ⟨?_, ?_, by rw [hnext]; exact h.next_pos, ?_, ?_, ?_, ?_⟩
  · have hp : (members (A ++ (n, []) :: B)).Perm (n :: members (A ++ B)) := by
      rw [members_mid, members_append, List.perm_iff_count]
      intro a
      simp only [List.count_append, List.count_cons, List.count_nil, List.nil_append]
      omega
    exact hp.nodup_iff.mpr (List.nodup_cons.mpr ⟨hnm, h.nodup⟩)
  · intro y hy
    rw [hnext]
    rcases (hmem y).mp hy with e | e
    · rw [e]; exact ⟨hn0, hnn⟩
    · exact h.alloc y e
  · have := h.sorted
    simp only [List.map_append, List.map_cons] at this ⊢
    simp only [hval]
    refine Guidstore.pairwise_insert _ _ _ _ this ?_ ?_
    · intro b hb
      obtain ⟨q, hq, rfl⟩ := List.mem_map.mp hb
      exact hA q hq
    · intro b hb
      obtain ⟨q, hq, rfl⟩ := List.mem_map.mp hb
      exact hB q hq
  · intro q hq
    rcases mem_mid A B _ q hq with e | e
    · subst e
      exact ⟨by rw [hprev]; exact hfn.2.1, by rw [hnextf]; exact hfn.2.2⟩
    · exact Chain_congr m m' q.2 q.1 q.1 (fun y _ => hprev y) (fun y _ => hnextf y)
        (h.ring q (List.mem_append.mpr e))
  · intro q hq y hy
    rw [hval, hval]
    rcases mem_mid A B _ q hq with e | e
    · subst e; cases hy
    · have hq0 : q ∈ A ++ B := List.mem_append.mpr e
      have hyn : y ≠ n := fun e' => hnm (e' ▸ tail_mem_members _ q hq0 y hy)
      have hyh := hheads q hq0 y hy
      rw [hcleanO y (by simp [hyn]; simpa using hyh)]
      exact h.tail q hq0 y hy
  · intro y hy0 hyn hym
    rw [hnext] at hyn
    have hy' : y ≠ n ∧ y ∉ members (A ++ B) :=
      ⟨fun e => hym ((hmem y).mpr (Or.inl e)), fun e => hym ((hmem y).mpr (Or.inr e))⟩
    have h3 : y ∉ (A ++ B).map Prod.fst := fun hc' => hy'.2 ((heads_sublist _).subset hc')
    rw [hcleanO y (by simp [hy'.1]; simpa using h3), hprev, hnextf]
    exact h.free y hy0 hyn hy'.2

/-- The levels after the level of the single node `n` has been taken out. -/
theorem LInv_remove (m m' : Heap) (A B : List (Nat × List Nat)) (n : Nat)
    (h : LInv m (A ++ (n, []) :: B))
    (hnext : m'.next = m.next)
    (hval : ∀ y, valOf m' y = valOf m y)
    (hprev : ∀ y, prevOf m' y = prevOf m y)
    (hnextf : ∀ y, nextOf m' y = nextOf m y)
    (hcleanO : ∀ y, y ∉ (A ++ (n, []) :: B).map Prod.fst → (Clean m' y ↔ Clean m y))
    (hcn : Clean m' n) :
    LInv m' (A ++ B) := by
  have hmem : ∀ y, y ∈ members (A ++ (n, []) :: B) ↔ y = n ∨ y ∈ members (A ++ B) := by
    intro y
    rw [mem_members_mid, members_append, List.mem_append]
    simp only [List.not_mem_nil, false_or]
    tauto
  have hc := h.ring (n, []) (by simp)
  have hheads := tail_not_head _ h.nodup
  have hsub : (A ++ B).Sublist (A ++ (n, []) :: B) :=
    List.Sublist.append (List.Sublist.refl _) (List.sublist_cons_self _ _)
  refine ⟨?_, ?_, by rw [hnext]; exact h.next_pos, ?_, ?_, ?_, ?_⟩
  · have hs : (members (A ++ B)).Sublist (members (A ++ (n, []) :: B)) := by
      rw [members_mid, members_append]
      exact List.Sublist.append (List.Sublist.refl _) (List.sublist_cons_self _ _)
    exact h.nodup.sublist hs
  · intro y hy
    rw [hnext]
    exact h.alloc y ((hmem y).mpr (Or.inr hy))
  · have := h.sorted
    simp only [hval]
    exact this.sublist (hsub.map _)
  · intro q hq
    exact Chain_congr m m' q.2 q.1 q.1 (fun y _ => hprev y) (fun y _ => hnextf y)
      (h.ring q (hsub.subset hq))
  · intro q hq y hy
    rw [hval, hval, hcleanO y (hheads q (hsub.subset hq) y hy)]
    exact h.tail q (hsub.subset hq) y hy
  · intro y hy0 hyn hym
    rw [hnext] at hyn
    by_cases e : y = n
    · rw [e, hprev, hnextf]; exact ⟨hcn, hc.1, hc.2⟩
    · have hy' : y ∉ members (A ++ (n, []) :: B) := by
        rw [hmem]; exact fun hc' => hc'.elim e hym
      have h3 : y ∉ (A ++ (n, []) :: B).map Prod.fst :=
        fun hc' => hy' ((heads_sublist _).subset hc')
      rw [hcleanO y h3, hprev, hnextf]
      exact h.free y hy0 hyn hy'

end Trade

namespace RB

variable {α β : Type}

/-- The labels of a shape are not part of what the memory represents. -/
theorem Rep_relabel (m : Mem α) (t0 : Nat) (ctx : List (Frame β)) (l r : Shape β) (x : Nat)
    (c : Bool) (b b' : β) (h : Rep m (Slot.root t0) 0 (plug ctx (Shape.node l x c b r))) :
    Rep m (Slot.root t0) 0 (plug ctx (Shape.node l x c b' r)) := by
  rw [Rep_plug] at h ⊢
  obtain ⟨h0, a1, a2, a3, a4, a5, a6, a7⟩ := h
  exact ⟨h0, a1, a2, a3, a4, a5, a6, a7⟩

theorem relabel_ids (ctx : List (Frame β)) (l r : Shape β) (x : Nat) (c : Bool) (b b' : β) :
    (plug ctx (Shape.node l x c b' r)).ids = (plug ctx (Shape.node l x c b r)).ids := by
  simp [plug_ids, Shape.ids]

/-- A slot holds the same pointer when its owner is the same node. -/
theorem slotVal_congr (m m' : Mem α) (s : Slot) (hroots : m'.roots = m.roots)
    (h : ∀ y, s = Slot.left y ∨ s = Slot.right y → m'.nodes y = m.nodes y) :
    m'.slotVal s = m.slotVal s := by
  cases s with
  | root t => simp [Mem.slotVal, hroots]
  | left y => simp [Mem.slotVal, h y (Or.inl rfl)]
  | right y => simp [Mem.slotVal, h y (Or.inr rfl)]

/-- An operation that writes only to the nodes `S` keeps everything else. -/
theorem Frames.of_nodes (m m' : Mem α) (S : List Nat) (hole : Slot) (hroots : m'.roots = m.roots)
    (h : ∀ y, y ∉ S → m'.nodes y = m.nodes y) : Frames m m' S hole := by
  refine ⟨?_, ?_, ?_, ?_, ?_, ?_⟩
  · intro y hy; rw [h y hy]
  · intro y hy; rw [h y hy]
  · intro y hy; rw [h y hy]
  · intro y hy _; rw [h y hy]
  · intro y hy _; rw [h y hy]
  · intro t _; rw [hroots]

/-- The subtree in the hole of a path replaced by another one. -/
theorem Rep_replace (m m' : Mem α) (t0 : Nat) (ctx : List (Frame β)) (t t' : Shape β)
    (S : List Nat) (hrep : Rep m (Slot.root t0) 0 (plug ctx t)) (hnd : (plug ctx t).ids.Nodup)
    (hf : Frames m m' S (holeSlot t0 ctx)) (hS : ∀ y ∈ ctxIds ctx, y ∉ S)
    (hsub : Rep m' (holeSlot t0 ctx) (holeParent ctx) t') :
    Rep m' (Slot.root t0) 0 (plug ctx t') :=
  (Rep_plug m' t0 ctx t').mpr
    ⟨CtxRep_frames m m' S t0 ctx hf hS ((plug_nodup ctx t).mp hnd).2.1
      ((Rep_plug m t0 ctx t).mp hrep).1, hsub⟩

/-- The tree after a free node `n` has been hung to the left of the node `x`
that has no left child. -/
theorem toLeftOf_attach (m : Mem α) (t0 : Nat) (ctx : List (Frame β)) (x n : Nat) (c : Bool)
    (b bn : β) (r : Shape β)
    (hrep : Rep m (Slot.root t0) 0 (plug ctx (Shape.node Shape.nil x c b r)))
    (hnd : (plug ctx (Shape.node Shape.nil x c b r)).ids.Nodup)
    (hn0 : n ≠ 0) (hnT : n ∉ (plug ctx (Shape.node Shape.nil x c b r)).ids)
    (hnl : (m.nodes n).left = 0) (hnr : (m.nodes n).right = 0) :
    Rep (toLeftOfT m n x) (Slot.root t0) 0
        (plug ctx (Shape.node (Shape.node Shape.nil n (m.nodes n).black bn Shape.nil) x c b r)) ∧
      (plug ctx (Shape.node (Shape.node Shape.nil n (m.nodes n).black bn Shape.nil)
        x c b r)).ids.Nodup ∧
      (∀ y, y ≠ x → y ≠ n → (toLeftOfT m n x).nodes y = m.nodes y) := by
  obtain ⟨hctx, r1, r2, r3, r4, r5, r6, r7⟩ := (Rep_plug m t0 ctx _).mp hrep
  obtain ⟨nd1, nd2, nd3⟩ := (plug_nodup ctx _).mp hnd
  have hxT : x ∈ (plug ctx (Shape.node Shape.nil x c b r)).ids :=
    (mem_plug_ids _ _ x).mpr (Or.inl (by simp [Shape.ids]))
  have hnx : n ≠ x := fun e => hnT (e ▸ hxT)
  have hxr : x ∉ r.ids := by
    simp only [Shape.ids, List.nil_append, List.nodup_cons] at nd1
    exact nd1.1
  have hoth : ∀ y, y ≠ x → y ≠ n → (toLeftOfT m n x).nodes y = m.nodes y := by
    intro y h1 h2
    simp [toLeftOfT, hn0, upd_nodes, h1, h2]
  have hX : (toLeftOfT m n x).nodes x = { m.nodes x with left := n } := by
    simp [toLeftOfT, hn0, upd_nodes, Ne.symm hnx]
  have hN : (toLeftOfT m n x).nodes n =
      { m.nodes n with parent := x, pp := some (Slot.left x) } := by
    simp [toLeftOfT, hn0, upd_nodes, hnx]
  have hfr : Frames m (toLeftOfT m n x) [x, n] (holeSlot t0 ctx) :=
    Frames.of_nodes m _ _ _ (toLeftOfT_roots m n x) (fun y hy => by
      simp only [List.mem_cons, List.mem_singleton, not_or, List.not_mem_nil, or_false] at hy
      exact hoth y hy.1 hy.2)
  have hctxS : ∀ y ∈ ctxIds ctx, y ∉ [x, n] := by
    intro y hy hc
    simp only [List.mem_cons, List.mem_singleton, List.not_mem_nil, or_false] at hc
    rcases hc with e | e
    · exact nd3 x (by simp [Shape.ids]) (e ▸ hy)
    · exact hnT ((mem_plug_ids _ _ _).mpr (Or.inr (e ▸ hy)))
  have hslot : (toLeftOfT m n x).slotVal (holeSlot t0 ctx) = m.slotVal (holeSlot t0 ctx) := by
    refine slotVal_congr _ _ _ (toLeftOfT_roots m n x) (fun y hy => ?_)
    have hyc : y ∈ ctxIds ctx := by
      by_contra hc
      have := holeSlot_not_in t0 ctx y hc
      rcases hy with e | e
      · exact this.1 e
      · exact this.2 e
    have := hctxS y hyc
    simp only [List.mem_cons, List.mem_singleton, not_or, List.not_mem_nil, or_false] at this
    exact hoth y this.1 this.2
  refine ⟨?_, ?_, hoth⟩
  · refine Rep_replace m _ t0 ctx _ _ [x, n] hrep hnd hfr hctxS ?_
    refine ⟨by rw [hslot]; exact r1, r2, by rw [hX]; exact r3, by rw [hX]; exact r4,
      by rw [hX]; exact r5, ?_, ?_⟩
    · refine ⟨by simp [Mem.slotVal, hX], hn0, by rw [hN], by rw [hN], by rw [hN], ?_, ?_⟩
      · show (toLeftOfT m n x).slotVal (Slot.left n) = 0
        simp only [Mem.slotVal, hN]; exact hnl
      · show (toLeftOfT m n x).slotVal (Slot.right n) = 0
        simp only [Mem.slotVal, hN]; exact hnr
    · refine Rep_congr m _ r _ _ (fun y hy => ?_) ?_ r7
      · have hyx : y ≠ x := fun e => hxr (e ▸ hy)
        have hyn : y ≠ n := fun e =>
          hnT ((mem_plug_ids _ _ _).mpr (Or.inl (by simp [Shape.ids, ← e, hy])))
        rw [hoth y hyx hyn]
        exact ⟨rfl, rfl, rfl, rfl, rfl⟩
      · simp only [Mem.slotVal, hX]
  · rw [plug_nodup]
    refine ⟨?_, nd2, ?_⟩
    · simp only [Shape.ids, List.nil_append, List.nodup_cons, List.mem_cons, not_or,
        List.cons_append]
      simp only [Shape.ids, List.nil_append, List.nodup_cons] at nd1
      refine ⟨⟨hnx, fun hc => ?_⟩, nd1⟩
      exact hnT ((mem_plug_ids _ _ _).mpr (Or.inl (by simp [Shape.ids, hc])))
    · intro y hy hc
      simp only [Shape.ids, List.nil_append, List.mem_cons, List.cons_append] at hy
      rcases hy with e | e | e
      · exact hnT ((mem_plug_ids _ _ _).mpr (Or.inr (e ▸ hc)))
      · exact nd3 x (by simp [Shape.ids]) (e ▸ hc)
      · exact nd3 y (by simp [Shape.ids, e]) hc

/-- The tree after a free node `n` has been hung to the right of the node `x`
that has no right child. -/
theorem toRightOf_attach (m : Mem α) (t0 : Nat) (ctx : List (Frame β)) (x n : Nat) (c : Bool)
    (b bn : β) (l : Shape β)
    (hrep : Rep m (Slot.root t0) 0 (plug ctx (Shape.node l x c b Shape.nil)))
    (hnd : (plug ctx (Shape.node l x c b Shape.nil)).ids.Nodup)
    (hn0 : n ≠ 0) (hnT : n ∉ (plug ctx (Shape.node l x c b Shape.nil)).ids)
    (hnl : (m.nodes n).left = 0) (hnr : (m.nodes n).right = 0) :
    Rep (toRightOfT m n x) (Slot.root t0) 0
        (plug ctx (Shape.node l x c b (Shape.node Shape.nil n (m.nodes n).black bn Shape.nil))) ∧
      (plug ctx (Shape.node l x c b (Shape.node Shape.nil n (m.nodes n).black bn
        Shape.nil))).ids.Nodup ∧
      (∀ y, y ≠ x → y ≠ n → (toRightOfT m n x).nodes y = m.nodes y) := by
  obtain ⟨hctx, r1, r2, r3, r4, r5, r6, r7⟩ := (Rep_plug m t0 ctx _).mp hrep
  obtain ⟨nd1, nd2, nd3⟩ := (plug_nodup ctx _).mp hnd
  have hxT : x ∈ (plug ctx (Shape.node l x c b Shape.nil)).ids :=
    (mem_plug_ids _ _ x).mpr (Or.inl (by simp [Shape.ids]))
  have hnx : n ≠ x := fun e => hnT (e ▸ hxT)
  have hxl : x ∉ l.ids := by
    simp only [Shape.ids, List.nodup_append, List.nodup_cons] at nd1
    intro hc
    exact nd1.2.2 hc (by simp)
  have hoth : ∀ y, y ≠ x → y ≠ n → (toRightOfT m n x).nodes y = m.nodes y := by
    intro y h1 h2
    simp [toRightOfT, hn0, upd_nodes, h1, h2]
  have hX : (toRightOfT m n x).nodes x = { m.nodes x with right := n } := by
    simp [toRightOfT, hn0, upd_nodes, Ne.symm hnx]
  have hN : (toRightOfT m n x).nodes n =
      { m.nodes n with parent := x, pp := some (Slot.right x) } := by
    simp [toRightOfT, hn0, upd_nodes, hnx]
  have hfr : Frames m (toRightOfT m n x) [x, n] (holeSlot t0 ctx) :=
    Frames.of_nodes m _ _ _ (toRightOfT_roots m n x) (fun y hy => by
      simp only [List.mem_cons, List.mem_singleton, not_or, List.not_mem_nil, or_false] at hy
      exact hoth y hy.1 hy.2)
  have hctxS : ∀ y ∈ ctxIds ctx, y ∉ [x, n] := by
    intro y hy hc
    simp only [List.mem_cons, List.mem_singleton, List.not_mem_nil, or_false] at hc
    rcases hc with e | e
    · exact nd3 x (by simp [Shape.ids]) (e ▸ hy)
    · exact hnT ((mem_plug_ids _ _ _).mpr (Or.inr (e ▸ hy)))
  have hslot : (toRightOfT m n x).slotVal (holeSlot t0 ctx) = m.slotVal (holeSlot t0 ctx) := by
    refine slotVal_congr _ _ _ (toRightOfT_roots m n x) (fun y hy => ?_)
    have hyc : y ∈ ctxIds ctx := by
      by_contra hc
      have := holeSlot_not_in t0 ctx y hc
      rcases hy with e | e
      · exact this.1 e
      · exact this.2 e
    have := hctxS y hyc
    simp only [List.mem_cons, List.mem_singleton, not_or, List.not_mem_nil, or_false] at this
    exact hoth y this.1 this.2
  refine ⟨?_, ?_, hoth⟩
  · refine Rep_replace m _ t0 ctx _ _ [x, n] hrep hnd hfr hctxS ?_
    refine ⟨by rw [hslot]; exact r1, r2, by rw [hX]; exact r3, by rw [hX]; exact r4,
      by rw [hX]; exact r5, ?_, ?_⟩
    · refine Rep_congr m _ l _ _ (fun y hy => ?_) ?_ r6
      · have hyx : y ≠ x := fun e => hxl (e ▸ hy)
        have hyn : y ≠ n := fun e =>
          hnT ((mem_plug_ids _ _ _).mpr (Or.inl (by simp [Shape.ids, ← e, hy])))
        rw [hoth y hyx hyn]
        exact ⟨rfl, rfl, rfl, rfl, rfl⟩
      · simp only [Mem.slotVal, hX]
    · refine ⟨by simp [Mem.slotVal, hX], hn0, by rw [hN], by rw [hN], by rw [hN], ?_, ?_⟩
      · show (toRightOfT m n x).slotVal (Slot.left n) = 0
        simp only [Mem.slotVal, hN]; exact hnl
      · show (toRightOfT m n x).slotVal (Slot.right n) = 0
        simp only [Mem.slotVal, hN]; exact hnr
  · rw [plug_nodup]
    refine ⟨?_, nd2, ?_⟩
    · have hnl' : n ∉ l.ids := fun hc =>
        hnT ((mem_plug_ids _ _ _).mpr (Or.inl (by simp [Shape.ids, hc])))
      simp only [Shape.ids, List.nil_append, List.append_nil] at nd1 ⊢
      have he : l.ids ++ [x, n] = (l.ids ++ [x]) ++ [n] := by simp
      rw [he]
      refine List.nodup_append.mpr ⟨nd1, List.nodup_singleton _, ?_⟩
      intro y hy hy'
      rw [List.mem_singleton] at hy'
      subst hy'
      rcases List.mem_append.mp hy with e | e
      · exact hnl' e
      · exact hnx (List.mem_singleton.mp e)
    · intro y hy hc
      simp only [Shape.ids, List.nil_append, List.mem_cons, List.mem_append, List.append_nil,
        List.not_mem_nil, or_false] at hy
      rcases hy with e | e | e
      · exact nd3 y (by simp [Shape.ids, e]) hc
      · exact nd3 x (by simp [Shape.ids]) (e ▸ hc)
      · exact hnT ((mem_plug_ids _ _ _).mpr (Or.inr (e ▸ hc)))

end RB

namespace Trade

open RB

theorem TInv.ids_sub {m : Heap} {T : Shape (List Nat)} (h : TInv m T) :
    ∀ y ∈ T.ids, y ∈ members T.toList := by
  intro y hy
  rw [ids_eq_map_toList] at hy
  exact (heads_sublist _).subset hy

theorem TInv.nodup_ids {m : Heap} {T : Shape (List Nat)} (h : TInv m T) : T.ids.Nodup := by
  rw [ids_eq_map_toList]
  exact h.levels.nodup.sublist (heads_sublist _)

theorem TInv.alloc_ids {m : Heap} {T : Shape (List Nat)} (h : TInv m T) :
    ∀ y ∈ T.ids, y ≠ 0 ∧ y < m.next :=
  fun y hy => h.levels.alloc y (h.ids_sub y hy)

/-- The order of a node of the tree to its subtrees and to the rest of the
tree. -/
theorem TInv.split {m : Heap} {ctx : List (Frame (List Nat))} {l r : Shape (List Nat)} {x : Nat}
    {c : Bool} {b : List Nat} (h : TInv m (plug ctx (Shape.node l x c b r))) :
    (∀ q ∈ ctxBefore ctx, valOf m q.1 < valOf m x) ∧ (∀ q ∈ l.toList, valOf m q.1 < valOf m x) ∧
      (∀ q ∈ r.toList, valOf m x < valOf m q.1) ∧ (∀ q ∈ ctxAfter ctx, valOf m x < valOf m q.1) := by
  have hs := h.levels.sorted
  rw [plug_toList] at hs
  simp only [Shape.toList, List.map_append, List.map_cons, List.append_assoc] at hs
  have h1 := List.pairwise_append.mp hs
  have h2 := List.pairwise_append.mp h1.2.1
  have h3 := List.pairwise_cons.mp h2.2.1
  refine ⟨fun q hq => ?_, fun q hq => ?_, fun q hq => ?_, fun q hq => ?_⟩
  · exact h1.2.2 _ (List.mem_map_of_mem _ hq) _ (by simp)
  · exact h2.2.2 _ (List.mem_map_of_mem _ hq) _ (by simp)
  · exact h3.1 _ (List.mem_append_left _ (List.mem_map_of_mem _ hq))
  · exact h3.1 _ (List.mem_append_right _ (List.mem_map_of_mem _ hq))

/-- A write to the `next` or `prev` field of a node changes no tree field and
no `val`. -/
theorem upd_links (m : Heap) (n : Nat) (g : Links → Links) (hg : ∀ d, (g d).val = d.val) :
    ∀ y, ((m.upd n (fun z => { z with data := g z.data })).nodes y).black = (m.nodes y).black ∧
      ((m.upd n (fun z => { z with data := g z.data })).nodes y).left = (m.nodes y).left ∧
      ((m.upd n (fun z => { z with data := g z.data })).nodes y).right = (m.nodes y).right ∧
      ((m.upd n (fun z => { z with data := g z.data })).nodes y).parent = (m.nodes y).parent ∧
      ((m.upd n (fun z => { z with data := g z.data })).nodes y).pp = (m.nodes y).pp ∧
      valOf (m.upd n (fun z => { z with data := g z.data })) y = valOf m y := by
  intro y
  unfold valOf
  simp only [upd_nodes]
  by_cases h : y = n
  · subst h; simp [hg]
  · simp [h]

theorem SameTree.self (m : Heap) : SameTree m m :=
  ⟨rfl, rfl, fun _ => ⟨rfl, rfl, rfl, rfl, rfl, rfl⟩⟩

theorem SameTree.links {m m' : Heap} (h : SameTree m m') (n : Nat) (g : Links → Links)
    (hg : ∀ d, (g d).val = d.val) :
    SameTree m (m'.upd n (fun z => { z with data := g z.data })) := by
  refine ⟨h.1, h.2.1, fun y => ?_⟩
  obtain ⟨a1, a2, a3, a4, a5, a6⟩ := upd_links m' n g hg y
  obtain ⟨b1, b2, b3, b4, b5, b6⟩ := h.2.2 y
  exact ⟨a1.trans b1, a2.trans b2, a3.trans b3, a4.trans b4, a5.trans b5, a6.trans b6⟩

theorem SameTree.rep {m m' : Heap} {β : Type} (h : SameTree m m') (T : Shape β) (s : Slot)
    (p : Nat) (hr : Rep m s p T) : Rep m' s p T := by
  refine Rep_congr m m' T s p (fun y _ => ?_) ?_ hr
  · obtain ⟨b1, b2, b3, b4, b5, _⟩ := h.2.2 y
    exact ⟨b1, b2, b3, b4, b5⟩
  · cases s with
    | root t => simp only [Mem.slotVal, h.1]
    | left y => exact (h.2.2 y).2.1
    | right y => exact (h.2.2 y).2.2.1

theorem SameTree.clean {m m' : Heap} (h : SameTree m m') (y : Nat) : Clean m' y ↔ Clean m y := by
  obtain ⟨b1, b2, b3, b4, b5, _⟩ := h.2.2 y
  unfold Clean
  rw [b2, b3, b4, b5]

/-- The fields after a write to the `next` field of the node `a`. -/
theorem upd_next_spec (m : Heap) (a v y : Nat) :
    nextOf (m.upd a (fun z => { z with data := { z.data with next := v } })) y =
        (if y = a then v else nextOf m y) ∧
      prevOf (m.upd a (fun z => { z with data := { z.data with next := v } })) y = prevOf m y ∧
      ((m.upd a (fun z => { z with data := { z.data with next := v } })).nodes y).data.other =
        (m.nodes y).data.other := by
  by_cases h : y = a <;> simp [nextOf, prevOf, upd_nodes, h]

/-- The fields after a write to the `prev` field of the node `a`. -/
theorem upd_prev_spec (m : Heap) (a v y : Nat) :
    prevOf (m.upd a (fun z => { z with data := { z.data with prev := v } })) y =
        (if y = a then v else prevOf m y) ∧
      nextOf (m.upd a (fun z => { z with data := { z.data with prev := v } })) y = nextOf m y ∧
      ((m.upd a (fun z => { z with data := { z.data with prev := v } })).nodes y).data.other =
        (m.nodes y).data.other := by
  by_cases h : y = a <;> simp [nextOf, prevOf, upd_nodes, h]

theorem upd_next_order (m : Heap) (a v y : Nat) :
    ((m.upd a (fun z => { z with data := { z.data with next := v } })).nodes y).data.order =
      (m.nodes y).data.order := by
  by_cases h : y = a <;> simp [upd_nodes, h]

theorem upd_prev_order (m : Heap) (a v y : Nat) :
    ((m.upd a (fun z => { z with data := { z.data with prev := v } })).nodes y).data.order =
      (m.nodes y).data.order := by
  by_cases h : y = a <;> simp [upd_nodes, h]

theorem addLast_eq (m : Heap) (x n : Nat) (hx0 : x ≠ 0) (hn0 : n ≠ 0) (hl0 : nextOf m x ≠ 0) :
    addLast m x n = some ((((m.upd (nextOf m x)
      (fun y => { y with data := { y.data with prev := n } })).upd n
      (fun y => { y with data := { y.data with next := nextOf m x } })).upd n
      (fun y => { y with data := { y.data with prev := x } })).upd x
      (fun y => { y with data := { y.data with next := n } })) := by
  have hl0' : (m.nodes x).data.next ≠ 0 := hl0
  simp [addLast, nextOf, rd_eq, wr_eq, hx0, hn0, hl0', bind, Option.bind]

/-- The node `n` appended to the ring of the tree node `x`. -/
theorem addLast_inv (m : Heap) (ctx : List (Frame (List Nat))) (l r : Shape (List Nat))
    (x n : Nat) (c : Bool) (tl : List Nat)
    (h : TInv m (plug ctx (Shape.node l x c tl r)))
    (hn0 : n ≠ 0) (hnn : n < m.next)
    (hnm : n ∉ members (plug ctx (Shape.node l x c tl r)).toList)
    (hv : valOf m n = valOf m x) :
    ∃ m', addLast m x n = some m' ∧ TInv m' (plug ctx (Shape.node l x c (tl ++ [n]) r)) ∧
      (∀ y, valOf m' y = valOf m y) ∧ m'.next = m.next ∧
      (∀ y, otherOf m' y = otherOf m y ∧ orderOf m' y = orderOf m y) := by
  have hxT : x ∈ (plug ctx (Shape.node l x c tl r)).ids :=
    (mem_plug_ids _ _ x).mpr (Or.inl (by simp [Shape.ids]))
  have hx0 : x ≠ 0 := (h.alloc_ids x hxT).1
  have hL : (plug ctx (Shape.node l x c tl r)).toList =
      (ctxBefore ctx ++ l.toList) ++ (x, tl) :: (r.toList ++ ctxAfter ctx) := by
    simp [plug_toList, Shape.toList]
  have hL' : (plug ctx (Shape.node l x c (tl ++ [n]) r)).toList =
      (ctxBefore ctx ++ l.toList) ++ (x, tl ++ [n]) :: (r.toList ++ ctxAfter ctx) := by
    simp [plug_toList, Shape.toList]
  have hlev := h.levels
  rw [hL] at hlev hnm
  have hring := hlev.ring (x, tl) (by simp)
  have hlm : nextOf m x ∈ x :: tl := chain_next_mem m tl x x hring
  have hlmem : nextOf m x ∈ members ((ctxBefore ctx ++ l.toList) ++ (x, tl) ::
      (r.toList ++ ctxAfter ctx)) := by
    rw [mem_members_mid]
    rcases List.mem_cons.mp hlm with e | e
    · exact Or.inr (Or.inl e)
    · exact Or.inr (Or.inr (Or.inl e))
  have hl0 : nextOf m x ≠ 0 := (hlev.alloc _ hlmem).1
  have hnl : n ≠ nextOf m x := fun e => hnm (e ▸ hlmem)
  have hnx : n ≠ x := fun e => hnm (by rw [mem_members_mid]; exact Or.inr (Or.inl e))
  have hst : SameTree m ((((m.upd (nextOf m x)
      (fun y => { y with data := { y.data with prev := n } })).upd n
      (fun y => { y with data := { y.data with next := nextOf m x } })).upd n
      (fun y => { y with data := { y.data with prev := x } })).upd x
      (fun y => { y with data := { y.data with next := n } })) :=
    ((((SameTree.self m).links (nextOf m x) (fun d => { d with prev := n }) (fun _ => rfl)).links
      n (fun d => { d with next := nextOf m x }) (fun _ => rfl)).links
      n (fun d => { d with prev := x }) (fun _ => rfl)).links
      x (fun d => { d with next := n }) (fun _ => rfl)
  refine ⟨_, addLast_eq m x n hx0 hn0 hl0, ?_, ?_, rfl, ?_⟩
  · constructor
    · exact Rep_relabel _ 0 ctx l r x c tl _ (hst.rep _ _ _ h.rep)
    · rw [hL']
      refine LInv_addLast m _ _ _ x n tl hlev hn0 hnn hnm hv rfl ?_ ?_ ?_ ?_
      · exact fun y => hst.clean y
      · exact fun y => (hst.2.2 y).2.2.2.2.2
      · intro y
        unfold prevOf
        simp only [upd_nodes]
        by_cases e1 : y = n
        · subst e1
          simp [hnx, hnl]
        · by_cases e2 : y = nextOf m x
          · subst e2
            by_cases e3 : nextOf m x = x
            · simp [e1, e3, Ne.symm hnx, hnx]
            · simp [e1, e3, Ne.symm hnl, hnl]
          · by_cases e3 : y = x
            · subst e3
              simp [e1, e2, Ne.symm hnx, Ne.symm hnl, Ne.symm e2]
            · simp [e1, e2, e3]
      · intro y
        unfold nextOf
        simp only [upd_nodes]
        by_cases e3 : y = x
        · subst e3
          simp
        · by_cases e1 : y = n
          · subst e1
            simp [e3, hnl, nextOf]
          · by_cases e2 : y = (m.nodes x).data.next
            · subst e2
              simp [e1, e3]
            · simp [e1, e2, e3]
  · exact fun y => (hst.2.2 y).2.2.2.2.2
  · intro y
    constructor
    · unfold otherOf
      rw [(upd_next_spec _ _ _ y).2.2, (upd_prev_spec _ _ _ y).2.2, (upd_next_spec _ _ _ y).2.2,
        (upd_prev_spec _ _ _ y).2.2]
    · unfold orderOf
      rw [upd_next_order, upd_prev_order, upd_next_order, upd_prev_order]

end Trade

namespace Trade

open RB

/-- The free node `n` hung to the left of the tree node `x`, and the tree
rebalanced by `llrbToRoot`. -/
theorem attachLeft_inv (m : Heap) (ctx : List (Frame (List Nat))) (x n : Nat) (c : Bool)
    (b : List Nat) (r : Shape (List Nat))
    (h : TInv m (plug ctx (Shape.node Shape.nil x c b r)))
    (hn0 : n ≠ 0) (hnn : n < m.next)
    (hnm : n ∉ members (plug ctx (Shape.node Shape.nil x c b r)).toList)
    (hlt : valOf m n < valOf m x)
    (hbefore : ∀ q ∈ ctxBefore ctx, valOf m q.1 < valOf m n) :
    ∃ m' T', (match toLeftOf m n x with
        | none => none
        | some m => llrbToRoot m x) = some m' ∧
      TInv m' T' ∧ Pushed m n (plug ctx (Shape.node Shape.nil x c b r)).toList T'.toList ∧
      (∀ y, valOf m' y = valOf m y) ∧ m'.next = m.next ∧
      (∀ y, otherOf m' y = otherOf m y ∧ orderOf m' y = orderOf m y) ∧
      ((m.nodes n).black = false → (plug ctx (Shape.node Shape.nil x c b r)).wk = true →
        T'.wk = true ∧ ((plug ctx (Shape.node Shape.nil x c b r)).bal = true →
          T'.bal = true)) := by
  have hxT : x ∈ (plug ctx (Shape.node Shape.nil x c b r)).ids :=
    (mem_plug_ids _ _ x).mpr (Or.inl (by simp [Shape.ids]))
  have hx0 : x ≠ 0 := (h.alloc_ids x hxT).1
  have hnT : n ∉ (plug ctx (Shape.node Shape.nil x c b r)).ids := fun hc => hnm (h.ids_sub n hc)
  obtain ⟨hcl, _, _⟩ := h.levels.free n hn0 hnn hnm
  obtain ⟨hrep3, hnd3, hoth⟩ := toLeftOf_attach m 0 ctx x n c b ([] : List Nat) r h.rep h.nodup_ids
    hn0 hnT hcl.2.1 hcl.2.2.1
  have hids3 : ∀ y, y ∈ (plug ctx (Shape.node (Shape.node Shape.nil n (m.nodes n).black
      ([] : List Nat) Shape.nil) x c b r)).ids →
      y = n ∨ y ∈ (plug ctx (Shape.node Shape.nil x c b r)).ids := by
    intro y
    simp only [mem_plug_ids, Shape.ids, List.nil_append, List.mem_cons, List.mem_append,
      List.not_mem_nil, false_or, List.cons_append]
    tauto
  obtain ⟨m', hrun, R⟩ := llrbToRoot_ok (toLeftOfT m n x) ctx
    (Shape.node (Shape.node Shape.nil n (m.nodes n).black ([] : List Nat) Shape.nil) x c b r)
    (by simp) hrep3 hnd3 (by
      intro y hy
      rw [toLeftOfT_next]
      rcases hids3 y hy with e | e
      · rw [e]; exact hnn
      · exact (h.alloc_ids y e).2) (by rw [toLeftOfT_next]; exact h.levels.next_pos)
  have hL : (plug ctx (Shape.node Shape.nil x c b r)).toList =
      ctxBefore ctx ++ ((x, b) :: (r.toList ++ ctxAfter ctx)) := by
    simp [plug_toList, Shape.toList]
  have hL3 : (plug ctx (Shape.node (Shape.node Shape.nil n (m.nodes n).black ([] : List Nat)
      Shape.nil) x c b r)).toList =
      ctxBefore ctx ++ (n, []) :: ((x, b) :: (r.toList ++ ctxAfter ctx)) := by
    simp [plug_toList, Shape.toList]
  obtain ⟨s1, s2, s3, s4⟩ := h.split
  have hB : ∀ q ∈ (x, b) :: (r.toList ++ ctxAfter ctx), valOf m n < valOf m q.1 := by
    intro q hq
    rcases List.mem_cons.mp hq with e | e
    · rw [e]; exact hlt
    · rcases List.mem_append.mp e with e | e
      · exact lt_trans hlt (s3 q e)
      · exact lt_trans hlt (s4 q e)
  have hlev := h.levels
  rw [hL] at hlev hnm
  have hlev3 : LInv (toLeftOfT m n x)
      (ctxBefore ctx ++ (n, []) :: ((x, b) :: (r.toList ++ ctxAfter ctx))) := by
    refine LInv_insert m _ _ _ n hlev hn0 hnn hnm hbefore hB (toLeftOfT_next m n x)
      (fun y => toLeftOfT_data m n x y) ?_
    intro y hy
    simp only [List.mem_cons, List.map_append, List.map_cons, List.mem_append, not_or] at hy
    unfold Clean
    rw [hoth y hy.2.2.1 hy.1]
  rw [← hL3] at hlev3
  refine ⟨m', _, ?_, ⟨R.rep, LInv_refines _ _ _ _ R hlev3⟩, ?_, ?_, ?_, ?_, ?_⟩
  · rw [toLeftOf_eq m n x hx0]
    exact hrun
  · refine Or.inr ⟨ctxBefore ctx, (x, b) :: (r.toList ++ ctxAfter ctx), hL, hbefore, hB, ?_⟩
    rw [R.toList, hL3]
  · intro y
    unfold valOf
    rw [R.data, toLeftOfT_data]
  · rw [R.next, toLeftOfT_next]
  · intro y
    constructor
    · unfold otherOf
      rw [R.data, toLeftOfT_data]
    · unfold orderOf
      rw [R.data, toLeftOfT_data]
  · intro hb hw
    rw [hb]
    exact ⟨attach_left_wk ctx r x n c b [] hw, fun hbal => attach_left_bal ctx r x n c b [] hw hbal⟩

/-- The free node `n` hung to the right of the tree node `x`, and the tree
rebalanced by `llrbToRoot`. -/
theorem attachRight_inv (m : Heap) (ctx : List (Frame (List Nat))) (x n : Nat) (c : Bool)
    (b : List Nat) (l : Shape (List Nat))
    (h : TInv m (plug ctx (Shape.node l x c b Shape.nil)))
    (hn0 : n ≠ 0) (hnn : n < m.next)
    (hnm : n ∉ members (plug ctx (Shape.node l x c b Shape.nil)).toList)
    (hgt : valOf m x < valOf m n)
    (hafter : ∀ q ∈ ctxAfter ctx, valOf m n < valOf m q.1) :
    ∃ m' T', (match toRightOf m n x with
        | none => none
        | some m => llrbToRoot m x) = some m' ∧
      TInv m' T' ∧ Pushed m n (plug ctx (Shape.node l x c b Shape.nil)).toList T'.toList ∧
      (∀ y, valOf m' y = valOf m y) ∧ m'.next = m.next ∧
      (∀ y, otherOf m' y = otherOf m y ∧ orderOf m' y = orderOf m y) ∧
      ((m.nodes n).black = false → (plug ctx (Shape.node l x c b Shape.nil)).wk = true →
        T'.wk = true ∧ ((plug ctx (Shape.node l x c b Shape.nil)).bal = true →
          T'.bal = true)) := by
  have hxT : x ∈ (plug ctx (Shape.node l x c b Shape.nil)).ids :=
    (mem_plug_ids _ _ x).mpr (Or.inl (by simp [Shape.ids]))
  have hx0 : x ≠ 0 := (h.alloc_ids x hxT).1
  have hnT : n ∉ (plug ctx (Shape.node l x c b Shape.nil)).ids := fun hc => hnm (h.ids_sub n hc)
  obtain ⟨hcl, _, _⟩ := h.levels.free n hn0 hnn hnm
  obtain ⟨hrep3, hnd3, hoth⟩ := toRightOf_attach m 0 ctx x n c b ([] : List Nat) l h.rep
    h.nodup_ids hn0 hnT hcl.2.1 hcl.2.2.1
  have hids3 : ∀ y, y ∈ (plug ctx (Shape.node l x c b (Shape.node Shape.nil n (m.nodes n).black
      ([] : List Nat) Shape.nil))).ids →
      y = n ∨ y ∈ (plug ctx (Shape.node l x c b Shape.nil)).ids := by
    intro y
    simp only [mem_plug_ids, Shape.ids, List.nil_append, List.mem_cons, List.mem_append,
      List.not_mem_nil, false_or, or_false, List.cons_append, List.append_nil]
    tauto
  obtain ⟨m', hrun, R⟩ := llrbToRoot_ok (toRightOfT m n x) ctx
    (Shape.node l x c b (Shape.node Shape.nil n (m.nodes n).black ([] : List Nat) Shape.nil))
    (by simp) hrep3 hnd3 (by
      intro y hy
      rw [toRightOfT_next]
      rcases hids3 y hy with e | e
      · rw [e]; exact hnn
      · exact (h.alloc_ids y e).2) (by rw [toRightOfT_next]; exact h.levels.next_pos)
  have hL : (plug ctx (Shape.node l x c b Shape.nil)).toList =
      (ctxBefore ctx ++ l.toList ++ [(x, b)]) ++ ctxAfter ctx := by
    simp [plug_toList, Shape.toList]
  have hL3 : (plug ctx (Shape.node l x c b (Shape.node Shape.nil n (m.nodes n).black
      ([] : List Nat) Shape.nil))).toList =
      (ctxBefore ctx ++ l.toList ++ [(x, b)]) ++ (n, []) :: ctxAfter ctx := by
    simp [plug_toList, Shape.toList]
  obtain ⟨s1, s2, s3, s4⟩ := h.split
  have hA : ∀ q ∈ ctxBefore ctx ++ l.toList ++ [(x, b)], valOf m q.1 < valOf m n := by
    intro q hq
    rcases List.mem_append.mp hq with e | e
    · rcases List.mem_append.mp e with e | e
      · exact lt_trans (s1 q e) hgt
      · exact lt_trans (s2 q e) hgt
    · rw [List.mem_singleton.mp e]; exact hgt
  have hlev := h.levels
  rw [hL] at hlev hnm
  have hlev3 : LInv (toRightOfT m n x)
      ((ctxBefore ctx ++ l.toList ++ [(x, b)]) ++ (n, []) :: ctxAfter ctx) := by
    refine LInv_insert m _ _ _ n hlev hn0 hnn hnm hA hafter (toRightOfT_next m n x)
      (fun y => toRightOfT_data m n x y) ?_
    intro y hy
    simp only [List.mem_cons, List.map_append, List.map_cons, List.mem_append, not_or,
      List.map_nil, List.mem_singleton, List.not_mem_nil, or_false] at hy
    unfold Clean
    rw [hoth y hy.2.1.2 hy.1]
  rw [← hL3] at hlev3
  refine ⟨m', _, ?_, ⟨R.rep, LInv_refines _ _ _ _ R hlev3⟩, ?_, ?_, ?_, ?_, ?_⟩
  · rw [toRightOf_eq m n x hx0]
    exact hrun
  · refine Or.inr ⟨ctxBefore ctx ++ l.toList ++ [(x, b)], ctxAfter ctx, hL, hA, hafter, ?_⟩
    rw [R.toList, hL3]
  · intro y
    unfold valOf
    rw [R.data, toRightOfT_data]
  · rw [R.next, toRightOfT_next]
  · intro y
    constructor
    · unfold otherOf
      rw [R.data, toRightOfT_data]
    · unfold orderOf
      rw [R.data, toRightOfT_data]
  · intro hb hw
    rw [hb]
    exact ⟨attach_right_wk ctx l x n c b [] hw,
      fun hbal => attach_right_bal ctx l x n c b [] hw hbal⟩

/-- The loop of `node.push` puts the free node `n` into the level of its
`val`. -/
theorem pushLoop_inv (n : Nat) :
    ∀ (t : Shape (List Nat)) (m : Heap) (ctx : List (Frame (List Nat))) (fuel : Nat),
      t ≠ Shape.nil → TInv m (plug ctx t) → n ≠ 0 → n < m.next →
      n ∉ members (plug ctx t).toList →
      (∀ q ∈ ctxBefore ctx, valOf m q.1 < valOf m n) →
      (∀ q ∈ ctxAfter ctx, valOf m n < valOf m q.1) →
      t.height ≤ fuel →
      ∃ m' T', pushLoop fuel m t.rootId n = some m' ∧ TInv m' T' ∧
        Pushed m n (plug ctx t).toList T'.toList ∧
        (∀ y, valOf m' y = valOf m y) ∧ m'.next = m.next ∧
      (∀ y, otherOf m' y = otherOf m y ∧ orderOf m' y = orderOf m y) ∧
      ((m.nodes n).black = false → (plug ctx t).wk = true →
        T'.wk = true ∧ ((plug ctx t).bal = true → T'.bal = true)) := by
  intro t
  induction t with
  | nil => intro m ctx fuel h; exact absurd rfl h
  | node l x c b r ihl ihr =>
    intro m ctx fuel _ hinv hn0 hnn hnm hbefore hafter hfuel
    obtain ⟨hctx, r1, r2, r3, r4, r5, r6, r7⟩ := (Rep_plug m 0 ctx _).mp hinv.rep
    obtain ⟨s1, s2, s3, s4⟩ := hinv.split
    cases fuel with
    | zero => simp [Shape.height] at hfuel
    | succ f =>
      have hl : l.height ≤ f := by
        simp only [Shape.height] at hfuel
        have := le_max_left l.height r.height
        omega
      have hr : r.height ≤ f := by
        simp only [Shape.height] at hfuel
        have := le_max_right l.height r.height
        omega
      have hlv : (m.nodes x).left = l.rootId := Rep_slotVal m _ _ l r6
      have hrv : (m.nodes x).right = r.rootId := Rep_slotVal m _ _ r r7
      show ∃ m' T', pushLoop (f + 1) m x n = some m' ∧ _
      unfold pushLoop
      rw [rd_eq m x r2, rd_eq m n hn0]
      simp only
      by_cases heq : (m.nodes n).data.val = (m.nodes x).data.val
      · rw [if_pos heq]
        obtain ⟨m', e1, e2, e3, e4, e5⟩ := addLast_inv m ctx l r x n c b hinv hn0 hnn hnm heq
        refine ⟨m', _, e1, e2, Or.inl ⟨ctxBefore ctx ++ l.toList, r.toList ++ ctxAfter ctx, x, b,
          ?_, heq.symm, ?_⟩, e3, e4, e5, ?_⟩
        · simp [plug_toList, Shape.toList]
        · simp [plug_toList, Shape.toList]
        · intro _ hw
          rw [plug_wk_relabel ctx l r x x c b (b ++ [n]),
            plug_bal_relabel ctx l r x x c b (b ++ [n])]
          exact ⟨hw, id⟩
      · rw [if_neg heq]
        by_cases hlt : (m.nodes n).data.val < (m.nodes x).data.val
        · rw [if_pos hlt]
          by_cases hl0 : (m.nodes x).left = 0
          · rw [if_pos hl0]
            have hlnil : l = Shape.nil := rootId_eq_zero_of_rep m _ _ l r6 (hlv ▸ hl0)
            subst hlnil
            exact attachLeft_inv m ctx x n c b r hinv hn0 hnn hnm hlt hbefore
          · rw [if_neg hl0, hlv]
            have hlne : l ≠ Shape.nil := fun e => hl0 (by rw [hlv, e]; rfl)
            refine ihl m (Frame.L x c b r :: ctx) f hlne ?_ hn0 hnn ?_ ?_ ?_ hl
            · rw [plug_cons]; exact hinv
            · rw [plug_cons]; exact hnm
            · exact hbefore
            · intro q hq
              simp only [ctxAfter, List.cons_append, List.mem_cons, List.mem_append] at hq
              rcases hq with e | e | e
              · rw [e]; exact hlt
              · exact lt_trans hlt (s3 q e)
              · exact hafter q e
        · rw [if_neg hlt]
          have hgt : (m.nodes n).data.val > (m.nodes x).data.val := by
            rcases lt_trichotomy (m.nodes n).data.val (m.nodes x).data.val with e | e | e
            · exact absurd e hlt
            · exact absurd e heq
            · exact e
          rw [if_pos hgt]
          by_cases hr0 : (m.nodes x).right = 0
          · rw [if_pos hr0]
            have hrnil : r = Shape.nil := rootId_eq_zero_of_rep m _ _ r r7 (hrv ▸ hr0)
            subst hrnil
            exact attachRight_inv m ctx x n c b l hinv hn0 hnn hnm hgt hafter
          · rw [if_neg hr0, hrv]
            have hrne : r ≠ Shape.nil := fun e => hr0 (by rw [hrv, e]; rfl)
            refine ihr m (Frame.R l x c b :: ctx) f hrne ?_ hn0 hnn ?_ ?_ ?_ hr
            · rw [plug_cons]; exact hinv
            · rw [plug_cons]; exact hnm
            · intro q hq
              simp only [ctxBefore, List.mem_append, List.mem_singleton] at hq
              rcases hq with (e | e) | e
              · exact hbefore q e
              · exact lt_trans (s2 q e) hgt
              · rw [e]; exact hgt
            · exact hafter

end Trade

namespace Trade

open RB

theorem Pushed_congr (m m' : Heap) (n : Nat) (L L' : List (Nat × List Nat))
    (hv : ∀ y, valOf m' y = valOf m y) (h : Pushed m n L L') : Pushed m' n L L' := by
  unfold Pushed at h ⊢
  simp only [hv]
  exact h

/-- The empty tree satisfies the invariant. -/
theorem emptyHeap_inv : TInv emptyHeap (Shape.nil : Shape (List Nat)) := by
  refine ⟨rfl, ?_⟩
  refine ⟨List.nodup_nil, fun x hx => absurd hx (List.not_mem_nil _), (by decide),
    List.Pairwise.nil, fun q hq => absurd hq (List.not_mem_nil _),
    fun q hq => absurd hq (List.not_mem_nil _), ?_⟩
  intro y hy0 hyn _
  have : y < 1 := hyn
  omega

/-- `b.push(in)` puts the free node `n` into the level of its `val`. -/
theorem push_inv (m : Heap) (T : Shape (List Nat)) (n : Nat) (h : TInv m T) (hn0 : n ≠ 0)
    (hnn : n < m.next) (hnm : n ∉ members T.toList) :
    ∃ m' T', push m 0 n = some m' ∧ TInv m' T' ∧ Pushed m n T.toList T'.toList ∧
      (∀ y, valOf m' y = valOf m y) ∧ m'.next = m.next ∧
      (∀ y, otherOf m' y = otherOf m y ∧ orderOf m' y = orderOf m y) ∧
      ((m.nodes n).black = false → T.wk = true →
        T'.wk = true ∧ (T.bal = true → T'.bal = true)) := by
  cases T with
  | nil =>
    have hr0 : m.roots 0 = 0 := h.rep
    obtain ⟨hcl, hp, hx⟩ := h.levels.free n hn0 hnn hnm
    obtain ⟨c1, c2, c3, c4⟩ := hcl
    have hN : ∀ (m1 : Heap), (m1.upd n (fun x => { x with pp := some (Slot.root 0) })).nodes n =
        { m1.nodes n with pp := some (Slot.root 0) } := by
      intro m1; simp [upd_nodes]
    refine ⟨(({ m with roots := Function.update m.roots 0 n } : Heap).upd n
        (fun x => { x with pp := some (Slot.root 0) })),
      Shape.node Shape.nil n (m.nodes n).black [] Shape.nil, ?_, ⟨?_, ?_⟩, ?_, ?_, ?_, ?_,
      fun _ _ => ⟨rfl, fun _ => rfl⟩⟩
    · unfold push
      rw [if_pos hr0]
      simp only [wr_eq _ n _ hn0]
    · refine ⟨?_, hn0, ?_, ?_, ?_, ?_, ?_⟩
      · simp [Mem.slotVal, Mem.upd]
      · rw [hN]
      · rw [hN]; exact c4
      · rw [hN]
      · show Mem.slotVal _ (Slot.left n) = 0
        simp only [Mem.slotVal, hN]; exact c2
      · show Mem.slotVal _ (Slot.right n) = 0
        simp only [Mem.slotVal, hN]; exact c3
    · have hl : LInv m (([] : List (Nat × List Nat)) ++ []) := h.levels
      refine LInv_insert m _ [] [] n hl hn0 hnn (by simp [members]) (by simp) (by simp) rfl ?_ ?_
      · intro y
        simp only [upd_nodes]
        split
        · next e => subst e; rfl
        · rfl
      · intro y hy
        simp only [List.mem_cons, List.append_nil, List.map_nil, List.not_mem_nil, or_false] at hy
        unfold Clean
        simp only [upd_nodes, if_neg hy]
    · exact Or.inr ⟨[], [], rfl, by simp, by simp, rfl⟩
    · intro y
      unfold valOf
      simp only [upd_nodes]
      split
      · next e => subst e; rfl
      · rfl
    · rfl
    · intro y
      unfold otherOf orderOf
      simp only [upd_nodes]
      split
      · next e => subst e; exact ⟨rfl, rfl⟩
      · exact ⟨rfl, rfl⟩
  | node l x c b r =>
    have hx0 : x ≠ 0 := h.rep.2.1
    have hr0 : m.roots 0 = x := h.rep.1
    have hfuel : (Shape.node l x c b r).height ≤ m.next + 1 := by
      have h1 := height_le (Shape.node l x c b r)
      have h2 := Guidstore.nodup_length_le _ m.next h.levels.next_pos h.nodup_ids h.alloc_ids
      omega
    obtain ⟨m', T', e1, e2, e3, e4, e5, e6, e7⟩ := pushLoop_inv n (Shape.node l x c b r) m []
      (m.next + 1) (by simp) h hn0 hnn hnm (by simp [ctxBefore]) (by simp [ctxAfter]) hfuel
    refine ⟨m', T', ?_, e2, e3, e4, e5, e6, e7⟩
    unfold push nodePush
    rw [hr0, if_neg hx0]
    exact e1

/-- The two nodes of an order are initialised and the first is pushed. -/
theorem pushOrder_inv (m : Heap) (T : Shape (List Nat)) (o : Nat) (val : Int) (h : TInv m T) :
    ∃ m' T', pushOrder m o val = some m' ∧ TInv m' T' ∧
      Pushed m' m.next T.toList T'.toList ∧
      valOf m' m.next = val ∧ (∀ y, y < m.next → valOf m' y = valOf m y) ∧
      m'.next = m.next + 2 ∧ otherOf m' m.next = m.next + 1 ∧
      (∀ y, y < m.next → otherOf m' y = otherOf m y) ∧
      (T.wk = true → T'.wk = true ∧ (T.bal = true → T'.bal = true)) ∧
      orderOf m' m.next = o ∧ (∀ y, y < m.next → orderOf m' y = orderOf m y) := by
  have hpos := h.levels.next_pos
  have hn0 : m.next ≠ 0 := Nat.pos_iff_ne_zero.mp hpos
  let m2 : Heap := (({ m with next := m.next + 2 } : Heap).upd m.next
    (fun _ => ⟨false, 0, 0, 0, none, ⟨val, m.next, m.next, o, m.next + 1⟩⟩)).upd (m.next + 1)
    (fun _ => ⟨false, 0, 0, 0, none, ⟨val, m.next + 1, m.next + 1, o, m.next⟩⟩)
  have hold : ∀ y, y < m.next → m2.nodes y = m.nodes y := by
    intro y hy
    have h1 : y ≠ m.next := Nat.ne_of_lt hy
    have h2 : y ≠ m.next + 1 := by omega
    simp [m2, upd_nodes, h1, h2]
  have hN : m2.nodes m.next = ⟨false, 0, 0, 0, none, ⟨val, m.next, m.next, o, m.next + 1⟩⟩ := by
    simp [m2, upd_nodes]
  have hO : m2.nodes (m.next + 1) =
      ⟨false, 0, 0, 0, none, ⟨val, m.next + 1, m.next + 1, o, m.next⟩⟩ := by
    simp [m2, upd_nodes]
  have hmem : ∀ y ∈ members T.toList, m2.nodes y = m.nodes y :=
    fun y hy => hold y (h.levels.alloc y hy).2
  have h2 : TInv m2 T := by
    constructor
    · refine Rep_congr m m2 T _ _ (fun y hy => ?_) rfl h.rep
      rw [hmem y (h.ids_sub y hy)]
      exact ⟨rfl, rfl, rfl, rfl, rfl⟩
    · have hl := h.levels
      refine ⟨hl.nodup, fun y hy => ⟨(hl.alloc y hy).1, ?_⟩, ?_, ?_, ?_, ?_, ?_⟩
      · have := (hl.alloc y hy).2
        show y < m.next + 2
        omega
      · show 0 < m.next + 2
        omega
      · have hs := hl.sorted
        have he : T.toList.map (fun q => valOf m2 q.1) = T.toList.map (fun q => valOf m q.1) := by
          refine List.map_congr_left (fun q hq => ?_)
          unfold valOf
          rw [hmem q.1 (head_mem_members _ q hq)]
        rw [he]; exact hs
      · intro q hq
        refine Chain_congr m m2 q.2 q.1 q.1 (fun y hy => ?_) (fun y hy => ?_) (hl.ring q hq)
        · unfold prevOf
          rw [hmem y]
          rcases List.mem_cons.mp hy with e | e
          · rw [e]; exact head_mem_members _ q hq
          · exact tail_mem_members _ q hq y e
        · unfold nextOf
          rw [hmem y]
          rcases List.mem_append.mp hy with e | e
          · exact tail_mem_members _ q hq y e
          · rw [List.mem_singleton.mp e]; exact head_mem_members _ q hq
      · intro q hq y hy
        unfold valOf Clean
        rw [hmem y (tail_mem_members _ q hq y hy), hmem q.1 (head_mem_members _ q hq)]
        exact hl.tail q hq y hy
      · intro y hy0 hyn hym
        have hyn' : y < m.next + 2 := hyn
        by_cases e1 : y < m.next
        · unfold Clean prevOf nextOf
          rw [hold y e1]
          exact hl.free y hy0 e1 hym
        · by_cases e2 : y = m.next
          · subst e2
            unfold Clean prevOf nextOf
            rw [hN]
            exact ⟨⟨rfl, rfl, rfl, rfl⟩, rfl, rfl⟩
          · have e3 : y = m.next + 1 := by omega
            subst e3
            unfold Clean prevOf nextOf
            rw [hO]
            exact ⟨⟨rfl, rfl, rfl, rfl⟩, rfl, rfl⟩
  have hnm : m.next ∉ members T.toList := fun hc => absurd (h.levels.alloc _ hc).2 (lt_irrefl _)
  obtain ⟨m', T', e1, e2, e3, e4, e5, e6, e7⟩ := push_inv m2 T m.next h2 hn0
    (show m.next < m.next + 2 by omega) hnm
  refine ⟨m', T', ?_, e2, Pushed_congr _ _ _ _ _ e4 e3, ?_, ?_, e5, ?_, ?_,
    e7 (by rw [hN]), ?_, ?_⟩
  · unfold pushOrder initNode
    simp only [bind, Option.bind, wr_eq _ _ _ hn0, wr_eq _ _ _ (Nat.succ_ne_zero m.next)]
    exact e1
  · rw [e4]; unfold valOf; rw [hN]
  · intro y hy
    rw [e4]; unfold valOf; rw [hold y hy]
  · rw [(e6 _).1]; unfold otherOf; rw [hN]
  · intro y hy
    rw [(e6 _).1]; unfold otherOf; rw [hold y hy]
  · rw [(e6 _).2]; unfold orderOf; rw [hN]
  · intro y hy
    rw [(e6 _).2]; unfold orderOf; rw [hold y hy]

/-- A new order is allocated and its first node is pushed. -/
theorem pushNew_inv (m : Heap) (T : Shape (List Nat)) (val : Int) (h : TInv m T) :
    ∃ m' T', pushNew m val = some m' ∧ TInv m' T' ∧ Pushed m' m.next T.toList T'.toList ∧
      valOf m' m.next = val ∧ (∀ y, y < m.next → valOf m' y = valOf m y) ∧
      m'.next = m.next + 2 ∧ otherOf m' m.next = m.next + 1 ∧
      (∀ y, y < m.next → otherOf m' y = otherOf m y) ∧
      (T.wk = true → T'.wk = true ∧ (T.bal = true → T'.bal = true)) := by
  obtain ⟨m', T', e1, e2, e3, e4, e5, e6, e7, e8, e9, _⟩ := pushOrder_inv m T 0 val h
  exact ⟨m', T', e1, e2, e3, e4, e5, e6, e7, e8, e9⟩

end Trade

namespace Trade

open RB

/-- A level of the tree is a node of the tree with its label. -/
theorem focus_level {β : Type} (q : Nat × β) :
    ∀ (T : Shape β), q ∈ T.toList → ∃ ctx l c r, T = plug ctx (Shape.node l q.1 c q.2 r) := by
  intro T
  induction T with
  | nil => intro h; cases h
  | node l y c b r ihl ihr =>
    intro h
    simp only [Shape.toList, List.mem_append, List.mem_cons] at h
    rcases h with h | h | h
    · obtain ⟨ctx, l', c', r', e⟩ := ihl h
      refine ⟨ctx ++ [Frame.L y c b r], l', c', r', ?_⟩
      rw [plug_append, ← e]; rfl
    · subst h
      exact ⟨[], l, c, r, rfl⟩
    · obtain ⟨ctx, l', c', r', e⟩ := ihr h
      refine ⟨ctx ++ [Frame.R l y c b], l', c', r', ?_⟩
      rw [plug_append, ← e]; rfl

theorem unlinkT_eq (m : Heap) (n : Nat) :
    unlinkT m n = (m.upd (prevOf m n)
      (fun y => { y with data := { y.data with next := nextOf m n } })).upd (nextOf m n)
      (fun y => { y with data := { y.data with prev := prevOf m n } }) := by
  have e1 : ((m.upd (m.nodes n).data.prev
      (fun y => { y with data := { y.data with next := (m.nodes n).data.next } })).nodes
      n).data.next = (m.nodes n).data.next := by
    have := (upd_next_spec m (m.nodes n).data.prev (m.nodes n).data.next n).1
    unfold nextOf at this
    rw [this]
    split <;> rfl
  have e2 : ((m.upd (m.nodes n).data.prev
      (fun y => { y with data := { y.data with next := (m.nodes n).data.next } })).nodes
      n).data.prev = (m.nodes n).data.prev :=
    (upd_next_spec m (m.nodes n).data.prev (m.nodes n).data.next n).2.1
  unfold unlinkT prevOf nextOf
  simp only [e1, e2]

/-- The fields after `n.prev.next = n.next; n.next.prev = n.prev`. -/
theorem unlinkT_spec (m : Heap) (n : Nat) :
    SameTree m (unlinkT m n) ∧
      (∀ y, prevOf (unlinkT m n) y = if y = nextOf m n then prevOf m n else prevOf m y) ∧
      (∀ y, nextOf (unlinkT m n) y = if y = prevOf m n then nextOf m n else nextOf m y) ∧
      (∀ y, ((unlinkT m n).nodes y).data.other = (m.nodes y).data.other) := by
  rw [unlinkT_eq m n]
  refine ⟨?_, ?_, ?_, ?_⟩
  · exact ((SameTree.self m).links _ (fun d => { d with next := nextOf m n })
      (fun _ => rfl)).links _ (fun d => { d with prev := prevOf m n }) (fun _ => rfl)
  · intro y
    rw [(upd_prev_spec _ _ _ y).1, (upd_next_spec _ _ _ y).2.1]
  · intro y
    rw [(upd_prev_spec _ _ _ y).2.1, (upd_next_spec _ _ _ y).1]
  · intro y
    rw [(upd_prev_spec _ _ _ y).2.2, (upd_next_spec _ _ _ y).2.2]

theorem unlinkT_order (m : Heap) (n y : Nat) :
    ((unlinkT m n).nodes y).data.order = (m.nodes y).data.order := by
  rw [unlinkT_eq m n, upd_prev_order, upd_next_order]

theorem selfLinkT_order (m : Heap) (n y : Nat) :
    ((selfLinkT m n).nodes y).data.order = (m.nodes y).data.order := by
  unfold selfLinkT
  rw [upd_prev_order, upd_next_order]

/-- The fields after `n.next = n; n.prev = n`. -/
theorem selfLinkT_spec (m : Heap) (n : Nat) :
    SameTree m (selfLinkT m n) ∧
      (∀ y, prevOf (selfLinkT m n) y = if y = n then n else prevOf m y) ∧
      (∀ y, nextOf (selfLinkT m n) y = if y = n then n else nextOf m y) ∧
      (∀ y, ((selfLinkT m n).nodes y).data.other = (m.nodes y).data.other) := by
  unfold selfLinkT
  refine ⟨?_, ?_, ?_, ?_⟩
  · exact ((SameTree.self m).links _ (fun d => { d with next := n })
      (fun _ => rfl)).links _ (fun d => { d with prev := n }) (fun _ => rfl)
  · intro y
    rw [(upd_prev_spec _ _ _ y).1, (upd_next_spec _ _ _ y).2.1]
  · intro y
    rw [(upd_prev_spec _ _ _ y).2.1, (upd_next_spec _ _ _ y).1]
  · intro y
    rw [(upd_prev_spec _ _ _ y).2.2, (upd_next_spec _ _ _ y).2.2]

/-- The fields after `n.parent = nil; n.pp = nil; n.left = nil; n.right = nil`. -/
theorem clearT_spec (m : Heap) (n : Nat) :
    Clean (clearT m n) n ∧ (∀ y, y ≠ n → (clearT m n).nodes y = m.nodes y) ∧
      (∀ y, ((clearT m n).nodes y).data = (m.nodes y).data) ∧
      (∀ y, ((clearT m n).nodes y).black = (m.nodes y).black) ∧
      (clearT m n).roots = m.roots ∧ (clearT m n).next = m.next := by
  refine ⟨?_, ?_, ?_, ?_, rfl, rfl⟩
  · unfold Clean clearT
    simp [upd_nodes]
  · intro y hy
    unfold clearT
    simp [upd_nodes, hy]
  · intro y
    unfold clearT
    simp only [upd_nodes]
    by_cases h : y = n
    · simp [h]
    · simp [h]
  · intro y
    unfold clearT
    simp only [upd_nodes]
    by_cases h : y = n
    · simp [h]
    · simp [h]

/-- The first branch of `pop`: `n` is not a tree node. -/
theorem pop_eq_member (m : Heap) (n : Nat) (hn0 : n ≠ 0) (hpp : (m.nodes n).pp = none)
    (hp0 : prevOf m n ≠ 0) (hx0 : nextOf m n ≠ 0) :
    pop m n = some (selfLinkT (clearT (unlinkT m n) n) n) := by
  have hp0' : (m.nodes n).data.prev ≠ 0 := hp0
  have hx0' : (m.nodes n).data.next ≠ 0 := hx0
  have e1 : ((m.upd (m.nodes n).data.prev
      (fun y => { y with data := { y.data with next := (m.nodes n).data.next } })).nodes
      n).data.next = (m.nodes n).data.next := by
    have := (upd_next_spec m (m.nodes n).data.prev (m.nodes n).data.next n).1
    unfold nextOf at this
    rw [this]
    split <;> rfl
  have hx1 : ((m.upd (m.nodes n).data.prev
      (fun y => { y with data := { y.data with next := (m.nodes n).data.next } })).nodes
      n).data.next ≠ 0 := by rw [e1]; exact hx0'
  unfold pop isHead
  simp only [rd_eq m n hn0, Option.map_some', hpp, Option.isSome_none, bind, Option.bind,
    Bool.not_false, if_true, wr_eq _ _ _ hp0', wr_eq _ _ _ hx1, wr_eq _ _ _ hn0,
    rd_eq _ n hn0]
  rfl

/-- The second branch of `pop`: `n` is a tree node and not alone in its ring. -/
theorem pop_eq_head (m : Heap) (n : Nat) (s : Slot) (hn0 : n ≠ 0) (hpp : (m.nodes n).pp = some s)
    (hp0 : prevOf m n ≠ 0) (hx0 : nextOf m n ≠ 0) (hp : prevOf m n ≠ n) (hx : nextOf m n ≠ n) :
    pop m n = (givePosition (unlinkT m n) n (prevOf m n)).map (fun m => selfLinkT m n) := by
  have hp' : ¬ n = (m.nodes n).data.prev := fun e => hp e.symm
  have hx' : ¬ n = (m.nodes n).data.next := fun e => hx e.symm
  have hx'' : (m.nodes n).data.next ≠ n := hx
  have hp0' : (m.nodes n).data.prev ≠ 0 := hp0
  have hx0' : (m.nodes n).data.next ≠ 0 := hx0
  have e1 : ((m.upd (m.nodes n).data.prev
      (fun y => { y with data := { y.data with next := (m.nodes n).data.next } })).nodes n) =
      m.nodes n := by
    simp [upd_nodes, hp']
  have e2 : ((unlinkT m n).nodes n) = m.nodes n := by
    unfold unlinkT
    simp [upd_nodes, hp', hx']
  unfold pop isHead
  simp only [rd_eq m n hn0, Option.map_some', hpp, Option.isSome_some, bind, Option.bind,
    Bool.not_true, wr_eq _ _ _ hp0', e1, wr_eq _ _ _ hx0', rd_eq _ n hn0]
  simp only [Bool.false_eq_true, if_false, hx'', ne_eq, not_false_eq_true, if_true]
  have e3 : (m.upd (m.nodes n).data.prev
      (fun y => { y with data := { y.data with next := (m.nodes n).data.next } })).upd
      (m.nodes n).data.next
      (fun y => { y with data := { y.data with prev := (m.nodes n).data.prev } }) =
      unlinkT m n := by
    unfold unlinkT
    simp only [e1]
  rw [e3, e2]
  unfold prevOf
  cases givePosition (unlinkT m n) n (m.nodes n).data.prev with
  | none => rfl
  | some m3 =>
    simp only [Option.map_some', wr_eq _ _ _ hn0]
    rfl

/-- The last branch of `pop`: `n` is a tree node alone in its ring. -/
theorem pop_eq_sole (m : Heap) (n : Nat) (s : Slot) (hn0 : n ≠ 0) (hpp : (m.nodes n).pp = some s)
    (hx : nextOf m n = n) :
    pop m n = (detach 2 m n).map (fun m => selfLinkT m n) := by
  have hx' : (m.nodes n).data.next = n := hx
  unfold pop isHead
  simp only [rd_eq m n hn0, Option.map_some', hpp, Option.isSome_some, bind, Option.bind,
    Bool.not_true, Bool.false_eq_true, if_false, hx', ne_eq, not_true_eq_false]
  cases detach 2 m n with
  | none => rfl
  | some m3 =>
    simp only [Option.map_some', wr_eq _ _ _ hn0]
    rfl

end Trade

namespace Trade

open RB

theorem SameTree.andThen {m m1 m2 : Heap} (h1 : SameTree m m1) (h2 : SameTree m1 m2) :
    SameTree m m2 := by
  refine ⟨h2.1.trans h1.1, h2.2.1.trans h1.2.1, fun y => ?_⟩
  obtain ⟨a1, a2, a3, a4, a5, a6⟩ := h2.2.2 y
  obtain ⟨b1, b2, b3, b4, b5, b6⟩ := h1.2.2 y
  exact ⟨a1.trans b1, a2.trans b2, a3.trans b3, a4.trans b4, a5.trans b5, a6.trans b6⟩

/-- The levels are kept by writes that change no tree field, no `val` and no
ring. -/
theorem LInv_same (m m' : Heap) (L : List (Nat × List Nat)) (hst : SameTree m m')
    (hp : ∀ y, prevOf m' y = prevOf m y) (hx : ∀ y, nextOf m' y = nextOf m y)
    (h : LInv m L) : LInv m' L := by
  have hv : ∀ y, valOf m' y = valOf m y := fun y => (hst.2.2 y).2.2.2.2.2
  refine ⟨h.nodup, ?_, ?_, ?_, ?_, ?_, ?_⟩
  · intro y hy; rw [hst.2.1]; exact h.alloc y hy
  · rw [hst.2.1]; exact h.next_pos
  · simp only [hv]; exact h.sorted
  · intro q hq
    exact Chain_congr m m' q.2 q.1 q.1 (fun y _ => hp y) (fun y _ => hx y) (h.ring q hq)
  · intro q hq y hy
    rw [hv, hv, hst.clean]
    exact h.tail q hq y hy
  · intro y hy0 hyn hym
    rw [hst.2.1] at hyn
    rw [hst.clean, hp, hx]
    exact h.free y hy0 hyn hym

/-- The node `n` is free when it has no tree links and is alone in its
ring. -/
theorem isFree_of (m : Heap) (n : Nat) (hn0 : n ≠ 0) (hc : Clean m n) (hp : prevOf m n = n)
    (hx : nextOf m n = n) : isFree m n = some true := by
  obtain ⟨c1, c2, c3, c4⟩ := hc
  have hp' : (m.nodes n).data.prev = n := hp
  have hx' : (m.nodes n).data.next = n := hx
  unfold isFree
  rw [rd_eq m n hn0]
  simp [c1, c2, c3, hp', hx']

/-- The memory after the clearing of the tree fields of a node that has no
tree links. -/
theorem clearT_same (m : Heap) (n : Nat) (hc : Clean m n) : SameTree m (clearT m n) := by
  obtain ⟨d1, d2, d3, d4, d5, d6⟩ := clearT_spec m n
  obtain ⟨e1, e2, e3, e4⟩ := d1
  obtain ⟨c1, c2, c3, c4⟩ := hc
  refine ⟨d5, d6, fun y => ?_⟩
  by_cases h : y = n
  · subst h
    refine ⟨d4 y, by rw [e2, c2], by rw [e3, c3], by rw [e4, c4], by rw [e1, c1], ?_⟩
    unfold valOf; rw [d3]
  · refine ⟨by rw [d2 y h], by rw [d2 y h], by rw [d2 y h], by rw [d2 y h], by rw [d2 y h], ?_⟩
    unfold valOf; rw [d3]

/-- A pop of a node that is not in the tree changes nothing. -/
theorem pop_free_inv (m : Heap) (T : Shape (List Nat)) (n : Nat) (h : TInv m T) (hn0 : n ≠ 0)
    (hnn : n < m.next) (hnm : n ∉ members T.toList) :
    ∃ m', pop m n = some m' ∧ TInv m' T ∧ (∀ y, valOf m' y = valOf m y) ∧ m'.next = m.next ∧
      isFree m' n = some true ∧ (∀ y, otherOf m' y = otherOf m y ∧ orderOf m' y = orderOf m y) := by
  obtain ⟨hcl, hp, hx⟩ := h.levels.free n hn0 hnn hnm
  obtain ⟨U1, U2, U3, U4⟩ := unlinkT_spec m n
  obtain ⟨C1, C2, C3, C4, C5, C6⟩ := clearT_spec (unlinkT m n) n
  obtain ⟨S1, S2, S3, S4⟩ := selfLinkT_spec (clearT (unlinkT m n) n) n
  have hoth : ∀ y, otherOf (selfLinkT (clearT (unlinkT m n) n) n) y = otherOf m y ∧
      orderOf (selfLinkT (clearT (unlinkT m n) n) n) y = orderOf m y := by
    intro y
    constructor
    · unfold otherOf
      rw [S4, C3, U4]
    · unfold orderOf
      rw [selfLinkT_order, C3, unlinkT_order]
  have hst : SameTree m (selfLinkT (clearT (unlinkT m n) n) n) :=
    (U1.andThen (clearT_same _ n ((U1.clean n).mpr hcl))).andThen S1
  have hpv : ∀ y, prevOf (selfLinkT (clearT (unlinkT m n) n) n) y = prevOf m y := by
    intro y
    rw [S2]
    by_cases e : y = n
    · rw [if_pos e, e, hp]
    · rw [if_neg e]
      have : prevOf (clearT (unlinkT m n) n) y = prevOf (unlinkT m n) y := by
        unfold prevOf; rw [C3]
      rw [this, U2, hx, if_neg e]
  have hnx : ∀ y, nextOf (selfLinkT (clearT (unlinkT m n) n) n) y = nextOf m y := by
    intro y
    rw [S3]
    by_cases e : y = n
    · rw [if_pos e, e, hx]
    · rw [if_neg e]
      have : nextOf (clearT (unlinkT m n) n) y = nextOf (unlinkT m n) y := by
        unfold nextOf; rw [C3]
      rw [this, U3, hp, if_neg e]
  refine ⟨_, pop_eq_member m n hn0 hcl.1 (by rw [hp]; exact hn0) (by rw [hx]; exact hn0),
    ⟨hst.rep _ _ _ h.rep, LInv_same m _ _ hst hpv hnx h.levels⟩,
    fun y => (hst.2.2 y).2.2.2.2.2, hst.2.1, ?_, hoth⟩
  exact isFree_of _ n hn0 ((hst.clean n).mpr hcl) (by rw [hpv, hp]) (by rw [hnx, hx])

/-- A pop of a node that is in a ring and is not the tree node: the node is
taken out of the ring and the tree is the same. -/
theorem pop_member_inv (m : Heap) (ctx : List (Frame (List Nat))) (l r : Shape (List Nat))
    (h0 n : Nat) (c : Bool) (xs ys : List Nat)
    (h : TInv m (plug ctx (Shape.node l h0 c (xs ++ n :: ys) r))) :
    ∃ m', pop m n = some m' ∧ TInv m' (plug ctx (Shape.node l h0 c (xs ++ ys) r)) ∧
      (∀ y, valOf m' y = valOf m y) ∧ m'.next = m.next ∧ isFree m' n = some true ∧
      (∀ y, otherOf m' y = otherOf m y ∧ orderOf m' y = orderOf m y) := by
  have hL : (plug ctx (Shape.node l h0 c (xs ++ n :: ys) r)).toList =
      (ctxBefore ctx ++ l.toList) ++ (h0, xs ++ n :: ys) :: (r.toList ++ ctxAfter ctx) := by
    simp [plug_toList, Shape.toList]
  have hL' : (plug ctx (Shape.node l h0 c (xs ++ ys) r)).toList =
      (ctxBefore ctx ++ l.toList) ++ (h0, xs ++ ys) :: (r.toList ++ ctxAfter ctx) := by
    simp [plug_toList, Shape.toList]
  have hlev := h.levels
  rw [hL] at hlev
  have hring := hlev.ring (h0, xs ++ n :: ys) (by simp)
  have hnmem : n ∈ members ((ctxBefore ctx ++ l.toList) ++ (h0, xs ++ n :: ys) ::
      (r.toList ++ ctxAfter ctx)) := by
    rw [mem_members_mid]; exact Or.inr (Or.inr (Or.inl (by simp)))
  have hn0 : n ≠ 0 := (hlev.alloc n hnmem).1
  have hcl : Clean m n := (hlev.tail (h0, xs ++ n :: ys) (by simp) n (by simp)).2
  have hnxm : nextOf m n ∈ h0 :: xs := chain_mid_next m n h0 ys xs h0 hring
  have hpvm : prevOf m n ∈ ys ++ [h0] := chain_mid_prev m n h0 ys xs h0 hring
  have hx0 : nextOf m n ≠ 0 := by
    refine (hlev.alloc _ ?_).1
    rw [mem_members_mid]
    rcases List.mem_cons.mp hnxm with e | e
    · exact Or.inr (Or.inl e)
    · exact Or.inr (Or.inr (Or.inl (by simp [e])))
  have hp0 : prevOf m n ≠ 0 := by
    refine (hlev.alloc _ ?_).1
    rw [mem_members_mid]
    rcases List.mem_append.mp hpvm with e | e
    · exact Or.inr (Or.inr (Or.inl (by simp [e])))
    · exact Or.inr (Or.inl (List.mem_singleton.mp e))
  obtain ⟨U1, U2, U3, U4⟩ := unlinkT_spec m n
  obtain ⟨C1, C2, C3, C4, C5, C6⟩ := clearT_spec (unlinkT m n) n
  obtain ⟨S1, S2, S3, S4⟩ := selfLinkT_spec (clearT (unlinkT m n) n) n
  have hst : SameTree m (selfLinkT (clearT (unlinkT m n) n) n) :=
    (U1.andThen (clearT_same _ n ((U1.clean n).mpr hcl))).andThen S1
  have hoth : ∀ y, otherOf (selfLinkT (clearT (unlinkT m n) n) n) y = otherOf m y ∧
      orderOf (selfLinkT (clearT (unlinkT m n) n) n) y = orderOf m y := by
    intro y
    constructor
    · unfold otherOf
      rw [S4, C3, U4]
    · unfold orderOf
      rw [selfLinkT_order, C3, unlinkT_order]
  refine ⟨_, pop_eq_member m n hn0 hcl.1 hp0 hx0, ⟨?_, ?_⟩, fun y => (hst.2.2 y).2.2.2.2.2,
    hst.2.1, ?_, hoth⟩
  · exact Rep_relabel _ 0 ctx l r h0 c _ _ (hst.rep _ _ _ h.rep)
  · rw [hL']
    refine LInv_popTail m _ _ _ h0 n xs ys hlev hst.2.1 (fun y _ => hst.clean y)
      ((hst.clean n).mpr hcl) (fun y => (hst.2.2 y).2.2.2.2.2) ?_ ?_ ?_ ?_
    · intro y hy
      rw [S2, if_neg hy]
      have : prevOf (clearT (unlinkT m n) n) y = prevOf (unlinkT m n) y := by
        unfold prevOf; rw [C3]
      rw [this, U2]
    · rw [S2, if_pos rfl]
    · intro y hy
      rw [S3, if_neg hy]
      have : nextOf (clearT (unlinkT m n) n) y = nextOf (unlinkT m n) y := by
        unfold nextOf; rw [C3]
      rw [this, U3]
    · rw [S3, if_pos rfl]
  · exact isFree_of _ n hn0 ((hst.clean n).mpr hcl) (by rw [S2, if_pos rfl])
      (by rw [S3, if_pos rfl])

end Trade

namespace Trade

open RB

/-- Outside the nodes `S`, an operation on the tree (hole at the root field)
keeps what `Clean` reads. -/
theorem Frames.keepsClean {m m' : Heap} {S : List Nat} (hf : Frames m m' S (Slot.root 0)) (y : Nat)
    (hy : y ∉ S) : Clean m' y ↔ Clean m y := by
  unfold Clean
  rw [hf.pp y hy, hf.parent y hy, hf.left y hy (fun e => by cases e),
    hf.right y hy (fun e => by cases e)]

/-- A pop of a tree node that is not alone in its ring: the next node of the
ring takes its place in the tree, with its colour and its children. -/
theorem pop_head_inv (m : Heap) (ctx : List (Frame (List Nat))) (l r : Shape (List Nat))
    (n a : Nat) (c : Bool) (rest : List Nat)
    (h : TInv m (plug ctx (Shape.node l n c (a :: rest) r))) :
    ∃ m', pop m n = some m' ∧ TInv m' (plug ctx (Shape.node l a c rest r)) ∧
      (∀ y, valOf m' y = valOf m y) ∧ m'.next = m.next ∧ isFree m' n = some true ∧
      (∀ y, otherOf m' y = otherOf m y ∧ orderOf m' y = orderOf m y) := by
  have hL : (plug ctx (Shape.node l n c (a :: rest) r)).toList =
      (ctxBefore ctx ++ l.toList) ++ (n, a :: rest) :: (r.toList ++ ctxAfter ctx) := by
    simp [plug_toList, Shape.toList]
  have hL' : (plug ctx (Shape.node l a c rest r)).toList =
      (ctxBefore ctx ++ l.toList) ++ (a, rest) :: (r.toList ++ ctxAfter ctx) := by
    simp [plug_toList, Shape.toList]
  have hids : (plug ctx (Shape.node l n c (a :: rest) r)).ids =
      ((ctxBefore ctx ++ l.toList) ++ (n, a :: rest) :: (r.toList ++ ctxAfter ctx)).map
        Prod.fst := by
    rw [ids_eq_map_toList, hL]
  have hlev := h.levels
  rw [hL] at hlev
  obtain ⟨hctx, r1, r2, r3, r4, r5, r6, r7⟩ := (Rep_plug m 0 ctx _).mp h.rep
  have hring := hlev.ring (n, a :: rest) (by simp)
  obtain ⟨c1, c2, c3⟩ := hring
  have hlnd := level_nodup _ _ (n, a :: rest) hlev.nodup
  have hnl : n ∉ a :: rest := (List.nodup_cons.mp hlnd).1
  have han : a ≠ n := fun e => hnl (by simp [e])
  have hnxm : nextOf m n ∈ a :: rest := chain_next_mem m rest a n c3
  have hxn : nextOf m n ≠ n := fun e => hnl (e ▸ hnxm)
  have hmem : ∀ y ∈ a :: rest, y ∈ members ((ctxBefore ctx ++ l.toList) ++ (n, a :: rest) ::
      (r.toList ++ ctxAfter ctx)) := by
    intro y hy
    rw [mem_members_mid]; exact Or.inr (Or.inr (Or.inl hy))
  have hx0 : nextOf m n ≠ 0 := (hlev.alloc _ (hmem _ hnxm)).1
  have ha0 : a ≠ 0 := (hlev.alloc _ (hmem a (by simp))).1
  have hpa : prevOf m n = a := c1
  have haT : a ∉ (plug ctx (Shape.node l n c (a :: rest) r)).ids := by
    rw [hids]
    exact tail_not_head _ hlev.nodup (n, a :: rest) (by simp) a (by simp)
  obtain ⟨U1, U2, U3, U4⟩ := unlinkT_spec m n
  obtain ⟨m3, g1, g2, g3, g4, g5, g6, g7, _⟩ := givePosition_ok (unlinkT m n) ctx l r n a c
    (a :: rest) rest (U1.rep _ _ _ h.rep) h.nodup_ids ha0 haT
  obtain ⟨S1, S2, S3, S4⟩ := selfLinkT_spec m3 n
  have hoth : ∀ y, otherOf (selfLinkT m3 n) y = otherOf m y ∧
      orderOf (selfLinkT m3 n) y = orderOf m y := by
    intro y
    constructor
    · unfold otherOf
      rw [S4, g4, U4]
    · unfold orderOf
      rw [selfLinkT_order, g4, unlinkT_order]
  have hcn : Clean (selfLinkT m3 n) n := (S1.clean n).mpr ⟨g6, g7.1, g7.2.1, g7.2.2⟩
  have hval : ∀ y, valOf (selfLinkT m3 n) y = valOf m y := by
    intro y
    rw [(S1.2.2 y).2.2.2.2.2]
    have : valOf m3 y = valOf (unlinkT m n) y := by unfold valOf; rw [g4]
    rw [this, (U1.2.2 y).2.2.2.2.2]
  have hnext : (selfLinkT m3 n).next = m.next := by rw [S1.2.1, g5, U1.2.1]
  have hpv : ∀ y, y ≠ n → prevOf (selfLinkT m3 n) y =
      if y = nextOf m n then a else prevOf m y := by
    intro y hy
    rw [S2, if_neg hy]
    have : prevOf m3 y = prevOf (unlinkT m n) y := by unfold prevOf; rw [g4]
    rw [this, U2, hpa]
  have hnx : ∀ y, y ≠ n → nextOf (selfLinkT m3 n) y =
      if y = a then nextOf m n else nextOf m y := by
    intro y hy
    rw [S3, if_neg hy]
    have : nextOf m3 y = nextOf (unlinkT m n) y := by unfold nextOf; rw [g4]
    rw [this, U3, hpa]
  refine ⟨selfLinkT m3 n, ?_, ⟨S1.rep _ _ _ g2, ?_⟩, hval, hnext, ?_, hoth⟩
  · rw [pop_eq_head m n _ r2 r5 (by rw [hpa]; exact ha0) hx0 (by rw [hpa]; exact han) hxn, hpa, g1]
    rfl
  · rw [hL']
    refine LInv_popHead m _ _ _ n a rest hlev hnext ?_ hcn hval hpv (by rw [S2, if_pos rfl])
      hnx (by rw [S3, if_pos rfl])
    intro y hy
    rw [S1.clean, Frames.keepsClean g3 y (by rw [hids]; exact hy), U1.clean]
  · exact isFree_of _ n r2 hcn (by rw [S2, if_pos rfl]) (by rw [S3, if_pos rfl])

/-- A pop of a tree node that is alone in its ring: the node is detached from
the tree and its level is gone. -/
theorem pop_sole_inv (m : Heap) (ctx : List (Frame (List Nat))) (l r : Shape (List Nat))
    (n : Nat) (c : Bool) (h : TInv m (plug ctx (Shape.node l n c [] r))) :
    ∃ m' T', pop m n = some m' ∧ TInv m' T' ∧
      T'.toList = (ctxBefore ctx ++ l.toList) ++ (r.toList ++ ctxAfter ctx) ∧
      (∀ y, valOf m' y = valOf m y) ∧ m'.next = m.next ∧ isFree m' n = some true ∧
      (∀ y, otherOf m' y = otherOf m y ∧ orderOf m' y = orderOf m y) ∧
      ((plug ctx (Shape.node l n c [] r)).wk = true → T'.wk = true) := by
  have hL : (plug ctx (Shape.node l n c [] r)).toList =
      (ctxBefore ctx ++ l.toList) ++ (n, []) :: (r.toList ++ ctxAfter ctx) := by
    simp [plug_toList, Shape.toList]
  have hids : (plug ctx (Shape.node l n c ([] : List Nat) r)).ids =
      ((ctxBefore ctx ++ l.toList) ++ (n, []) :: (r.toList ++ ctxAfter ctx)).map Prod.fst := by
    rw [ids_eq_map_toList, hL]
  have hlev := h.levels
  rw [hL] at hlev
  obtain ⟨hctx, r1, r2, r3, r4, r5, r6, r7⟩ := (Rep_plug m 0 ctx _).mp h.rep
  obtain ⟨c1, c2⟩ := hlev.ring (n, []) (by simp)
  have hnT : n ∈ (plug ctx (Shape.node l n c ([] : List Nat) r)).ids :=
    (mem_plug_ids _ _ n).mpr (Or.inl (by simp [Shape.ids]))
  obtain ⟨m3, T', d1, R, Rw⟩ := detach_ok m _ n h.rep h.nodup_ids
    (fun y hy => (h.alloc_ids y hy).2) h.levels.next_pos hnT
  obtain ⟨S1, S2, S3, S4⟩ := selfLinkT_spec m3 n
  have hoth : ∀ y, otherOf (selfLinkT m3 n) y = otherOf m y ∧
      orderOf (selfLinkT m3 n) y = orderOf m y := by
    intro y
    constructor
    · unfold otherOf
      rw [S4, R.data]
    · unfold orderOf
      rw [selfLinkT_order, R.data]
  have hcn : Clean (selfLinkT m3 n) n :=
    (S1.clean n).mpr ⟨R.pp, R.clean.1, R.clean.2.1, R.clean.2.2⟩
  have hval : ∀ y, valOf (selfLinkT m3 n) y = valOf m y := by
    intro y
    rw [(S1.2.2 y).2.2.2.2.2]
    unfold valOf; rw [R.data]
  have hnext : (selfLinkT m3 n).next = m.next := by rw [S1.2.1, R.next]
  have hndh : (((ctxBefore ctx ++ l.toList) ++ (n, ([] : List Nat)) ::
      (r.toList ++ ctxAfter ctx)).map Prod.fst).Nodup := by
    rw [← hids]; exact h.nodup_ids
  have hT' : T'.toList = (ctxBefore ctx ++ l.toList) ++ (r.toList ++ ctxAfter ctx) := by
    rw [R.toList, hL]
    rw [List.map_append, List.map_cons, List.nodup_append] at hndh
    obtain ⟨_, n2, n3⟩ := hndh
    refine filter_remove _ _ n [] (toList_not_mem _ n ?_) (toList_not_mem _ n ?_)
    · exact fun hc => n3 hc (by simp)
    · exact (List.nodup_cons.mp n2).1
  refine ⟨selfLinkT m3 n, T', ?_, ⟨S1.rep _ _ _ R.rep, ?_⟩, hT', hval, hnext, ?_, hoth, Rw⟩
  · rw [pop_eq_sole m n _ r2 r5 c2, d1]
    rfl
  · rw [hT']
    refine LInv_remove m _ _ _ n hlev hnext hval ?_ ?_ ?_ hcn
    · intro y
      rw [S2]
      by_cases e : y = n
      · rw [if_pos e, e, c1]
      · rw [if_neg e]; unfold prevOf; rw [R.data]
    · intro y
      rw [S3]
      by_cases e : y = n
      · rw [if_pos e, e, c2]
      · rw [if_neg e]; unfold nextOf; rw [R.data]
    · intro y hy
      rw [S1.clean, Frames.keepsClean R.frames y (by rw [hids]; exact hy)]
  · exact isFree_of _ n r2 hcn (by rw [S2, if_pos rfl]) (by rw [S3, if_pos rfl])

/-- `n.pop()` on an allocated node: the node is taken out of levels of the tree
(if it is there) and is free afterwards. -/
theorem pop_inv (m : Heap) (T : Shape (List Nat)) (n : Nat) (h : TInv m T) (hn0 : n ≠ 0)
    (hnn : n < m.next) :
    ∃ m' T', pop m n = some m' ∧ TInv m' T' ∧ (∀ y, valOf m' y = valOf m y) ∧
      m'.next = m.next ∧ isFree m' n = some true ∧
      ((n ∉ members T.toList ∧ T' = T) ∨ Popped n T.toList T'.toList) ∧
      (∀ y, otherOf m' y = otherOf m y ∧ orderOf m' y = orderOf m y) ∧ (T.wk = true → T'.wk = true) := by
  by_cases hm : n ∈ members T.toList
  · obtain ⟨q, hq, hnq⟩ := (mem_members _ n).mp hm
    obtain ⟨ctx, l, c, r, hT⟩ := focus_level q T hq
    obtain ⟨q1, q2⟩ := q
    subst hT
    have hL : ∀ (x : Nat) (b : List Nat), (plug ctx (Shape.node l x c b r)).toList =
        (ctxBefore ctx ++ l.toList) ++ (x, b) :: (r.toList ++ ctxAfter ctx) := by
      intro x b; simp [plug_toList, Shape.toList]
    rcases hnq with e | e
    · have e' : n = q1 := e
      subst e'
      cases q2 with
      | nil =>
        obtain ⟨m', T', p1, p2, p3, p4, p5, p6, p7, p8⟩ := pop_sole_inv m ctx l r n c h
        exact ⟨m', T', p1, p2, p4, p5, p6, Or.inr (Or.inr (Or.inr ⟨_, _, hL _ [], p3⟩)), p7, p8⟩
      | cons a rest =>
        obtain ⟨m', p1, p2, p3, p4, p5, p7⟩ := pop_head_inv m ctx l r n a c rest h
        exact ⟨m', _, p1, p2, p3, p4, p5,
          Or.inr (Or.inr (Or.inl ⟨_, _, a, rest, hL _ _, hL _ _⟩)), p7,
          fun hw => by rw [plug_wk_relabel ctx l r n a c (a :: rest) rest]; exact hw⟩
    · have e' : n ∈ q2 := e
      obtain ⟨xs, ys, e2⟩ := List.append_of_mem e'
      subst e2
      obtain ⟨m', p1, p2, p3, p4, p5, p7⟩ := pop_member_inv m ctx l r q1 n c xs ys h
      exact ⟨m', _, p1, p2, p3, p4, p5, Or.inr (Or.inl ⟨_, _, q1, xs, ys, hL _ _, hL _ _⟩), p7,
        fun hw => by
          rw [plug_wk_relabel ctx l r q1 q1 c (xs ++ n :: ys) (xs ++ ys)]; exact hw⟩
  · obtain ⟨m', p1, p2, p3, p4, p5, p7⟩ := pop_free_inv m T n h hn0 hnn hm
    exact ⟨m', T, p1, p2, p3, p4, p5, Or.inl ⟨hm, rfl⟩, p7, id⟩

end Trade

namespace Trade

open RB

theorem filter_map_fst (tr : List (Nat × Int)) (n : Nat) :
    (tr.filter (fun q => decide (q.1 ≠ n))).map Prod.fst =
      (tr.map Prod.fst).filter (fun y => decide (y ≠ n)) := by
  rw [List.filter_map]
  rfl

theorem filter_ne_self (l : List Nat) (n : Nat) (h : n ∉ l) :
    l.filter (fun y => decide (y ≠ n)) = l :=
  List.filter_eq_self.mpr (fun y hy => by
    have : y ≠ n := fun e => h (e ▸ hy)
    simpa using this)

/-- The resting nodes are the nodes of the levels. -/
theorem Agree.mem_iff {m : Heap} {L : List (Nat × List Nat)} {tr : List (Nat × Int)}
    (h : Agree m L tr) (y : Nat) : y ∈ tr.map Prod.fst ↔ y ∈ members L := by
  obtain ⟨a1, a2, a3, a4⟩ := h
  constructor
  · intro hy
    obtain ⟨x, hx, rfl⟩ := List.mem_map.mp hy
    obtain ⟨q, hq, hv⟩ := a4 x hx
    have : x.1 ∈ (tr.filter (fun z => decide (z.2 = valOf m q.1))).map Prod.fst :=
      List.mem_map_of_mem _ (List.mem_filter.mpr ⟨hx, by simp [hv]⟩)
    rw [a3 q hq] at this
    exact (mem_members L x.1).mpr ⟨q, hq, by simpa using this⟩
  · intro hy
    obtain ⟨q, hq, hyq⟩ := (mem_members L y).mp hy
    have : y ∈ q.1 :: q.2 := by simpa using hyq
    rw [← a3 q hq] at this
    obtain ⟨x, hx, rfl⟩ := List.mem_map.mp this
    exact List.mem_map_of_mem _ (List.mem_filter.mp hx).1

/-- The agreement of levels and resting nodes after a push of a new node. -/
theorem Agree_push (m m' : Heap) (L L' : List (Nat × List Nat)) (tr : List (Nat × Int))
    (val : Int) (hinv : LInv m L) (h : Agree m L tr) (hP : Pushed m' m.next L L')
    (hv : valOf m' m.next = val) (hold : ∀ y, y < m.next → valOf m' y = valOf m y)
    (hnext : m'.next = m.next + 2) :
    Agree m' L' (tr ++ [(m.next, val)]) := by
  obtain ⟨a1, a2, a3, a4⟩ := h
  have hhead : ∀ q ∈ L, valOf m' q.1 = valOf m q.1 :=
    fun q hq => hold q.1 (hinv.alloc q.1 (head_mem_members L q hq)).2
  have hntr : ∀ x ∈ tr, x.1 ≠ m.next := fun x hx => Nat.ne_of_lt (a2 x hx).2
  have hfil : ∀ v, ((tr ++ [(m.next, val)]).filter (fun x => decide (x.2 = v))).map Prod.fst =
      (tr.filter (fun x => decide (x.2 = v))).map Prod.fst ++ (if val = v then [m.next] else []) := by
    intro v
    rw [List.filter_append, List.map_append]
    by_cases e : val = v
    · simp [List.filter_cons, e]
    · simp [List.filter_cons, e]
  have hsorted := hinv.sorted
  refine ⟨?_, ?_, ?_, ?_⟩
  · rw [List.map_append, List.nodup_append]
    refine ⟨a1, by simp, ?_⟩
    intro y hy hy'
    obtain ⟨x, hx, rfl⟩ := List.mem_map.mp hy
    simp only [List.map_cons, List.map_nil, List.mem_singleton] at hy'
    exact hntr x hx hy'
  · intro x hx
    rcases List.mem_append.mp hx with e | e
    · have := a2 x e
      exact ⟨by rw [hold x.1 this.2]; exact this.1, by rw [hnext]; omega⟩
    · rw [List.mem_singleton] at e
      subst e
      exact ⟨hv, by rw [hnext]; show m.next < m.next + 2; omega⟩
  · rcases hP with ⟨A, B, x, tl, e1, e2, e3⟩ | ⟨A, B, e1, e2, e3, e4⟩
    · subst e1 e3
      rw [hv] at e2
      have hx := hhead (x, tl) (by simp)
      simp only at hx
      have hdist : ∀ q, q ∈ A ∨ q ∈ B → valOf m q.1 ≠ valOf m x := by
        rw [List.map_append, List.map_cons, List.pairwise_append] at hsorted
        obtain ⟨_, s2, s3⟩ := hsorted
        intro q hq
        rcases hq with hq | hq
        · exact ne_of_lt (s3 _ (List.mem_map_of_mem _ hq) _ (by simp))
        · exact ne_of_gt ((List.pairwise_cons.mp s2).1 _ (List.mem_map_of_mem _ hq))
      intro q hq
      rw [hfil]
      rcases mem_mid A B _ q hq with e | e
      · subst e
        simp only
        rw [if_pos e2.symm, hx, a3 (x, tl) (by simp)]
        simp
      · have hq0 := mem_mid_of A B (x, tl) q e
        rw [hhead q hq0, if_neg (by rw [← e2, hx]; exact fun e' => hdist q e e'.symm), a3 q hq0]
        simp
    · subst e1 e4
      rw [hv] at e2 e3
      intro q hq
      rw [hfil]
      rcases mem_mid A B _ q hq with e | e
      · subst e
        simp only
        rw [hv, if_pos rfl]
        have : tr.filter (fun x => decide (x.2 = val)) = [] := by
          rw [List.filter_eq_nil_iff]
          intro x hx hc
          have hc' : x.2 = val := by simpa using hc
          obtain ⟨q, hq, hqv⟩ := a4 x hx
          rw [← hhead q hq, hc'] at hqv
          rcases List.mem_append.mp hq with e | e
          · exact absurd hqv (ne_of_lt (e2 q e))
          · exact absurd hqv (ne_of_gt (e3 q e))
        rw [this]; rfl
      · have hq0 : q ∈ A ++ B := List.mem_append.mpr e
        have hne : ¬ val = valOf m' q.1 := by
          rcases e with e | e
          · exact ne_of_gt (e2 q e)
          · exact ne_of_lt (e3 q e)
        rw [if_neg hne, hhead q hq0, a3 q hq0]
        simp
  · intro x hx
    rcases List.mem_append.mp hx with e | e
    · obtain ⟨q, hq, hqv⟩ := a4 x e
      rw [← hhead q hq] at hqv
      rcases hP with ⟨A, B, y, tl, e1, e2, e3⟩ | ⟨A, B, e1, e2, e3, e4⟩
      · subst e1 e3
        rcases mem_mid A B _ q hq with e' | e'
        · subst e'
          exact ⟨(y, tl ++ [m.next]), by simp, hqv⟩
        · exact ⟨q, mem_mid_of A B _ q e', hqv⟩
      · subst e1 e4
        exact ⟨q, mem_mid_of A B _ q (List.mem_append.mp hq), hqv⟩
    · rw [List.mem_singleton] at e
      subst e
      rcases hP with ⟨A, B, y, tl, e1, e2, e3⟩ | ⟨A, B, e1, e2, e3, e4⟩
      · subst e3
        exact ⟨(y, tl ++ [m.next]), by simp, by simp only; rw [e2, hv]⟩
      · subst e4
        exact ⟨(m.next, []), by simp, hv⟩

end Trade

namespace Trade

open RB

theorem filter_mid (xs ys : List Nat) (n : Nat) (h : (xs ++ n :: ys).Nodup) :
    (xs ++ n :: ys).filter (fun y => decide (y ≠ n)) = xs ++ ys := by
  rw [List.nodup_append] at h
  obtain ⟨_, h2, h3⟩ := h
  rw [List.filter_append, List.filter_cons]
  simp only [ne_eq, not_true_eq_false, decide_False, Bool.false_eq_true, if_false]
  rw [filter_ne_self xs n (fun hc => h3 hc (by simp)),
    filter_ne_self ys n (List.nodup_cons.mp h2).1]

/-- The agreement of levels and resting nodes after a pop of a resting
node. -/
theorem Agree_pop (m m' : Heap) (L L' : List (Nat × List Nat)) (tr : List (Nat × Int))
    (n : Nat) (hinv : LInv m L) (h : Agree m L tr) (hP : Popped n L L')
    (hval : ∀ y, valOf m' y = valOf m y) (hnext : m'.next = m.next) :
    Agree m' L' (tr.filter (fun q => decide (q.1 ≠ n))) := by
  obtain ⟨a1, a2, a3, a4⟩ := h
  have hfil : ∀ q ∈ L, ((tr.filter (fun q => decide (q.1 ≠ n))).filter
      (fun x => decide (x.2 = valOf m q.1))).map Prod.fst =
      (q.1 :: q.2).filter (fun y => decide (y ≠ n)) := by
    intro q hq
    rw [← a3 q hq, ← filter_map_fst, List.filter_filter, List.filter_filter]
    congr 2
    funext x
    exact Bool.and_comm _ _
  have hside : ∀ (A B : List (Nat × List Nat)) (q0 : Nat × List Nat), L = A ++ q0 :: B →
      n = q0.1 ∨ n ∈ q0.2 → ∀ q, q ∈ A ∨ q ∈ B →
      (q.1 :: q.2).filter (fun y => decide (y ≠ n)) = q.1 :: q.2 := by
    intro A B q0 e hn q hq
    subst e
    refine filter_ne_self _ n (fun hc => ?_)
    have h1 := level_mem_side A B q hq n (by simpa using hc)
    have h2 := level_disjoint A B q0 hinv.nodup n h1
    rcases hn with e | e
    · exact h2.1 e
    · exact h2.2 e
  refine ⟨?_, ?_, ?_, ?_⟩
  · rw [filter_map_fst]
    exact a1.sublist (List.filter_sublist _)
  · intro x hx
    have := a2 x (List.mem_filter.mp hx).1
    exact ⟨by rw [hval]; exact this.1, by rw [hnext]; exact this.2⟩
  · simp only [hval]
    rcases hP with ⟨A, B, h0, xs, ys, e1, e2⟩ | ⟨A, B, a, rest, e1, e2⟩ | ⟨A, B, e1, e2⟩
    · intro q hq
      rw [e2] at hq
      rcases mem_mid A B _ q hq with e | e
      · subst e
        have hq0 : (h0, xs ++ n :: ys) ∈ L := by rw [e1]; simp
        have := hfil _ hq0
        simp only at this ⊢
        rw [this]
        have hnd : (h0 :: (xs ++ n :: ys)).Nodup := by
          have := hinv.nodup
          rw [e1] at this
          exact level_nodup A B (h0, xs ++ n :: ys) this
        have := filter_mid (h0 :: xs) ys n (by simpa using hnd)
        simpa using this
      · have hq0 : q ∈ L := by rw [e1]; exact mem_mid_of A B _ q e
        rw [hfil q hq0]
        exact hside A B _ e1 (Or.inr (by simp)) q e
    · intro q hq
      rw [e2] at hq
      rcases mem_mid A B _ q hq with e | e
      · subst e
        have hq0 : (n, a :: rest) ∈ L := by rw [e1]; simp
        have hva : valOf m a = valOf m n := (hinv.tail _ hq0 a (by simp)).1
        have := hfil _ hq0
        simp only at this ⊢
        rw [hva, this]
        have hnd : (n :: a :: rest).Nodup := by
          have := hinv.nodup
          rw [e1] at this
          exact level_nodup A B (n, a :: rest) this
        have := filter_mid [] (a :: rest) n (by simpa using hnd)
        simpa using this
      · have hq0 : q ∈ L := by rw [e1]; exact mem_mid_of A B _ q e
        rw [hfil q hq0]
        exact hside A B _ e1 (Or.inl rfl) q e
    · intro q hq
      rw [e2] at hq
      have e := List.mem_append.mp hq
      have hq0 : q ∈ L := by rw [e1]; exact mem_mid_of A B _ q e
      rw [hfil q hq0]
      exact hside A B _ e1 (Or.inl rfl) q e
  · intro x hx
    obtain ⟨hx1, hx2⟩ := List.mem_filter.mp hx
    have hxn : x.1 ≠ n := by simpa using hx2
    obtain ⟨q, hq, hqv⟩ := a4 x hx1
    simp only [hval]
    rcases hP with ⟨A, B, h0, xs, ys, e1, e2⟩ | ⟨A, B, a, rest, e1, e2⟩ | ⟨A, B, e1, e2⟩
    · rw [e1] at hq
      rw [e2]
      rcases mem_mid A B _ q hq with e | e
      · subst e
        exact ⟨(h0, xs ++ ys), by simp, hqv⟩
      · exact ⟨q, mem_mid_of A B _ q e, hqv⟩
    · have hq0 : (n, a :: rest) ∈ L := by rw [e1]; simp
      have hva : valOf m a = valOf m n := (hinv.tail _ hq0 a (by simp)).1
      rw [e1] at hq
      rw [e2]
      rcases mem_mid A B _ q hq with e | e
      · subst e
        exact ⟨(a, rest), by simp, by simp only; rw [hva]; exact hqv⟩
      · exact ⟨q, mem_mid_of A B _ q e, hqv⟩
    · have hq0 : (n, ([] : List Nat)) ∈ L := by rw [e1]; simp
      rw [e1] at hq
      rw [e2]
      rcases mem_mid A B _ q hq with e | e
      · subst e
        exfalso
        have : x.1 ∈ (tr.filter (fun z => decide (z.2 = valOf m n))).map Prod.fst :=
          List.mem_map_of_mem _ (List.mem_filter.mpr ⟨hx1, by simp [hqv]⟩)
        rw [a3 _ hq0] at this
        simp only [List.mem_singleton] at this
        exact hxn this
      · exact ⟨q, List.mem_append.mpr e, hqv⟩

/-- A pop of an allocated node keeps the tree and takes the node out of the
resting nodes; the node is free afterwards. -/
theorem pop_reach (m : Heap) (tr : List (Nat × Int)) (n : Nat) (h : Reach m tr) (hn0 : n ≠ 0)
    (hnn : n < m.next) :
    ∃ m', pop m n = some m' ∧ Reach m' (tr.filter (fun q => decide (q.1 ≠ n))) ∧
      m'.next = m.next ∧ (∀ y, valOf m' y = valOf m y) ∧ (∀ y, otherOf m' y = otherOf m y ∧ orderOf m' y = orderOf m y) ∧
      isFree m' n = some true := by
  obtain ⟨T, h, ha, ht⟩ := h
  obtain ⟨m1, T1, p1, p2, p3, p4, p5, p6, p7, _⟩ := pop_inv m T n h hn0 hnn
  have ht1 : Twin m1 (tr.filter (fun q => decide (q.1 ≠ n))) := by
    intro x hx
    obtain ⟨t1, t2, t3⟩ := ht x (List.mem_filter.mp hx).1
    refine ⟨by rw [(p7 _).1]; exact t1, by rw [p4]; exact t2, fun hc => t3 ?_⟩
    rw [filter_map_fst] at hc
    exact (List.mem_filter.mp hc).1
  have ha1 : Agree m1 T1.toList (tr.filter (fun q => decide (q.1 ≠ n))) := by
    rcases p6 with ⟨hnm, e⟩ | hP
    · subst e
      have hntr : n ∉ tr.map Prod.fst := fun hc => hnm ((ha.mem_iff n).mp hc)
      have : tr.filter (fun q => decide (q.1 ≠ n)) = tr :=
        List.filter_eq_self.mpr (fun x hx => by
          have : x.1 ≠ n := fun e => hntr (e ▸ List.mem_map_of_mem _ hx)
          simpa using this)
      rw [this]
      obtain ⟨a1, a2, a3, a4⟩ := ha
      refine ⟨a1, fun x hx => ⟨by rw [p3]; exact (a2 x hx).1, by rw [p4]; exact (a2 x hx).2⟩,
        ?_, ?_⟩
      · simp only [p3]; exact a3
      · simp only [p3]; exact a4
    · exact Agree_pop m m1 _ _ tr n h.levels ha hP p3 p4
  exact ⟨m1, p1, ⟨T1, p2, ha1, ht1⟩, p4, p3, p7, p5⟩

end Trade

namespace Trade

open RB

/-- `peekMin` returns `nil` on the empty tree and the tree node of the first
level otherwise. -/
theorem peekMin_inv (m : Heap) (T : Shape (List Nat)) (h : TInv m T) :
    ∃ n, peekMin m 0 = some n ∧
      ((T.toList = [] ∧ n = 0) ∨ ∃ q rest, T.toList = q :: rest ∧ n = q.1) := by
  have hr : m.roots 0 = T.rootId := Rep_slotVal m _ _ T h.rep
  cases T with
  | nil =>
    refine ⟨0, ?_, Or.inl ⟨rfl, rfl⟩⟩
    unfold peekMin
    rw [hr]; rfl
  | node l x c b r =>
    have hx0 : x ≠ 0 := h.rep.2.1
    have hfuel : (Shape.node l x c b r).height ≤ m.next + 1 := by
      have h1 := height_le (Shape.node l x c b r)
      have h2 := Guidstore.nodup_length_le _ m.next h.levels.next_pos h.nodup_ids h.alloc_ids
      omega
    obtain ⟨q, rest, e1, e2⟩ := minLoop_spec m _ _ _ _ h.rep (by simp) hfuel
    refine ⟨q.1, ?_, Or.inr ⟨q, rest, e1, rfl⟩⟩
    unfold peekMin
    rw [hr, if_neg (show ¬ (Shape.node l x c b r).rootId = 0 from hx0)]
    exact e2

/-- `peekMax` returns `nil` on the empty tree and the tree node of the last
level otherwise. -/
theorem peekMax_inv (m : Heap) (T : Shape (List Nat)) (h : TInv m T) :
    ∃ n, peekMax m 0 = some n ∧
      ((T.toList = [] ∧ n = 0) ∨ ∃ q init, T.toList = init ++ [q] ∧ n = q.1) := by
  have hr : m.roots 0 = T.rootId := Rep_slotVal m _ _ T h.rep
  cases T with
  | nil =>
    refine ⟨0, ?_, Or.inl ⟨rfl, rfl⟩⟩
    unfold peekMax
    rw [hr]; rfl
  | node l x c b r =>
    have hx0 : x ≠ 0 := h.rep.2.1
    have hfuel : (Shape.node l x c b r).height ≤ m.next + 1 := by
      have h1 := height_le (Shape.node l x c b r)
      have h2 := Guidstore.nodup_length_le _ m.next h.levels.next_pos h.nodup_ids h.alloc_ids
      omega
    obtain ⟨q, init, e1, e2⟩ := maxLoop_last m _ _ _ _ h.rep (by simp) hfuel
    refine ⟨q.1, ?_, Or.inr ⟨q, init, e1, rfl⟩⟩
    unfold peekMax
    rw [hr, if_neg (show ¬ (Shape.node l x c b r).rootId = 0 from hx0)]
    exact e2

/-- The tree node of a level is a head. -/
theorem isHead_head (m : Heap) (T : Shape (List Nat)) (h : TInv m T) (q : Nat × List Nat)
    (hq : q ∈ T.toList) : isHead m q.1 = some true := by
  obtain ⟨ctx, l, c, r, hT⟩ := focus_level q T hq
  subst hT
  obtain ⟨_, r1, r2, r3, r4, r5, r6, r7⟩ := (Rep_plug m 0 ctx _).mp h.rep
  unfold isHead
  rw [rd_eq m _ r2]
  simp [r5]

/-- A node is free exactly when it rests in no level. -/
theorem isFree_inv (m : Heap) (T : Shape (List Nat)) (h : TInv m T) (y : Nat) (hy0 : y ≠ 0)
    (hyn : y < m.next) : isFree m y = some (decide (y ∉ members T.toList)) := by
  by_cases hm : y ∈ members T.toList
  · have hd : decide (y ∉ members T.toList) = false := by simp [hm]
    rw [hd]
    obtain ⟨q, hq, hyq⟩ := (mem_members _ y).mp hm
    rcases hyq with e | e
    · have := isHead_head m T h q hq
      rw [← e] at this
      unfold isHead at this
      rw [rd_eq m y hy0] at this
      simp only [Option.map_some', Option.some.injEq] at this
      unfold isFree
      rw [rd_eq m y hy0]
      simp only [Option.map_some', this]
      by_cases h1 : (m.nodes y).left = 0
      · by_cases h2 : (m.nodes y).right = 0
        · simp [h1, h2]
        · simp [h1, h2]
      · simp [h1]
    · obtain ⟨xs, ys, e2⟩ := List.append_of_mem e
      have hring := h.levels.ring q hq
      rw [e2] at hring
      have hnx : nextOf m y ∈ q.1 :: xs := chain_mid_next m y q.1 ys xs q.1 hring
      have hnd : (q.1 :: q.2).Nodup := by
        obtain ⟨A, B, eL⟩ := List.append_of_mem hq
        have := h.levels.nodup
        rw [eL] at this
        exact level_nodup A B q this
      rw [e2] at hnd
      have hne : (m.nodes y).data.next ≠ y := by
        intro e3
        have e4 : nextOf m y = y := e3
        rw [e4] at hnx
        have hnd' : ((q.1 :: xs) ++ y :: ys).Nodup := by simpa using hnd
        exact (List.nodup_append.mp hnd').2.2 hnx (by simp)
      unfold isFree
      rw [rd_eq m y hy0]
      simp only [Option.map_some']
      by_cases h1 : (m.nodes y).left = 0
      · by_cases h2 : (m.nodes y).right = 0
        · by_cases h3 : (m.nodes y).pp.isSome = true
          · simp [h1, h2, h3]
          · simp [h1, h2, h3, hne]
        · simp [h1, h2]
      · simp [h1]
  · have hd : decide (y ∉ members T.toList) = true := by simp [hm]
    rw [hd]
    obtain ⟨hc, hp, hx⟩ := h.levels.free y hy0 hyn hm
    exact isFree_of m y hy0 hc hp hx

end Trade

namespace Trade

open RB

/-- No node rests exactly when the tree has no level. -/
theorem Agree.nil_iff {m : Heap} {L : List (Nat × List Nat)} {tr : List (Nat × Int)}
    (h : Agree m L tr) : tr = [] ↔ L = [] := by
  obtain ⟨a1, a2, a3, a4⟩ := h
  constructor
  · intro e
    subst e
    cases L with
    | nil => rfl
    | cons q rest =>
      have := a3 q (by simp)
      simp at this
  · intro e
    subst e
    cases tr with
    | nil => rfl
    | cons x rest =>
      obtain ⟨q, hq, _⟩ := a4 x (by simp)
      cases hq

/-- The level of a price is the sequence of the resting nodes of the price. -/
theorem Agree.level {m : Heap} {L : List (Nat × List Nat)} {tr : List (Nat × Int)}
    (h : Agree m L tr) (hinv : LInv m L) (v : Int) (h0 : Nat) (tl : List Nat)
    (hv : (tr.filter (fun x => decide (x.2 = v))).map Prod.fst = h0 :: tl) :
    (h0, tl) ∈ L ∧ valOf m h0 = v := by
  obtain ⟨a1, a2, a3, a4⟩ := h
  have hmem : h0 ∈ (tr.filter (fun x => decide (x.2 = v))).map Prod.fst := by rw [hv]; simp
  obtain ⟨x, hx, e⟩ := List.mem_map.mp hmem
  obtain ⟨hx1, hx2⟩ := List.mem_filter.mp hx
  have hx2' : x.2 = v := by simpa using hx2
  obtain ⟨q, hq, hqv⟩ := a4 x hx1
  have := a3 q hq
  rw [hqv, hx2', hv] at this
  have e1 : h0 = q.1 := (List.cons.inj this).1
  have e2 : tl = q.2 := (List.cons.inj this).2
  refine ⟨?_, ?_⟩
  · rw [e1, e2]; exact hq
  · rw [e1, hqv, hx2']

/-- A node is free exactly when it is not a resting node. -/
theorem isFree_reach (m : Heap) (tr : List (Nat × Int)) (h : Reach m tr) (y : Nat)
    (hy0 : 0 < y) (hyn : y < m.next) :
    isFree m y = some (decide (y ∉ tr.map Prod.fst)) := by
  obtain ⟨T, h, ha, _⟩ := h
  rw [isFree_inv m T h y (Nat.pos_iff_ne_zero.mp hy0) hyn]
  congr 1
  exact decide_eq_decide.mpr (not_congr (ha.mem_iff y).symm)

theorem mem_filter_ne (tr : List (Nat × Int)) (n y : Nat) :
    y ∈ (tr.filter (fun q => decide (q.1 ≠ n))).map Prod.fst ↔ y ≠ n ∧ y ∈ tr.map Prod.fst := by
  rw [filter_map_fst, List.mem_filter]
  simp only [decide_eq_true_eq]
  tauto

end Trade

namespace Trade

open RB

/-- The resting nodes are allocated. -/
theorem Reach.alloc {m : Heap} {tr : List (Nat × Int)} (h : Reach m tr) (n : Nat)
    (hn : n ∈ tr.map Prod.fst) : n ≠ 0 ∧ n < m.next := by
  obtain ⟨T, h, ha, _⟩ := h
  exact h.levels.alloc n ((ha.mem_iff n).mp hn)

/-- The two pops of `popMin`, `popMax` and `cancel`, of a resting node and of
its twin, take the node out of the tree and nothing else. -/
theorem popBoth (m : Heap) (tr : List (Nat × Int)) (n : Nat) (h : Reach m tr)
    (hn : n ∈ tr.map Prod.fst) :
    ∃ m1 m2, pop m n = some m1 ∧ pop m1 (m1.nodes n).data.other = some m2 ∧
      Reach m2 (tr.filter (fun q => decide (q.1 ≠ n))) ∧ m2.next = m.next ∧
      (∀ y, valOf m2 y = valOf m y) ∧ isFree m2 n = some true ∧
      (∀ y, orderOf m2 y = orderOf m y) := by
  obtain ⟨hn0, hnn⟩ := h.alloc n hn
  obtain ⟨x, hx, e⟩ := List.mem_map.mp hn
  have htw : otherOf m n = n + 1 ∧ n + 1 < m.next ∧ n + 1 ∉ tr.map Prod.fst := by
    obtain ⟨T, _, _, ht⟩ := h
    have := ht x hx
    rw [e] at this
    exact this
  obtain ⟨m1, p1, p2, p3, p4, p5, p6⟩ := pop_reach m tr n h hn0 hnn
  have ho : (m1.nodes n).data.other = n + 1 := by
    have := (p5 n).1
    unfold otherOf at this
    rw [this]
    exact htw.1
  obtain ⟨m2, q1, q2, q3, q4, q5, q6⟩ := pop_reach m1 _ (n + 1) p2 (Nat.succ_ne_zero n)
    (by rw [p3]; exact htw.2.1)
  have hfil : (tr.filter (fun q => decide (q.1 ≠ n))).filter (fun q => decide (q.1 ≠ n + 1)) =
      tr.filter (fun q => decide (q.1 ≠ n)) := by
    refine List.filter_eq_self.mpr (fun y hy => ?_)
    have hy1 := (List.mem_filter.mp hy).1
    have : y.1 ≠ n + 1 := fun e' => htw.2.2 (e' ▸ List.mem_map_of_mem _ hy1)
    simpa using this
  rw [hfil] at q2
  refine ⟨m1, m2, p1, by rw [ho]; exact q1, q2, by rw [q3, p3],
    fun y => by rw [q4, p4], ?_, fun y => by rw [(q5 y).2, (p5 y).2]⟩
  have hnf : n ∉ (tr.filter (fun q => decide (q.1 ≠ n))).map Prod.fst := by
    rw [mem_filter_ne]; exact fun hc => hc.1 rfl
  rw [isFree_reach m2 _ q2 n (Nat.pos_of_ne_zero hn0) (by rw [q3, p3]; exact hnn)]
  simp [hnf]

/-- `popMin` pops the node that `peekMin` returns, and nothing else. -/
theorem popMin_reach (m : Heap) (tr : List (Nat × Int)) (h : Reach m tr) :
    ∃ m' r, popMin m 0 = some (m', r) ∧ peekMin m 0 = some r ∧
      Reach m' (tr.filter (fun q => decide (q.1 ≠ r))) ∧ m'.next = m.next ∧
      (∀ y, valOf m' y = valOf m y) ∧ (∀ y, orderOf m' y = orderOf m y) := by
  obtain ⟨T, hT, ha, ht⟩ := h
  have hr : m.roots 0 = T.rootId := Rep_slotVal m _ _ T hT.rep
  obtain ⟨n, e1, e2⟩ := peekMin_inv m T hT
  rcases e2 with ⟨e2, e3⟩ | ⟨q, rest, e2, e3⟩
  · subst e3
    have hnil : tr = [] := ha.nil_iff.mpr e2
    have hT0 : T = Shape.nil := by
      cases T with
      | nil => rfl
      | node l x c b r => simp [Shape.toList] at e2
    subst hT0 hnil
    refine ⟨m, 0, ?_, e1, ⟨Shape.nil, hT, ha, ht⟩, rfl, fun _ => rfl, fun _ => rfl⟩
    unfold popMin
    rw [hr]
    rfl
  · have hn : n ∈ tr.map Prod.fst := by
      rw [ha.mem_iff, e3]
      exact head_mem_members _ q (by rw [e2]; simp)
    obtain ⟨m1, m2, p1, p2, p3, p4, p5, _, p7⟩ := popBoth m tr n ⟨T, hT, ha, ht⟩ hn
    have hn0 : n ≠ 0 := (Reach.alloc ⟨T, hT, ha, ht⟩ n hn).1
    have hT0 : T.rootId ≠ 0 := by
      cases T with
      | nil => simp [Shape.toList] at e2
      | node l x c b r => exact hT.rep.2.1
    refine ⟨m2, n, ?_, e1, p3, p4, p5, p7⟩
    unfold popMin
    rw [hr]
    simp only [ne_eq, hT0, not_false_eq_true, if_true, e1, bind, Option.bind, p1, rd_eq _ n hn0,
      p2]
    rfl

/-- `popMax` pops the node that `peekMax` returns, and nothing else. -/
theorem popMax_reach (m : Heap) (tr : List (Nat × Int)) (h : Reach m tr) :
    ∃ m' r, popMax m 0 = some (m', r) ∧ peekMax m 0 = some r ∧
      Reach m' (tr.filter (fun q => decide (q.1 ≠ r))) ∧ m'.next = m.next ∧
      (∀ y, valOf m' y = valOf m y) ∧ (∀ y, orderOf m' y = orderOf m y) := by
  obtain ⟨T, hT, ha, ht⟩ := h
  have hr : m.roots 0 = T.rootId := Rep_slotVal m _ _ T hT.rep
  obtain ⟨n, e1, e2⟩ := peekMax_inv m T hT
  rcases e2 with ⟨e2, e3⟩ | ⟨q, rest, e2, e3⟩
  · subst e3
    have hnil : tr = [] := ha.nil_iff.mpr e2
    have hT0 : T = Shape.nil := by
      cases T with
      | nil => rfl
      | node l x c b r => simp [Shape.toList] at e2
    subst hT0 hnil
    refine ⟨m, 0, ?_, e1, ⟨Shape.nil, hT, ha, ht⟩, rfl, fun _ => rfl, fun _ => rfl⟩
    unfold popMax
    rw [hr]
    rfl
  · have hn : n ∈ tr.map Prod.fst := by
      rw [ha.mem_iff, e3]
      exact head_mem_members _ q (by rw [e2]; simp)
    obtain ⟨m1, m2, p1, p2, p3, p4, p5, _, p7⟩ := popBoth m tr n ⟨T, hT, ha, ht⟩ hn
    have hn0 : n ≠ 0 := (Reach.alloc ⟨T, hT, ha, ht⟩ n hn).1
    have hT0 : T.rootId ≠ 0 := by
      cases T with
      | nil => simp [Shape.toList] at e2
      | node l x c b r => exact hT.rep.2.1
    refine ⟨m2, n, ?_, e1, p3, p4, p5, p7⟩
    unfold popMax
    rw [hr]
    simp only [ne_eq, hT0, not_false_eq_true, if_true, e1, bind, Option.bind, p1, rd_eq _ n hn0,
      p2]
    rfl

end Trade

namespace Trade

open RB

end Trade

namespace Trade

open RB

end Trade

/-! ## Theorems on the colours of the trees -/

namespace Trade

open RB

/-- C15, failing input: after the pushes of the prices 2, 4, 6, 7, 5, 0 every
path of the tree holds two black nodes, and `pop` of the node with the price 5
(the node at address 9) leaves a tree in which `blackBalance` panics. -/
theorem pop_breaks_black_balance :
    balanceAfter [Op.push 2, Op.push 4, Op.push 6, Op.push 7, Op.push 5, Op.push 0] =
      some (Outcome.ok 2) ∧
    balanceAfter [Op.push 2, Op.push 4, Op.push 6, Op.push 7, Op.push 5, Op.push 0, Op.pop 9] =
      some Outcome.panic := by
  constructor <;> decide!

/-- C23, failing input: a sequence of nine pushes and three pops of resting
nodes leaves six tree nodes on one path of six nodes, more than
`2 * log2 (6 + 1)`. -/
theorem pop_breaks_height_bound :
    statsAfter [Op.push 27, Op.push 1, Op.push 8, Op.push 15, Op.push 26, Op.push 25, Op.pop 3,
      Op.push 6, Op.push 24, Op.push 18, Op.pop 15, Op.pop 17] = some (6, 6) ∧
    ¬ (2 ^ 6 ≤ (6 + 1) ^ 2) := by
  constructor
  · decide!
  · decide

/-- C17, counterexample: after the pushes of the prices 2 and 4 the root is the
node of the price 4; it is red and its left child is red. -/
theorem red_root_counterexample :
    rootAfter [Op.push 2, Op.push 4] = some (3, false, true) := by
  decide!

/-- The first push into the empty tree makes the pushed node the root and
leaves it red, whatever the price: `initNode` leaves a node red and `tree.push`
does not colour the root. -/
theorem first_push_root_red (v : Int) : rootAfter [Op.push v] = some (1, false, false) := by
  rfl

end Trade

namespace Guidstore

open RB

/-- C19, counterexample: after `Push(5)` on a new store the root block is
red. -/
theorem red_root_block_counterexample : rootAfter [5] = some (1, false) := by
  decide!

/-- C19, amended: the first `Push` on a new store makes the new block the root
and leaves it red, whatever the key: `newNode` creates a red node and nothing
in `Push` colours the root. -/
theorem first_Push_root_red (k : Int) (hk : isInt64 k) : rootAfter [k] = some (1, false) := by
  obtain ⟨s1, s2, s3, s4, s5, s6⟩ := andNotMask_spec k hk
  have hidx := wrap64_idx k (andNotMask k) s2 s3
  have h : ∃ m b, Push NewStore k = some (m, b) ∧ m.roots 0 = 1 ∧ (m.nodes 1).black = false := by
    unfold Push
    simp only [NewStore, newNode, if_true, Function.update_same]
    rw [wr_eq _ _ _ (by decide)]
    simp only [nodePush, Mem.upd, Function.update_same]
    unfold pushLoop
    simp only [Mem.rd, Function.update_same, s6]
    simp only [ge_iff_le, if_pos (show andNotMask k ≤ k ∧ k ≤ andNotMask k + blockMask from ⟨s2, s3⟩)]
    unfold record
    simp only [Mem.rd, Function.update_same, if_neg (show ¬ (1 = 0) by decide), if_neg hidx.2,
      hidx.1]
    have h1 : ¬ (k < andNotMask k ∨ blockSize ≤ k - andNotMask k) := by
      have := hidx.2
      rw [hidx.1] at this
      intro hc
      rcases hc with hc | hc
      · omega
      · exact this (Or.inr hc)
    simp [setBit, Mem.upd, s2, s3, h1]
  obtain ⟨m, b, e1, e2, e3⟩ := h
  simp [rootAfter, pushAll, e1, e2, e3]

/-- Witness of the amended C19 at the key `-7`. -/
theorem first_Push_root_red_witness : isInt64 (-7) ∧ rootAfter [-7] = some (1, false) :=
  ⟨by decide, first_Push_root_red (-7) (by decide)⟩

/-- C12: after every sequence of `Push` calls with `int64` keys on a new store,
`Push` of every `int64` key returns a result: no index of the bitmap is out of
range, no dereference of `nil` happens, and the loops end. -/
theorem Push_never_fails (ks : List Int) (k : Int) (hks : ∀ x ∈ ks, isInt64 x)
    (hk : isInt64 k) :
    ∃ m bs, pushAll NewStore ks = some (m, bs) ∧ ∃ m' b, Push m k = some (m', b) := by
  obtain ⟨m, T, h1, h2⟩ := pushAll_spec ks NewStore Shape.nil [] NewStore_inv hks
  obtain ⟨m', T', b, h3, _, _⟩ := Push_spec m T _ k h2 hk
  exact ⟨m, _, h1, m', b, h3⟩

/-- Witness of C12: after the keys `MinInt64`, `MaxInt64` and `0`, `Push(-1)`
returns. -/
theorem Push_never_fails_witness :
    (∀ x ∈ [-9223372036854775808, 9223372036854775807, (0 : Int)], isInt64 x) ∧
    isInt64 (-1) ∧
    ∃ m bs, pushAll NewStore [-9223372036854775808, 9223372036854775807, 0] = some (m, bs) ∧
      ∃ m' b, Push m (-1) = some (m', b) :=
  ⟨by decide, by decide,
    Push_never_fails [-9223372036854775808, 9223372036854775807, 0] (-1) (by decide) (by decide)⟩

end Guidstore

/-! ## The validators on the trees reached -/

namespace Trade

open RB

/-- On a represented subtree below the root, `testReds` does not panic when
the shape passes `nr`. -/
theorem testReds_nr (m : Heap) :
    ∀ (t : Shape (List Nat)) (s : Slot) (p fuel d : Nat), Rep m s p t → t.height < fuel →
      t.nr = true → testReds fuel m t.rootId (d + 1) = Outcome.ok () := by
  intro t
  induction t with
  | nil =>
    intro s p fuel d _ hf _
    obtain ⟨f, rfl⟩ : ∃ f, fuel = f + 1 := ⟨fuel - 1, by omega⟩
    simp [testReds, Shape.rootId]
  | node l x c b r ihl ihr =>
    intro s p fuel d hrep hf hn
    obtain ⟨f, rfl⟩ : ∃ f, fuel = f + 1 := ⟨fuel - 1, by omega⟩
    have hx0 : x ≠ 0 := hrep.2.1
    have hl : (m.nodes x).left = l.rootId := Rep_left m _ _ _ _ x c b hrep
    have hr : (m.nodes x).right = r.rootId := Rep_right m _ _ _ _ x c b hrep
    have hcl : isRed m l.rootId = l.isRed := isRed_rootId m _ _ l hrep.2.2.2.2.2.1
    have hcr : isRed m r.rootId = r.isRed := isRed_rootId m _ _ r hrep.2.2.2.2.2.2
    have hcx : isRed m x = !c := by
      have := isRed_rootId m _ _ _ hrep
      simpa [Shape.rootId] using this
    rw [nr_node] at hn
    have hhl : l.height < f := by
      simp only [Shape.height] at hf
      have := le_max_left l.height r.height
      omega
    have hhr : r.height < f := by
      simp only [Shape.height] at hf
      have := le_max_right l.height r.height
      omega
    have e1 := ihl _ _ f (d + 1) hrep.2.2.2.2.2.1 hhl hn.2.2.1
    have e2 := ihr _ _ f (d + 1) hrep.2.2.2.2.2.2 hhr hn.2.2.2
    show testReds (f + 1) m x (d + 1) = Outcome.ok ()
    unfold testReds
    rw [if_neg hx0]
    simp only [hl, hr, hcl, hcr, hcx, hn.1, e1, e2, Bool.or_false, Bool.and_false,
      Bool.false_eq_true, if_false]
    rcases hn.2.1 with h | h
    · subst h; simp
    · rw [h]; simp

/-- On a represented tree `testReds` does not panic when the shape passes
`wk`. -/
theorem testReds_wk (m : Heap) (t : Shape (List Nat)) (s : Slot) (p fuel : Nat)
    (hrep : Rep m s p t) (hf : t.height < fuel) (hw : t.wk = true) :
    testReds fuel m t.rootId 0 = Outcome.ok () := by
  cases t with
  | nil =>
    obtain ⟨f, rfl⟩ : ∃ f, fuel = f + 1 := ⟨fuel - 1, by omega⟩
    simp [testReds, Shape.rootId]
  | node l x c b r =>
    obtain ⟨f, rfl⟩ : ∃ f, fuel = f + 1 := ⟨fuel - 1, by omega⟩
    have hx0 : x ≠ 0 := hrep.2.1
    have hl : (m.nodes x).left = l.rootId := Rep_left m _ _ _ _ x c b hrep
    have hr : (m.nodes x).right = r.rootId := Rep_right m _ _ _ _ x c b hrep
    have hcl : isRed m l.rootId = l.isRed := isRed_rootId m _ _ l hrep.2.2.2.2.2.1
    have hcr : isRed m r.rootId = r.isRed := isRed_rootId m _ _ r hrep.2.2.2.2.2.2
    rw [wk_node] at hw
    have hhl : l.height < f := by
      simp only [Shape.height] at hf
      have := le_max_left l.height r.height
      omega
    have hhr : r.height < f := by
      simp only [Shape.height] at hf
      have := le_max_right l.height r.height
      omega
    have e1 := testReds_nr m l _ _ f 0 hrep.2.2.2.2.2.1 hhl hw.2.1
    have e2 := testReds_nr m r _ _ f 0 hrep.2.2.2.2.2.2 hhr hw.2.2
    show testReds (f + 1) m x 0 = Outcome.ok ()
    unfold testReds
    rw [if_neg hx0]
    simp [hl, hr, hcl, hcr, hw.1, e1, e2]

theorem TInv.fuel {m : Heap} {T : Shape (List Nat)} (h : TInv m T) : T.height < m.next + 1 := by
  have h1 := height_le T
  have h2 := Guidstore.nodup_length_le _ m.next h.levels.next_pos h.nodup_ids h.alloc_ids
  omega

/-- Every sequence of pushes of new nodes and pops of allocated nodes, from a
tree that passes the checks of `testReds`, runs and leaves a tree that passes
them. -/
theorem run_wk :
    ∀ (ops : List Op) (m : Heap) (T : Shape (List Nat)),
      TInv m T → T.wk = true → okOps m.next ops = true →
      ∃ m' T', run m ops = some m' ∧ TInv m' T' ∧ T'.wk = true := by
  intro ops
  induction ops with
  | nil => intro m T h hw _; exact ⟨m, T, rfl, h, hw⟩
  | cons op rest ih =>
    intro m T h hw hok
    cases op with
    | push val =>
      obtain ⟨m1, T1, p1, p2, _, _, _, p6, _, _, p9⟩ := pushNew_inv m T val h
      have hok1 : okOps m1.next rest = true := by rw [p6]; exact hok
      obtain ⟨m', T', q1, q2, q3⟩ := ih m1 T1 p2 (p9 hw).1 hok1
      refine ⟨m', T', ?_, q2, q3⟩
      show (match pushNew m val with
        | none => none
        | some m => run m rest) = some m'
      rw [p1]; exact q1
    | pop n =>
      simp only [okOps, Bool.and_eq_true, decide_eq_true_eq] at hok
      obtain ⟨⟨hn0, hnn⟩, hok1⟩ := hok
      obtain ⟨m1, T1, p1, p2, _, p4, _, _, _, p8⟩ :=
        pop_inv m T n h (Nat.pos_iff_ne_zero.mp hn0) hnn
      have hok2 : okOps m1.next rest = true := by rw [p4]; exact hok1
      obtain ⟨m', T', q1, q2, q3⟩ := ih m1 T1 p2 (p8 hw) hok2
      refine ⟨m', T', ?_, q2, q3⟩
      show (match pop m n with
        | none => none
        | some m => run m rest) = some m'
      rw [p1]; exact q1

/-- Claim C17, amended.  The root of the tree need not be black, but the rest
of the claim holds: after every sequence of pushes of new nodes and pops of
allocated nodes from the empty tree, the run has not failed and `testReds`
(from `validateRBT`) does not panic on the tree.  In the words of the shape
`T` that the memory represents: no node has a red right child, and no red node
below the root has a red child; only the root may be red with a red left
child. -/
theorem testReds_after_push_pop (ops : List Op) (hok : okOps 1 ops = true) :
    ∃ m, run emptyHeap ops = some m ∧
      testReds (m.next + 1) m (m.roots 0) 0 = Outcome.ok () ∧
      ∃ T : Shape (List Nat), Rep m (Slot.root 0) 0 T ∧ T.wk = true := by
  obtain ⟨m, T, h1, h2, h3⟩ := run_wk ops emptyHeap Shape.nil emptyHeap_inv rfl hok
  refine ⟨m, h1, ?_, T, h2.rep, h3⟩
  have := testReds_wk m T _ _ (m.next + 1) h2.rep h2.fuel h3
  rw [← Rep_slotVal m _ _ T h2.rep] at this
  exact this

/-- C17 at the concrete scenario: three pushes and a pop. -/
theorem testReds_after_push_pop_witness :
    okOps 1 exOps = true ∧
    ∃ m, run emptyHeap exOps = some m ∧
      testReds (m.next + 1) m (m.roots 0) 0 = Outcome.ok () :=
  ⟨by decide, (testReds_after_push_pop exOps (by decide)).imp (fun _ h => ⟨h.1, h.2.1⟩)⟩

end Trade

/-! ## The checks of `validateRBT` on the block tree -/

namespace Guidstore

open RB Trade

theorem okBelow_node (l r : Shape Unit) (x : Nat) (c : Bool) (b : Unit) :
    okBelow (Shape.node l x c b r) = true ↔
      (c = true ∨ (l.isRed = false ∧ r.isRed = false)) ∧ okBelow l = true ∧ okBelow r = true := by
  simp [okBelow, and_assoc]

theorem okRoot_node (l r : Shape Unit) (x : Nat) (c : Bool) (b : Unit) :
    okRoot (Shape.node l x c b r) = true ↔ okBelow l = true ∧ okBelow r = true := by
  simp [okRoot]

theorem okBelow_black (t : Shape Unit) (h : okRoot t = true) (hr : t.isRed = false) :
    okBelow t = true := by
  cases t with
  | nil => rfl
  | node l x c b r =>
    rw [okRoot_node] at h
    rw [okBelow_node]
    cases c
    · cases hr
    · exact ⟨Or.inl rfl, h⟩

end Guidstore

/-! ## The block tree after every sequence of `Push` calls -/

namespace Guidstore

open RB Trade

end Guidstore

/-! ## Theorems on the reference matcher -/

namespace Matcher

theorem maxIdxFrom_some (prios : List (List Nat)) :
    ∀ (n i : Nat), maxIdxFrom prios n = some i →
      i < n ∧ prios.getD i [] ≠ [] ∧ ∀ j, i < j → j < n → prios.getD j [] = [] := by
  intro n
  induction n with
  | zero => intro i h; simp [maxIdxFrom] at h
  | succ n ih =>
    intro i h
    unfold maxIdxFrom at h
    by_cases hn : prios.getD n [] ≠ []
    · rw [if_pos hn] at h
      injection h with h
      subst h
      exact ⟨Nat.lt_succ_self _, hn, fun j h1 h2 => absurd h2 (by omega)⟩
    · rw [if_neg hn] at h
      obtain ⟨h1, h2, h3⟩ := ih i h
      refine ⟨by omega, h2, fun j hj1 hj2 => ?_⟩
      by_cases hjn : j = n
      · subst hjn; exact not_not.mp hn
      · exact h3 j hj1 (by omega)

theorem maxIdxFrom_none (prios : List (List Nat)) :
    ∀ (n : Nat), maxIdxFrom prios n = none → ∀ j, j < n → prios.getD j [] = [] := by
  intro n
  induction n with
  | zero => intro _ j hj; omega
  | succ n ih =>
    intro h j hj
    unfold maxIdxFrom at h
    by_cases hn : prios.getD n [] ≠ []
    · rw [if_pos hn] at h; cases h
    · rw [if_neg hn] at h
      by_cases hjn : j = n
      · subst hjn; exact not_not.mp hn
      · exact ih h j (by omega)

theorem minIdxFrom_some (prios : List (List Nat)) :
    ∀ (k i0 i : Nat), minIdxFrom prios k i0 = some i →
      i0 ≤ i ∧ i < i0 + k ∧ prios.getD i [] ≠ [] ∧
        ∀ j, i0 ≤ j → j < i → prios.getD j [] = [] := by
  intro k
  induction k with
  | zero => intro i0 i h; simp [minIdxFrom] at h
  | succ k ih =>
    intro i0 i h
    unfold minIdxFrom at h
    by_cases hn : prios.getD i0 [] ≠ []
    · rw [if_pos hn] at h
      injection h with h
      subst h
      exact ⟨le_refl _, by omega, hn, fun j h1 h2 => absurd h2 (by omega)⟩
    · rw [if_neg hn] at h
      obtain ⟨h1, h2, h3, h4⟩ := ih (i0 + 1) i h
      refine ⟨by omega, by omega, h3, fun j hj1 hj2 => ?_⟩
      by_cases hjn : j = i0
      · subst hjn; exact not_not.mp hn
      · exact h4 j (by omega) hj2

theorem minIdxFrom_none (prios : List (List Nat)) :
    ∀ (k i0 : Nat), minIdxFrom prios k i0 = none →
      ∀ j, i0 ≤ j → j < i0 + k → prios.getD j [] = [] := by
  intro k
  induction k with
  | zero => intro _ _ j h1 h2; omega
  | succ k ih =>
    intro i0 h j hj1 hj2
    unfold minIdxFrom at h
    by_cases hn : prios.getD i0 [] ≠ []
    · rw [if_pos hn] at h; cases h
    · rw [if_neg hn] at h
      by_cases hjn : j = i0
      · subst hjn; exact not_not.mp hn
      · exact ih (i0 + 1) h j (by omega) (by omega)

/-- Membership in the flattened queue, by level. -/
theorem mem_flatten_iff_getD (prios : List (List Nat)) (p : Nat) :
    p ∈ prios.flatten ↔ ∃ i, i < prios.length ∧ p ∈ prios.getD i [] := by
  constructor
  · intro h
    rw [List.mem_flatten] at h
    obtain ⟨l, hl, hp⟩ := h
    obtain ⟨i, hi, rfl⟩ := List.getElem_of_mem hl
    exact ⟨i, hi, by simpa [List.getD, List.getElem?_eq_getElem hi] using hp⟩
  · rintro ⟨i, hi, hp⟩
    rw [List.mem_flatten]
    refine ⟨prios[i], List.getElem_mem hi, ?_⟩
    simpa [List.getD, List.getElem?_eq_getElem hi] using hp

theorem getD_nil_of_length_le (prios : List (List Nat)) (i : Nat) (h : prios.length ≤ i) :
    prios.getD i [] = [] := by
  simp [List.getD, List.getElem?_eq_none h]

theorem getD_set (prios : List (List Nat)) (i j : Nat) (l : List Nat) :
    (prios.set i l).getD j [] = if i = j ∧ i < prios.length then l else prios.getD j [] := by
  simp only [List.getD, List.getElem?_set]
  by_cases hij : i = j
  · subst hij
    by_cases hi : i < prios.length
    · simp [hi]
    · have h1 : (prios.set i l)[i]? = none :=
        List.getElem?_eq_none (by simpa using not_lt.mp hi)
      simp [hi, h1, List.getElem?_eq_none (not_lt.mp hi)]
  · simp [hij]

theorem length_flatten_set (l : List Nat) :
    ∀ (prios : List (List Nat)) (i : Nat), i < prios.length →
      (prios.set i l).flatten.length + (prios.getD i []).length =
        prios.flatten.length + l.length := by
  intro prios
  induction prios with
  | nil => intro i h; simp at h
  | cons a rest ih =>
    intro i h
    cases i with
    | zero => simp [List.getD]; omega
    | succ i =>
      have := ih i (by simpa using h)
      simp [List.getD] at this ⊢
      omega

theorem maxIdx_lt (q : prioq) (i : Nat) (h : q.maxIdx = some i) :
    i < q.prios.length ∧ q.level i ≠ [] ∧ ∀ j, i < j → q.level j = [] := by
  obtain ⟨h1, h2, h3⟩ := maxIdxFrom_some q.prios _ i h
  refine ⟨h1, h2, fun j hj => ?_⟩
  by_cases hjl : j < q.prios.length
  · exact h3 j hj hjl
  · exact getD_nil_of_length_le _ _ (not_lt.mp hjl)

theorem minIdx_lt (q : prioq) (i : Nat) (h : q.minIdx = some i) :
    i < q.prios.length ∧ q.level i ≠ [] ∧ ∀ j, j < i → q.level j = [] := by
  obtain ⟨h1, h2, h3, h4⟩ := minIdxFrom_some q.prios _ 0 i h
  exact ⟨by omega, h3, fun j hj => h4 j (Nat.zero_le _) hj⟩

theorem maxIdx_none (q : prioq) (h : q.maxIdx = none) : q.all = [] := by
  have h1 := maxIdxFrom_none q.prios _ h
  apply List.eq_nil_iff_forall_not_mem.mpr
  intro p hp
  obtain ⟨i, hi, hpi⟩ := (mem_flatten_iff_getD _ _).mp hp
  rw [h1 i hi] at hpi
  cases hpi

theorem minIdx_none (q : prioq) (h : q.minIdx = none) : q.all = [] := by
  have h1 := minIdxFrom_none q.prios _ 0 h
  apply List.eq_nil_iff_forall_not_mem.mpr
  intro p hp
  obtain ⟨i, hi, hpi⟩ := (mem_flatten_iff_getD _ _).mp hp
  rw [h1 i (Nat.zero_le _) (by omega)] at hpi
  cases hpi

theorem peekMax_some (q : prioq) (b : Nat) (h : q.peekMax = some b) :
    ∃ i rest, q.maxIdx = some i ∧ i < q.prios.length ∧ q.level i = b :: rest ∧
      ∀ j, i < j → q.level j = [] := by
  unfold prioq.peekMax at h
  cases hi : q.maxIdx with
  | none => rw [hi] at h; cases h
  | some i =>
    rw [hi] at h
    obtain ⟨h1, h2, h3⟩ := maxIdx_lt q i hi
    cases hl : q.level i with
    | nil => exact absurd hl h2
    | cons a rest =>
      simp only [hl, List.head?_cons, Option.some.injEq] at h
      subst h
      exact ⟨i, rest, rfl, h1, hl, h3⟩

theorem peekMin_some (q : prioq) (s : Nat) (h : q.peekMin = some s) :
    ∃ i rest, q.minIdx = some i ∧ i < q.prios.length ∧ q.level i = s :: rest ∧
      ∀ j, j < i → q.level j = [] := by
  unfold prioq.peekMin at h
  cases hi : q.minIdx with
  | none => rw [hi] at h; cases h
  | some i =>
    rw [hi] at h
    obtain ⟨h1, h2, h3⟩ := minIdx_lt q i hi
    cases hl : q.level i with
    | nil => exact absurd hl h2
    | cons a rest =>
      simp only [hl, List.head?_cons, Option.some.injEq] at h
      subst h
      exact ⟨i, rest, rfl, h1, hl, h3⟩

theorem peekMax_none (q : prioq) (h : q.peekMax = none) : q.all = [] := by
  unfold prioq.peekMax at h
  cases hi : q.maxIdx with
  | none => exact maxIdx_none q hi
  | some i =>
    rw [hi] at h
    obtain ⟨h1, h2, h3⟩ := maxIdx_lt q i hi
    cases hl : q.level i with
    | nil => exact absurd hl h2
    | cons a rest => simp [hl] at h

theorem peekMin_none (q : prioq) (h : q.peekMin = none) : q.all = [] := by
  unfold prioq.peekMin at h
  cases hi : q.minIdx with
  | none => exact minIdx_none q hi
  | some i =>
    rw [hi] at h
    obtain ⟨h1, h2, h3⟩ := minIdx_lt q i hi
    cases hl : q.level i with
    | nil => exact absurd hl h2
    | cons a rest => simp [hl] at h

theorem pop_length (q : prioq) (i : Nat) : (q.pop i).prios.length = q.prios.length := by
  simp [prioq.pop]

theorem pop_level (q : prioq) (i j : Nat) :
    (q.pop i).level j = if i = j then (q.level i).tail else q.level j := by
  unfold prioq.pop prioq.level
  simp only [getD_set]
  by_cases hij : i = j
  · subst hij
    by_cases hi : i < q.prios.length
    · simp [hi]
    · simp [hi, List.getD, List.getElem?_eq_none (not_lt.mp hi)]
  · simp [hij]

theorem pop_all_length (q : prioq) (i : Nat) (hi : i < q.prios.length) :
    (q.pop i).all.length + (q.level i).length = q.all.length + (q.level i).tail.length := by
  unfold prioq.pop prioq.all prioq.level
  exact length_flatten_set _ q.prios i hi

theorem popMax_all_le (q : prioq) : q.popMax.all.length ≤ q.all.length := by
  unfold prioq.popMax
  cases hi : q.maxIdx with
  | none => exact le_refl _
  | some i =>
    have h := pop_all_length q i (maxIdx_lt q i hi).1
    have : (q.level i).tail.length ≤ (q.level i).length := by simp
    simp only
    omega

theorem popMin_all_le (q : prioq) : q.popMin.all.length ≤ q.all.length := by
  unfold prioq.popMin
  cases hi : q.minIdx with
  | none => exact le_refl _
  | some i =>
    have h := pop_all_length q i (minIdx_lt q i hi).1
    have : (q.level i).tail.length ≤ (q.level i).length := by simp
    simp only
    omega

theorem popMax_all_lt (q : prioq) (b : Nat) (hb : q.peekMax = some b) :
    q.popMax.all.length < q.all.length := by
  obtain ⟨i, rest, hi, hlt, hl, _⟩ := peekMax_some q b hb
  unfold prioq.popMax
  rw [hi]
  have h := pop_all_length q i hlt
  rw [hl] at h
  simp at h
  simp only
  omega

theorem popMin_all_lt (q : prioq) (s : Nat) (hs : q.peekMin = some s) :
    q.popMin.all.length < q.all.length := by
  obtain ⟨i, rest, hi, hlt, hl, _⟩ := peekMin_some q s hs
  unfold prioq.popMin
  rw [hi]
  have h := pop_all_length q i hlt
  rw [hl] at h
  simp at h
  simp only
  omega

/-! ### Sizes through one iteration of the match loop -/

@[simp] theorem completeTrade_buys (m : refmatcher) (brk srk : ResponseKind) (b s : Nat)
    (p : Int) (a : Nat) : (completeTrade m brk srk b s p a).buys = m.buys := rfl

@[simp] theorem completeTrade_sells (m : refmatcher) (brk srk : ResponseKind) (b s : Nat)
    (p : Int) (a : Nat) : (completeTrade m brk srk b s p a).sells = m.sells := rfl

@[simp] theorem completeTrade_orders (m : refmatcher) (brk srk : ResponseKind) (b s : Nat)
    (p : Int) (a : Nat) : (completeTrade m brk srk b s p a).orders = m.orders := rfl

@[simp] theorem completeTrade_next (m : refmatcher) (brk srk : ResponseKind) (b s : Nat)
    (p : Int) (a : Nat) : (completeTrade m brk srk b s p a).next = m.next := rfl

@[simp] theorem reduce_buys (m : refmatcher) (s a : Nat) : (m.reduce s a).buys = m.buys := rfl

@[simp] theorem reduce_sells (m : refmatcher) (s a : Nat) : (m.reduce s a).sells = m.sells := rfl

@[simp] theorem reduce_next (m : refmatcher) (s a : Nat) : (m.reduce s a).next = m.next := rfl

@[simp] theorem reduce_rb (m : refmatcher) (s a : Nat) : (m.reduce s a).rb = m.rb := rfl

@[simp] theorem popBuy_sells (m : refmatcher) : m.popBuy.sells = m.sells := rfl

@[simp] theorem popBuy_buys (m : refmatcher) : m.popBuy.buys = m.buys.popMax := rfl

@[simp] theorem popBuy_next (m : refmatcher) : m.popBuy.next = m.next := rfl

@[simp] theorem popSell_sells (m : refmatcher) : m.popSell.sells = m.sells.popMin := rfl

@[simp] theorem popSell_buys (m : refmatcher) : m.popSell.buys = m.buys := rfl

@[simp] theorem popSell_orders (m : refmatcher) : m.popSell.orders = m.orders := rfl

@[simp] theorem popSell_next (m : refmatcher) : m.popSell.next = m.next := rfl

@[simp] theorem popSell_rb (m : refmatcher) : m.popSell.rb = m.rb := rfl

theorem reduce_price (m : refmatcher) (s a p : Nat) :
    ((m.reduce s a).orders p).price = (m.orders p).price := by
  unfold refmatcher.reduce
  by_cases h : p = s
  · subst h; simp [Order.ReduceAmount]
  · simp [Function.update_noteq h]

theorem reduce_guid (m : refmatcher) (s a p : Nat) :
    ((m.reduce s a).orders p).guid = (m.orders p).guid := by
  unfold refmatcher.reduce
  by_cases h : p = s
  · subst h; simp [Order.ReduceAmount]
  · simp [Function.update_noteq h]

theorem StepRel.refl (m : refmatcher) : StepRel m m :=
  ⟨Or.inl rfl, Or.inl rfl, fun _ => rfl, fun _ => rfl, rfl⟩

theorem matchEq_rel (m : refmatcher) (b s : Nat) : StepRel m (matchEq m b s) := by
  unfold matchEq
  split
  · exact ⟨Or.inr rfl, Or.inr rfl, fun _ => rfl, fun _ => rfl, rfl⟩
  · exact StepRel.refl m

theorem matchBigSell_rel (m : refmatcher) (b s : Nat) : StepRel m (matchBigSell m b s) := by
  unfold matchBigSell
  split
  · exact ⟨Or.inr rfl, Or.inl rfl, fun p => reduce_price _ _ _ _, fun p => reduce_guid _ _ _ _, rfl⟩
  · exact StepRel.refl m

theorem matchBigBuy_rel (m : refmatcher) (b s : Nat) : StepRel m (matchBigBuy m b s) := by
  unfold matchBigBuy
  split
  · exact ⟨Or.inl rfl, Or.inr rfl, fun p => reduce_price _ _ _ _, fun p => reduce_guid _ _ _ _, rfl⟩
  · exact StepRel.refl m

theorem StepRel.size_le {m m' : refmatcher} (h : StepRel m m') : m'.size ≤ m.size := by
  unfold refmatcher.size
  have hb : m'.buys.all.length ≤ m.buys.all.length := by
    rcases h.buys with e | e
    · rw [e]
    · rw [e]; exact popMax_all_le _
  have hs : m'.sells.all.length ≤ m.sells.all.length := by
    rcases h.sells with e | e
    · rw [e]
    · rw [e]; exact popMin_all_le _
  omega

theorem matchStep_size (m m' : refmatcher) (h : matchStep m = some m') : m'.size < m.size := by
  unfold matchStep at h
  cases hs : m.peekSell with
  | none => rw [hs] at h; simp at h
  | some s =>
    cases hb : m.peekBuy with
    | none => rw [hs, hb] at h; simp at h
    | some b =>
      rw [hs, hb] at h
      simp only at h
      split at h
      · cases h
      · injection h with h
        subst h
        have h3 := (matchBigBuy_rel (matchBigSell (matchEq m b s) b s) b s).size_le
        have h2 := (matchBigSell_rel (matchEq m b s) b s).size_le
        have h1 := (matchEq_rel m b s).size_le
        rcases Nat.lt_trichotomy (m.orders s).amount (m.orders b).amount with hlt | heq | hgt
        · -- only the third `if` fires
          have e1 : matchEq m b s = m := by
            unfold matchEq; rw [if_neg (by omega)]
          have e2 : matchBigSell m b s = m := by
            unfold matchBigSell; rw [if_neg (by omega)]
          rw [e1, e2]
          unfold matchBigBuy
          rw [if_pos hlt]
          have := popMin_all_lt m.sells s hs
          simp only [refmatcher.size, completeTrade_buys, completeTrade_sells, reduce_buys,
            reduce_sells, popSell_sells, popSell_buys]
          omega
        · have : (matchEq m b s).size < m.size := by
            unfold matchEq
            rw [if_pos heq]
            have := popMin_all_lt m.sells s hs
            have := popMax_all_le m.buys
            simp only [refmatcher.size, completeTrade_buys, completeTrade_sells,
              popSell_sells, popSell_buys, popBuy_buys, popBuy_sells]
            omega
          omega
        · have e1 : matchEq m b s = m := by
            unfold matchEq; rw [if_neg (by omega)]
          rw [e1] at h2 h3 ⊢
          have : (matchBigSell m b s).size < m.size := by
            unfold matchBigSell
            rw [if_pos hgt]
            have := popMax_all_lt m.buys b hb
            simp only [refmatcher.size, completeTrade_buys, completeTrade_sells, reduce_buys,
              reduce_sells, popBuy_buys, popBuy_sells]
            omega
          omega

/-- The match loop terminates: with more fuel than resting orders it returns a
state in which the loop condition fails. -/
theorem matchLoop_terminates :
    ∀ (fuel : Nat) (m : refmatcher), m.size < fuel →
      ∃ m', matchLoop fuel m = some m' ∧ matchStep m' = none := by
  intro fuel
  induction fuel with
  | zero => intro m h; omega
  | succ fuel ih =>
    intro m h
    unfold matchLoop
    cases hst : matchStep m with
    | none => exact ⟨m, rfl, hst⟩
    | some m1 =>
      have := matchStep_size m m1 hst
      exact ih m1 (by omega)

theorem pop_level_subset (q : prioq) (i j p : Nat) (h : p ∈ (q.pop i).level j) :
    p ∈ q.level j := by
  rw [pop_level] at h
  split at h
  · rename_i e; subst e; exact List.mem_of_mem_tail h
  · exact h

theorem popMax_level_subset (q : prioq) (j p : Nat) (h : p ∈ q.popMax.level j) :
    p ∈ q.level j := by
  unfold prioq.popMax at h
  split at h
  · exact h
  · exact pop_level_subset _ _ _ _ h

theorem popMin_level_subset (q : prioq) (j p : Nat) (h : p ∈ q.popMin.level j) :
    p ∈ q.level j := by
  unfold prioq.popMin at h
  split at h
  · exact h
  · exact pop_level_subset _ _ _ _ h

theorem popMax_length (q : prioq) : q.popMax.prios.length = q.prios.length := by
  unfold prioq.popMax; split
  · rfl
  · exact pop_length _ _

theorem popMin_length (q : prioq) : q.popMin.prios.length = q.prios.length := by
  unfold prioq.popMin; split
  · rfl
  · exact pop_length _ _

theorem popMax_low (q : prioq) : q.popMax.lowPrice = q.lowPrice := by
  unfold prioq.popMax; split <;> rfl

theorem popMin_low (q : prioq) : q.popMin.lowPrice = q.lowPrice := by
  unfold prioq.popMin; split <;> rfl

theorem StepRel.consistent {m m' : refmatcher} (h : StepRel m m') (low : Int) (n : Nat)
    (hc : m.Consistent low n) : m'.Consistent low n := by
  obtain ⟨c1, c2, c3, c4, c5, c6⟩ := hc
  refine ⟨?_, ?_, ?_, ?_, ?_, ?_⟩
  · rcases h.buys with e | e <;> rw [e]
    · exact c1
    · rw [popMax_length]; exact c1
  · rcases h.sells with e | e <;> rw [e]
    · exact c2
    · rw [popMin_length]; exact c2
  · rcases h.buys with e | e <;> rw [e]
    · exact c3
    · rw [popMax_low]; exact c3
  · rcases h.sells with e | e <;> rw [e]
    · exact c4
    · rw [popMin_low]; exact c4
  · intro i p hp
    rw [h.price, h.next]
    rcases h.buys with e | e <;> rw [e] at hp
    · exact c5 i p hp
    · exact c5 i p (popMax_level_subset _ _ _ hp)
  · intro i p hp
    rw [h.price, h.next]
    rcases h.sells with e | e <;> rw [e] at hp
    · exact c6 i p hp
    · exact c6 i p (popMin_level_subset _ _ _ hp)

theorem StepRel.trans {a b c : refmatcher} (h1 : StepRel a b) (h2 : StepRel b c)
    (low : Int) (n : Nat) (hc : a.Consistent low n) : c.Consistent low n :=
  h2.consistent low n (h1.consistent low n hc)

theorem matchStep_consistent (m m' : refmatcher) (low : Int) (n : Nat)
    (h : matchStep m = some m') (hc : m.Consistent low n) : m'.Consistent low n := by
  unfold matchStep at h
  split at h
  · split at h
    · cases h
    · injection h with h
      subst h
      rename_i s b _ _ _
      exact (matchBigBuy_rel _ b s).consistent low n
        ((matchBigSell_rel _ b s).consistent low n ((matchEq_rel m b s).consistent low n hc))
  · cases h

theorem matchLoop_consistent (low : Int) (n : Nat) :
    ∀ (fuel : Nat) (m m' : refmatcher), matchLoop fuel m = some m' →
      m.Consistent low n → m'.Consistent low n := by
  intro fuel
  induction fuel with
  | zero => intro m m' h; simp [matchLoop] at h
  | succ fuel ih =>
    intro m m' h hc
    unfold matchLoop at h
    cases hst : matchStep m with
    | none => rw [hst] at h; injection h with h; subst h; exact hc
    | some m1 =>
      rw [hst] at h
      exact ih m1 m' h (matchStep_consistent m m1 low n hst hc)

/-- When the loop condition fails in a consistent book, the book is not
crossed. -/
theorem uncrossed_of_matchStep_none (m : refmatcher) (low : Int) (n : Nat)
    (hc : m.Consistent low n) (h : matchStep m = none) : m.Uncrossed := by
  obtain ⟨c1, c2, c3, c4, c5, c6⟩ := hc
  intro b hb s hs
  unfold matchStep at h
  cases hps : m.peekSell with
  | none =>
    have := peekMin_none m.sells hps
    rw [this] at hs; cases hs
  | some s0 =>
    cases hpb : m.peekBuy with
    | none =>
      have := peekMax_none m.buys hpb
      rw [this] at hb; cases hb
    | some b0 =>
      rw [hps, hpb] at h
      simp only at h
      split at h
      · rename_i hlt
        obtain ⟨ib, restb, _, hib, hlb, hmaxb⟩ := peekMax_some m.buys b0 hpb
        obtain ⟨is, rests, _, his, hls, hmins⟩ := peekMin_some m.sells s0 hps
        have hb0 := (c5 ib b0 (by rw [hlb]; exact List.mem_cons_self _ _)).1
        have hs0 := (c6 is s0 (by rw [hls]; exact List.mem_cons_self _ _)).1
        obtain ⟨i, hi, hbi⟩ := (mem_flatten_iff_getD _ _).mp hb
        obtain ⟨j, hj, hsj⟩ := (mem_flatten_iff_getD _ _).mp hs
        have hbp := (c5 i b hbi).1
        have hsp := (c6 j s hsj).1
        have hib' : i ≤ ib := by
          by_contra hcon
          have := hmaxb i (by omega)
          unfold prioq.level at this
          rw [this] at hbi; cases hbi
        have hjs' : is ≤ j := by
          by_contra hcon
          have := hmins j (by omega)
          unfold prioq.level at this
          rw [this] at hsj; cases hsj
        rw [hbp, hsp]
        rw [hb0, hs0] at hlt
        have h1 : (i : Int) ≤ ib := by exact_mod_cast hib'
        have h2 : (is : Int) ≤ j := by exact_mod_cast hjs'
        omega
      · cases h

theorem removeLevel_some (orders : Nat → Order) (g : Int) :
    ∀ (l : List Nat) (r : Nat) (l' : List Nat), removeLevel orders g l = some (r, l') →
      ∃ pre post, l = pre ++ r :: post ∧ l' = pre ++ post ∧ (orders r).guid = g ∧
        ∀ x ∈ pre, (orders x).guid ≠ g := by
  intro l
  induction l with
  | nil => intro r l' h; simp [removeLevel] at h
  | cons a rest ih =>
    intro r l' h
    unfold removeLevel at h
    by_cases hg : (orders a).guid = g
    · rw [if_pos hg] at h
      injection h with h
      injection h with h1 h2
      subst h1; subst h2
      exact ⟨[], rest, rfl, rfl, hg, fun x hx => by cases hx⟩
    · rw [if_neg hg] at h
      cases hr : removeLevel orders g rest with
      | none => rw [hr] at h; cases h
      | some v =>
        obtain ⟨r1, rest1⟩ := v
        rw [hr] at h
        injection h with h
        injection h with h1 h2
        subst h1; subst h2
        obtain ⟨pre, post, e1, e2, e3, e4⟩ := ih r1 rest1 hr
        refine ⟨a :: pre, post, by rw [e1]; rfl, by rw [e2]; rfl, e3, ?_⟩
        intro x hx
        rcases List.mem_cons.mp hx with e | e
        · rw [e]; exact hg
        · exact e4 x e

theorem removeLevel_none (orders : Nat → Order) (g : Int) :
    ∀ (l : List Nat), removeLevel orders g l = none → ∀ x ∈ l, (orders x).guid ≠ g := by
  intro l
  induction l with
  | nil => intro _ x hx; cases hx
  | cons a rest ih =>
    intro h x hx
    unfold removeLevel at h
    by_cases hg : (orders a).guid = g
    · rw [if_pos hg] at h; cases h
    · rw [if_neg hg] at h
      cases hr : removeLevel orders g rest with
      | none =>
        rcases List.mem_cons.mp hx with e | e
        · rw [e]; exact hg
        · exact ih hr x e
      | some v => rw [hr] at h; cases h

theorem removeFrom_some (orders : Nat → Order) (g : Int) :
    ∀ (prios : List (List Nat)) (r : Nat) (prios' : List (List Nat)),
      removeFrom orders g prios = some (r, prios') →
      ∃ i pre post, i < prios.length ∧ prios.getD i [] = pre ++ r :: post ∧
        prios' = prios.set i (pre ++ post) ∧ (orders r).guid = g ∧
        (∀ x ∈ pre, (orders x).guid ≠ g) ∧
        ∀ j, j < i → ∀ x ∈ prios.getD j [], (orders x).guid ≠ g := by
  intro prios
  induction prios with
  | nil => intro r p h; simp [removeFrom] at h
  | cons lvl rest ih =>
    intro r prios' h
    unfold removeFrom at h
    cases hl : removeLevel orders g lvl with
    | some v =>
      obtain ⟨r1, lvl1⟩ := v
      rw [hl] at h
      injection h with h
      injection h with h1 h2
      subst h1; subst h2
      obtain ⟨pre, post, e1, e2, e3, e4⟩ := removeLevel_some orders g lvl r1 lvl1 hl
      exact ⟨0, pre, post, by simp, by simpa [List.getD] using e1, by simp [e2], e3, e4,
        fun j hj => absurd hj (by omega)⟩
    | none =>
      rw [hl] at h
      cases hr : removeFrom orders g rest with
      | none => rw [hr] at h; cases h
      | some v =>
        obtain ⟨r1, rest1⟩ := v
        rw [hr] at h
        injection h with h
        injection h with h1 h2
        subst h1; subst h2
        obtain ⟨i, pre, post, e0, e1, e2, e3, e4, e5⟩ := ih r1 rest1 hr
        refine ⟨i + 1, pre, post, by simpa using e0, by simpa [List.getD] using e1,
          by simp [e2], e3, e4, ?_⟩
        intro j hj x hx
        cases j with
        | zero => exact removeLevel_none orders g lvl hl x (by simpa [List.getD] using hx)
        | succ j => exact e5 j (by omega) x (by simpa [List.getD] using hx)

theorem removeFrom_none (orders : Nat → Order) (g : Int) :
    ∀ (prios : List (List Nat)), removeFrom orders g prios = none →
      ∀ x ∈ prios.flatten, (orders x).guid ≠ g := by
  intro prios
  induction prios with
  | nil => intro _ x hx; simp at hx
  | cons lvl rest ih =>
    intro h x hx
    unfold removeFrom at h
    cases hl : removeLevel orders g lvl with
    | some v => rw [hl] at h; cases h
    | none =>
      rw [hl] at h
      cases hr : removeFrom orders g rest with
      | some v => rw [hr] at h; cases h
      | none =>
        rw [List.flatten_cons, List.mem_append] at hx
        rcases hx with e | e
        · exact removeLevel_none orders g lvl hl x e
        · exact ih hr x e

/-- What `prioq.remove` does: either nothing (no order with the guid), or one
order leaves its slice and nothing else moves. -/
theorem remove_spec (q : prioq) (orders : Nat → Order) (g : Int) :
    ((q.remove orders g).1 = none ∧ (q.remove orders g).2 = q ∧
        ∀ x ∈ q.all, (orders x).guid ≠ g) ∨
    ∃ r i pre post, (q.remove orders g).1 = some r ∧ i < q.prios.length ∧
      q.level i = pre ++ r :: post ∧
      (q.remove orders g).2 = { q with prios := q.prios.set i (pre ++ post) } ∧
      (orders r).guid = g := by
  unfold prioq.remove
  cases h : removeFrom orders g q.prios with
  | none => exact Or.inl ⟨rfl, rfl, removeFrom_none orders g q.prios h⟩
  | some v =>
    obtain ⟨r, prios'⟩ := v
    obtain ⟨i, pre, post, e0, e1, e2, e3, _, _⟩ := removeFrom_some orders g q.prios r prios' h
    exact Or.inr ⟨r, i, pre, post, rfl, e0, e1, by simp [e2], e3⟩

theorem level_set (q : prioq) (i j : Nat) (l : List Nat) :
    ({ q with prios := q.prios.set i l } : prioq).level j =
      if i = j ∧ i < q.prios.length then l else q.level j := by
  unfold prioq.level
  exact getD_set _ _ _ _

theorem mem_all_iff (q : prioq) (p : Nat) :
    p ∈ q.all ↔ ∃ i, i < q.prios.length ∧ p ∈ q.level i :=
  mem_flatten_iff_getD _ _

theorem mem_all_of_level (q : prioq) (i p : Nat) (h : p ∈ q.level i) : p ∈ q.all := by
  by_cases hi : i < q.prios.length
  · exact (mem_all_iff q p).mpr ⟨i, hi, h⟩
  · unfold prioq.level at h
    rw [getD_nil_of_length_le _ _ (not_lt.mp hi)] at h
    cases h

theorem remove_level_subset (q : prioq) (orders : Nat → Order) (g : Int) (j p : Nat)
    (h : p ∈ (q.remove orders g).2.level j) : p ∈ q.level j := by
  rcases remove_spec q orders g with ⟨_, e, _⟩ | ⟨r, i, pre, post, _, hi, hl, e, _⟩
  · rw [e] at h; exact h
  · rw [e, level_set] at h
    split at h
    · rename_i hij
      obtain ⟨rfl, _⟩ := hij
      rw [hl]
      rcases List.mem_append.mp h with h | h
      · exact List.mem_append_left _ h
      · exact List.mem_append_right _ (List.mem_cons_of_mem _ h)
    · exact h

theorem remove_length (q : prioq) (orders : Nat → Order) (g : Int) :
    (q.remove orders g).2.prios.length = q.prios.length := by
  rcases remove_spec q orders g with ⟨_, e, _⟩ | ⟨r, i, pre, post, _, hi, hl, e, _⟩
  · rw [e]
  · rw [e]; simp

theorem remove_low (q : prioq) (orders : Nat → Order) (g : Int) :
    (q.remove orders g).2.lowPrice = q.lowPrice := by
  rcases remove_spec q orders g with ⟨_, e, _⟩ | ⟨r, i, pre, post, _, hi, hl, e, _⟩
  · rw [e]
  · rw [e]

/-- Effect of `prioq.push`. -/
theorem push_spec (q q' : prioq) (orders : Nat → Order) (o : Nat)
    (h : q.push orders o = some q') :
    ∃ i : Nat, ((orders o).price - q.lowPrice) = (i : Int) ∧ i < q.prios.length ∧
      q' = { q with prios := q.prios.set i (q.level i ++ [o]) } := by
  unfold prioq.push at h
  simp only at h
  split at h
  · rename_i hc
    injection h with h
    refine ⟨((orders o).price - q.lowPrice).toNat, ?_, hc.2, h.symm⟩
    exact (Int.toNat_of_nonneg hc.1).symm
  · cases h

theorem push_some (q : prioq) (orders : Nat → Order) (o : Nat) (i : Nat)
    (hi : (orders o).price - q.lowPrice = (i : Int)) (hlt : i < q.prios.length) :
    q.push orders o = some { q with prios := q.prios.set i (q.level i ++ [o]) } := by
  unfold prioq.push
  simp only
  have : ((orders o).price - q.lowPrice).toNat = i := by rw [hi]; simp
  rw [this, if_pos ⟨by rw [hi]; exact Int.natCast_nonneg _, hlt⟩]

theorem alloc_fst (m : refmatcher) (od : Order) : (m.alloc od).1 = m.next := rfl

theorem alloc_orders_new (m : refmatcher) (od : Order) :
    (m.alloc od).2.orders m.next = od := by
  simp [refmatcher.alloc]

theorem alloc_orders_old (m : refmatcher) (od : Order) (p : Nat) (hp : p < m.next) :
    (m.alloc od).2.orders p = m.orders p := by
  simp [refmatcher.alloc, Function.update_noteq (Nat.ne_of_lt hp)]

theorem alloc_consistent (m : refmatcher) (od : Order) (low : Int) (n : Nat)
    (hc : m.Consistent low n) : (m.alloc od).2.Consistent low n := by
  obtain ⟨c1, c2, c3, c4, c5, c6⟩ := hc
  refine ⟨c1, c2, c3, c4, ?_, ?_⟩
  · intro i p hp
    have := c5 i p hp
    rw [alloc_orders_old m od p this.2]
    exact ⟨this.1, Nat.lt_succ_of_lt this.2⟩
  · intro i p hp
    have := c6 i p hp
    rw [alloc_orders_old m od p this.2]
    exact ⟨this.1, Nat.lt_succ_of_lt this.2⟩

theorem alloc_uncrossed (m : refmatcher) (od : Order) (low : Int) (n : Nat)
    (hc : m.Consistent low n) (hu : m.Uncrossed) : (m.alloc od).2.Uncrossed := by
  intro b hb s hs
  obtain ⟨i, _, hbi⟩ := (mem_all_iff _ _).mp hb
  obtain ⟨j, _, hsj⟩ := (mem_all_iff _ _).mp hs
  rw [alloc_orders_old m od b (hc.2.2.2.2.1 i b hbi).2,
    alloc_orders_old m od s (hc.2.2.2.2.2 j s hsj).2]
  exact hu b hb s hs

theorem submit_cancel_eq (m : refmatcher) (od : Order) (hk : od.kind = OrderKind.CANCEL) :
    m.submit od =
      match (m.alloc od).2.pop m.next with
      | (some co, m') => some (completeCancel m' ResponseKind.CANCELLED co)
      | (none, m') => some (completeCancel m' ResponseKind.NOT_CANCELLED m.next) := by
  unfold refmatcher.submit
  simp only [alloc_fst]
  have : ((m.alloc od).2.orders m.next).kind = OrderKind.CANCEL := by
    rw [alloc_orders_new]; exact hk
  show (if ((m.alloc od).2.orders m.next).kind = OrderKind.CANCEL then _ else _) = _
  rw [if_pos this]
  all_goals rfl

theorem submit_order_eq (m : refmatcher) (od : Order) (hk : od.kind ≠ OrderKind.CANCEL) :
    m.submit od =
      match (m.alloc od).2.push m.next with
      | none => none
      | some m' => m'.match_ := by
  unfold refmatcher.submit
  simp only [alloc_fst]
  have : ¬ ((m.alloc od).2.orders m.next).kind = OrderKind.CANCEL := by
    rw [alloc_orders_new]; exact hk
  show (if ((m.alloc od).2.orders m.next).kind = OrderKind.CANCEL then _ else _) = _
  rw [if_neg this]
  all_goals rfl

/-- `refmatcher.pop` only shrinks slices. -/
theorem pop_rel (m : refmatcher) (o : Nat) :
    (m.pop o).2.orders = m.orders ∧ (m.pop o).2.next = m.next ∧ (m.pop o).2.rb = m.rb ∧
    (m.pop o).2.buys.prios.length = m.buys.prios.length ∧
    (m.pop o).2.sells.prios.length = m.sells.prios.length ∧
    (m.pop o).2.buys.lowPrice = m.buys.lowPrice ∧
    (m.pop o).2.sells.lowPrice = m.sells.lowPrice ∧
    (∀ j p, p ∈ (m.pop o).2.buys.level j → p ∈ m.buys.level j) ∧
    (∀ j p, p ∈ (m.pop o).2.sells.level j → p ∈ m.sells.level j) := by
  unfold refmatcher.pop
  simp only
  cases hb : m.buys.remove m.orders (m.orders o).guid with
  | mk r q =>
    cases r with
    | some ro =>
      simp only
      have e : q = (m.buys.remove m.orders (m.orders o).guid).2 := by rw [hb]
      refine ⟨by trivial, by trivial, by trivial, ?_, by trivial, ?_, by trivial, ?_, fun j p h => h⟩
      · rw [e]; exact remove_length _ _ _
      · rw [e]; exact remove_low _ _ _
      · intro j p h; rw [e] at h; exact remove_level_subset _ _ _ _ _ h
    | none =>
      simp only
      refine ⟨by trivial, by trivial, by trivial, by trivial, ?_, by trivial, ?_, fun j p h => h, ?_⟩
      · exact remove_length _ _ _
      · exact remove_low _ _ _
      · intro j p h; exact remove_level_subset _ _ _ _ _ h

theorem pop_consistent (m : refmatcher) (o : Nat) (low : Int) (n : Nat)
    (hc : m.Consistent low n) : (m.pop o).2.Consistent low n := by
  obtain ⟨c1, c2, c3, c4, c5, c6⟩ := hc
  obtain ⟨p1, p2, p3, p4, p5, p6, p7, p8, p9⟩ := pop_rel m o
  refine ⟨by rw [p4]; exact c1, by rw [p5]; exact c2, by rw [p6]; exact c3,
    by rw [p7]; exact c4, ?_, ?_⟩
  · intro i p hp; rw [p1, p2]; exact c5 i p (p8 i p hp)
  · intro i p hp; rw [p1, p2]; exact c6 i p (p9 i p hp)

theorem pop_uncrossed (m : refmatcher) (o : Nat) (hu : m.Uncrossed) :
    (m.pop o).2.Uncrossed := by
  obtain ⟨p1, p2, p3, p4, p5, p6, p7, p8, p9⟩ := pop_rel m o
  intro b hb s hs
  obtain ⟨i, _, hbi⟩ := (mem_all_iff _ _).mp hb
  obtain ⟨j, _, hsj⟩ := (mem_all_iff _ _).mp hs
  rw [p1]
  exact hu b (mem_all_of_level _ i b (p8 i b hbi)) s (mem_all_of_level _ j s (p9 j s hsj))

theorem push_consistent (m m' : refmatcher) (o : Nat) (low : Int) (n : Nat)
    (hc : m.Consistent low n) (ho : o < m.next) (h : m.push o = some m') :
    m'.Consistent low n := by
  obtain ⟨c1, c2, c3, c4, c5, c6⟩ := hc
  unfold refmatcher.push at h
  split at h
  · cases hq : m.buys.push m.orders o with
    | none => rw [hq] at h; cases h
    | some q =>
      rw [hq] at h
      injection h with h
      subst h
      obtain ⟨i, hi, hlt, e⟩ := push_spec _ _ _ _ hq
      subst e
      refine ⟨by simpa using c1, c2, c3, c4, ?_, c6⟩
      intro j p hp
      show (m.orders p).price = _ ∧ p < m.next
      rw [level_set] at hp
      split at hp
      · rename_i hij
        obtain ⟨rfl, _⟩ := hij
        rcases List.mem_append.mp hp with hp | hp
        · exact c5 _ p hp
        · rw [List.mem_singleton] at hp
          subst hp
          rw [c3] at hi
          exact ⟨by omega, ho⟩
      · exact c5 j p hp
  · cases hq : m.sells.push m.orders o with
    | none => rw [hq] at h; cases h
    | some q =>
      rw [hq] at h
      injection h with h
      subst h
      obtain ⟨i, hi, hlt, e⟩ := push_spec _ _ _ _ hq
      subst e
      refine ⟨c1, by simpa using c2, c3, c4, c5, ?_⟩
      intro j p hp
      show (m.orders p).price = _ ∧ p < m.next
      rw [level_set] at hp
      split at hp
      · rename_i hij
        obtain ⟨rfl, _⟩ := hij
        rcases List.mem_append.mp hp with hp | hp
        · exact c6 _ p hp
        · rw [List.mem_singleton] at hp
          subst hp
          rw [c4] at hi
          exact ⟨by omega, ho⟩
      · exact c6 j p hp
  · cases h

theorem push_exists (m : refmatcher) (o : Nat) (low : Int) (n : Nat)
    (hc : m.Consistent low n) (hk : (m.orders o).kind ≠ OrderKind.CANCEL)
    (h1 : low ≤ (m.orders o).price) (h2 : (m.orders o).price < low + n) :
    ∃ m', m.push o = some m' := by
  obtain ⟨c1, c2, c3, c4, c5, c6⟩ := hc
  have hi : (m.orders o).price - low = (((m.orders o).price - low).toNat : Int) :=
    (Int.toNat_of_nonneg (by omega)).symm
  have hlt : ((m.orders o).price - low).toNat < n := by
    have : (((m.orders o).price - low).toNat : Int) < n := by rw [← hi]; omega
    exact_mod_cast this
  unfold refmatcher.push
  cases hkind : (m.orders o).kind with
  | BUY =>
    simp only
    rw [push_some m.buys m.orders o _ (by rw [c3]; exact hi) (by rw [c1]; exact hlt)]
    exact ⟨_, rfl⟩
  | SELL =>
    simp only
    rw [push_some m.sells m.orders o _ (by rw [c4]; exact hi) (by rw [c2]; exact hlt)]
    exact ⟨_, rfl⟩
  | CANCEL => exact absurd hkind hk

/-- One submission keeps the book consistent and leaves it uncrossed. -/
theorem submit_inv (m : refmatcher) (od : Order) (low : Int) (n : Nat)
    (hc : m.Consistent low n) (hu : m.Uncrossed)
    (hp : od.kind ≠ OrderKind.CANCEL → low ≤ od.price ∧ od.price < low + n) :
    ∃ m', m.submit od = some m' ∧ m'.Consistent low n ∧ m'.Uncrossed := by
  by_cases hk : od.kind = OrderKind.CANCEL
  · rw [submit_cancel_eq m od hk]
    have hc1 := pop_consistent _ m.next low n (alloc_consistent m od low n hc)
    have hu1 := pop_uncrossed _ m.next (alloc_uncrossed m od low n hc hu)
    cases hpop : (m.alloc od).2.pop m.next with
    | mk r m1 =>
      have e : m1 = ((m.alloc od).2.pop m.next).2 := by rw [hpop]
      rw [← e] at hc1 hu1
      cases r with
      | some co => exact ⟨_, rfl, hc1, hu1⟩
      | none => exact ⟨_, rfl, hc1, hu1⟩
  · rw [submit_order_eq m od hk]
    have hc0 := alloc_consistent m od low n hc
    have hnew := alloc_orders_new m od
    obtain ⟨m1, hm1⟩ := push_exists (m.alloc od).2 m.next low n hc0
      (by rw [hnew]; exact hk) (by rw [hnew]; exact (hp hk).1) (by rw [hnew]; exact (hp hk).2)
    rw [hm1]
    have hc1 := push_consistent _ _ _ low n hc0 (by simp [refmatcher.alloc]) hm1
    obtain ⟨m2, hm2, hstop⟩ := matchLoop_terminates (m1.size + 1) m1 (Nat.lt_succ_self _)
    have hc2 := matchLoop_consistent low n _ _ _ hm2 hc1
    exact ⟨m2, hm2, hc2, uncrossed_of_matchStep_none m2 low n hc2 hstop⟩

theorem submitAll_inv (low : Int) (n : Nat) :
    ∀ (ods : List Order) (m : refmatcher), m.Consistent low n → m.Uncrossed →
      (∀ od ∈ ods, od.kind ≠ OrderKind.CANCEL → low ≤ od.price ∧ od.price < low + n) →
      ∃ m', submitAll m ods = some m' ∧ m'.Consistent low n ∧ m'.Uncrossed := by
  intro ods
  induction ods with
  | nil => intro m hc hu _; exact ⟨m, rfl, hc, hu⟩
  | cons od rest ih =>
    intro m hc hu hp
    obtain ⟨m1, h1, hc1, hu1⟩ := submit_inv m od low n hc hu (hp od (List.mem_cons_self _ _))
    obtain ⟨m2, h2, hc2, hu2⟩ := ih m1 hc1 hu1 (fun od' h => hp od' (List.mem_cons_of_mem _ h))
    refine ⟨m2, ?_, hc2, hu2⟩
    unfold submitAll
    rw [h1]
    exact h2

theorem getD_replicate_nil (n i : Nat) :
    (List.replicate n ([] : List Nat)).getD i [] = [] := by
  unfold List.getD
  by_cases h : i < n
  · simp [List.getElem?_replicate, h]
  · simp [List.getElem?_replicate, h]

theorem int64_of_nonneg (x : Int) (h1 : 1 ≤ x) (h2 : x ≤ 18446744073709551615)
    (h : 0 ≤ int64 x) : int64 x = x := by
  unfold int64 at h ⊢
  omega

theorem newRefmatcher_spec (low high : Int) (m0 : refmatcher)
    (h : newRefmatcher low high = some m0) :
    0 ≤ int64 (high - low + 1) ∧ m0.Consistent low (int64 (high - low + 1)).toNat ∧
      m0.Uncrossed ∧ m0.rb = [] ∧ m0.buys.all = [] ∧ m0.sells.all = [] := by
  unfold newRefmatcher newPrioq at h
  simp only at h
  by_cases hc : int64 (high - low + 1) < 0 ∨ maxSliceLen < int64 (high - low + 1)
  · rw [if_pos hc] at h
    cases h
  · rw [if_neg hc] at h
    injection h with h
    subst h
    refine ⟨by omega, ⟨by simp, by simp, rfl, rfl, ?_, ?_⟩, ?_, rfl, ?_, ?_⟩
    · intro i p hp
      simp only [prioq.level, getD_replicate_nil] at hp
      cases hp
    · intro i p hp
      simp only [prioq.level, getD_replicate_nil] at hp
      cases hp
    · intro b hb
      simp [prioq.all] at hb
    · simp [prioq.all]
    · simp [prioq.all]

/-- C5. For every reference matcher that `newRefmatcher(lowPrice, highPrice)`
builds (`int64` bounds whose number of prices `highPrice − lowPrice + 1` does
not overflow, the slices of levels allocated) and every sequence of
submissions whose Buy and Sell prices lie in `[lowPrice, highPrice]`, every run
of the match loop terminates within its fuel and no submission panics (`run`
returns a state), and in the state reached every resting buy is priced strictly
below every resting sell: one side of the book is empty, or the best buy
(`peekBuy`, the highest resting buy) is strictly cheaper than the best sell
(`peekSell`). -/
theorem refmatcher_never_crossed (lowPrice highPrice : Int) (ods : List Order)
    (hlo : inInt64 lowPrice) (hhi : inInt64 highPrice)
    (hlen : highPrice - lowPrice + 1 ≤ 9223372036854775807)
    (hnew : (newRefmatcher lowPrice highPrice).isSome = true)
    (hp : ∀ od ∈ ods, od.kind ≠ OrderKind.CANCEL →
      lowPrice ≤ od.price ∧ od.price ≤ highPrice ∧ 0 < od.amount) :
    ∃ m, run lowPrice highPrice ods = some m ∧
      (∀ b ∈ m.buys.all, ∀ s ∈ m.sells.all, (m.orders b).price < (m.orders s).price) ∧
      (m.buys.all = [] ∨ m.sells.all = [] ∨
        ∃ b s, m.peekBuy = some b ∧ m.peekSell = some s ∧
          (m.orders b).price < (m.orders s).price ∧
          (∀ x ∈ m.buys.all, (m.orders x).price ≤ (m.orders b).price) ∧
          (∀ x ∈ m.sells.all, (m.orders s).price ≤ (m.orders x).price)) := by
  obtain ⟨m0, h0⟩ := Option.isSome_iff_exists.mp hnew
  obtain ⟨hn0, hc0, hu0, _, _, _⟩ := newRefmatcher_spec lowPrice highPrice m0 h0
  obtain ⟨m, hm, hc, hu⟩ := submitAll_inv lowPrice _ ods m0 hc0 hu0 (by
    intro od hod hk
    have := hp od hod hk
    have hn : ((int64 (highPrice - lowPrice + 1)).toNat : Int) = highPrice - lowPrice + 1 := by
      rw [Int.toNat_of_nonneg hn0]
      unfold inInt64 at hlo hhi
      exact int64_of_nonneg _ (by omega) (by omega) hn0
    exact ⟨this.1, by omega⟩)
  refine ⟨m, by unfold run; rw [h0]; exact hm, hu, ?_⟩
  cases hb : m.peekBuy with
  | none => exact Or.inl (peekMax_none _ hb)
  | some b =>
    cases hs : m.peekSell with
    | none => exact Or.inr (Or.inl (peekMin_none _ hs))
    | some s =>
      obtain ⟨ib, restb, _, hib, hlb, hmaxb⟩ := peekMax_some m.buys b hb
      obtain ⟨is, rests, _, his, hls, hmins⟩ := peekMin_some m.sells s hs
      have hbm : b ∈ m.buys.level ib := by rw [hlb]; exact List.mem_cons_self _ _
      have hsm : s ∈ m.sells.level is := by rw [hls]; exact List.mem_cons_self _ _
      refine Or.inr (Or.inr ⟨b, s, rfl, rfl,
        hu b (mem_all_of_level _ _ _ hbm) s (mem_all_of_level _ _ _ hsm), ?_, ?_⟩)
      · intro x hx
        obtain ⟨i, _, hxi⟩ := (mem_all_iff _ _).mp hx
        have hi : i ≤ ib := by
          by_contra hcon
          rw [hmaxb i (by omega)] at hxi; cases hxi
        rw [(hc.2.2.2.2.1 i x hxi).1, (hc.2.2.2.2.1 ib b hbm).1]
        have : (i : Int) ≤ ib := by exact_mod_cast hi
        omega
      · intro x hx
        obtain ⟨i, _, hxi⟩ := (mem_all_iff _ _).mp hx
        have hi : is ≤ i := by
          by_contra hcon
          rw [hmins i (by omega)] at hxi; cases hxi
        rw [(hc.2.2.2.2.2 i x hxi).1, (hc.2.2.2.2.2 is s hsm).1]
        have : (is : Int) ≤ i := by exact_mod_cast hi
        omega

/-- C6 (code defect). The three `if`s of the loop body are not chained by
`else`: with a resting sell of 3 units and a crossing buy of 2 units, the second
`if` fills 2 units, pops the buy and reduces the sell to 1 unit, and then the
third `if` fires as well (`b.Amount() = 2 > 1 = s.Amount()`): a second fill of 1
unit is written and the sell is popped too.  Two fills (four records) come out
of one iteration and nothing is left resting. -/
theorem matchStep_big_sell_double_fill :
    observe (run 1 10 [mkSell 1 5 3 1 1, mkBuy 2 5 2 2 2]) =
      some ([], [],
        [⟨ResponseKind.FULL, -5, 2, 2, 1⟩, ⟨ResponseKind.PARTIAL, 5, 2, 1, 2⟩,
         ⟨ResponseKind.PARTIAL, -5, 1, 2, 1⟩, ⟨ResponseKind.FULL, 5, 1, 1, 2⟩]) := by
  decide

/-- C9 (counterexample). A Buy submitted a second time with the same guid 42 is
not ignored: after the first submission one order rests, after the second two
orders rest at the same price. -/
theorem duplicate_guid_counterexample :
    observe (run 1 10 [mkBuy 42 5 3 1 1]) = some ([(0, 3)], [], []) ∧
    observe (run 1 10 [mkBuy 42 5 3 1 1, mkBuy 42 5 3 1 1]) =
      some ([(0, 3), (1, 3)], [], []) := by
  decide

/-- C10 (counterexample). The rule of the spec, `s + ⌊(b − s + 1) / 2⌋`, gives
`price(2, 1) = 2`, whereas `TestMidPoint` asserts `price(2, 1) = 1`: the rule
fails the check `midpoint(t, 2, 1, 1)` and so `TestMidPoint`; and it gives
`price(9, 6) = 8`, not the 7 of the midpoint scenario. -/
theorem price_rule_fails_TestMidPoint : price 2 1 = 2 ∧ midpoint price 2 1 1 = false ∧
    TestMidPoint price = false ∧ price 9 6 = 8 := by
  decide

theorem reduce_amount_lt (o : Order) (a : Nat) (h1 : a ≤ o.amount) (h2 : o.amount < 4294967296) :
    (o.ReduceAmount a).amount = o.amount - a := by
  unfold Order.ReduceAmount
  simp only
  have : a % 4294967296 = a := Nat.mod_eq_of_lt (by omega)
  rw [this]
  have : o.amount + 4294967296 - a = (o.amount - a) + 4294967296 := by omega
  rw [this, Nat.add_mod_right]
  exact Nat.mod_eq_of_lt (by omega)

/-- C7. One iteration of the match loop in which the best buy `b` and the best
sell `s` cross and `b.amount > s.amount`: exactly one fill (a buyer record and a
seller record) of amount `s.amount` is written, `s` is popped from the head of
its price level, the buy side is untouched so that `b` is still the best buy,
now with amount `b.amount − s.amount`, and no other order is modified. -/
theorem matchStep_big_buy (m : refmatcher) (b s : Nat)
    (hb : m.peekBuy = some b) (hs : m.peekSell = some s)
    (hcross : (m.orders s).price ≤ (m.orders b).price)
    (hamt : (m.orders s).amount < (m.orders b).amount)
    (hu32 : (m.orders b).amount < 4294967296) :
    ∃ m', matchStep m = some m' ∧
      m'.rb = m.rb ++
        [⟨ResponseKind.PARTIAL, -(price (m.orders b).price (m.orders s).price),
            (m.orders s).amount, (m.orders b).tradeId, (m.orders s).traderId⟩,
         ⟨ResponseKind.FULL, price (m.orders b).price (m.orders s).price,
            (m.orders s).amount, (m.orders s).tradeId, (m.orders b).traderId⟩] ∧
      m'.buys = m.buys ∧ m'.peekBuy = some b ∧
      m'.orders b =
        { m.orders b with amount := (m.orders b).amount - (m.orders s).amount } ∧
      (∀ p, p ≠ b → m'.orders p = m.orders p) ∧
      ∃ i rest, i < m.sells.prios.length ∧ m.sells.level i = s :: rest ∧
        m'.sells = { m.sells with prios := m.sells.prios.set i rest } := by
  have hne : b ≠ s := by
    intro e; rw [e] at hamt; exact absurd hamt (lt_irrefl _)
  have e1 : matchEq m b s = m := by
    unfold matchEq; rw [if_neg (by omega)]
  have e2 : matchBigSell m b s = m := by
    unfold matchBigSell; rw [if_neg (by omega)]
  obtain ⟨i, rest, hi, hlt, hl, _⟩ := peekMin_some m.sells s hs
  refine ⟨matchBigBuy m b s, ?_, ?_, ?_, ?_, ?_, ?_, i, rest, hlt, hl, ?_⟩
  · unfold matchStep
    rw [hs, hb]
    simp only
    rw [if_neg (by omega), e1, e2]
  · unfold matchBigBuy
    rw [if_pos hamt]
    simp only [completeTrade, refmatcher.reduce, popSell_orders, popSell_rb,
      Function.update_same, Function.update_noteq (Ne.symm hne)]
    simp [Order.ReduceAmount]
  · unfold matchBigBuy
    rw [if_pos hamt]
    rfl
  · unfold matchBigBuy
    rw [if_pos hamt]
    exact hb
  · unfold matchBigBuy
    rw [if_pos hamt]
    simp only [completeTrade, refmatcher.reduce, popSell_orders, Function.update_same]
    have := reduce_amount_lt (m.orders b) (m.orders s).amount (by omega) hu32
    unfold Order.ReduceAmount at this ⊢
    simp only at this ⊢
    rw [this]
  · intro p hp
    unfold matchBigBuy
    rw [if_pos hamt]
    simp only [completeTrade, refmatcher.reduce, popSell_orders, Function.update_noteq hp]
  · unfold matchBigBuy
    rw [if_pos hamt]
    simp only [completeTrade_sells, reduce_sells, popSell_sells]
    unfold prioq.popMin
    rw [hi]
    simp only [prioq.pop, hl, List.tail_cons]

theorem completeCancel_buys (m : refmatcher) (rk : ResponseKind) (o : Nat) :
    (completeCancel m rk o).buys = m.buys := rfl

theorem completeCancel_sells (m : refmatcher) (rk : ResponseKind) (o : Nat) :
    (completeCancel m rk o).sells = m.sells := rfl

theorem completeCancel_orders (m : refmatcher) (rk : ResponseKind) (o : Nat) :
    (completeCancel m rk o).orders = m.orders := rfl

theorem alloc_buys (m : refmatcher) (od : Order) : (m.alloc od).2.buys = m.buys := rfl

theorem alloc_sells (m : refmatcher) (od : Order) : (m.alloc od).2.sells = m.sells := rfl

theorem alloc_rb (m : refmatcher) (od : Order) : (m.alloc od).2.rb = m.rb := rfl

theorem alloc_next (m : refmatcher) (od : Order) : (m.alloc od).2.next = m.next + 1 := rfl

/-- C8. Submitting a Cancel for guid `g` to a book whose resting orders are
allocated orders writes exactly one response and never fails.  If an order
with guid `g` rests on the buy or the sell side the response is `CANCELLED`,
one resting order `r` with guid `g` leaves its price level and every other
resting order keeps its level and its position (the level is `pre ++ post`
instead of `pre ++ r :: post`, every other level is the same).  Otherwise the
response is `NOT_CANCELLED` and both sides are unchanged.  In both cases no
allocated order is modified. -/
theorem submit_cancel (m : refmatcher) (od : Order) (hk : od.kind = OrderKind.CANCEL)
    (hwf : ∀ p, p ∈ m.buys.all ∨ p ∈ m.sells.all → p < m.next) :
    ∃ m', m.submit od = some m' ∧ (∀ p, p < m.next → m'.orders p = m.orders p) ∧
      (((∃ p, (p ∈ m.buys.all ∨ p ∈ m.sells.all) ∧ (m.orders p).guid = od.guid) ∧
          ∃ r i pre post, (m.orders r).guid = od.guid ∧
            m'.rb = m.rb ++ [⟨ResponseKind.CANCELLED, 0, 0, (m.orders r).tradeId, 0⟩] ∧
            ((i < m.buys.prios.length ∧ m.buys.level i = pre ++ r :: post ∧
                m'.buys = { m.buys with prios := m.buys.prios.set i (pre ++ post) } ∧
                m'.sells = m.sells) ∨
             (i < m.sells.prios.length ∧ m.sells.level i = pre ++ r :: post ∧
                m'.sells = { m.sells with prios := m.sells.prios.set i (pre ++ post) } ∧
                m'.buys = m.buys))) ∨
       ((¬ ∃ p, (p ∈ m.buys.all ∨ p ∈ m.sells.all) ∧ (m.orders p).guid = od.guid) ∧
          m'.rb = m.rb ++ [⟨ResponseKind.NOT_CANCELLED, 0, 0, od.tradeId, 0⟩] ∧
          m'.buys = m.buys ∧ m'.sells = m.sells)) := by
  rw [submit_cancel_eq m od hk]
  have hg : ((m.alloc od).2.orders m.next).guid = od.guid := by rw [alloc_orders_new]
  have hold : ∀ p, p < m.next → (m.alloc od).2.orders p = m.orders p :=
    fun p hp => alloc_orders_old m od p hp
  unfold refmatcher.pop
  simp only [hg, alloc_buys, alloc_sells]
  rcases remove_spec m.buys (m.alloc od).2.orders od.guid with
    ⟨e1, e2, e3⟩ | ⟨r, i, pre, post, e1, e2, e3, e4, e5⟩
  · rcases remove_spec m.sells (m.alloc od).2.orders od.guid with
      ⟨f1, f2, f3⟩ | ⟨r, i, pre, post, f1, f2, f3, f4, f5⟩
    · -- not resting anywhere
      cases hrb : m.buys.remove (m.alloc od).2.orders od.guid with
      | mk rb qb =>
        rw [hrb] at e1
        simp only at e1
        subst e1
        cases hrs : m.sells.remove (m.alloc od).2.orders od.guid with
        | mk rs qs =>
          rw [hrs] at f1 f2
          simp only at f1 f2
          subst f1; subst f2
          refine ⟨_, rfl, hold, Or.inr ⟨?_, ?_, rfl, rfl⟩⟩
          · rintro ⟨p, hp, hpg⟩
            rcases hp with hp | hp
            · exact e3 p hp (by rw [hold p (hwf p (Or.inl hp))]; exact hpg)
            · exact f3 p hp (by rw [hold p (hwf p (Or.inr hp))]; exact hpg)
          · simp [completeCancel, alloc_orders_new, alloc_rb]
    · -- resting on the sell side
      cases hrb : m.buys.remove (m.alloc od).2.orders od.guid with
      | mk rb qb =>
        rw [hrb] at e1
        simp only at e1
        subst e1
        cases hrs : m.sells.remove (m.alloc od).2.orders od.guid with
        | mk rs qs =>
          rw [hrs] at f1 f4
          simp only at f1 f4
          subst f1; subst f4
          have hr : r ∈ m.sells.all :=
            mem_all_of_level _ i r (by rw [f3]; simp)
          have hrn := hwf r (Or.inr hr)
          refine ⟨_, rfl, hold, Or.inl ⟨⟨r, Or.inr hr, by rw [← hold r hrn]; exact f5⟩,
            r, i, pre, post, by rw [← hold r hrn]; exact f5, ?_,
            Or.inr ⟨f2, f3, rfl, rfl⟩⟩⟩
          simp [completeCancel, hold r hrn, alloc_rb]
  · cases hrb : m.buys.remove (m.alloc od).2.orders od.guid with
    | mk rb qb =>
      rw [hrb] at e1 e4
      simp only at e1 e4
      subst e1; subst e4
      have hr : r ∈ m.buys.all :=
        mem_all_of_level _ i r (by rw [e3]; simp)
      have hrn := hwf r (Or.inl hr)
      refine ⟨_, rfl, hold, Or.inl ⟨⟨r, Or.inl hr, by rw [← hold r hrn]; exact e5⟩,
        r, i, pre, post, by rw [← hold r hrn]; exact e5, ?_,
        Or.inl ⟨e2, e3, rfl, rfl⟩⟩⟩
      simp [completeCancel, hold r hrn, alloc_rb]

theorem matchStep_none_of_uncrossed (m : refmatcher) (hu : m.Uncrossed) :
    matchStep m = none := by
  unfold matchStep
  cases hs : m.peekSell with
  | none => rfl
  | some s =>
    cases hb : m.peekBuy with
    | none => rfl
    | some b =>
      simp only
      obtain ⟨ib, restb, _, _, hlb, _⟩ := peekMax_some m.buys b hb
      obtain ⟨is, rests, _, _, hls, _⟩ := peekMin_some m.sells s hs
      have := hu b (mem_all_of_level _ ib b (by rw [hlb]; simp))
        s (mem_all_of_level _ is s (by rw [hls]; simp))
      rw [if_pos this]

theorem match_of_uncrossed (m : refmatcher) (hu : m.Uncrossed) : m.match_ = some m := by
  unfold refmatcher.match_ matchLoop
  rw [matchStep_none_of_uncrossed m hu]

/-- C9 (amended). The reference matcher keeps no record of the guids it has
seen: a Buy or Sell is processed in the same way whether or not its guid was
submitted before.  In a consistent, uncrossed book, a Buy priced below every
resting sell (a Sell priced above every resting buy) emits no response, is
appended at the tail of the level of its price, and leaves every other resting
order, its amount and its position unchanged. -/
theorem submit_rests_whatever_guid (m : refmatcher) (od : Order) (low : Int) (n : Nat)
    (hc : m.Consistent low n) (hu : m.Uncrossed) (hk : od.kind ≠ OrderKind.CANCEL)
    (hlo : low ≤ od.price) (hhi : od.price < low + n)
    (hbuy : od.kind = OrderKind.BUY → ∀ s ∈ m.sells.all, od.price < (m.orders s).price)
    (hsell : od.kind = OrderKind.SELL → ∀ b ∈ m.buys.all, (m.orders b).price < od.price) :
    ∃ m', m.submit od = some m' ∧ m'.rb = m.rb ∧ m'.orders m.next = od ∧
      (∀ p, p < m.next → m'.orders p = m.orders p) ∧
      (od.kind = OrderKind.BUY → m'.sells = m.sells ∧
        m'.buys = { m.buys with prios :=
          (m.buys.prios.set (od.price - low).toNat
            (m.buys.level (od.price - low).toNat ++ [m.next])) }) ∧
      (od.kind = OrderKind.SELL → m'.buys = m.buys ∧
        m'.sells = { m.sells with prios :=
          (m.sells.prios.set (od.price - low).toNat
            (m.sells.level (od.price - low).toNat ++ [m.next])) }) := by
  rw [submit_order_eq m od hk]
  have hc0 := alloc_consistent m od low n hc
  have hu0 := alloc_uncrossed m od low n hc hu
  have hnew := alloc_orders_new m od
  have hold : ∀ p, p < m.next → (m.alloc od).2.orders p = m.orders p :=
    fun p hp => alloc_orders_old m od p hp
  obtain ⟨c1, c2, c3, c4, c5, c6⟩ := hc
  have hi : od.price - low = (((od.price - low).toNat : Nat) : Int) :=
    (Int.toNat_of_nonneg (by omega)).symm
  have hlt : (od.price - low).toNat < n := by
    have : (((od.price - low).toNat : Nat) : Int) < n := by rw [← hi]; omega
    exact_mod_cast this
  cases hkind : od.kind with
  | CANCEL => exact absurd hkind hk
  | BUY =>
    have hpush : (m.alloc od).2.push m.next = some
        { (m.alloc od).2 with buys := { m.buys with prios :=
            (m.buys.prios.set (od.price - low).toNat
              (m.buys.level (od.price - low).toNat ++ [m.next])) } } := by
      unfold refmatcher.push
      rw [hnew, hkind]
      simp only
      rw [alloc_buys, push_some m.buys (m.alloc od).2.orders m.next (od.price - low).toNat
        (by rw [hnew, c3]; exact hi) (by rw [c1]; exact hlt)]
      rfl
    rw [hpush]
    simp only
    have hu1 : refmatcher.Uncrossed { (m.alloc od).2 with buys := { m.buys with prios :=
            (m.buys.prios.set (od.price - low).toNat
              (m.buys.level (od.price - low).toNat ++ [m.next])) } } := by
      intro b hb s hs
      obtain ⟨j, _, hbj⟩ := (mem_all_iff _ _).mp hb
      have hs' : s ∈ m.sells.all := hs
      obtain ⟨k, _, hsk⟩ := (mem_all_iff _ _).mp hs'
      show ((m.alloc od).2.orders b).price < ((m.alloc od).2.orders s).price
      rw [hold s (c6 k s hsk).2]
      rw [level_set] at hbj
      split at hbj
      · rcases List.mem_append.mp hbj with h | h
        · rw [hold b (c5 _ b h).2]
          exact hu b (mem_all_of_level _ _ b h) s hs'
        · rw [List.mem_singleton] at h
          subst h
          rw [hnew]
          exact hbuy hkind s hs'
      · rw [hold b (c5 _ b hbj).2]
        exact hu b (mem_all_of_level _ _ b hbj) s hs'
    rw [match_of_uncrossed _ hu1]
    refine ⟨_, rfl, rfl, hnew, hold, ?_, ?_⟩
    · intro _; exact ⟨rfl, rfl⟩
    · intro h; cases h
  | SELL =>
    have hpush : (m.alloc od).2.push m.next = some
        { (m.alloc od).2 with sells := { m.sells with prios :=
            (m.sells.prios.set (od.price - low).toNat
              (m.sells.level (od.price - low).toNat ++ [m.next])) } } := by
      unfold refmatcher.push
      rw [hnew, hkind]
      simp only
      rw [alloc_sells, push_some m.sells (m.alloc od).2.orders m.next (od.price - low).toNat
        (by rw [hnew, c4]; exact hi) (by rw [c2]; exact hlt)]
      rfl
    rw [hpush]
    simp only
    have hu1 : refmatcher.Uncrossed { (m.alloc od).2 with sells := { m.sells with prios :=
            (m.sells.prios.set (od.price - low).toNat
              (m.sells.level (od.price - low).toNat ++ [m.next])) } } := by
      intro b hb s hs
      obtain ⟨j, _, hsj⟩ := (mem_all_iff _ _).mp hs
      have hb' : b ∈ m.buys.all := hb
      obtain ⟨k, _, hbk⟩ := (mem_all_iff _ _).mp hb'
      show ((m.alloc od).2.orders b).price < ((m.alloc od).2.orders s).price
      rw [hold b (c5 k b hbk).2]
      rw [level_set] at hsj
      split at hsj
      · rcases List.mem_append.mp hsj with h | h
        · rw [hold s (c6 _ s h).2]
          exact hu b hb' s (mem_all_of_level _ _ s h)
        · rw [List.mem_singleton] at h
          subst h
          rw [hnew]
          exact hsell hkind b hb'
      · rw [hold s (c6 _ s hsj).2]
        exact hu b hb' s (mem_all_of_level _ _ s hsj)
    rw [match_of_uncrossed _ hu1]
    refine ⟨_, rfl, rfl, hnew, hold, ?_, ?_⟩
    · intro h; cases h
    · intro _; exact ⟨rfl, rfl⟩

/-- C10 (amended). `TestMidPoint` asserts the midpoint rounded down: a price
function passes `TestMidPoint` exactly when it returns `s + ⌊(b − s) / 2⌋` on
each of the 17 pairs `(b, s)` of the test. -/
theorem TestMidPoint_rounds_down (f : Int → Int → Int) :
    TestMidPoint f = true ↔
      ∀ q ∈ [((1 : Int), (1 : Int)), (2, 1), (3, 1), (4, 1), (5, 1), (6, 1), (20, 10),
          (21, 10), (22, 10), (23, 10), (24, 10), (25, 10), (26, 10), (27, 10), (28, 10),
          (29, 10), (30, 10)],
        f q.1 q.2 = q.2 + (q.1 - q.2) / 2 := by
  simp only [TestMidPoint, midpoint, Bool.and_eq_true, decide_eq_true_eq, List.forall_mem_cons,
    List.not_mem_nil, false_implies, implies_true, and_true]
  norm_num
  tauto

/-- C5 at a concrete run: a buy and a sell that cross, then a cancel. -/
theorem refmatcher_never_crossed_witness :
    inInt64 1 ∧ inInt64 10 ∧ (10 : Int) - 1 + 1 ≤ 9223372036854775807 ∧
    (newRefmatcher 1 10).isSome = true ∧
    (∀ od ∈ exOrders, od.kind ≠ OrderKind.CANCEL →
      (1 : Int) ≤ od.price ∧ od.price ≤ 10 ∧ 0 < od.amount) ∧
    ∃ m, run 1 10 exOrders = some m ∧
      ∀ b ∈ m.buys.all, ∀ s ∈ m.sells.all, (m.orders b).price < (m.orders s).price :=
  ⟨by decide, by decide, by decide, by decide, by decide,
    (refmatcher_never_crossed 1 10 exOrders (by decide) (by decide) (by decide) (by decide)
      (by decide)).imp
      (fun m h => ⟨h.1, h.2.1⟩)⟩

/-- C7 at a concrete book: a buy of 5 units at price 7 against a sell of 2
units at price 6. -/
theorem matchStep_big_buy_witness :
    exCrossed.peekBuy = some 0 ∧ exCrossed.peekSell = some 1 ∧
    (exCrossed.orders 1).price ≤ (exCrossed.orders 0).price ∧
    (exCrossed.orders 1).amount < (exCrossed.orders 0).amount ∧
    (exCrossed.orders 0).amount < 4294967296 ∧
    ∃ m', matchStep exCrossed = some m' ∧ m'.peekBuy = some 0 ∧
      m'.orders 0 = { exCrossed.orders 0 with amount := 5 - 2 } :=
  ⟨by decide, by decide, by decide, by decide, by decide,
    (matchStep_big_buy exCrossed 0 1 (by decide) (by decide) (by decide) (by decide)
      (by decide)).imp (fun m' h => ⟨h.1, h.2.2.2.1, h.2.2.2.2.1⟩)⟩

theorem exResting_wf : ∀ p, p ∈ exResting.buys.all ∨ p ∈ exResting.sells.all →
    p < exResting.next := by
  intro p hp
  simp [exResting, prioq.all] at hp
  simp [exResting, hp]

/-- C8 at a concrete book: cancelling the only resting order. -/
theorem submit_cancel_witness :
    (mkCancel 42).kind = OrderKind.CANCEL ∧
    (∀ p, p ∈ exResting.buys.all ∨ p ∈ exResting.sells.all → p < exResting.next) ∧
    ∃ m', exResting.submit (mkCancel 42) = some m' ∧
      ∀ p, p < exResting.next → m'.orders p = exResting.orders p :=
  ⟨by decide, exResting_wf,
    (submit_cancel exResting (mkCancel 42) (by decide) exResting_wf).imp
      (fun m' h => ⟨h.1, h.2.1⟩)⟩

theorem exResting_consistent : exResting.Consistent 5 2 := by
  refine ⟨rfl, rfl, rfl, rfl, ?_, ?_⟩
  · intro i p hp
    match i with
    | 0 =>
      simp [exResting, prioq.level] at hp
      subst hp
      exact ⟨by decide, by decide⟩
    | 1 => simp [exResting, prioq.level] at hp
    | i + 2 => simp [exResting, prioq.level] at hp
  · intro i p hp
    match i with
    | 0 => simp [exResting, prioq.level] at hp
    | 1 => simp [exResting, prioq.level] at hp
    | i + 2 => simp [exResting, prioq.level] at hp

theorem exResting_uncrossed : exResting.Uncrossed := by
  intro b _ s hs
  simp [exResting, prioq.all] at hs

/-- C9 (amended) at a concrete book: guid 42 rests in the book and is submitted
again. -/
theorem submit_rests_whatever_guid_witness :
    exResting.Consistent 5 2 ∧ exResting.Uncrossed ∧
    (exResting.orders 0).guid = (mkBuy 42 5 3 1 1).guid ∧
    ∃ m', exResting.submit (mkBuy 42 5 3 1 1) = some m' ∧ m'.rb = exResting.rb ∧
      m'.orders exResting.next = mkBuy 42 5 3 1 1 :=
  ⟨exResting_consistent, exResting_uncrossed, by decide,
    (submit_rests_whatever_guid exResting (mkBuy 42 5 3 1 1) 5 2 exResting_consistent
      exResting_uncrossed (by decide) (by decide) (by decide)
      (by intro _ s hs; simp [exResting, prioq.all] at hs)
      (by intro h; exact absurd h (by decide))).imp
      (fun m' h => ⟨h.1, h.2.1, h.2.2.1⟩)⟩

end Matcher

/-! ### The reference priority queue keeps price-time priority -/

namespace Matcher

theorem head?_filter_eq_find? (p : Nat → Bool) (l : List Nat) :
    (l.filter p).head? = l.find? p := by
  induction l with
  | nil => rfl
  | cons a rest ih =>
    by_cases h : p a = true
    · simp [List.filter_cons, List.find?_cons, h]
    · simp only [Bool.not_eq_true] at h
      simp [List.filter_cons, List.find?_cons, h, ih]

theorem flatten_set_perm (X : List Nat) :
    ∀ (L : List (List Nat)) (i : Nat), i < L.length →
      (L.set i X).flatten.Perm (X ++ (L.set i []).flatten) := by
  intro L
  induction L with
  | nil => intro i h; simp at h
  | cons a rest ih =>
    intro i h
    cases i with
    | zero => simp
    | succ i =>
      have h1 := ih i (by simpa using h)
      simp only [List.set_cons_succ, List.flatten_cons]
      refine (List.Perm.append_left a h1).trans ?_
      rw [← List.append_assoc, ← List.append_assoc]
      exact List.Perm.append_right _ List.perm_append_comm

theorem flatten_perm_level (L : List (List Nat)) (i : Nat) (h : i < L.length) :
    L.flatten.Perm (L.getD i [] ++ (L.set i []).flatten) := by
  have h1 := flatten_set_perm (L.getD i []) L i h
  have h2 : L.set i (L.getD i []) = L := by
    apply List.ext_getElem (by simp)
    intro n h3 h4
    simp only [List.getElem_set]
    split
    · rename_i e
      subst e
      simp [List.getD, List.getElem?_eq_getElem h4]
    · rfl
  rw [h2] at h1
  exact h1

/-- Effect of replacing slice `i` on the list of all queued orders. -/
theorem all_set_perm (q : prioq) (i : Nat) (X : List Nat) (h : i < q.prios.length) :
    ∃ R, q.all.Perm (q.level i ++ R) ∧
      ({ q with prios := q.prios.set i X } : prioq).all.Perm (X ++ R) :=
  ⟨(q.prios.set i []).flatten, flatten_perm_level q.prios i h, flatten_set_perm X q.prios i h⟩

theorem holds_push (orders : Nat → Order) (q : prioq) (tr : List Nat) (o : Nat)
    (h : q.Holds orders tr)
    (hp : q.lowPrice ≤ (orders o).price ∧ (orders o).price < q.lowPrice + q.prios.length) :
    ∃ q', q.push orders o = some q' ∧ q'.Holds orders (tr ++ [o]) ∧
      q'.lowPrice = q.lowPrice ∧ q'.prios.length = q.prios.length := by
  obtain ⟨hl, hr, hperm⟩ := h
  obtain ⟨i, hi⟩ : ∃ i : Nat, (orders o).price - q.lowPrice = (i : Int) :=
    ⟨((orders o).price - q.lowPrice).toNat, (Int.toNat_of_nonneg (by omega)).symm⟩
  have hlt : i < q.prios.length := by omega
  refine ⟨_, push_some q orders o i hi hlt, ⟨?_, ?_, ?_⟩, rfl, by simp⟩
  · intro j
    rw [level_set]
    simp only [List.filter_append]
    by_cases hij : i = j
    · subst hij
      rw [if_pos ⟨rfl, hlt⟩, hl i]
      have : (orders o).price = q.lowPrice + (i : Int) := by omega
      simp [List.filter_cons, this]
    · rw [if_neg (fun hh => hij hh.1), hl j]
      have : ¬ (orders o).price = q.lowPrice + (j : Int) := by omega
      simp [List.filter_cons, this]
  · intro x hx
    simp only [List.length_set]
    rcases List.mem_append.mp hx with hx | hx
    · exact hr x hx
    · rw [List.mem_singleton.mp hx]; exact hp
  · obtain ⟨R, h1, h2⟩ := all_set_perm q i (q.level i ++ [o]) hlt
    refine h2.trans ?_
    have h3 : (q.level i ++ [o] ++ R).Perm ((q.level i ++ R) ++ [o]) := by
      rw [List.append_assoc, List.append_assoc]
      exact List.Perm.append_left _ List.perm_append_comm
    exact h3.trans (List.Perm.append_right _ (h1.symm.trans hperm))

/-- Taking one occurrence of `r` out of slice `i`. -/
theorem holds_erase (orders : Nat → Order) (q : prioq) (tr : List Nat) (i r : Nat)
    (h : q.Holds orders tr) (hi : i < q.prios.length) (hr : r ∈ q.level i) :
    ({ q with prios := q.prios.set i ((q.level i).erase r) } : prioq).Holds orders
      (tr.erase r) := by
  obtain ⟨hl, hrg, hperm⟩ := h
  have hpr : (orders r).price = q.lowPrice + (i : Int) := by
    have := hr
    rw [hl i] at this
    simpa using (List.mem_filter.mp this).2
  refine ⟨?_, ?_, ?_⟩
  · intro j
    rw [level_set]
    show _ = List.filter (fun o => decide ((orders o).price = q.lowPrice + (j : Int))) _
    rw [← List.erase_filter]
    by_cases hij : i = j
    · subst hij
      rw [if_pos ⟨rfl, hi⟩, hl i]
    · rw [if_neg (fun hh => hij hh.1), hl j]
      rw [List.erase_of_not_mem]
      intro hm
      have := (List.mem_filter.mp hm).2
      simp only [decide_eq_true_eq] at this
      omega
  · intro x hx
    simp only [List.length_set]
    exact hrg x (List.mem_of_mem_erase hx)
  · obtain ⟨R, h1, h2⟩ := all_set_perm q i ((q.level i).erase r) hi
    refine h2.trans ?_
    have h3 : (tr.erase r).Perm ((q.level i ++ R).erase r) := (hperm.symm.trans h1).erase r
    rw [List.erase_append_left _ hr] at h3
    exact h3.symm

theorem holds_pop (orders : Nat → Order) (q : prioq) (tr : List Nat) (i s : Nat)
    (rest : List Nat) (h : q.Holds orders tr) (hi : i < q.prios.length)
    (hl : q.level i = s :: rest) : (q.pop i).Holds orders (tr.erase s) := by
  have h1 := holds_erase orders q tr i s h hi (by rw [hl]; exact List.mem_cons_self _ _)
  have h2 : (q.level i).erase s = (q.level i).tail := by rw [hl]; simp
  rw [h2] at h1
  exact h1

theorem holds_popMin (orders : Nat → Order) (q : prioq) (tr : List Nat)
    (h : q.Holds orders tr) :
    q.popMin.Holds orders (match q.peekMin with
      | none => tr
      | some o => tr.erase o) := by
  cases hp : q.peekMin with
  | none =>
    have : q.popMin = q := by
      unfold prioq.popMin
      cases hi : q.minIdx with
      | none => rfl
      | some i =>
        exfalso
        obtain ⟨h1, h2, _⟩ := minIdx_lt q i hi
        unfold prioq.peekMin at hp
        rw [hi] at hp
        cases hl : q.level i with
        | nil => exact h2 hl
        | cons a r => simp only [hl] at hp; cases hp
    rw [this]; exact h
  | some s =>
    obtain ⟨i, rest, hi, hlt, hl, _⟩ := peekMin_some q s hp
    have : q.popMin = q.pop i := by unfold prioq.popMin; rw [hi]
    rw [this]
    exact holds_pop orders q tr i s rest h hlt hl

theorem holds_popMax (orders : Nat → Order) (q : prioq) (tr : List Nat)
    (h : q.Holds orders tr) :
    q.popMax.Holds orders (match q.peekMax with
      | none => tr
      | some o => tr.erase o) := by
  cases hp : q.peekMax with
  | none =>
    have : q.popMax = q := by
      unfold prioq.popMax
      cases hi : q.maxIdx with
      | none => rfl
      | some i =>
        exfalso
        obtain ⟨h1, h2, _⟩ := maxIdx_lt q i hi
        unfold prioq.peekMax at hp
        rw [hi] at hp
        cases hl : q.level i with
        | nil => exact h2 hl
        | cons a r => simp only [hl] at hp; cases hp
    rw [this]; exact h
  | some s =>
    obtain ⟨i, rest, hi, hlt, hl, _⟩ := peekMax_some q s hp
    have : q.popMax = q.pop i := by unfold prioq.popMax; rw [hi]
    rw [this]
    exact holds_pop orders q tr i s rest h hlt hl

theorem holds_nil_iff (orders : Nat → Order) (q : prioq) (tr : List Nat)
    (h : q.Holds orders tr) : q.all = [] ↔ tr = [] := by
  constructor
  · intro e
    have := h.2.2
    rw [e] at this
    exact this.nil_eq.symm
  · intro e
    have := h.2.2
    rw [e] at this
    exact this.eq_nil

theorem holds_level_of_mem (orders : Nat → Order) (q : prioq) (tr : List Nat)
    (h : q.Holds orders tr) (o : Nat) (ho : o ∈ tr) :
    ∃ j : Nat, (orders o).price = q.lowPrice + (j : Int) ∧ o ∈ q.level j := by
  obtain ⟨h1, h2⟩ := h.2.1 o ho
  obtain ⟨j, hj⟩ : ∃ j : Nat, (orders o).price - q.lowPrice = (j : Int) :=
    ⟨((orders o).price - q.lowPrice).toNat, (Int.toNat_of_nonneg (by omega)).symm⟩
  refine ⟨j, by omega, ?_⟩
  rw [h.1 j]
  exact List.mem_filter.mpr ⟨ho, by simp; omega⟩

theorem holds_peekMin (orders : Nat → Order) (q : prioq) (tr : List Nat)
    (h : q.Holds orders tr) : q.peekMin = firstAtMin orders tr := by
  cases hp : q.peekMin with
  | none =>
    have := (holds_nil_iff orders q tr h).mp (peekMin_none q hp)
    rw [this]; rfl
  | some s =>
    obtain ⟨i, rest, hi, hlt, hl, hlow⟩ := peekMin_some q s hp
    have hs : s ∈ tr ∧ (orders s).price = q.lowPrice + (i : Int) := by
      have : s ∈ q.level i := by rw [hl]; exact List.mem_cons_self _ _
      rw [h.1 i] at this
      have := List.mem_filter.mp this
      exact ⟨this.1, by simpa using this.2⟩
    have hmin : ∀ o ∈ tr, q.lowPrice + (i : Int) ≤ (orders o).price := by
      intro o ho
      obtain ⟨j, hj, hm⟩ := holds_level_of_mem orders q tr h o ho
      have : ¬ j < i := by
        intro hji
        rw [hlow j hji] at hm
        cases hm
      omega
    unfold firstAtMin
    rw [← head?_filter_eq_find?]
    have hc : tr.filter (fun o => tr.all (fun o' => decide ((orders o).price ≤ (orders o').price)))
        = tr.filter (fun o => decide ((orders o).price = q.lowPrice + (i : Int))) := by
      apply List.filter_congr
      intro o ho
      have h1 := hmin o ho
      by_cases hpo : (orders o).price = q.lowPrice + (i : Int)
      · rw [decide_eq_true hpo, List.all_eq_true]
        intro o' ho'
        have := hmin o' ho'
        simp only [decide_eq_true_eq]
        omega
      · rw [decide_eq_false hpo]
        apply Bool.eq_false_iff.mpr
        intro hall
        rw [List.all_eq_true] at hall
        have := hall s hs.1
        simp only [decide_eq_true_eq] at this
        omega
    rw [hc, ← h.1 i, hl]
    rfl

theorem holds_peekMax (orders : Nat → Order) (q : prioq) (tr : List Nat)
    (h : q.Holds orders tr) : q.peekMax = firstAtMax orders tr := by
  cases hp : q.peekMax with
  | none =>
    have := (holds_nil_iff orders q tr h).mp (peekMax_none q hp)
    rw [this]; rfl
  | some s =>
    obtain ⟨i, rest, hi, hlt, hl, hhigh⟩ := peekMax_some q s hp
    have hs : s ∈ tr ∧ (orders s).price = q.lowPrice + (i : Int) := by
      have : s ∈ q.level i := by rw [hl]; exact List.mem_cons_self _ _
      rw [h.1 i] at this
      have := List.mem_filter.mp this
      exact ⟨this.1, by simpa using this.2⟩
    have hmax : ∀ o ∈ tr, (orders o).price ≤ q.lowPrice + (i : Int) := by
      intro o ho
      obtain ⟨j, hj, hm⟩ := holds_level_of_mem orders q tr h o ho
      have : ¬ i < j := by
        intro hji
        rw [hhigh j hji] at hm
        cases hm
      omega
    unfold firstAtMax
    rw [← head?_filter_eq_find?]
    have hc : tr.filter (fun o => tr.all (fun o' => decide ((orders o').price ≤ (orders o).price)))
        = tr.filter (fun o => decide ((orders o).price = q.lowPrice + (i : Int))) := by
      apply List.filter_congr
      intro o ho
      have h1 := hmax o ho
      by_cases hpo : (orders o).price = q.lowPrice + (i : Int)
      · rw [decide_eq_true hpo, List.all_eq_true]
        intro o' ho'
        have := hmax o' ho'
        simp only [decide_eq_true_eq]
        omega
      · rw [decide_eq_false hpo]
        apply Bool.eq_false_iff.mpr
        intro hall
        rw [List.all_eq_true] at hall
        have := hall s hs.1
        simp only [decide_eq_true_eq] at this
        omega
    rw [hc, ← h.1 i, hl]
    rfl

theorem qrun_example :
    qrun exQOrders ⟨[[], [], []], 5, 7⟩ [] exQOps = some (⟨[[], [1], []], 5, 7⟩, [1]) ∧
    qrun exQOrders ⟨[[], [], []], 5, 7⟩ [] (exQOps.take 4) =
      some (⟨[[0], [1, 4], [2]], 5, 7⟩, [1, 0, 4, 2]) := by
  constructor <;> decide

end Matcher

/-! ### The records of a fill -/

namespace Matcher

theorem fill_records_example :
    (matchBigBuy exCrossed 0 1).rb =
      [⟨ResponseKind.PARTIAL, -7, 2, 1, 2⟩, ⟨ResponseKind.FULL, 7, 2, 2, 1⟩] := by
  decide

end Matcher

/-! ## The price tree refines the reference queue -/

namespace Trade

open RB

theorem find?_congr_mem {α : Type} (p q : α → Bool) :
    ∀ l : List α, (∀ x ∈ l, p x = q x) → l.find? p = l.find? q := by
  intro l
  induction l with
  | nil => intro _; rfl
  | cons a t ih =>
    intro h
    simp only [List.find?_cons]
    rw [h a (List.mem_cons_self _ _), ih (fun x hx => h x (List.mem_cons_of_mem _ hx))]

theorem find?_head?_filter {α : Type} (p : α → Bool) :
    ∀ l : List α, l.find? p = (l.filter p).head? := by
  intro l
  induction l with
  | nil => rfl
  | cons a t ih =>
    simp only [List.find?_cons, List.filter_cons]
    cases h : p a
    · simp
    · simp

/-- The first element that satisfies `P` taken out of a list of distinct nodes,
seen through a labelling `f` that decides `P`: the first occurrence of its label
is erased. -/
theorem filter_map_erase (f : Nat × Int → Nat) (P : Nat × Int → Bool) :
    ∀ (tr : List (Nat × Int)) (x0 : Nat × Int), (tr.map Prod.fst).Nodup →
      (∀ x ∈ tr, ∀ y ∈ tr, f x = f y → P x = P y) → tr.find? P = some x0 →
      (tr.filter (fun q => decide (q.1 ≠ x0.1))).map f = (tr.map f).erase (f x0) := by
  intro tr
  induction tr with
  | nil => intro x0 _ _ h; cases h
  | cons a t ih =>
    intro x0 hnd hP hf
    simp only [List.map_cons, List.nodup_cons] at hnd
    simp only [List.find?_cons] at hf
    cases hPa : P a
    · rw [hPa] at hf
      simp only at hf
      have hx0 : x0 ∈ t := List.mem_of_find?_eq_some hf
      have hPx0 : P x0 = true := List.find?_some hf
      have hne : a.1 ≠ x0.1 := fun e => hnd.1 (e ▸ List.mem_map_of_mem _ hx0)
      have hfne : f a ≠ f x0 := by
        intro e
        have := hP a (List.mem_cons_self _ _) x0 (List.mem_cons_of_mem _ hx0) e
        rw [hPa, hPx0] at this
        cases this
      rw [List.filter_cons_of_pos (by simpa using hne)]
      simp only [List.map_cons]
      rw [List.erase_cons_tail (by simpa using hfne)]
      rw [ih x0 hnd.2 (fun x hx y hy => hP x (List.mem_cons_of_mem _ hx) y
        (List.mem_cons_of_mem _ hy)) hf]
    · rw [hPa] at hf
      simp only [Option.some.injEq] at hf
      subst hf
      rw [List.filter_cons_of_neg (by simp)]
      simp only [List.map_cons, List.erase_cons_head]
      congr 1
      refine List.filter_eq_self.mpr (fun y hy => ?_)
      have : y.1 ≠ a.1 := fun e => hnd.1 (e ▸ List.mem_map_of_mem _ hy)
      simpa using this

/-- The earliest order of the lowest price among the orders of the nodes `tr`
is the order of the earliest node of the lowest `val`. -/
theorem firstAtMin_map (orders : Nat → Matcher.Order) (f : Nat × Int → Nat)
    (tr : List (Nat × Int)) (h : ∀ x ∈ tr, (orders (f x)).price = x.2) :
    Matcher.firstAtMin orders (tr.map f) =
      (tr.find? (fun x => tr.all (fun y => decide (x.2 ≤ y.2)))).map f := by
  unfold Matcher.firstAtMin
  rw [List.find?_map]
  congr 1
  refine find?_congr_mem _ _ tr (fun x hx => ?_)
  rw [Bool.eq_iff_iff]
  simp only [Function.comp, List.all_map, List.all_eq_true, decide_eq_true_eq]
  constructor
  · intro hh y hy
    have := hh (f y) (List.mem_map_of_mem f hy)
    rw [h x hx, h y hy] at this
    exact this
  · intro hh o ho
    obtain ⟨z, hz, rfl⟩ := List.mem_map.mp ho
    rw [h x hx, h z hz]
    exact hh z hz

theorem firstAtMax_map (orders : Nat → Matcher.Order) (f : Nat × Int → Nat)
    (tr : List (Nat × Int)) (h : ∀ x ∈ tr, (orders (f x)).price = x.2) :
    Matcher.firstAtMax orders (tr.map f) =
      (tr.find? (fun x => tr.all (fun y => decide (y.2 ≤ x.2)))).map f := by
  unfold Matcher.firstAtMax
  rw [List.find?_map]
  congr 1
  refine find?_congr_mem _ _ tr (fun x hx => ?_)
  rw [Bool.eq_iff_iff]
  simp only [Function.comp, List.all_map, List.all_eq_true, decide_eq_true_eq]
  constructor
  · intro hh y hy
    have := hh (f y) (List.mem_map_of_mem f hy)
    rw [h x hx, h y hy] at this
    exact this
  · intro hh o ho
    obtain ⟨z, hz, rfl⟩ := List.mem_map.mp ho
    rw [h x hx, h z hz]
    exact hh z hz

/-- `peekMin` returns the earliest-pushed resting node of the lowest `val`, or
`nil` when no node rests. -/
theorem peekMin_first (m : Heap) (tr : List (Nat × Int)) (h : Reach m tr) :
    peekMin m 0 = some (((tr.find? (fun x => tr.all (fun y => decide (x.2 ≤ y.2)))).map
      Prod.fst).getD 0) := by
  obtain ⟨T, hT, ha, ht⟩ := h
  obtain ⟨n, e1, e2⟩ := peekMin_inv m T hT
  rw [e1]
  congr 1
  rcases e2 with ⟨e2, e3⟩ | ⟨q, rest, e2, e3⟩
  · have : tr = [] := ha.nil_iff.mpr e2
    subst this
    rw [e3]; rfl
  · obtain ⟨a1, a2, a3, a4⟩ := ha
    have hq : q ∈ T.toList := by rw [e2]; simp
    have hfil := a3 q hq
    have hsorted := hT.levels.sorted
    rw [e2] at hsorted
    simp only [List.map_cons, List.pairwise_cons] at hsorted
    have hmin : ∀ x ∈ tr, valOf m q.1 ≤ x.2 := by
      intro x hx
      obtain ⟨q', hq', e⟩ := a4 x hx
      rw [e2] at hq'
      rcases List.mem_cons.mp hq' with e' | e'
      · rw [← e, e']
      · rw [← e]
        exact le_of_lt (hsorted.1 _ (List.mem_map_of_mem _ e'))
    have hex : ∃ x0 ∈ tr, x0.2 = valOf m q.1 := by
      have : q.1 ∈ (tr.filter (fun x => decide (x.2 = valOf m q.1))).map Prod.fst := by
        rw [hfil]; simp
      obtain ⟨x0, hx0, _⟩ := List.mem_map.mp this
      obtain ⟨hx1, hx2⟩ := List.mem_filter.mp hx0
      exact ⟨x0, hx1, by simpa using hx2⟩
    have hp : ∀ x ∈ tr, (tr.all (fun y => decide (x.2 ≤ y.2))) = decide (x.2 = valOf m q.1) := by
      intro x hx
      rw [Bool.eq_iff_iff]
      simp only [List.all_eq_true, decide_eq_true_eq]
      constructor
      · intro hh
        obtain ⟨x0, hx0, e⟩ := hex
        have := hh x0 hx0
        have := hmin x hx
        omega
      · intro e y hy
        rw [e]; exact hmin y hy
    rw [find?_congr_mem _ _ tr hp, find?_head?_filter, ← List.head?_map, hfil, e3]
    rfl

/-- `peekMax` returns the earliest-pushed resting node of the highest `val`, or
`nil` when no node rests. -/
theorem peekMax_first (m : Heap) (tr : List (Nat × Int)) (h : Reach m tr) :
    peekMax m 0 = some (((tr.find? (fun x => tr.all (fun y => decide (y.2 ≤ x.2)))).map
      Prod.fst).getD 0) := by
  obtain ⟨T, hT, ha, ht⟩ := h
  obtain ⟨n, e1, e2⟩ := peekMax_inv m T hT
  rw [e1]
  congr 1
  rcases e2 with ⟨e2, e3⟩ | ⟨q, init, e2, e3⟩
  · have : tr = [] := ha.nil_iff.mpr e2
    subst this
    rw [e3]; rfl
  · obtain ⟨a1, a2, a3, a4⟩ := ha
    have hq : q ∈ T.toList := by rw [e2]; simp
    have hfil := a3 q hq
    have hsorted := hT.levels.sorted
    rw [e2] at hsorted
    simp only [List.map_append, List.map_cons, List.map_nil, List.pairwise_append,
      List.mem_singleton] at hsorted
    have hmax : ∀ x ∈ tr, x.2 ≤ valOf m q.1 := by
      intro x hx
      obtain ⟨q', hq', e⟩ := a4 x hx
      rw [e2] at hq'
      rcases List.mem_append.mp hq' with e' | e'
      · rw [← e]
        exact le_of_lt (hsorted.2.2 _ (List.mem_map_of_mem _ e') _ rfl)
      · rw [List.mem_singleton] at e'
        rw [← e, e']
    have hex : ∃ x0 ∈ tr, x0.2 = valOf m q.1 := by
      have : q.1 ∈ (tr.filter (fun x => decide (x.2 = valOf m q.1))).map Prod.fst := by
        rw [hfil]; simp
      obtain ⟨x0, hx0, _⟩ := List.mem_map.mp this
      obtain ⟨hx1, hx2⟩ := List.mem_filter.mp hx0
      exact ⟨x0, hx1, by simpa using hx2⟩
    have hp : ∀ x ∈ tr, (tr.all (fun y => decide (y.2 ≤ x.2))) = decide (x.2 = valOf m q.1) := by
      intro x hx
      rw [Bool.eq_iff_iff]
      simp only [List.all_eq_true, decide_eq_true_eq]
      constructor
      · intro hh
        obtain ⟨x0, hx0, e⟩ := hex
        have := hh x0 hx0
        have := hmax x hx
        omega
      · intro e y hy
        rw [e]; exact hmax y hy
    rw [find?_congr_mem _ _ tr hp, find?_head?_filter, ← List.head?_map, hfil, e3]
    rfl

/-- The two nodes of an order are initialised and the first is pushed: the tree
records the new node as the last resting node, with its order. -/
theorem pushOrder_reach (m : Heap) (tr : List (Nat × Int)) (o : Nat) (val : Int)
    (h : Reach m tr) :
    ∃ m', pushOrder m o val = some m' ∧ Reach m' (tr ++ [(m.next, val)]) ∧
      m'.next = m.next + 2 ∧ orderOf m' m.next = o ∧
      (∀ y, y < m.next → orderOf m' y = orderOf m y) := by
  obtain ⟨T, h, ha, ht⟩ := h
  obtain ⟨m1, T1, p1, p2, p3, p4, p5, p6, p7, p8, _, p10, p11⟩ := pushOrder_inv m T o val h
  have ha1 := Agree_push m m1 _ _ tr val h.levels ha p3 p4 p5 p6
  have ht1 : Twin m1 (tr ++ [(m.next, val)]) := by
    intro x hx
    rw [List.map_append, List.mem_append, not_or, p6]
    simp only [List.map_cons, List.map_nil, List.mem_singleton]
    rcases List.mem_append.mp hx with e | e
    · obtain ⟨t1, t2, t3⟩ := ht x e
      have hxn := (ha.2.1 x e).2
      exact ⟨by rw [p8 x.1 hxn]; exact t1, by omega, t3, by omega⟩
    · rw [List.mem_singleton] at e
      subst e
      refine ⟨p7, by show m.next + 1 < m.next + 2; omega, fun hc => ?_, by simp⟩
      obtain ⟨y, hy, e⟩ := List.mem_map.mp hc
      have := (ha.2.1 y hy).2
      have e' : y.1 = m.next + 1 := e
      omega
  exact ⟨m1, p1, ⟨T1, p2, ha1, ht1⟩, p6, p10, p11⟩

theorem getOrder_node (m : Heap) (n : Nat) (h : n ≠ 0) : getOrder m n = some (orderOf m n) := by
  unfold getOrder orderOf
  rw [if_pos h]

/-- A push in lockstep. -/
theorem Sim.push {orders : Nat → Matcher.Order} {m : Heap} {q : Matcher.prioq}
    {tr : List (Nat × Int)} (h : Sim orders m q tr) (o : Nat)
    (hp : q.lowPrice ≤ (orders o).price ∧ (orders o).price < q.lowPrice + q.prios.length) :
    ∃ m' q', lockstep orders m q (BookOp.push o) = some (m', q', none) ∧
      Sim orders m' q' (tr ++ [(m.next, (orders o).price)]) ∧
      q'.lowPrice = q.lowPrice ∧ q'.prios.length = q.prios.length := by
  obtain ⟨h1, h2, h3⟩ := h
  obtain ⟨m', e1, e2, e3, e4, e5⟩ := pushOrder_reach m tr o (orders o).price h1
  obtain ⟨q', f1, f2, f3, f4⟩ := Matcher.holds_push orders q _ o h2 hp
  have hold : ∀ x ∈ tr, orderOf m' x.1 = orderOf m x.1 := fun x hx =>
    e5 x.1 (h1.alloc x.1 (List.mem_map_of_mem _ hx)).2
  have hmap : (tr ++ [(m.next, (orders o).price)]).map (fun x => orderOf m' x.1) =
      tr.map (fun x => orderOf m x.1) ++ [o] := by
    rw [List.map_append, List.map_congr_left hold]
    simp [e4]
  refine ⟨m', q', ?_, ⟨e2, by rw [hmap]; exact f2, ?_⟩, f3, f4⟩
  · simp only [lockstep, e1, f1]
  · intro x hx
    rcases List.mem_append.mp hx with e | e
    · rw [hold x e]; exact h3 x e
    · rw [List.mem_singleton] at e
      subst e
      simp only
      rw [e4]

/-- The resting nodes are not `nil`. -/
theorem Reach.filter_nil {m : Heap} {tr : List (Nat × Int)} (h : Reach m tr) :
    tr.filter (fun q => decide (q.1 ≠ 0)) = tr := by
  refine List.filter_eq_self.mpr (fun x hx => ?_)
  have := (h.alloc x.1 (List.mem_map_of_mem _ hx)).1
  simpa using this

/-- What a pop in lockstep leaves: the tree has popped the node `r`, which
`peek` returned as the first node that satisfies `P`, and the queue has popped
the first order of the same rank. -/
theorem Sim.pop {orders : Nat → Matcher.Order} {m m' : Heap} {q q' : Matcher.prioq}
    {tr : List (Nat × Int)} (h : Sim orders m q tr) (P : Nat × Int → Bool)
    (hP : ∀ x y : Nat × Int, x.2 = y.2 → P x = P y) (r : Nat) (pk : Option Nat)
    (hq : q'.Holds orders (match pk with
      | none => tr.map (fun x => orderOf m x.1)
      | some o => (tr.map (fun x => orderOf m x.1)).erase o))
    (hr : r = ((tr.find? P).map Prod.fst).getD 0)
    (hpk : pk = (tr.find? P).map (fun x => orderOf m x.1))
    (hreach : Reach m' (tr.filter (fun q => decide (q.1 ≠ r))))
    (hord : ∀ y, orderOf m' y = orderOf m y) :
    Sim orders m' q' (tr.filter (fun q => decide (q.1 ≠ r))) ∧ getOrder m' r = pk := by
  obtain ⟨h1, h2, h3⟩ := h
  have hf' : (fun x : Nat × Int => orderOf m' x.1) = (fun x => orderOf m x.1) := by
    funext x; exact hord x.1
  have h3' : ∀ x ∈ tr.filter (fun q => decide (q.1 ≠ r)),
      (orders (orderOf m' x.1)).price = x.2 := by
    intro x hx
    rw [hord]
    exact h3 x (List.mem_filter.mp hx).1
  cases hf : tr.find? P with
  | none =>
    rw [hf] at hr hpk
    simp only [Option.map_none', Option.getD_none] at hr hpk
    subst hr hpk
    refine ⟨⟨hreach, ?_, h3'⟩, by simp [getOrder]⟩
    rw [h1.filter_nil, hf']
    exact hq
  | some x0 =>
    rw [hf] at hr hpk
    simp only [Option.map_some', Option.getD_some] at hr hpk
    subst hr hpk
    have hx0 : x0 ∈ tr := List.mem_of_find?_eq_some hf
    have hn0 := (h1.alloc x0.1 (List.mem_map_of_mem _ hx0)).1
    have hnd : (tr.map Prod.fst).Nodup := by
      obtain ⟨T, _, ha, _⟩ := h1
      exact ha.1
    refine ⟨⟨hreach, ?_, h3'⟩, by rw [getOrder_node m' x0.1 hn0, hord]⟩
    rw [hf', filter_map_erase (fun x => orderOf m x.1) P tr x0 hnd ?_ hf]
    · exact hq
    · intro x hx y hy e
      apply hP
      rw [← h3 x hx, ← h3 y hy]
      simp only at e
      rw [e]

/-- A `popMin` in lockstep. -/
theorem Sim.popMin {orders : Nat → Matcher.Order} {m : Heap} {q : Matcher.prioq}
    {tr : List (Nat × Int)} (h : Sim orders m q tr) :
    ∃ m' r tr', lockstep orders m q BookOp.popMin =
        some (m', q.popMin, some (getOrder m' r, q.peekMin)) ∧
      Sim orders m' q.popMin tr' ∧ getOrder m' r = q.peekMin := by
  obtain ⟨m', r, e1, e2, e3, _, _, e6⟩ := popMin_reach m tr h.1
  have hr := peekMin_first m tr h.1
  rw [e2] at hr
  have hpk : q.peekMin = _ := (Matcher.holds_peekMin orders q _ h.2.1).trans
    (firstAtMin_map orders _ tr h.2.2)
  have hq := Matcher.holds_popMin orders q _ h.2.1
  obtain ⟨s1, s2⟩ := h.pop (fun x => tr.all (fun y => decide (x.2 ≤ y.2)))
    (fun x y e => by simp only [e]) r q.peekMin hq (Option.some.inj hr) hpk e3 e6
  refine ⟨m', r, _, ?_, s1, s2⟩
  simp only [lockstep, e1]

/-- A `popMax` in lockstep. -/
theorem Sim.popMax {orders : Nat → Matcher.Order} {m : Heap} {q : Matcher.prioq}
    {tr : List (Nat × Int)} (h : Sim orders m q tr) :
    ∃ m' r tr', lockstep orders m q BookOp.popMax =
        some (m', q.popMax, some (getOrder m' r, q.peekMax)) ∧
      Sim orders m' q.popMax tr' ∧ getOrder m' r = q.peekMax := by
  obtain ⟨m', r, e1, e2, e3, _, _, e6⟩ := popMax_reach m tr h.1
  have hr := peekMax_first m tr h.1
  rw [e2] at hr
  have hpk : q.peekMax = _ := (Matcher.holds_peekMax orders q _ h.2.1).trans
    (firstAtMax_map orders _ tr h.2.2)
  have hq := Matcher.holds_popMax orders q _ h.2.1
  obtain ⟨s1, s2⟩ := h.pop (fun x => tr.all (fun y => decide (y.2 ≤ x.2)))
    (fun x y e => by simp only [e]) r q.peekMax hq (Option.some.inj hr) hpk e3 e6
  refine ⟨m', r, _, ?_, s1, s2⟩
  simp only [lockstep, e1]

/-- The run of the concrete sequence: the pops return the orders 0 (the only one
at the price 5), then 2 (at the price 7), then 1 (the earlier of the two at the
price 6), on both sides, and the order 4 stays. -/
theorem lockrun_example :
    (lockrun Matcher.exQOrders emptyHeap ⟨[[], [], []], 5, 7⟩ exBookOps).map
        (fun s => (s.2.2, s.2.1.all, (peekMin s.1 0).map (getOrder s.1))) =
      some ([(some 0, some 0), (some 2, some 2), (some 1, some 1)], [4], some (some 4)) := by
  decide!

end Trade

